import Mathlib

namespace Graph

/-- Failure of a run of the model: the recursion budget of the model was used up, or the Go
code indexed a slice out of range (a run-time panic). -/
inductive Err where
  | fuel
  | index
deriving DecidableEq

/-- AdjacencyList of the source: a slice of neighbour slices, node numbers being slice
indices. -/
abbrev AdjacencyList := List (List Nat)

/-- Bit i of a bitmap held in a non-negative big.Int (big.Int.Bit). -/
def Bit (bm : Nat) (n : Nat) : Bool := bm.testBit n

/-- Setting bit n of a bitmap to 1 (big.Int.SetBit with b = 1). -/
def SetBit1 (bm : Nat) (n : Nat) : Nat := bm ||| (1 <<< n)

/-- Setting bit n of a bitmap to 0 (big.Int.SetBit with b = 0). -/
def SetBit0 (bm : Nat) (n : Nat) : Nat := bm ^^^ (bm &&& (1 <<< n))

/-- The graph g is bounds-valid: no arc points outside the slice bounds of g, which is what
AdjacencyList.BoundsOk of the source tests. -/
def BoundsValid (g : AdjacencyList) : Prop := ∀ nbs ∈ g, ∀ nb ∈ nbs, nb < g.length

instance (g : AdjacencyList) : Decidable (BoundsValid g) := by
  unfold BoundsValid; infer_instance

/-- There is an arc from u to v in g: v occurs in the neighbour slice g[u]. -/
def Arc (g : AdjacencyList) (u v : Nat) : Prop := ∃ nbs, g[u]? = some nbs ∧ v ∈ nbs

/-- Node v can be reached from node u along arcs of g (a path of zero or more arcs). -/
def Reach (g : AdjacencyList) (u v : Nat) : Prop := Relation.ReflTransGen (Arc g) u v

/-- Node m can be reached from node s along a path of g all of whose nodes, s and m included,
are unset in the bitmap bm. -/
def UnsetReach (g : AdjacencyList) (bm : Nat) (s m : Nat) : Prop :=
  Bit bm s = false ∧ Relation.ReflTransGen (fun a b => Arc g a b ∧ Bit bm b = false) s m

/-- One call of the visitor function: the node passed, the bitmap at the moment of the call
and the value the visitor returned. -/
structure Call where
  node : Nat
  bm : Nat
  ret : Bool
deriving DecidableEq

/-- Visitor of the source, a Go function value func(n int) (ok bool).  A visitor may keep
state of its own and may read the bitmap, so its answer is a function of the calls made
before, the node and the bitmap as it stands at the call. -/
abbrev Visitor := List Call → Nat → Nat → Bool

/-- The variables captured by the closure df of DepthFirst: the bitmap bm and the result ok,
together with the record of the visitor calls made so far, in call order. -/
structure DFState where
  bm : Nat
  ok : Bool
  calls : List Call
deriving DecidableEq

/-- The closure df of AdjacencyList.DepthFirst.  The first argument bounds the recursion
depth. -/
def df (g : AdjacencyList) (v : Option Visitor) : Nat → Nat → DFState → Except Err DFState
  | 0, _, _ => .error .fuel
  | fuel + 1, n, st =>
    if Bit st.bm n then .ok st
    else
      let bm := SetBit1 st.bm n
      match v with
      | some vf =>
        let r := vf st.calls n bm
        let st1 : DFState := ⟨bm, st.ok, st.calls ++ [⟨n, bm, r⟩]⟩
        if !r then .ok { st1 with ok := false }
        else
          match g[n]? with
          | none => .error .index
          | some nbs => nbs.foldlM (fun s nb => df g v fuel nb s) st1
      | none =>
        match g[n]? with
        | none => .error .index
        | some nbs => nbs.foldlM (fun s nb => df g v fuel nb s) ⟨bm, st.ok, st.calls⟩

/-- AdjacencyList.DepthFirst.  The bitmap argument is none for a nil pointer; the result
carries the returned ok, the final bitmap and the visitor calls made.  With both bm and v nil
nothing is allocated and false is returned at once. -/
def DepthFirst (g : AdjacencyList) (start : Nat) (bm : Option Nat) (v : Option Visitor)
    (fuel : Nat) : Except Err DFState :=
  match bm, v with
  | none, none => .ok ⟨0, false, []⟩
  | none, some vf => df g (some vf) fuel start ⟨0, true, []⟩
  | some b, v => df g v fuel start ⟨b, true, []⟩

/-- Modelled from the spec: Half, the element type of a labeled adjacency list, is absent
from the source; it holds the neighbour To and the label of the arc. -/
structure Half where
  To : Nat
  Label : Int
deriving DecidableEq

/-- Modelled from the spec: LabeledAdjacencyList, the list of labeled neighbour lists that
LabeledUndirected wraps, is absent from the source. -/
abbrev LabeledAdjacencyList := List (List Half)

/-- The adjacency list obtained from a labeled one by dropping the labels. -/
def unlabel (g : LabeledAdjacencyList) : AdjacencyList := g.map (fun nbs => nbs.map Half.To)

/-- The search of NextOne: the first set bit of b among the k indices from i on. -/
def nextOneFrom (b : Nat) : Nat → Nat → Option Nat
  | 0, _ => none
  | k + 1, i => if Bit b i then some i else nextOneFrom b k (i + 1)

/-- Modelled from the spec: NextOne is absent from the source; it gives the first set bit
of b at or after start, none standing for the result -1 when there is no such bit. -/
def NextOne (b : Nat) (start : Nat) : Option Nat := nextOneFrom b (b + 1 - start) start

/-- Modelled from the spec: OneBits is absent from the source; it sets a bitmap to the n
bits 0..n-1. -/
def OneBits (n : Nat) : Nat := 2 ^ n - 1

/-- Modelled from the spec: PopCount is absent from the source; it gives the number of set
bits of b. -/
def PopCount (b : Nat) : Nat := ((List.range (b + 1)).filter (fun i => Bit b i)).length

/-- The emit argument of the BronKerbosch methods, a Go function value
func([]NI) bool.  It may keep state of its own, so its answer is a function of the cliques
emitted before and of the clique passed. -/
abbrev Emit := List (List Nat) → List Nat → Bool

/-- The pivot argument of BronKerbosch2 and BronKerbosch3, a Go function value
func(P, X *big.Int) int, which may fail. -/
abbrev Pivot := Nat → Nat → Except Err Nat

/-- The loop of the closure f of the BronKerbosch methods that fills the slice c with the
nodes of R: k entries are still to fill, the search goes on from start.  When NextOne finds
no bit the source stores -1, which is no node; this case does not arise, PopCount entries
being filled. -/
def bkSlice (R : Nat) : Nat → Nat → Except Err (List Nat)
  | 0, _ => .ok []
  | k + 1, start =>
    match NextOne R start with
    | none => .error .index
    | some n =>
      match bkSlice R k (n + 1) with
      | .error e => .error e
      | .ok c => .ok (n :: c)

/-- The loop of the BronKerbosch methods over the neighbours of n that builds p2 and x2:
a neighbour in P goes to p2, a neighbour in X goes to x2. -/
def bkRestrict (P X : Nat) (nbs : List Half) : Nat × Nat :=
  nbs.foldl (fun px nb =>
    (if Bit P nb.To then SetBit1 px.1 nb.To else px.1,
     if Bit X nb.To then SetBit1 px.2 nb.To else px.2)) (0, 0)

/-- The case of the closure f of the BronKerbosch methods in which P and X are empty: the
clique R is passed to emit; the result is the answer of emit and the cliques emitted. -/
def bkEmit (emit : Emit) (R : Nat) (H : List (List Nat)) :
    Except Err (Bool × List (List Nat)) :=
  match bkSlice R (PopCount R) 0 with
  | .error e => .error e
  | .ok c => .ok (emit H c, H ++ [c])

mutual
/-- The closure f of LabeledUndirected.BronKerbosch1; H holds the cliques emitted so far.
The first argument bounds the recursion depth and the iterations of the loop. -/
def bk1F (g : LabeledAdjacencyList) (emit : Emit) :
    Nat → Nat → Nat → Nat → List (List Nat) → Except Err (Bool × List (List Nat))
  | 0, _, _, _, _ => .error .fuel
  | fuel + 1, R, P, X, H =>
    if P ≠ 0 then bk1Loop g emit fuel (NextOne P 0) R P X H
    else if X = 0 then bkEmit emit R H
    else .ok (true, H)
termination_by structural fuel => fuel
/-- The loop "for n := NextOne(P, 0); n >= 0; n = NextOne(P, n+1)" of the closure f of
BronKerbosch1, at the node n. -/
def bk1Loop (g : LabeledAdjacencyList) (emit : Emit) :
    Nat → Option Nat → Nat → Nat → Nat → List (List Nat) →
      Except Err (Bool × List (List Nat))
  | 0, _, _, _, _, _ => .error .fuel
  | _ + 1, none, _, _, _, H => .ok (true, H)
  | fuel + 1, some n, R, P, X, H =>
    match g[n]? with
    | none => .error .index
    | some nbs =>
      match bk1F g emit fuel (SetBit1 R n) (bkRestrict P X nbs).1 (bkRestrict P X nbs).2 H with
      | .error e => .error e
      | .ok (false, H1) => .ok (false, H1)
      | .ok (true, H1) =>
        bk1Loop g emit fuel (NextOne (SetBit0 P n) (n + 1)) R (SetBit0 P n) (SetBit1 X n) H1
termination_by structural fuel => fuel
end

/-- LabeledUndirected.BronKerbosch1: the cliques passed to emit, in order. -/
def BronKerbosch1 (g : LabeledAdjacencyList) (emit : Emit) (fuel : Nat) :
    Except Err (List (List Nat)) :=
  match bk1F g emit fuel 0 (OneBits g.length) 0 [] with
  | .error e => .error e
  | .ok (_, H) => .ok H

/-- LabeledUndirected.BKPivotMinP: the first node of P.  On an empty P the source
returns the value -1, which is no node and fails as an index; the model fails there. -/
def BKPivotMinP : Pivot := fun P _ =>
  match NextOne P 0 with
  | none => .error .index
  | some n => .ok n

/-- A scan of BKPivotMaxDegree over the set bits of b from start on, k iterations at most:
u and maxDeg are updated at each node of larger degree. -/
def pivotScan (g : LabeledAdjacencyList) (b : Nat) : Nat → Nat → Nat → Nat → Except Err (Nat × Nat)
  | 0, _, _, _ => .error .fuel
  | k + 1, start, u, maxDeg =>
    match NextOne b start with
    | none => .ok (u, maxDeg)
    | some n =>
      match g[n]? with
      | none => .error .index
      | some nbs =>
        if nbs.length > maxDeg then pivotScan g b k (n + 1) n nbs.length
        else pivotScan g b k (n + 1) u maxDeg

/-- LabeledUndirected.BKPivotMaxDegree: the node of P or X with the longest neighbour
slice, the first one found among equals.  On an empty P the source indexes g with the
value -1 and fails. -/
def BKPivotMaxDegree (g : LabeledAdjacencyList) : Pivot := fun P X =>
  match NextOne P 0 with
  | none => .error .index
  | some n =>
    match g[n]? with
    | none => .error .index
    | some nbs =>
      match pivotScan g P (P + 2) (n + 1) n nbs.length with
      | .error e => .error e
      | .ok (u, maxDeg) =>
        match pivotScan g X (X + 2) 0 u maxDeg with
        | .error e => .error e
        | .ok (u1, _) => .ok u1

/-- The loop of the closure f of BronKerbosch2 that computes P \ N(u): the bit of every
neighbour of the pivot is cleared in pnu. -/
def bkMinus (pnu : Nat) (nbs : List Half) : Nat :=
  nbs.foldl (fun b nb => SetBit0 b nb.To) pnu

mutual
/-- The closure f of LabeledUndirected.BronKerbosch2, which is also that of
BronKerbosch3; H holds the cliques emitted so far.  The first argument bounds the recursion
depth and the iterations of the loop. -/
def bk2F (g : LabeledAdjacencyList) (pivot : Pivot) (emit : Emit) :
    Nat → Nat → Nat → Nat → List (List Nat) → Except Err (Bool × List (List Nat))
  | 0, _, _, _, _ => .error .fuel
  | fuel + 1, R, P, X, H =>
    if P ≠ 0 then
      match pivot P X with
      | .error e => .error e
      | .ok u =>
        match g[u]? with
        | none => .error .index
        | some unbs =>
          bk2Loop g pivot emit fuel (bkMinus P unbs) (NextOne (bkMinus P unbs) 0) R P X H
    else if X = 0 then bkEmit emit R H
    else .ok (true, H)
termination_by structural fuel => fuel
/-- The loop "for n := NextOne(&pnu, 0); n >= 0; n = NextOne(&pnu, n+1)" of the closure f
of BronKerbosch2, at the node n. -/
def bk2Loop (g : LabeledAdjacencyList) (pivot : Pivot) (emit : Emit) :
    Nat → Nat → Option Nat → Nat → Nat → Nat → List (List Nat) →
      Except Err (Bool × List (List Nat))
  | 0, _, _, _, _, _, _ => .error .fuel
  | _ + 1, _, none, _, _, _, H => .ok (true, H)
  | fuel + 1, pnu, some n, R, P, X, H =>
    match g[n]? with
    | none => .error .index
    | some nbs =>
      match bk2F g pivot emit fuel (SetBit1 R n) (bkRestrict P X nbs).1
          (bkRestrict P X nbs).2 H with
      | .error e => .error e
      | .ok (false, H1) => .ok (false, H1)
      | .ok (true, H1) =>
        bk2Loop g pivot emit fuel pnu (NextOne pnu (n + 1)) R (SetBit0 P n) (SetBit1 X n) H1
termination_by structural fuel => fuel
end

/-- LabeledUndirected.BronKerbosch2: the cliques passed to emit, in order. -/
def BronKerbosch2 (g : LabeledAdjacencyList) (pivot : Pivot) (emit : Emit) (fuel : Nat) :
    Except Err (List (List Nat)) :=
  match bk2F g pivot emit fuel 0 (OneBits g.length) 0 [] with
  | .error e => .error e
  | .ok (_, H) => .ok H

/-- The first loop of Degeneracy, over the nodes v of g from the given index on: d[v] is
set to the degree of v, D is extended to hold the bucket of that degree, and v is appended
to the bucket. -/
def degBuckets : List (List Half) → Nat → List Nat → List (List Nat) →
    List Nat × List (List Nat)
  | [], _, d, D => (d, D)
  | nb :: rest, v, d, D =>
    let dv := nb.length
    let D1 := D ++ List.replicate (dv + 1 - D.length) []
    degBuckets rest (v + 1) (d.set v dv) (D1.set dv (D1.getD dv [] ++ [v]))

/-- The loop "i := 0; for len(D[i]) == 0 { i++ }" of Degeneracy, run on the buckets from
index i on: the index of the first non-empty bucket, an index error when there is none. -/
def degFind : List (List Nat) → Nat → Except Err Nat
  | [], _ => .error .index
  | b :: rest, i => if b.length = 0 then degFind rest (i + 1) else .ok i

/-- The exchange "Ddn[wx], Ddn[last] = Ddn[last], Ddn[wx]" of Degeneracy. -/
def degSwap (arr : List Nat) (wx last : Nat) : List Nat :=
  (arr.set wx (arr.getD last 0)).set last (arr.getD wx 0)

/-- The loop of Degeneracy that removes nb from its bucket Ddn, over the indices wx: the
array of the bucket and whether D[dn] was assigned.  Every entry equal to nb is exchanged
with the last entry of Ddn. -/
def degRemoveLoop (nb last : Nat) : List Nat → List Nat → Bool → List Nat × Bool
  | [], arr, hit => (arr, hit)
  | wx :: rest, arr, hit =>
    if arr.getD wx 0 = nb then degRemoveLoop nb last rest (degSwap arr wx last) true
    else degRemoveLoop nb last rest arr hit

/-- The bucket D[dn] after the removal loop of Degeneracy: the bucket without its last
place if the loop assigned it, the bucket as it was otherwise. -/
def degRemove (nb : Nat) (Ddn : List Nat) : List Nat :=
  let r := degRemoveLoop nb (Ddn.length - 1) (List.range Ddn.length) Ddn false
  if r.2 then r.1.take (Ddn.length - 1) else r.1

/-- The state of the main loop of Degeneracy. -/
structure DegState where
  k : Nat
  ordering : List Nat
  cores : List Nat
  L : Nat
  d : List Nat
  D : List (List Nat)

/-- The loop of Degeneracy over the neighbours of the selected node: a neighbour not yet
in L moves from the bucket of its degree to the bucket below. -/
def degMove : List Half → Nat → List Nat → List (List Nat) →
    Except Err (List Nat × List (List Nat))
  | [], _, d, D => .ok (d, D)
  | nb :: rest, L, d, D =>
    if Bit L nb.To then degMove rest L d D
    else
      match d[nb.To]? with
      | none => .error .index
      | some dn =>
        match D[dn]? with
        | none => .error .index
        | some Ddn =>
          let D1 := D.set dn (degRemove nb.To Ddn)
          if dn = 0 then .error .index
          else degMove rest L (d.set nb.To (dn - 1))
            (D1.set (dn - 1) (D1.getD (dn - 1) [] ++ [nb.To]))

/-- One iteration of the main loop of Degeneracy, at the index ox of the ordering. -/
def degStep (g : LabeledAdjacencyList) (st : DegState) (ox : Nat) : Except Err DegState :=
  match degFind st.D 0 with
  | .error e => .error e
  | .ok i =>
    let cores1 := if i > st.k then
        (st.cores ++ List.replicate (i + 1 - st.cores.length) 0).set st.k ox
      else st.cores
    let k1 := if i > st.k then i else st.k
    let Di := st.D.getD i []
    match Di.getLast? with
    | none => .error .index
    | some v =>
      let D1 := st.D.set i Di.dropLast
      match g[v]? with
      | none => .error .index
      | some nbs =>
        match degMove nbs (SetBit1 st.L v) st.d D1 with
        | .error e => .error e
        | .ok (d2, D2) =>
          .ok ⟨k1, st.ordering.set ox v, cores1, SetBit1 st.L v, d2, D2⟩

/-- The main loop of Degeneracy over the indices ox. -/
def degLoop (g : LabeledAdjacencyList) : List Nat → DegState → Except Err DegState
  | [], st => .ok st
  | ox :: rest, st =>
    match degStep g st ox with
    | .error e => .error e
    | .ok st1 => degLoop g rest st1

/-- LabeledUndirected.Degeneracy: the degeneracy k, the ordering and the cores.  The
last statement, cores[k] = len(ordering), fails when cores has no index k. -/
def LabeledUndirected.Degeneracy (g : LabeledAdjacencyList) :
    Except Err (Nat × List Nat × List Nat) :=
  let dD := degBuckets g 0 (List.replicate g.length 0) []
  match degLoop g (List.range g.length) ⟨0, List.replicate g.length 0, [], 0, dD.1, dD.2⟩ with
  | .error e => .error e
  | .ok st =>
    if st.k < st.cores.length then .ok (st.k, st.ordering, st.cores.set st.k st.ordering.length)
    else .error .index

/-- The loop of BronKerbosch3 over the degeneracy ordering; H holds the cliques emitted so
far. -/
def bk3Loop (g : LabeledAdjacencyList) (pivot : Pivot) (emit : Emit) (fuel : Nat) :
    List Nat → Nat → Nat → Nat → List (List Nat) → Except Err (List (List Nat))
  | [], _, _, _, H => .ok H
  | n :: rest, R, P, X, H =>
    match g[n]? with
    | none => .error .index
    | some nbs =>
      match bk2F g pivot emit fuel (SetBit1 R n) (bkRestrict P X nbs).1
          (bkRestrict P X nbs).2 H with
      | .error e => .error e
      | .ok (false, H1) => .ok H1
      | .ok (true, H1) =>
        bk3Loop g pivot emit fuel rest (SetBit0 (SetBit1 R n) n) (SetBit0 P n)
          (SetBit1 X n) H1

/-- LabeledUndirected.BronKerbosch3: the cliques passed to emit, in order. -/
def BronKerbosch3 (g : LabeledAdjacencyList) (pivot : Pivot) (emit : Emit) (fuel : Nat) :
    Except Err (List (List Nat)) :=
  match LabeledUndirected.Degeneracy g with
  | .error e => .error e
  | .ok (_, ord, _) => bk3Loop g pivot emit fuel ord 0 (OneBits g.length) 0 []

/-- The variables of a call of the closure df of Bipartite: the bitmaps behind its
pointer arguments c1 and c2, and the captured variables b, open and oc. -/
structure BipState where
  c1 : Nat
  c2 : Nat
  b : Bool
  isOpen : Bool
  oc : List Nat
deriving DecidableEq

/-- The exchange of the pointer arguments in the recursive call df(nb, c2, c1) of
Bipartite. -/
def BipState.swap (st : BipState) : BipState := ⟨st.c2, st.c1, st.b, st.isOpen, st.oc⟩

/-- The loop of the closure df of Bipartite over the neighbours of n; rec is df itself,
with the recursion budget of the calls made from the loop. -/
def bipLoop (rec : Nat → BipState → Except Err BipState) (n : Nat) :
    List Nat → BipState → Except Err BipState
  | [], st => .ok st
  | nb :: rest, st =>
    if Bit st.c1 nb then .ok { st with b := false, oc := [nb, n], isOpen := true }
    else if Bit st.c2 nb then bipLoop rec n rest st
    else
      match rec nb st.swap with
      | .error e => .error e
      | .ok r =>
        let st1 := r.swap
        if st1.b then bipLoop rec n rest st1
        else if !st1.isOpen then .ok st1
        else
          match st1.oc.head? with
          | none => .error .index
          | some first =>
            if n = first then .ok { st1 with isOpen := false }
            else .ok { st1 with oc := st1.oc ++ [n] }

/-- The closure df of AdjacencyList.Bipartite.  The first argument bounds the recursion
depth. -/
def bipDf (g : AdjacencyList) : Nat → Nat → BipState → Except Err BipState
  | 0, _, _ => .error .fuel
  | fuel + 1, n, st =>
    match g[n]? with
    | none => .error .index
    | some nbs => bipLoop (bipDf g fuel) n nbs { st with c1 := SetBit1 st.c1 n }

/-- AdjacencyList.Bipartite: the results b, c1, c2 and oc, none standing for a nil
pointer and the empty list for a nil slice. -/
def Bipartite (g : AdjacencyList) (n : Nat) (fuel : Nat) :
    Except Err (Bool × Option Nat × Option Nat × List Nat) :=
  match bipDf g fuel n ⟨0, 0, true, false, []⟩ with
  | .error e => .error e
  | .ok st => if st.b then .ok (true, some st.c1, some st.c2, []) else .ok (false, none, none, st.oc)

/-- The loop of the closure df of LabeledUndirected.Bipartite over the labeled neighbours
of n; rec is df itself, with the recursion budget of the calls made from the loop. -/
def bipLoopLabeled (rec : Nat → BipState → Except Err BipState) (n : Nat) :
    List Half → BipState → Except Err BipState
  | [], st => .ok st
  | nb :: rest, st =>
    if Bit st.c1 nb.To then .ok { st with b := false, oc := [nb.To, n], isOpen := true }
    else if Bit st.c2 nb.To then bipLoopLabeled rec n rest st
    else
      match rec nb.To st.swap with
      | .error e => .error e
      | .ok r =>
        let st1 := r.swap
        if st1.b then bipLoopLabeled rec n rest st1
        else if !st1.isOpen then .ok st1
        else
          match st1.oc.head? with
          | none => .error .index
          | some first =>
            if n = first then .ok { st1 with isOpen := false }
            else .ok { st1 with oc := st1.oc ++ [n] }

/-- The closure df of LabeledUndirected.Bipartite.  The first argument bounds the
recursion depth. -/
def bipDfLabeled (g : LabeledAdjacencyList) : Nat → Nat → BipState → Except Err BipState
  | 0, _, _ => .error .fuel
  | fuel + 1, n, st =>
    match g[n]? with
    | none => .error .index
    | some nbs => bipLoopLabeled (bipDfLabeled g fuel) n nbs { st with c1 := SetBit1 st.c1 n }

/-- LabeledUndirected.Bipartite: the results b, c1, c2 and oc, none standing for a nil
pointer and the empty list for a nil slice. -/
def LabeledUndirected.Bipartite (g : LabeledAdjacencyList) (n : Nat) (fuel : Nat) :
    Except Err (Bool × Option Nat × Option Nat × List Nat) :=
  match bipDfLabeled g fuel n ⟨0, 0, true, false, []⟩ with
  | .error e => .error e
  | .ok st => if st.b then .ok (true, some st.c1, some st.c2, []) else .ok (false, none, none, st.oc)

/-- AdjacencyList.ArcSize: the number of arcs of g. -/
def ArcSize (g : AdjacencyList) : Nat := g.foldl (fun m nbs => m + nbs.length) 0

/-- AdjacencyList.Copy: a copy of g, and the number of arcs of g. -/
def Copy (g : AdjacencyList) : AdjacencyList × Nat :=
  (g.map (fun nbs => [] ++ nbs), g.foldl (fun m nbs => m + nbs.length) 0)

/-- The inner loop of AdjacencyList.InDegree: ind[nb]++ for the neighbours nb of one
node. -/
def inDegreeRow : List Nat → List Nat → Except Err (List Nat)
  | [], ind => .ok ind
  | nb :: rest, ind =>
    match ind[nb]? with
    | none => .error .index
    | some d => inDegreeRow rest (ind.set nb (d + 1))

/-- The outer loop of AdjacencyList.InDegree over the neighbour slices. -/
def inDegreeRows : List (List Nat) → List Nat → Except Err (List Nat)
  | [], ind => .ok ind
  | nbs :: rest, ind =>
    match inDegreeRow nbs ind with
    | .error e => .error e
    | .ok ind1 => inDegreeRows rest ind1

/-- AdjacencyList.InDegree: the in-degree of each node of g. -/
def InDegree (g : AdjacencyList) : Except Err (List Nat) :=
  inDegreeRows g (List.replicate g.length 0)

/-- The struct eulerian of the source: the working copy g of the graph, the number m of
arcs left, the bitmap uv of unvisited nodes, the slice p that holds the stack at its low
end and the finished path at its high end, and the stack pointer s. -/
structure Eulerian where
  g : AdjacencyList
  m : Int
  uv : Nat
  p : List Nat
  s : Int

/-- Reading p[i] for a Go int i. -/
def intGet (p : List Nat) (i : Int) : Except Err Nat :=
  if i < 0 then .error .index
  else
    match p[i.toNat]? with
    | none => .error .index
    | some v => .ok v

/-- The assignment p[i] = v for a Go int i. -/
def intSet (p : List Nat) (i : Int) (v : Nat) : Except Err (List Nat) :=
  if i < 0 then .error .index
  else if i.toNat < p.length then .ok (p.set i.toNat v)
  else .error .index

/-- The method top of eulerian: p[s]. -/
def Eulerian.top (e : Eulerian) : Except Err Nat := intGet e.p e.s

/-- The function newEulerian of the source; make fails on a negative length. -/
def newEulerian (g : AdjacencyList) (m : Int) : Except Err Eulerian :=
  if m + 1 < 0 then .error .index
  else .ok ⟨g, m, 2 ^ g.length - 1, List.replicate (m + 1).toNat 0, 0⟩

/-- The loop of the method push of eulerian, at the node u: arcs are followed until a
node without arcs is met.  The first argument bounds the number of iterations. -/
def euPushFrom : Nat → Nat → Eulerian → Except Err Eulerian
  | 0, _, _ => .error .fuel
  | fuel + 1, u, e =>
    match e.g[u]? with
    | none => .error .index
    | some [] => .ok { e with uv := SetBit0 e.uv u }
    | some (w :: rest) =>
      match intSet e.p (e.s + 1) w with
      | .error x => .error x
      | .ok p1 => euPushFrom fuel w ⟨e.g.set u rest, e.m, SetBit0 e.uv u, p1, e.s + 1⟩

/-- The method push of eulerian. -/
def euPush (fuel : Nat) (e : Eulerian) : Except Err Eulerian :=
  match e.top with
  | .error x => .error x
  | .ok u => euPushFrom fuel u e

/-- The method keep of eulerian.  The first argument bounds the number of iterations. -/
def euKeep : Nat → Eulerian → Except Err Eulerian
  | 0, _ => .error .fuel
  | fuel + 1, e =>
    if 0 ≤ e.s then
      match e.top with
      | .error x => .error x
      | .ok n =>
        match e.g[n]? with
        | none => .error .index
        | some arcs =>
          if arcs.length > 0 then .ok e
          else
            match intSet e.p e.m n with
            | .error x => .error x
            | .ok p1 => euKeep fuel ⟨e.g, e.m - 1, e.uv, p1, e.s - 1⟩
    else .ok e

/-- The loop "for e.s >= 0" of EulerianCycleD, which EulerianPathD repeats: none stands
for the return with an error from inside the loop.  The argument k bounds the loops of push
and keep, the next argument the iterations of this loop. -/
def euLoop (k : Nat) : Nat → Eulerian → Except Err (Option Eulerian)
  | 0, _ => .error .fuel
  | fuel + 1, e =>
    if 0 ≤ e.s then
      match e.top with
      | .error x => .error x
      | .ok v =>
        match euPush k e with
        | .error x => .error x
        | .ok e1 =>
          match e1.top with
          | .error x => .error x
          | .ok t =>
            if t ≠ v then .ok none
            else
              match euKeep k e1 with
              | .error x => .error x
              | .ok e2 => euLoop k fuel e2
    else .ok (some e)

/-- AdjacencyList.EulerianCycleD: the path and the error, the empty list standing for a
nil slice and none for a nil error. -/
def EulerianCycleD (g : AdjacencyList) (m : Int) (fuel : Nat) :
    Except Err (List Nat × Option String) :=
  if g.length = 0 then .ok ([], none)
  else
    match newEulerian g m with
    | .error x => .error x
    | .ok e =>
      match euLoop fuel fuel e with
      | .error x => .error x
      | .ok none => .ok ([], some "not balanced")
      | .ok (some e1) =>
        if e1.uv ≠ 0 then .ok ([], some "not strongly connected")
        else .ok (e1.p, none)

/-- AdjacencyList.EulerianCycle. -/
def EulerianCycle (g : AdjacencyList) (fuel : Nat) : Except Err (List Nat × Option String) :=
  EulerianCycleD (Copy g).1 (Copy g).2 fuel

/-- AdjacencyList.EulerianPathD. -/
def EulerianPathD (g : AdjacencyList) (m : Int) (start : Nat) (fuel : Nat) :
    Except Err (List Nat × Option String) :=
  if g.length = 0 then .ok ([], none)
  else
    match newEulerian g m with
    | .error x => .error x
    | .ok e =>
      match intSet e.p 0 start with
      | .error x => .error x
      | .ok p1 =>
        match euPush fuel { e with p := p1 } with
        | .error x => .error x
        | .ok e1 =>
          match euKeep fuel e1 with
          | .error x => .error x
          | .ok e2 =>
            match euLoop fuel fuel e2 with
            | .error x => .error x
            | .ok none => .ok ([], some "no Eulerian path")
            | .ok (some e3) =>
              if e3.uv ≠ 0 then .ok ([], some "no Eulerian path")
              else .ok (e3.p, none)

/-- The loop of EulerianPath that chooses the start node: the first node n, from the
index n on, with more arcs out than in, and 0 when there is none. -/
def euStart : List (List Nat) → Nat → List Nat → Except Err Nat
  | [], _, _ => .ok 0
  | nbs :: rest, n, ind =>
    match ind[n]? with
    | none => .error .index
    | some d => if nbs.length > d then .ok n else euStart rest (n + 1) ind

/-- AdjacencyList.EulerianPath. -/
def EulerianPath (g : AdjacencyList) (fuel : Nat) : Except Err (List Nat × Option String) :=
  match InDegree g with
  | .error x => .error x
  | .ok ind =>
    match euStart g 0 ind with
    | .error x => .error x
    | .ok start => EulerianPathD (Copy g).1 (Copy g).2 start fuel

/-- The loop of pushUndir that removes the reciprocal arc, over the entries rx of a2 from
the index x on: at the first entry equal to u the last entry of a2 takes its place and a2
loses its last place. -/
def euUnlinkLoop (u : Nat) (a2 : List Nat) : List Nat → Nat → List Nat
  | [], _ => a2
  | rx :: rest, x =>
    if rx = u then (a2.set x (a2.getD (a2.length - 1) 0)).take (a2.length - 1)
    else euUnlinkLoop u a2 rest (x + 1)

/-- The neighbour slice a2 after the reciprocal arc to u was removed by pushUndir. -/
def euUnlink (u : Nat) (a2 : List Nat) : List Nat := euUnlinkLoop u a2 a2 0

/-- The loop of the method pushUndir of eulerian, at the node u.  The first argument
bounds the number of iterations. -/
def euPushUndirFrom : Nat → Nat → Eulerian → Except Err Eulerian
  | 0, _, _ => .error .fuel
  | fuel + 1, u, e =>
    match e.g[u]? with
    | none => .error .index
    | some [] => .ok { e with uv := SetBit0 e.uv u }
    | some (w :: rest) =>
      match intSet e.p (e.s + 1) w with
      | .error x => .error x
      | .ok p1 =>
        match (e.g.set u rest)[w]? with
        | none => .error .index
        | some a2 =>
          euPushUndirFrom fuel w
            ⟨(e.g.set u rest).set w (euUnlink u a2), e.m, SetBit0 e.uv u, p1, e.s + 1⟩

/-- The method pushUndir of eulerian. -/
def euPushUndir (fuel : Nat) (e : Eulerian) : Except Err Eulerian :=
  match e.top with
  | .error x => .error x
  | .ok u => euPushUndirFrom fuel u e

/-- The loop "for e.s >= 0" of EulerianCycleUndirD: none stands for the return with an
error from inside the loop.  The argument k bounds the loops of pushUndir and keep, the
next argument the iterations of this loop. -/
def euLoopUndir (k : Nat) : Nat → Eulerian → Except Err (Option Eulerian)
  | 0, _ => .error .fuel
  | fuel + 1, e =>
    if 0 ≤ e.s then
      match e.top with
      | .error x => .error x
      | .ok v =>
        match euPushUndir k e with
        | .error x => .error x
        | .ok e1 =>
          match e1.top with
          | .error x => .error x
          | .ok t =>
            if t ≠ v then .ok none
            else
              match euKeep k e1 with
              | .error x => .error x
              | .ok e2 => euLoopUndir k fuel e2
    else .ok (some e)

/-- AdjacencyList.EulerianCycleUndirD: the path and the error, the empty list standing
for a nil slice and none for a nil error. -/
def EulerianCycleUndirD (g : AdjacencyList) (m : Int) (fuel : Nat) :
    Except Err (List Nat × Option String) :=
  if g.length = 0 then .ok ([], none)
  else
    match newEulerian g m with
    | .error x => .error x
    | .ok e =>
      match euLoopUndir fuel fuel e with
      | .error x => .error x
      | .ok none => .ok ([], some "not balanced")
      | .ok (some e1) =>
        if e1.uv ≠ 0 then .ok ([], some "not strongly connected")
        else .ok (e1.p, none)

/-- The first loop of AdjacencyList.Degeneracy, over the nodes v of g from the given index
on: d[v] is set to the degree of v, D is extended to hold the bucket of that degree, and v
is appended to the bucket. -/
def degBucketsAdj : List (List Nat) → Nat → List Nat → List (List Nat) →
    List Nat × List (List Nat)
  | [], _, d, D => (d, D)
  | nb :: rest, v, d, D =>
    let dv := nb.length
    let D1 := D ++ List.replicate (dv + 1 - D.length) []
    degBucketsAdj rest (v + 1) (d.set v dv) (D1.set dv (D1.getD dv [] ++ [v]))

/-- The loop of AdjacencyList.Degeneracy over the neighbours of the selected node: a
neighbour not yet in L moves from the bucket of its degree to the bucket below. -/
def degMoveAdj : List Nat → Nat → List Nat → List (List Nat) →
    Except Err (List Nat × List (List Nat))
  | [], _, d, D => .ok (d, D)
  | nb :: rest, L, d, D =>
    if Bit L nb then degMoveAdj rest L d D
    else
      match d[nb]? with
      | none => .error .index
      | some dn =>
        match D[dn]? with
        | none => .error .index
        | some Ddn =>
          let D1 := D.set dn (degRemove nb Ddn)
          if dn = 0 then .error .index
          else degMoveAdj rest L (d.set nb (dn - 1))
            (D1.set (dn - 1) (D1.getD (dn - 1) [] ++ [nb]))

/-- One iteration of the main loop of AdjacencyList.Degeneracy, at the index ox of ord. -/
def degStepAdj (g : AdjacencyList) (st : DegState) (ox : Nat) : Except Err DegState :=
  match degFind st.D 0 with
  | .error e => .error e
  | .ok i =>
    let cores1 := if i > st.k then
        (st.cores ++ List.replicate (i + 1 - st.cores.length) 0).set st.k ox
      else st.cores
    let k1 := if i > st.k then i else st.k
    let Di := st.D.getD i []
    match Di.getLast? with
    | none => .error .index
    | some v =>
      let D1 := st.D.set i Di.dropLast
      match g[v]? with
      | none => .error .index
      | some nbs =>
        match degMoveAdj nbs (SetBit1 st.L v) st.d D1 with
        | .error e => .error e
        | .ok (d2, D2) =>
          .ok ⟨k1, st.ordering.set ox v, cores1, SetBit1 st.L v, d2, D2⟩

/-- The main loop of AdjacencyList.Degeneracy over the indices ox. -/
def degLoopAdj (g : AdjacencyList) : List Nat → DegState → Except Err DegState
  | [], st => .ok st
  | ox :: rest, st =>
    match degStepAdj g st ox with
    | .error e => .error e
    | .ok st1 => degLoopAdj g rest st1

/-- AdjacencyList.Degeneracy: the degeneracy k, the slice ord and the cores.  The last
statement, cores[k] = len(ord), fails when cores has no index k. -/
def Degeneracy (g : AdjacencyList) : Except Err (Nat × List Nat × List Nat) :=
  let dD := degBucketsAdj g 0 (List.replicate g.length 0) []
  match degLoopAdj g (List.range g.length) ⟨0, List.replicate g.length 0, [], 0, dD.1, dD.2⟩ with
  | .error e => .error e
  | .ok st =>
    if st.k < st.cores.length then .ok (st.k, st.ordering, st.cores.set st.k st.ordering.length)
    else .error .index

/-- The variables captured by the closure df of AdjacencyList.Cyclic: the result c and the
bitmaps temp and perm. -/
structure CycState where
  c : Bool
  temp : Nat
  perm : Nat
deriving DecidableEq

/-- The loop of df of Cyclic over the neighbours of n; rec is the recursive call of df.  The
flag of the result tells that df returned from inside the loop. -/
def cycLoop (rec : Nat → CycState → Except Err CycState) :
    List Nat → CycState → Except Err (CycState × Bool)
  | [], st => .ok (st, false)
  | nb :: rest, st =>
    match rec nb st with
    | .error e => .error e
    | .ok st1 => if st1.c then .ok (st1, true) else cycLoop rec rest st1

/-- The closure df of AdjacencyList.Cyclic.  The first argument bounds the recursion
depth. -/
def cycDf (g : AdjacencyList) : Nat → Nat → CycState → Except Err CycState
  | 0, _, _ => .error .fuel
  | fuel + 1, n, st =>
    if Bit st.temp n then .ok { st with c := true }
    else if Bit st.perm n then .ok st
    else
      match g[n]? with
      | none => .error .index
      | some nbs =>
        match cycLoop (cycDf g fuel) nbs { st with temp := SetBit1 st.temp n } with
        | .error e => .error e
        | .ok (st1, true) => .ok st1
        | .ok (st1, false) =>
          .ok { st1 with temp := SetBit0 st1.temp n, perm := SetBit1 st1.perm n }

/-- The loop "for n := range g" of AdjacencyList.Cyclic, over the nodes still to come. -/
def cycMain (g : AdjacencyList) (fuel : Nat) : List Nat → CycState → Except Err Bool
  | [], st => .ok st.c
  | n :: rest, st =>
    if Bit st.perm n then cycMain g fuel rest st
    else
      match cycDf g fuel n st with
      | .error e => .error e
      | .ok st1 => if st1.c then .ok st1.c else cycMain g fuel rest st1

/-- AdjacencyList.Cyclic: whether g contains a cycle. -/
def Cyclic (g : AdjacencyList) (fuel : Nat) : Except Err Bool :=
  cycMain g fuel (List.range g.length) ⟨false, 0, 0⟩

/-- The variables captured by the function that ConnectedComponentLists returns: the
bitmap vg of the nodes visited in the graph, the members m of the current component and
the node n the search has come to. -/
structure CCLState where
  vg : Nat
  m : List Nat
  n : Nat
deriving DecidableEq

/-- The loop of df of AdjacencyList.ConnectedComponentLists over the neighbours; rec is
the recursive call of df. -/
def cclLoop (rec : Nat → CCLState → Except Err CCLState) :
    List Nat → CCLState → Except Err CCLState
  | [], st => .ok st
  | nb :: rest, st =>
    if Bit st.vg nb then cclLoop rec rest st
    else
      match rec nb st with
      | .error e => .error e
      | .ok st1 => cclLoop rec rest st1

/-- The closure df of AdjacencyList.ConnectedComponentLists.  The first argument bounds
the recursion depth. -/
def cclDf (g : AdjacencyList) : Nat → Nat → CCLState → Except Err CCLState
  | 0, _, _ => .error .fuel
  | fuel + 1, n, st =>
    match g[n]? with
    | none => .error .index
    | some nbs => cclLoop (cclDf g fuel) nbs { st with vg := SetBit1 st.vg n, m := st.m ++ [n] }

/-- The loop "for ; n < len(g); n++" of the function that ConnectedComponentLists returns,
over the values of n still to come: the slice returned, nil being the empty list, and the
captured variables after the call. -/
def cclScan (g : AdjacencyList) (fuel : Nat) :
    List Nat → CCLState → Except Err (List Nat × CCLState)
  | [], st => .ok ([], st)
  | n :: rest, st =>
    if Bit st.vg n then cclScan g fuel rest { st with n := n + 1 }
    else
      match cclDf g fuel n { st with n := n, m := [] } with
      | .error e => .error e
      | .ok st1 => .ok (st1.m, st1)

/-- One call of the function that AdjacencyList.ConnectedComponentLists returns, made
with the captured variables st. -/
def cclNext (g : AdjacencyList) (fuel : Nat) (st : CCLState) :
    Except Err (List Nat × CCLState) :=
  cclScan g fuel (List.range' st.n (g.length - st.n)) st

/-- The results of k successive calls of a function with captured variables, in order. -/
def callsOf {σ α : Type} (next : σ → Except Err (α × σ)) : Nat → σ → Except Err (List α)
  | 0, _ => .ok []
  | k + 1, st =>
    match next st with
    | .error e => .error e
    | .ok (r, st1) =>
      match callsOf next k st1 with
      | .error e => .error e
      | .ok rs => .ok (r :: rs)

/-- AdjacencyList.ConnectedComponentLists: the results of the first k calls of the
function returned, whose captured variables start as zero values. -/
def ConnectedComponentLists (g : AdjacencyList) (fuel k : Nat) : Except Err (List (List Nat)) :=
  callsOf (cclNext g fuel) k ⟨0, [], 0⟩

/-- The loop of df of LabeledUndirected.ConnectedComponentLists over the neighbours. -/
def cclLoopLabeled (rec : Nat → CCLState → Except Err CCLState) :
    List Half → CCLState → Except Err CCLState
  | [], st => .ok st
  | nb :: rest, st =>
    if Bit st.vg nb.To then cclLoopLabeled rec rest st
    else
      match rec nb.To st with
      | .error e => .error e
      | .ok st1 => cclLoopLabeled rec rest st1

/-- The closure df of LabeledUndirected.ConnectedComponentLists. -/
def cclDfLabeled (g : LabeledAdjacencyList) : Nat → Nat → CCLState → Except Err CCLState
  | 0, _, _ => .error .fuel
  | fuel + 1, n, st =>
    match g[n]? with
    | none => .error .index
    | some nbs =>
      cclLoopLabeled (cclDfLabeled g fuel) nbs { st with vg := SetBit1 st.vg n, m := st.m ++ [n] }

/-- The loop of the function that LabeledUndirected.ConnectedComponentLists returns. -/
def cclScanLabeled (g : LabeledAdjacencyList) (fuel : Nat) :
    List Nat → CCLState → Except Err (List Nat × CCLState)
  | [], st => .ok ([], st)
  | n :: rest, st =>
    if Bit st.vg n then cclScanLabeled g fuel rest { st with n := n + 1 }
    else
      match cclDfLabeled g fuel n { st with n := n, m := [] } with
      | .error e => .error e
      | .ok st1 => .ok (st1.m, st1)

/-- One call of the function that LabeledUndirected.ConnectedComponentLists returns. -/
def cclNextLabeled (g : LabeledAdjacencyList) (fuel : Nat) (st : CCLState) :
    Except Err (List Nat × CCLState) :=
  cclScanLabeled g fuel (List.range' st.n (g.length - st.n)) st

/-- LabeledUndirected.ConnectedComponentLists: the results of the first k calls of the
function returned. -/
def LabeledUndirected.ConnectedComponentLists (g : LabeledAdjacencyList) (fuel k : Nat) :
    Except Err (List (List Nat)) :=
  callsOf (cclNextLabeled g fuel) k ⟨0, [], 0⟩

/-- The variables of ConnectedComponentReps: the bitmap c, the counter o and the results
reps and orders. -/
structure CCRState where
  c : Nat
  o : Nat
  reps : List Nat
  orders : List Nat
deriving DecidableEq

/-- The loop of df of AdjacencyList.ConnectedComponentReps over the neighbours; rec is the
recursive call of df. -/
def ccrLoop (rec : Nat → CCRState → Except Err CCRState) :
    List Nat → CCRState → Except Err CCRState
  | [], st => .ok st
  | nb :: rest, st =>
    if Bit st.c nb then ccrLoop rec rest st
    else
      match rec nb st with
      | .error e => .error e
      | .ok st1 => ccrLoop rec rest st1

/-- The closure df of AdjacencyList.ConnectedComponentReps.  The first argument bounds the
recursion depth. -/
def ccrDf (g : AdjacencyList) : Nat → Nat → CCRState → Except Err CCRState
  | 0, _, _ => .error .fuel
  | fuel + 1, n, st =>
    match g[n]? with
    | none => .error .index
    | some nbs => ccrLoop (ccrDf g fuel) nbs { st with c := SetBit1 st.c n, o := st.o + 1 }

/-- The loop "for n := range g" of AdjacencyList.ConnectedComponentReps. -/
def ccrMain (g : AdjacencyList) (fuel : Nat) : List Nat → CCRState → Except Err CCRState
  | [], st => .ok st
  | n :: rest, st =>
    if Bit st.c n then ccrMain g fuel rest st
    else
      match ccrDf g fuel n { st with reps := st.reps ++ [n], o := 0 } with
      | .error e => .error e
      | .ok st1 => ccrMain g fuel rest { st1 with orders := st1.orders ++ [st1.o] }

/-- AdjacencyList.ConnectedComponentReps: the slices reps and orders. -/
def ConnectedComponentReps (g : AdjacencyList) (fuel : Nat) : Except Err (List Nat × List Nat) :=
  match ccrMain g fuel (List.range g.length) ⟨0, 0, [], []⟩ with
  | .error e => .error e
  | .ok st => .ok (st.reps, st.orders)

/-- The loop of df of LabeledUndirected.ConnectedComponentReps over the neighbours. -/
def ccrLoopLabeled (rec : Nat → CCRState → Except Err CCRState) :
    List Half → CCRState → Except Err CCRState
  | [], st => .ok st
  | nb :: rest, st =>
    if Bit st.c nb.To then ccrLoopLabeled rec rest st
    else
      match rec nb.To st with
      | .error e => .error e
      | .ok st1 => ccrLoopLabeled rec rest st1

/-- The closure df of LabeledUndirected.ConnectedComponentReps. -/
def ccrDfLabeled (g : LabeledAdjacencyList) : Nat → Nat → CCRState → Except Err CCRState
  | 0, _, _ => .error .fuel
  | fuel + 1, n, st =>
    match g[n]? with
    | none => .error .index
    | some nbs =>
      ccrLoopLabeled (ccrDfLabeled g fuel) nbs { st with c := SetBit1 st.c n, o := st.o + 1 }

/-- The loop "for n := range g.LabeledAdjacencyList" of
LabeledUndirected.ConnectedComponentReps. -/
def ccrMainLabeled (g : LabeledAdjacencyList) (fuel : Nat) :
    List Nat → CCRState → Except Err CCRState
  | [], st => .ok st
  | n :: rest, st =>
    if Bit st.c n then ccrMainLabeled g fuel rest st
    else
      match ccrDfLabeled g fuel n { st with reps := st.reps ++ [n], o := 0 } with
      | .error e => .error e
      | .ok st1 => ccrMainLabeled g fuel rest { st1 with orders := st1.orders ++ [st1.o] }

/-- LabeledUndirected.ConnectedComponentReps: the slices reps and orders. -/
def LabeledUndirected.ConnectedComponentReps (g : LabeledAdjacencyList) (fuel : Nat) :
    Except Err (List Nat × List Nat) :=
  match ccrMainLabeled g fuel (List.range g.length) ⟨0, 0, [], []⟩ with
  | .error e => .error e
  | .ok st => .ok (st.reps, st.orders)

/-- Modelled from the spec: PathEnd is absent from the source; it holds the node From the
path comes from, -1 when there is none, and the number Len of nodes of the path. -/
structure PathEnd where
  From : Int
  Len : Nat
deriving DecidableEq

/-- Modelled from the spec: FromList is absent from the source; it holds the slice Paths,
the bitmap Leaves and the number MaxLen. -/
structure FromList where
  Paths : List PathEnd
  Leaves : Nat
  MaxLen : Nat
deriving DecidableEq

/-- The variables captured by the closure df of LabeledUndirected.FromList: the slice p,
the number ml and the result cycle. -/
structure FLState where
  p : List PathEnd
  ml : Nat
  cycle : Int
deriving DecidableEq

/-- The loop of df of LabeledUndirected.FromList over the neighbours of n, with the
arguments fr and n of df and its local l; rec is the recursive call of df.  The flag is the
value df returns. -/
def flLoop (rec : Int → Nat → FLState → Except Err (FLState × Bool)) (fr : Int) (n l : Nat) :
    List Half → FLState → Except Err (FLState × Bool)
  | [], st => .ok (st, true)
  | t :: rest, st =>
    if (t.To : Int) = fr then flLoop rec fr n l rest st
    else
      match st.p[t.To]? with
      | none => .error .index
      | some e =>
        if e.Len > 0 then .ok ({ st with cycle := t.To }, false)
        else
          match rec n t.To
              { st with p := st.p.set t.To ⟨n, l⟩, ml := if l > st.ml then l else st.ml } with
          | .error e => .error e
          | .ok (st1, false) => .ok (st1, false)
          | .ok (st1, true) => flLoop rec fr n l rest st1

/-- The closure df of LabeledUndirected.FromList.  The first argument bounds the recursion
depth. -/
def flDf (g : LabeledAdjacencyList) : Nat → Int → Nat → FLState → Except Err (FLState × Bool)
  | 0, _, _, _ => .error .fuel
  | fuel + 1, fr, n, st =>
    match st.p[n]? with
    | none => .error .index
    | some e =>
      match g[n]? with
      | none => .error .index
      | some nbs => flLoop (flDf g fuel) fr n (e.Len + 1) nbs st

/-- LabeledUndirected.FromList: the results f and cycle.  On a cycle f is the zero value. -/
def LabeledUndirected.FromList (g : LabeledAdjacencyList) (root : Nat) (fuel : Nat) :
    Except Err (FromList × Int) :=
  let p : List PathEnd := List.replicate g.length ⟨-1, 0⟩
  match p[root]? with
  | none => .error .index
  | some e =>
    match flDf g fuel (-1) root ⟨p.set root { e with Len := 1 }, 0, 0⟩ with
    | .error e => .error e
    | .ok (st, false) => .ok (⟨[], 0, 0⟩, st.cycle)
    | .ok (st, true) => .ok (⟨st.p, 0, st.ml⟩, -1)

/-- The loop of df of LabeledUndirected.IsTree over the neighbours of n; rec is the
recursive call of df.  The flag is the value df returns. -/
def itLoop (rec : Nat → Nat → Nat → Except Err (Nat × Bool)) (fr n : Nat) :
    List Half → Nat → Except Err (Nat × Bool)
  | [], v => .ok (v, true)
  | t :: rest, v =>
    if t.To ≠ fr then
      match rec n t.To v with
      | .error e => .error e
      | .ok (v1, false) => .ok (v1, false)
      | .ok (v1, true) => itLoop rec fr n rest v1
    else itLoop rec fr n rest v

/-- The closure df of LabeledUndirected.IsTree, on the bitmap v.  The first argument bounds
the recursion depth. -/
def itDf (g : LabeledAdjacencyList) : Nat → Nat → Nat → Nat → Except Err (Nat × Bool)
  | 0, _, _, _ => .error .fuel
  | fuel + 1, fr, n, v =>
    if Bit v n = false then .ok (v, false)
    else
      match g[n]? with
      | none => .error .index
      | some nbs => itLoop (itDf g fuel) fr n nbs (SetBit0 v n)

/-- The loop of LabeledUndirected.IsTree over the neighbours of root. -/
def itRoot (rec : Nat → Nat → Nat → Except Err (Nat × Bool)) (root : Nat) :
    List Half → Nat → Except Err (Nat × Bool)
  | [], v => .ok (v, true)
  | t :: rest, v =>
    match rec root t.To v with
    | .error e => .error e
    | .ok (v1, false) => .ok (v1, false)
    | .ok (v1, true) => itRoot rec root rest v1

/-- LabeledUndirected.IsTree: the results isTree and allTree. -/
def LabeledUndirected.IsTree (g : LabeledAdjacencyList) (root : Nat) (fuel : Nat) :
    Except Err (Bool × Bool) :=
  match g[root]? with
  | none => .error .index
  | some nbs =>
    match itRoot (itDf g fuel) root nbs (SetBit0 (OneBits g.length) root) with
    | .error e => .error e
    | .ok (_, false) => .ok (false, false)
    | .ok (v, true) => .ok (true, decide (v = 0))

/-- The graph g has no cycle: no node reaches itself along one or more arcs (a loop is a
cycle). -/
def Acyclic (g : AdjacencyList) : Prop := ∀ u, ¬ Relation.TransGen (Arc g) u u

/-- The innermost statement of AdjacencyList.Transpose for the arc n -> nb:
t[nb] = append(t[nb], n); m++. -/
def transposeArc (n : Nat) (tm : AdjacencyList × Nat) (nb : Nat) :
    Except Err (AdjacencyList × Nat) :=
  match tm.1[nb]? with
  | none => .error .index
  | some l => .ok (tm.1.set nb (l ++ [n]), tm.2 + 1)

/-- The outer loop of AdjacencyList.Transpose over the rows of g, n being the index of the
first row of the list. -/
def transposeRows : List (List Nat) → Nat → AdjacencyList × Nat → Except Err (AdjacencyList × Nat)
  | [], _, tm => .ok tm
  | nbs :: rest, n, tm =>
    match nbs.foldlM (transposeArc n) tm with
    | .error e => .error e
    | .ok tm1 => transposeRows rest (n + 1) tm1

/-- AdjacencyList.Transpose: the transpose of g and the number of arcs. -/
def Transpose (g : AdjacencyList) : Except Err (AdjacencyList × Nat) :=
  transposeRows g 0 (List.replicate g.length [], 0)

/-- The local variables L, S and rem of TopologicalKahn. -/
structure KState where
  L : List Nat
  S : List Nat
  rem : List Nat
deriving DecidableEq

/-- The first loop of TopologicalKahn, over the rows of tr, n being the index of the first
row of the list: a node without incoming arc goes to S, else rem[n] is set to the
in-degree. -/
def kahnInit : List (List Nat) → Nat → KState → Except Err KState
  | [], _, st => .ok st
  | fr :: rest, n, st =>
    if fr.length = 0 then kahnInit rest (n + 1) { st with S := st.S ++ [n] }
    else if n < st.rem.length then
      kahnInit rest (n + 1) { st with rem := st.rem.set n fr.length }
    else .error .index

/-- The body of the loop of TopologicalKahn over the neighbours m of the node removed
from S. -/
def kahnArc (st : KState) (m : Nat) : Except Err KState :=
  match st.rem[m]? with
  | none => .error .index
  | some r =>
    if r > 0 then
      let rem := st.rem.set m (r - 1)
      if r - 1 = 0 then .ok { st with rem := rem, S := st.S ++ [m] }
      else .ok { st with rem := rem }
    else .ok st

/-- The loop "for len(S) > 0" of TopologicalKahn.  The first argument bounds the number of
iterations. -/
def kahnLoop (g : AdjacencyList) : Nat → KState → Except Err KState
  | 0, _ => .error .fuel
  | fuel + 1, st =>
    match st.S.getLast? with
    | none => .ok st
    | some n =>
      match g[n]? with
      | none => .error .index
      | some nbs =>
        match nbs.foldlM kahnArc { st with S := st.S.dropLast, L := st.L ++ [n] } with
        | .error e => .error e
        | .ok st1 => kahnLoop g fuel st1

/-- The inner loop of the last part of TopologicalKahn: whether a neighbour nb with
rem[nb] > 0 is met. -/
def kahnResidualNb (rem : List Nat) : List Nat → Except Err Bool
  | [] => .ok false
  | nb :: rest =>
    match rem[nb]? with
    | none => .error .index
    | some r => if r > 0 then .ok true else kahnResidualNb rem rest

/-- The body of the last loop of TopologicalKahn, over the indices c of rem. -/
def kahnCycleStep (g : AdjacencyList) (rem : List Nat) (cycle : List Nat) (c : Nat) :
    Except Err (List Nat) :=
  match rem[c]? with
  | none => .error .index
  | some r =>
    if r > 0 then
      match g[c]? with
      | none => .error .index
      | some nbs =>
        match kahnResidualNb rem nbs with
        | .error e => .error e
        | .ok true => .ok (cycle ++ [c])
        | .ok false => .ok cycle
    else .ok cycle

/-- AdjacencyList.TopologicalKahn: the pair (order, cycle), a nil slice being the empty
list. -/
def TopologicalKahn (g tr : AdjacencyList) (fuel : Nat) : Except Err (List Nat × List Nat) :=
  match kahnInit tr 0 ⟨[], [], List.replicate g.length 0⟩ with
  | .error e => .error e
  | .ok st0 =>
    match kahnLoop g fuel st0 with
    | .error e => .error e
    | .ok st =>
      match (List.range st.rem.length).foldlM (kahnCycleStep g st.rem) [] with
      | .error e => .error e
      | .ok cycle => if cycle.length > 0 then .ok ([], cycle) else .ok (st.L, [])

/-- Number of arcs from u to v in g (a multigraph may hold several). -/
def arcCount (g : AdjacencyList) (u v : Nat) : Nat := (g.getD u []).count v

/-- In-degree of v in g: the number of arcs into v. -/
def inDegree (g : AdjacencyList) (v : Nat) : Nat :=
  ((List.range g.length).map (fun u => arcCount g u v)).sum

/-- Number of arcs into v that leave a node of the list l. -/
def arcsFrom (g : AdjacencyList) (l : List Nat) (v : Nat) : Nat :=
  (l.map (fun u => arcCount g u v)).sum

/-- State of the first loop of TopologicalKahn once the rows below n of tr are done. -/
def KInitInv (tr : AdjacencyList) (N n : Nat) (st : KState) : Prop :=
  st.L = [] ∧ st.rem.length = N ∧
  (∀ v, v < n → st.rem.getD v 0 = (tr.getD v []).length) ∧
  (∀ v, n ≤ v → st.rem.getD v 0 = 0) ∧
  st.S.Nodup ∧ (∀ v, v ∈ st.S ↔ (v < n ∧ (tr.getD v []).length = 0))

/-- Invariant of the main loop of TopologicalKahn; credit v is the number of arcs into v
that have been removed from rem so far. -/
def KCore (g : AdjacencyList) (st : KState) (credit : Nat → Nat) : Prop :=
  st.rem.length = g.length ∧ st.L.Nodup ∧ st.S.Nodup ∧
  (∀ v ∈ st.L, v < g.length) ∧ (∀ v ∈ st.S, v < g.length) ∧ (∀ v ∈ st.S, v ∉ st.L) ∧
  (∀ v, v < g.length → st.rem.getD v 0 + credit v = inDegree g v) ∧
  (∀ v, v < g.length → (st.rem.getD v 0 = 0 ↔ (v ∈ st.S ∨ v ∈ st.L))) ∧
  (∀ a v b, st.L = a ++ v :: b → ∀ u, Arc g u v → u ∈ a)

/-- Node u stands before node v in the list l. -/
def Before (l : List Nat) (u v : Nat) : Prop := ∃ a b c, l = a ++ u :: (b ++ v :: c)

/-- The list c is the path of a cycle of g, a closed walk: it is not empty, each node has an
arc to the next, and the last node has an arc to the first. -/
def ClosedWalk (g : AdjacencyList) (c : List Nat) : Prop :=
  c ≠ [] ∧ List.Chain' (Arc g) c ∧
  ∀ first last, c.head? = some first → c.getLast? = some last → Arc g last first

/-- The variables captured by the closure df of Topological: the slice order, the index i,
the bitmaps temp and perm, cycleFound, cycleStart and the slice cycle. -/
structure TState where
  order : List Nat
  i : Nat
  temp : Nat
  perm : Nat
  cycleFound : Bool
  cycleStart : Int
  cycle : List Nat
deriving DecidableEq

/-- The statements that df of Topological runs for node n when a call df(nb) has come back
with cycleFound set: while cycleStart >= 0 the node is written in front of the cycle, which
is kept in the tail of order. -/
def topoUnwind (n : Nat) (st : TState) : Except Err TState :=
  if 0 ≤ st.cycleStart then
    if st.cycle.length + 1 ≤ st.order.length then
      let x := st.order.length - 1 - st.cycle.length
      let order := st.order.set x n
      .ok { st with
        order := order
        cycle := order.drop x
        cycleStart := if (n : Int) = st.cycleStart then -1 else st.cycleStart }
    else .error .index
  else .ok st

/-- The loop of df of Topological over the neighbours of n; rec is the recursive call of df.
The flag of the result tells that df returned from inside the loop. -/
def topoLoop (rec : Nat → TState → Except Err TState) (n : Nat) :
    List Nat → TState → Except Err (TState × Bool)
  | [], st => .ok (st, false)
  | nb :: rest, st =>
    match rec nb st with
    | .error e => .error e
    | .ok st1 =>
      if st1.cycleFound then
        match topoUnwind n st1 with
        | .error e => .error e
        | .ok st2 => .ok (st2, true)
      else topoLoop rec n rest st1

/-- The closure df of AdjacencyList.Topological.  The first argument bounds the recursion
depth. -/
def topoDf (g : AdjacencyList) : Nat → Nat → TState → Except Err TState
  | 0, _, _ => .error .fuel
  | fuel + 1, n, st =>
    if Bit st.temp n then .ok { st with cycleFound := true, cycleStart := n }
    else if Bit st.perm n then .ok st
    else
      match g[n]? with
      | none => .error .index
      | some nbs =>
        match topoLoop (topoDf g fuel) n nbs { st with temp := SetBit1 st.temp n } with
        | .error e => .error e
        | .ok (st1, true) => .ok st1
        | .ok (st1, false) =>
          if 0 < st1.i ∧ st1.i ≤ st1.order.length then
            .ok { st1 with
              temp := SetBit0 st1.temp n
              perm := SetBit1 st1.perm n
              i := st1.i - 1
              order := st1.order.set (st1.i - 1) n }
          else .error .index

/-- The loop "for n := range g" of AdjacencyList.Topological, over the nodes still to come. -/
def topoMain (g : AdjacencyList) (fuel : Nat) : List Nat → TState → Except Err (List Nat × List Nat)
  | [], st => .ok (st.order, [])
  | n :: rest, st =>
    if Bit st.perm n then topoMain g fuel rest st
    else
      match topoDf g fuel n st with
      | .error e => .error e
      | .ok st1 => if st1.cycleFound then .ok ([], st1.cycle) else topoMain g fuel rest st1

/-- AdjacencyList.Topological: the pair (order, cycle), a nil slice being the empty list. -/
def Topological (g : AdjacencyList) (fuel : Nat) : Except Err (List Nat × List Nat) :=
  topoMain g fuel (List.range g.length)
    ⟨List.replicate g.length 0, g.length, 0, 0, false, 0, []⟩

/-- Invariant of Topological while no cycle has been found; path is the list of the nodes
whose call of df is pending, outermost first. -/
def TInv (g : AdjacencyList) (path : List Nat) (st : TState) : Prop :=
  st.cycleFound = false ∧ st.cycle = [] ∧ st.order.length = g.length ∧ st.i ≤ g.length ∧
  (∀ m, Bit st.temp m = true ↔ m ∈ path) ∧
  (∀ m, Bit st.perm m = true ↔ m ∈ st.order.drop st.i) ∧
  (st.order.drop st.i).Nodup ∧ (∀ m ∈ st.order.drop st.i, m < g.length) ∧
  (∀ a v b, st.order.drop st.i = a ++ v :: b → ∀ w, Arc g v w → w ∈ b) ∧
  path.Nodup ∧ (∀ m ∈ path, m < g.length) ∧ (∀ m ∈ path, Bit st.perm m = false) ∧
  List.Chain' (Arc g) path

/-- State of Topological when the call df(n), made with the pending nodes path, has come
back with cycleFound set. -/
def TFound (g : AdjacencyList) (path : List Nat) (n : Nat) (st : TState) : Prop :=
  st.cycleFound = true ∧ st.order.length = g.length ∧
  st.cycle = st.order.drop (g.length - st.cycle.length) ∧
  List.Chain' (Arc g) st.cycle ∧
  ((0 ≤ st.cycleStart ∧ st.cycleStart.toNat ∈ path ∧ (path ++ st.cycle).Nodup ∧
      (∀ m ∈ st.cycle, m < g.length) ∧
      ((st.cycle = [] ∧ st.cycleStart = (n : Int)) ∨
        (st.cycle.head? = some n ∧
          ∃ last, st.cycle.getLast? = some last ∧ Arc g last st.cycleStart.toNat))) ∨
    (st.cycleStart = -1 ∧ ClosedWalk g st.cycle))

/-- Number of nodes of g set neither in temp nor in perm. -/
def whiteCount (g : AdjacencyList) (st : TState) : Nat :=
  ((Finset.range g.length).filter (fun m => Bit st.temp m = false ∧ Bit st.perm m = false)).card

/-- The variables captured by the closure sc of Tarjan: the bitmaps indexed and stacked, the
slices index and lowlink, the counter x, the stack S and the result scc.  The stack is kept
top first: append(S, n) is n :: S and S[len(S)-1] is the head. -/
structure TjState where
  indexed : Nat
  stacked : Nat
  index : List Nat
  lowlink : List Nat
  x : Nat
  S : List Nat
  scc : List (List Nat)
deriving DecidableEq

/-- The loop of sc of Tarjan that pops the stack down to and including n, appending the
popped nodes to the component c; it gives the stack left, the bitmap stacked and the
component. -/
def tarjanPop (n : Nat) : List Nat → Nat → List Nat → Except Err (List Nat × Nat × List Nat)
  | [], _, _ => .error .index
  | w :: rest, stacked, c =>
    if w = n then .ok (rest, SetBit0 stacked w, c ++ [w])
    else tarjanPop n rest (SetBit0 stacked w) (c ++ [w])

/-- The body of the loop of sc of Tarjan over the neighbours nb of n; rec is the recursive
call of sc. -/
def tarjanNb (rec : Nat → TjState → Except Err TjState) (n : Nat) (st : TjState) (nb : Nat) :
    Except Err TjState :=
  if Bit st.indexed nb = false then
    match rec nb st with
    | .error e => .error e
    | .ok st1 =>
      match st1.lowlink[nb]?, st1.lowlink[n]? with
      | some lnb, some ln =>
        if lnb < ln then .ok { st1 with lowlink := st1.lowlink.set n lnb } else .ok st1
      | _, _ => .error .index
  else if Bit st.stacked nb = true then
    match st.index[nb]?, st.lowlink[n]? with
    | some inb, some ln =>
      if inb < ln then .ok { st with lowlink := st.lowlink.set n inb } else .ok st
    | _, _ => .error .index
  else .ok st

/-- The closure sc of AdjacencyList.Tarjan.  The first argument bounds the recursion
depth. -/
def tarjanSc (g : AdjacencyList) : Nat → Nat → TjState → Except Err TjState
  | 0, _, _ => .error .fuel
  | fuel + 1, n, st =>
    if n < st.index.length ∧ n < st.lowlink.length then
      let st1 : TjState :=
        { st with
          index := st.index.set n st.x
          indexed := SetBit1 st.indexed n
          lowlink := st.lowlink.set n st.x
          x := st.x + 1
          S := n :: st.S
          stacked := SetBit1 st.stacked n }
      match g[n]? with
      | none => .error .index
      | some nbs =>
        match nbs.foldlM (tarjanNb (tarjanSc g fuel) n) st1 with
        | .error e => .error e
        | .ok st2 =>
          match st2.lowlink[n]?, st2.index[n]? with
          | some ln, some i =>
            if ln = i then
              match tarjanPop n st2.S st2.stacked [] with
              | .error e => .error e
              | .ok (S, stacked, c) =>
                .ok { st2 with S := S, stacked := stacked, scc := st2.scc ++ [c] }
            else .ok st2
          | _, _ => .error .index
    else .error .index

/-- The body of the loop "for n := range g" of AdjacencyList.Tarjan. -/
def tarjanRoot (g : AdjacencyList) (fuel : Nat) (st : TjState) (n : Nat) : Except Err TjState :=
  if Bit st.indexed n = false then tarjanSc g fuel n st else .ok st

/-- AdjacencyList.Tarjan: the list of components, each a list of nodes. -/
def Tarjan (g : AdjacencyList) (fuel : Nat) : Except Err (List (List Nat)) :=
  match (List.range g.length).foldlM (tarjanRoot g fuel)
      ⟨0, 0, List.replicate g.length 0, List.replicate g.length 0, 0, [], []⟩ with
  | .error e => .error e
  | .ok st => .ok st.scc

/-- Number of nodes of g whose bit is unset in bm. -/
def unsetCount (g : AdjacencyList) (bm : Nat) : Nat :=
  ((Finset.range g.length).filter (fun m => Bit bm m = false)).card

/-- The bitmap of the second state holds every bit of the first. -/
def BmLe (bm bm' : Nat) : Prop := ∀ m, Bit bm m = true → Bit bm' m = true

/-- The record of visitor calls agrees with an initial bitmap bm0: the bitmap is bm0 plus the
nodes called, no node is called twice, each call saw bm0 plus the nodes called up to it and
recorded the answer of the visitor, and ok is the conjunction of the answers. -/
def TraceInv (vf : Visitor) (bm0 : Nat) (st : DFState) : Prop :=
  (∀ m, Bit st.bm m = true ↔ (Bit bm0 m = true ∨ m ∈ st.calls.map Call.node)) ∧
  (st.calls.map Call.node).Nodup ∧
  (∀ m ∈ st.calls.map Call.node, Bit bm0 m = false) ∧
  (∀ a c b, st.calls = a ++ c :: b →
    (c.ret = vf a c.node c.bm ∧
      ∀ m, Bit c.bm m = true ↔ (Bit bm0 m = true ∨ m ∈ (a ++ [c]).map Call.node))) ∧
  (st.ok = true ↔ ∀ c ∈ st.calls, c.ret = true)

/-- Invariant of Tarjan between the steps of sc: the stack S holds the nodes with the stacked
bit, in decreasing order of index from the top; the components in scc hold the other
indexed nodes, each once; an arc that leaves a component ends in it or in an earlier one;
the nodes of a component reach one another; and every node y of the stack reaches a node
of the stack whose index is lowlink[y]. -/
structure TjInv (g : AdjacencyList) (st : TjState) : Prop where
  len_index : st.index.length = g.length
  len_lowlink : st.lowlink.length = g.length
  nodupS : st.S.Nodup
  stacked_iff : ∀ m, Bit st.stacked m = true ↔ m ∈ st.S
  stack_indexed : ∀ m ∈ st.S, Bit st.indexed m = true
  indexed_lt : ∀ m, Bit st.indexed m = true → m < g.length
  index_lt : ∀ m, Bit st.indexed m = true → st.index.getD m 0 < st.x
  sorted : st.S.Pairwise (fun a b => st.index.getD b 0 < st.index.getD a 0)
  nodup_done : st.scc.flatten.Nodup
  done_iff : ∀ m, m ∈ st.scc.flatten ↔ (Bit st.indexed m = true ∧ Bit st.stacked m = false)
  closed : ∀ pre C post, st.scc = pre ++ C :: post →
    ∀ u ∈ C, ∀ w, Arc g u w → (w ∈ C ∨ w ∈ pre.flatten)
  strong : ∀ C ∈ st.scc, ∀ u ∈ C, ∀ v ∈ C, Reach g u v
  nonempty : ∀ C ∈ st.scc, C ≠ []
  low : ∀ y ∈ st.S, st.lowlink.getD y 0 ≤ st.index.getD y 0 ∧
    ∃ w ∈ st.S, st.index.getD w 0 = st.lowlink.getD y 0 ∧ Reach g y w

/-- All arcs of node y have been looked at: every successor is indexed, and lowlink[y] is at
most the index of every successor on the stack. -/
def TjDoneNode (g : AdjacencyList) (st : TjState) (y : Nat) : Prop :=
  ∀ w, Arc g y w → Bit st.indexed w = true ∧
    (w ∈ st.S → st.lowlink.getD y 0 ≤ st.index.getD w 0)

/-- The nodes of seg are stack nodes whose call of sc has returned inside the call for r, or
r itself: their lowlink is at least that of r and below their index (r apart), they are
reached from r and all their arcs have been looked at. -/
structure TjSeg (g : AdjacencyList) (st : TjState) (r : Nat) (seg : List Nat) : Prop where
  low_ge : ∀ y ∈ seg, st.lowlink.getD r 0 ≤ st.lowlink.getD y 0
  low_lt : ∀ y ∈ seg, y ≠ r → st.lowlink.getD y 0 < st.index.getD y 0
  reach : ∀ y ∈ seg, Reach g r y
  done : ∀ y ∈ seg, y ≠ r → TjDoneNode g st y

/-- State st' comes from st by steps of Tarjan that leave the stack of st in place below
the new nodes seg: old indices and the lowlink of the old stack nodes are kept. -/
structure TjExt (st st' : TjState) (seg : List Nat) : Prop where
  indexed_mono : BmLe st.indexed st'.indexed
  index_eq : ∀ m, Bit st.indexed m = true → st'.index.getD m 0 = st.index.getD m 0
  lowlink_eq : ∀ m ∈ st.S, st'.lowlink.getD m 0 = st.lowlink.getD m 0
  stack : st'.S = seg ++ st.S
  fresh : ∀ y ∈ seg, Bit st.indexed y = false

/-- What the call sc(n) made in state st has achieved when it returns in state st'. -/
def TjPost (g : AdjacencyList) (st : TjState) (n : Nat) (st' : TjState) : Prop :=
  TjInv g st' ∧ ∃ seg, TjExt st st' seg ∧ st'.index.getD n 0 = st.x ∧
    Bit st'.indexed n = true ∧
    ((seg = [] ∧ st'.lowlink.getD n 0 = st'.index.getD n 0) ∨
      ((∃ segA, seg = segA ++ [n]) ∧ st'.lowlink.getD n 0 < st'.index.getD n 0 ∧
        TjSeg g st' n seg ∧ TjDoneNode g st' n))

/-- Invariant of the loop of sc(n) over the neighbours, pfx being the neighbours done; st is
the state in which sc(n) was called and s the present state. -/
structure TjLoop (g : AdjacencyList) (st : TjState) (n : Nat) (pfx : List Nat) (s : TjState) :
    Prop where
  inv : TjInv g s
  ext : ∃ segA, TjExt st s (segA ++ [n]) ∧ TjSeg g s n segA ∧ n ∉ segA
  index_n : s.index.getD n 0 = st.x
  pfx_done : ∀ w ∈ pfx, Bit s.indexed w = true ∧
    (w ∈ s.S → s.lowlink.getD n 0 ≤ s.index.getD w 0)

/-- Nodes u and v are adjacent in the labeled graph g: v occurs, with some label, in the
neighbour slice of u. -/
def Adjacent (g : LabeledAdjacencyList) (u v : Nat) : Prop := Arc (unlabel g) u v

/-- The labeled graph g is undirected: every neighbour slice entry has its reciprocal. -/
def Symmetric (g : LabeledAdjacencyList) : Prop :=
  ∀ u < g.length, ∀ v ∈ (unlabel g).getD u [], u ∈ (unlabel g).getD v []

instance (g : LabeledAdjacencyList) : Decidable (Symmetric g) := by
  unfold Symmetric; infer_instance

/-- The labeled graph g has no loop. -/
def LoopFree (g : LabeledAdjacencyList) : Prop :=
  ∀ u < g.length, u ∉ (unlabel g).getD u []

instance (g : LabeledAdjacencyList) : Decidable (LoopFree g) := by
  unfold LoopFree; infer_instance

/-- The node set S is a clique of g: its members are nodes of g and any two of them are
adjacent. -/
def IsClique (g : LabeledAdjacencyList) (S : Finset Nat) : Prop :=
  (∀ u ∈ S, u < g.length) ∧ ∀ u ∈ S, ∀ v ∈ S, u ≠ v → Adjacent g u v

/-- The node set S is a maximal clique of g: a clique that no larger clique contains. -/
def IsMaximalClique (g : LabeledAdjacencyList) (S : Finset Nat) : Prop :=
  IsClique g S ∧ ∀ T, IsClique g T → S ⊆ T → T = S

/-- The pivot function answers with a node of P or X whenever P is not empty and P and X
hold nodes of g only. -/
def PivotOk (g : LabeledAdjacencyList) (pivot : Pivot) : Prop :=
  ∀ P X, P ≠ 0 → (∀ m, Bit P m = true ∨ Bit X m = true → m < g.length) →
    ∃ u, pivot P X = .ok u ∧ (Bit P u = true ∨ Bit X u = true)

/-- The emit function that always returns true. -/
def emitAll : Emit := fun _ _ => true

/-- The calls of emit that are made when the cliques out would be emitted in this order
after the cliques H and the enumeration stops at the first answer false: whether all
answers were true, and the cliques passed. -/
def emitCut (emit : Emit) : List (List Nat) → List (List Nat) → Bool × List (List Nat)
  | _, [] => (true, [])
  | H, c :: rest =>
    if emit H c then ((emitCut emit (H ++ [c]) rest).1, c :: (emitCut emit (H ++ [c]) rest).2)
    else (false, [c])

/-- The run that emitted He with the function emit stopped at the first answer false of a
run that would have emitted Ht: He is a prefix of Ht, every call but the last was answered
true, and if He is shorter than Ht the last call was answered false. -/
def StopsAtFalse (emit : Emit) (Ht He : List (List Nat)) : Prop :=
  He <+: Ht ∧
  (∀ i c, He[i]? = some c → i + 1 < He.length → emit (He.take i) c = true) ∧
  (He.length < Ht.length → ∃ c, He.getLast? = some c ∧ emit He.dropLast c = false)

/-- The number of nodes below N in the bitmap b. -/
def bmCard (N b : Nat) : Nat := ((Finset.range N).filter (fun m => Bit b m = true)).card

/-- The node list c is, as a set, a maximal clique of g, in terms of single nodes: no node
outside c is adjacent to all of c. -/
def MaxCl (g : LabeledAdjacencyList) (c : List Nat) : Prop :=
  (∀ u ∈ c, u < g.length) ∧ (∀ u ∈ c, ∀ v ∈ c, u ≠ v → Adjacent g u v) ∧
  ∀ w, w < g.length → w ∉ c → ∃ u ∈ c, ¬ Adjacent g u w

/-- The precondition of the closure f of the BronKerbosch methods: R is a clique, P and X
are disjoint and hold together the nodes outside R adjacent to all of R. -/
structure BKPre (g : LabeledAdjacencyList) (R P X : Nat) : Prop where
  clique : ∀ u v, Bit R u = true → Bit R v = true → u ≠ v → Adjacent g u v
  nodes : ∀ u, Bit R u = true → u < g.length
  disj : ∀ w, Bit P w = true → Bit X w = false
  cand : ∀ w, (Bit P w = true ∨ Bit X w = true) ↔
    (w < g.length ∧ Bit R w = false ∧ ∀ u, Bit R u = true → Adjacent g u w)

/-- The cliques out are what the closure f has to emit for R, P and Q, a part of P: the
ascending node lists of the maximal cliques made of R, nodes of P and at least one node
of Q if need is set, each once. -/
structure BKOut (g : LabeledAdjacencyList) (R P : Nat) (need : Bool) (Q : Nat → Prop)
    (out : List (List Nat)) : Prop where
  sound : ∀ c ∈ out, c.Sorted (· < ·) ∧ MaxCl g c ∧ (∀ m, Bit R m = true → m ∈ c) ∧
    (∀ m ∈ c, Bit R m = true ∨ Bit P m = true) ∧ (need = true → ∃ m ∈ c, Q m)
  complete : ∀ c, c.Sorted (· < ·) → MaxCl g c → (∀ m, Bit R m = true → m ∈ c) →
    (∀ m ∈ c, Bit R m = true ∨ Bit P m = true) → (need = true → ∃ m ∈ c, Q m) → c ∈ out
  nodup : out.Nodup

/-- The nodes still to come in a loop over the set bits of pnu that stands at cur. -/
def InRest (pnu : Nat) (cur : Option Nat) (m : Nat) : Prop :=
  match cur with
  | none => False
  | some n => Bit pnu m = true ∧ n ≤ m

/-- The set bits of the bitmap R in ascending order. -/
def ones (R : Nat) : List Nat := (List.range (R + 1)).filter (fun i => Bit R i)

/-- The graph of the BronKerbosch examples of the tests, edges 0-4, 4-5, 4-3, 3-2, 5-2,
5-1 and 2-1 added in this order with label 0. -/
def exampleBK : LabeledAdjacencyList :=
  [[⟨4, 0⟩], [⟨5, 0⟩, ⟨2, 0⟩], [⟨3, 0⟩, ⟨5, 0⟩, ⟨1, 0⟩], [⟨4, 0⟩, ⟨2, 0⟩],
   [⟨0, 0⟩, ⟨5, 0⟩, ⟨3, 0⟩], [⟨4, 0⟩, ⟨2, 0⟩, ⟨1, 0⟩]]

/-- The graph g is undirected: every neighbour slice entry has its reciprocal. -/
def Undirected (g : AdjacencyList) : Prop := ∀ u < g.length, ∀ v ∈ g.getD u [], u ∈ g.getD v []

instance (g : AdjacencyList) : Decidable (Undirected g) := by
  unfold Undirected; infer_instance

/-- The number of nodes of g that are in neither bitmap. -/
def bipWhite (g : AdjacencyList) (c1 c2 : Nat) : Nat :=
  ((Finset.range g.length).filter (fun m => Bit c1 m = false ∧ Bit c2 m = false)).card

/-- The state of a call of df of Bipartite on a node of colour col agrees with the
two-colouring chi of the component of n0: no conflict was found, the nodes of c1 have the
colour col, those of c2 the other colour, and all of them are in the component. -/
structure BipGood (g : AdjacencyList) (chi : Nat → Bool) (n0 : Nat) (col : Bool)
    (st : BipState) : Prop where
  b : st.b = true
  own : ∀ m, Bit st.c1 m = true → chi m = col ∧ Reach g n0 m
  other : ∀ m, Bit st.c2 m = true → chi m = (!col) ∧ Reach g n0 m

/-- What a call of df of Bipartite, or a part of its loop, leaves behind when no conflict
is found: open and oc untouched, the bitmaps grown, and every node coloured meanwhile has
all its neighbours coloured. -/
structure BipPost (g : AdjacencyList) (st st' : BipState) : Prop where
  isOpen : st'.isOpen = st.isOpen
  oc : st'.oc = st.oc
  le1 : BmLe st.c1 st'.c1
  le2 : BmLe st.c2 st'.c2
  closed : ∀ u, (Bit st'.c1 u = true ∨ Bit st'.c2 u = true) → Bit st.c1 u = false →
    Bit st.c2 u = false → ∀ w, Arc g u w → (Bit st'.c1 w = true ∨ Bit st'.c2 w = true)

/-- The consecutive pairs of a node list. -/
def pairs (l : List Nat) : List (Nat × Nat) := l.zip l.tail

/-- Out-degree of x in g: the length of its neighbour slice. -/
def outDegree (g : AdjacencyList) (x : Nat) : Nat := (g.getD x []).length

/-- The graph g is balanced: at every node in-degree and out-degree agree. -/
def IsBalanced (g : AdjacencyList) : Prop := ∀ x, x < g.length → inDegree g x = outDegree g x

/-- The graph g is strongly connected: every node can be reached from every node. -/
def StronglyConnected (g : AdjacencyList) : Prop :=
  ∀ u v, u < g.length → v < g.length → Reach g u v

/-- The node list W is an Eulerian walk of g: its consecutive pairs are the arcs of g, each
arc taken as often as g holds it, and every node of g lies on W. -/
def EulerWalk (g : AdjacencyList) (W : List Nat) : Prop :=
  (∀ u w, (pairs W).count (u, w) = arcCount g u w) ∧ (∀ x, x < g.length → x ∈ W)

/-- The slice p of an eulerian holds the stack S at its low end and the finished path F at
its high end, gap being the entries in between; s and m point at the top of the stack and
at the last entry of the gap. -/
structure EuRel (e : Eulerian) (S gap F : List Nat) : Prop where
  p_eq : e.p = S ++ gap ++ F
  s_eq : e.s = (S.length : Int) - 1
  m_eq : e.m = (S.length : Int) + (gap.length : Int) - 1

/-- The number of arcs of g, as a sum. -/
def arcTotal (g : AdjacencyList) : Nat := (g.map List.length).sum

/-- The arcs counted in the pair list L and the arcs left in g make up the arcs of g0. -/
def EuCount (g0 g : AdjacencyList) (L : List (Nat × Nat)) : Prop :=
  ∀ u w, L.count (u, w) + arcCount g u w = arcCount g0 u w

/-- The state of an Eulerian search on the graph g0, with stack S and finished path F:
the slice p is laid out as EuRel says, the gap has one entry for every c arcs left (c is 1
for a directed graph and 2 for an undirected one, an edge being two arcs), finished
nodes have no arc left and are visited, as are the nodes of the stack below its top, and
every visited node is on the stack or finished. -/
structure EuInv (c : Nat) (g0 : AdjacencyList) (e : Eulerian) (S gap F : List Nat) :
    Prop where
  rel : EuRel e S gap F
  len : e.g.length = g0.length
  gapLen : c * gap.length = arcTotal e.g
  nodes : ∀ x ∈ S ++ F, x < g0.length
  done : ∀ x ∈ F, e.g.getD x [] = []
  seen : ∀ x ∈ F, Bit e.uv x = false
  seenS : ∀ x ∈ S.dropLast, Bit e.uv x = false
  unseen : ∀ x, Bit e.uv x = false → x < g0.length → x ∈ S ++ F
  uvBound : ∀ x, Bit e.uv x = true → x < g0.length

/-- In the graph g every node has as many arcs out as in, but for one more arc into b and
one more arc out of u when these differ: what is left of a balanced graph when a trail from
b stands at u. -/
def Bal (g : AdjacencyList) (b u : Nat) : Prop :=
  ∀ x, x < g.length →
    outDegree g x + (if x = b then 1 else 0) = inDegree g x + (if x = u then 1 else 0)

/-- The ends of an Eulerian search that started at the node st: the stack followed by the
finished path begins with st, a non-empty finished path ends with b, and while nothing is
finished the stack holds st alone and b is st. -/
structure EuEnds (st b : Nat) (S F : List Nat) : Prop where
  head : (S ++ F).head? = some st
  last : F ≠ [] → F.getLast? = some b
  first : F = [] → S = [st] ∧ b = st

instance (g : AdjacencyList) : Decidable (IsBalanced g) := by
  unfold IsBalanced; infer_instance

/-- The start node st is what EulerianPath chooses on g: the first node with more arcs out
than in, or node 0 when there is no such node. -/
def ChosenStart (g : AdjacencyList) (st : Nat) : Prop :=
  (st < g.length ∧ inDegree g st < outDegree g st ∧
      ∀ x, x < st → outDegree g x ≤ inDegree g x) ∨
    (st = 0 ∧ ∀ x, x < g.length → outDegree g x ≤ inDegree g x)

/-- The edges counted in the pair list L, in either direction, and the arcs left in g
make up the arcs of the undirected graph g0. -/
def EuCountU (g0 g : AdjacencyList) (L : List (Nat × Nat)) : Prop :=
  ∀ u w, L.count (u, w) + L.count (w, u) + arcCount g u w = arcCount g0 u w

/-- The multigraph g is undirected: it holds as many arcs from u to w as from w to u. -/
def SymmetricArcs (g : AdjacencyList) : Prop := ∀ u w, arcCount g u w = arcCount g w u

/-- The graph g has no loop. -/
def NoLoops (g : AdjacencyList) : Prop := ∀ u, u < g.length → arcCount g u u = 0

instance (g : AdjacencyList) : Decidable (NoLoops g) := by
  unfold NoLoops; infer_instance

/-- Every node of g has even degree, but for the nodes v and u when these differ: what
is left of a graph of even degrees when a trail from v stands at u. -/
def BalU (g : AdjacencyList) (v u : Nat) : Prop :=
  ∀ x, x < g.length →
    (outDegree g x + (if x = v then 1 else 0) + (if x = u then 1 else 0)) % 2 = 0

/-- Every node of g has even degree. -/
def EvenDegrees (g : AdjacencyList) : Prop := ∀ x, x < g.length → outDegree g x % 2 = 0

instance (g : AdjacencyList) : Decidable (EvenDegrees g) := by
  unfold EvenDegrees; infer_instance

/-- The undirected graph g is connected: every node can be reached from every node. -/
def Connected (g : AdjacencyList) : Prop := ∀ u v, u < g.length → v < g.length → Reach g u v

/-- State of the main loop of Degeneracy before the iteration at ox, as far as cores[0]
goes: either k is 0, cores is nil, the bucket of degree 0 and the positions below ox of the
ordering hold only nodes without neighbours; or k is positive, cores[0] is at most ox and
the positions below cores[0] hold only nodes without neighbours. -/
def DegZero (g : LabeledAdjacencyList) (st : DegState) (ox : Nat) : Prop :=
  (st.k = 0 ∧ st.cores = [] ∧ (∀ v ∈ st.D.getD 0 [], g.getD v [] = []) ∧
    ∀ j < ox, g.getD (st.ordering.getD j 0) [] = []) ∨
  (1 ≤ st.k ∧ st.cores.getD 0 0 ≤ ox ∧
    ∀ j < st.cores.getD 0 0, g.getD (st.ordering.getD j 0) [] = [])

/-- The member lists of the connected components that a search over the nodes ns finds
from the bitmap vg on, each by a call of the closure df of ConnectedComponentLists, and the
bitmap reached. -/
def ccAll (g : AdjacencyList) (fuel : Nat) :
    List Nat → Nat → Except Err (List (List Nat) × Nat)
  | [], vg => .ok ([], vg)
  | n :: rest, vg =>
    if Bit vg n then ccAll g fuel rest vg
    else
      match cclDf g fuel n ⟨vg, [], n⟩ with
      | .error e => .error e
      | .ok st1 =>
        match ccAll g fuel rest st1.vg with
        | .error e => .error e
        | .ok (ls, vgf) => .ok (st1.m :: ls, vgf)

/-- The lists ls are the connected components of the undirected graph g, in increasing
order of their first nodes: each list is duplicate-free and starts with a node r of g, it
holds exactly the nodes that r reaches, and none of them is smaller than r; a list has a
smaller first node than the lists after it and no node in common with them; every node of
g is in one of the lists. -/
def ComponentLists (g : AdjacencyList) (ls : List (List Nat)) : Prop :=
  (∀ l ∈ ls, l.Nodup ∧ ∃ r, l.head? = some r ∧ r < g.length ∧
    (∀ v, v ∈ l ↔ Reach g r v) ∧ ∀ v ∈ l, r ≤ v) ∧
  ls.Pairwise (fun l1 l2 => l1.head?.getD 0 < l2.head?.getD 0 ∧ l1.Disjoint l2) ∧
  (∀ v, v < g.length → ∃ l ∈ ls, v ∈ l)

/-- The member Len of p[v]; 0 where p has no index v. -/
def flLen (p : List PathEnd) (v : Nat) : Nat := (p.getD v ⟨-1, 0⟩).Len

/-- The member From of p[v]; -1 where p has no index v. -/
def flFrom (p : List PathEnd) (v : Nat) : Int := (p.getD v ⟨-1, 0⟩).From

/-- Invariant of the slice p of FromList: it has an entry for each node, the entry of root
is {-1, 1}, a node not yet reached (Len 0) has From -1, and a node reached other than root
has in From a node reached before it, adjacent to it, with Len one less. -/
structure FlInv (G : AdjacencyList) (root : Nat) (p : List PathEnd) : Prop where
  len : p.length = G.length
  rootEnd : p.getD root ⟨-1, 0⟩ = ⟨-1, 1⟩
  unvis : ∀ v, flLen p v = 0 → flFrom p v = -1
  par : ∀ v, 0 < flLen p v → v ≠ root →
    ∃ u : Nat, flFrom p v = (u : Int) ∧ 0 < flLen p u ∧ Arc G u v ∧ flLen p v = flLen p u + 1

/-- The call of df for the node u has returned true: every arc of u leads to the node in
From of u, or to a node reached from u, by the single arc from u to it. -/
def FlDone (G : AdjacencyList) (p : List PathEnd) (u : Nat) : Prop :=
  ∀ w, Arc G u w →
    ((w : Int) = flFrom p u) ∨ (0 < flLen p w ∧ flFrom p w = (u : Int) ∧ arcCount G u w = 1)

/-- The slice p1 keeps the entries of the nodes reached in p. -/
def FlExt (p p1 : List PathEnd) : Prop :=
  ∀ v, 0 < flLen p v → p1.getD v ⟨-1, 0⟩ = p.getD v ⟨-1, 0⟩

/-- The nodes whose call of df is pending, outermost first, when df runs for the node n
with the argument fr: each has the one before it in From, all are reached and distinct,
and From of n is fr. -/
structure FlStack (p : List PathEnd) (stack : List Nat) (fr : Int) (n : Nat) : Prop where
  last : stack.getLast? = some n
  chain : List.Chain' (fun a b => flFrom p b = (a : Int) ∧ 0 < flLen p b) stack
  vis : ∀ s ∈ stack, 0 < flLen p s
  nodup : stack.Nodup
  frm : flFrom p n = fr

/-- Every node reached whose call of df is not pending has returned true. -/
def FlFin (G : AdjacencyList) (p : List PathEnd) (stack : List Nat) : Prop :=
  ∀ w, 0 < flLen p w → w ∉ stack → FlDone G p w

/-- Number of nodes of G not yet reached in p. -/
def flWhite (G : AdjacencyList) (p : List PathEnd) : Nat :=
  ((Finset.range G.length).filter (fun v => flLen p v = 0)).card

/-- The node c lies on a loop, on a parallel edge or on a cycle of the undirected graph G:
it has an arc to itself, or two arcs to one node, or it is among three or more distinct
nodes that form a closed walk. -/
def OnCycle (G : AdjacencyList) (c : Nat) : Prop :=
  Arc G c c ∨ (∃ w, 2 ≤ arcCount G c w) ∨
  ∃ cyc : List Nat, 3 ≤ cyc.length ∧ cyc.Nodup ∧ ClosedWalk G cyc ∧ c ∈ cyc

/-- The connected component of root in the undirected graph G is a tree: among the nodes
that root reaches there is no loop, no parallel edge, and no cycle, that is no closed walk
of three or more distinct nodes. -/
def TreeAt (G : AdjacencyList) (root : Nat) : Prop :=
  (∀ v, Reach G root v → ¬ Arc G v v) ∧ (∀ v w, Reach G root v → arcCount G v w ≤ 1) ∧
  ∀ cyc : List Nat, (∀ v ∈ cyc, Reach G root v) → cyc.Nodup → ClosedWalk G cyc →
    cyc.length < 3

/-- What a call of df of FromList with recursion budget fuel does, for the node n with
the argument fr, when the calls pending are those of stack: it returns; if it returns true,
the invariant holds again, the entries of the nodes reached before are kept, n and the nodes
reached by the call have returned true, and each node reached by the call has in From the
node n or a node reached by the call; if it returns false, cycle is a node of the component
of root on a loop, a parallel edge or a cycle. -/
def FlDfSpec (g : LabeledAdjacencyList) (root fuel : Nat) : Prop :=
  ∀ (fr : Int) (n : Nat) (st : FLState) (stack : List Nat),
    FlInv (unlabel g) root st.p → FlStack st.p stack fr n → FlFin (unlabel g) st.p stack →
    (∀ w, 0 < flLen st.p w → flFrom st.p w ≠ (n : Int)) →
    flWhite (unlabel g) st.p < fuel →
    ∃ st1 b, flDf g fuel fr n st = .ok (st1, b) ∧
      (b = true → FlInv (unlabel g) root st1.p ∧ FlExt st.p st1.p ∧
        FlFin (unlabel g) st1.p stack.dropLast ∧
        ∀ w, 0 < flLen st1.p w → flLen st.p w = 0 →
          flFrom st1.p w = (n : Int) ∨ ∃ u : Nat, flFrom st1.p w = (u : Int) ∧ flLen st.p u = 0) ∧
      (b = false → ∃ c : Nat, st1.cycle = (c : Int) ∧ Reach (unlabel g) root c ∧
        OnCycle (unlabel g) c)

/-- The graph of the test ExampleLabeledUndirected_FromList: the edges 2 - 4, 4 - 1 and
1 - 0, and the node 3 without an edge. -/
def exampleFromList : LabeledAdjacencyList :=
  [[⟨1, 0⟩], [⟨4, 0⟩, ⟨0, 0⟩], [⟨4, 0⟩], [], [⟨2, 0⟩, ⟨1, 0⟩]]

/-- The graph of the test ExampleLabeledUndirected_IsTree: a loop at 0, the edge 1 - 2 and
the triangle 3, 4, 5. -/
def exampleIsTree : LabeledAdjacencyList :=
  [[⟨0, 0⟩], [⟨2, 0⟩], [⟨1, 0⟩], [⟨4, 0⟩, ⟨5, 0⟩], [⟨3, 0⟩, ⟨5, 0⟩], [⟨3, 0⟩, ⟨4, 0⟩]]

/-- The bitmap v of IsTree agrees with the slice p of FromList: the bits set in v are the
nodes not yet reached in p. -/
def ItRel (N : Nat) (p : List PathEnd) (v : Nat) : Prop :=
  ∀ x, Bit v x = true ↔ (x < N ∧ flLen p x = 0)

/-- The inner loop of AdjacencyList.BoundsOk over the targets of one neighbour slice of a
graph of n nodes: the first target below 0 or not below n, none when the loop ends
without a return.  Targets are Go ints, so they may be negative. -/
def boundsOkRow (n : Nat) : List Int → Option Int
  | [] => none
  | t :: rest => if t < 0 ∨ t ≥ (n : Int) then some t else boundsOkRow n rest

/-- The outer loop "for fr, to := range g" of AdjacencyList.BoundsOk, fr being the index of
the first slice left.  After the loop the source returns true, -1 and the named result to,
which no statement has assigned and so is 0. -/
def boundsOkLoop (n : Nat) : Nat → List (List Int) → Bool × Int × Int
  | _, [] => (true, -1, 0)
  | fr, row :: rest =>
    match boundsOkRow n row with
    | some t => (false, (fr : Int), t)
    | none => boundsOkLoop n (fr + 1) rest

/-- AdjacencyList.BoundsOk: the results ok, fr and to.  The graph is a slice of slices of
ints, not yet known to hold node numbers only. -/
def BoundsOk (g : List (List Int)) : Bool × Int × Int := boundsOkLoop g.length 0 g

/-- The loop of the method push of eulerian, as euPushFrom, with the record of the state
at the head of every iteration. -/
def euPushFromT : Nat → Nat → Eulerian → Except Err (Eulerian × List Eulerian)
  | 0, _, _ => .error .fuel
  | fuel + 1, u, e =>
    match e.g[u]? with
    | none => .error .index
    | some [] => .ok ({ e with uv := SetBit0 e.uv u }, [e])
    | some (w :: rest) =>
      match intSet e.p (e.s + 1) w with
      | .error x => .error x
      | .ok p1 =>
        match euPushFromT fuel w ⟨e.g.set u rest, e.m, SetBit0 e.uv u, p1, e.s + 1⟩ with
        | .error x => .error x
        | .ok (e1, tr) => .ok (e1, e :: tr)

/-- The method push of eulerian with the record of the states of its loop. -/
def euPushT (fuel : Nat) (e : Eulerian) : Except Err (Eulerian × List Eulerian) :=
  match e.top with
  | .error x => .error x
  | .ok u => euPushFromT fuel u e

/-- The method keep of eulerian, as euKeep, with the record of the state at every test of
its loop condition. -/
def euKeepT : Nat → Eulerian → Except Err (Eulerian × List Eulerian)
  | 0, _ => .error .fuel
  | fuel + 1, e =>
    if 0 ≤ e.s then
      match e.top with
      | .error x => .error x
      | .ok n =>
        match e.g[n]? with
        | none => .error .index
        | some arcs =>
          if arcs.length > 0 then .ok (e, [e])
          else
            match intSet e.p e.m n with
            | .error x => .error x
            | .ok p1 =>
              match euKeepT fuel ⟨e.g, e.m - 1, e.uv, p1, e.s - 1⟩ with
              | .error x => .error x
              | .ok (e1, tr) => .ok (e1, e :: tr)
    else .ok (e, [e])

/-- The loop "for e.s >= 0" of EulerianCycleD and EulerianPathD, as euLoop, with the
record of the states met: the state at every test of the loop condition, the states of
push, the state push leaves, and the states of keep. -/
def euLoopT (k : Nat) : Nat → Eulerian → Except Err (Option Eulerian × List Eulerian)
  | 0, _ => .error .fuel
  | fuel + 1, e =>
    if 0 ≤ e.s then
      match e.top with
      | .error x => .error x
      | .ok v =>
        match euPushT k e with
        | .error x => .error x
        | .ok (e1, tr1) =>
          match e1.top with
          | .error x => .error x
          | .ok t =>
            if t ≠ v then .ok (none, e :: tr1 ++ [e1])
            else
              match euKeepT k e1 with
              | .error x => .error x
              | .ok (e2, tr2) =>
                match euLoopT k fuel e2 with
                | .error x => .error x
                | .ok (r, tr3) => .ok (r, e :: tr1 ++ [e1] ++ tr2 ++ tr3)
    else .ok (some e, [e])

/-- AdjacencyList.EulerianCycleD, as EulerianCycleD, with the record of the working
states. -/
def EulerianCycleDT (g : AdjacencyList) (m : Int) (fuel : Nat) :
    Except Err ((List Nat × Option String) × List Eulerian) :=
  if g.length = 0 then .ok (([], none), [])
  else
    match newEulerian g m with
    | .error x => .error x
    | .ok e =>
      match euLoopT fuel fuel e with
      | .error x => .error x
      | .ok (none, tr) => .ok (([], some "not balanced"), tr)
      | .ok (some e1, tr) =>
        if e1.uv ≠ 0 then .ok (([], some "not strongly connected"), tr)
        else .ok ((e1.p, none), tr)

/-- AdjacencyList.EulerianPathD, as EulerianPathD, with the record of the working
states. -/
def EulerianPathDT (g : AdjacencyList) (m : Int) (start : Nat) (fuel : Nat) :
    Except Err ((List Nat × Option String) × List Eulerian) :=
  if g.length = 0 then .ok (([], none), [])
  else
    match newEulerian g m with
    | .error x => .error x
    | .ok e =>
      match intSet e.p 0 start with
      | .error x => .error x
      | .ok p1 =>
        match euPushT fuel { e with p := p1 } with
        | .error x => .error x
        | .ok (e1, tr1) =>
          match euKeepT fuel e1 with
          | .error x => .error x
          | .ok (e2, tr2) =>
            match euLoopT fuel fuel e2 with
            | .error x => .error x
            | .ok (none, tr3) => .ok (([], some "no Eulerian path"), tr1 ++ tr2 ++ tr3)
            | .ok (some e3, tr3) =>
              if e3.uv ≠ 0 then .ok (([], some "no Eulerian path"), tr1 ++ tr2 ++ tr3)
              else .ok ((e3.p, none), tr1 ++ tr2 ++ tr3)

/-- The working state e of an Eulerian search on a graph of M arcs is safe: e.m is e.s
plus the number of arcs not yet consumed, so the stack p[0..s] ends before the finished
path p[m+1..M] begins, and both lie inside p, which has M + 1 entries. -/
def EuSafe (M : Nat) (e : Eulerian) : Prop :=
  e.m = e.s + (ArcSize e.g : Int) ∧ -1 ≤ e.s ∧ e.s ≤ e.m ∧ e.m ≤ (M : Int) ∧
    e.p.length = M + 1

instance (M : Nat) (e : Eulerian) : Decidable (EuSafe M e) := by
  unfold EuSafe; infer_instance

/-- The part of the invariant of an Eulerian search that index safety rests on: the layout
of p in stack S, gap and finished path F, one gap entry for every arc left, the stack
holding nodes only, and the working graph bounds-valid with N nodes. -/
structure EuLight (N M : Nat) (e : Eulerian) (S gap F : List Nat) : Prop where
  rel : EuRel e S gap F
  gapLen : gap.length = arcTotal e.g
  len : e.g.length = N
  nodes : ∀ x ∈ S, x < N
  bound : BoundsValid e.g
  total : S.length + gap.length + F.length = M + 1

/-- The variables captured by the function that ConnectedComponentBits returns: the bitmap
vg of the nodes visited in the graph, the bitmap that vc points to (the result bits of the
current call), the counter nc and the node n the search has come to. -/
structure CCBState where
  vg : Nat
  vc : Nat
  nc : Nat
  n : Nat
deriving DecidableEq

/-- The loop of df of LabeledUndirected.ConnectedComponentBits over the neighbours; rec is
the recursive call of df. -/
def ccbLoopLabeled (rec : Nat → CCBState → Except Err CCBState) :
    List Half → CCBState → Except Err CCBState
  | [], st => .ok st
  | nb :: rest, st =>
    if Bit st.vg nb.To then ccbLoopLabeled rec rest st
    else
      match rec nb.To st with
      | .error e => .error e
      | .ok st1 => ccbLoopLabeled rec rest st1

/-- The closure df of LabeledUndirected.ConnectedComponentBits.  The first argument
bounds the recursion depth. -/
def ccbDfLabeled (g : LabeledAdjacencyList) : Nat → Nat → CCBState → Except Err CCBState
  | 0, _, _ => .error .fuel
  | fuel + 1, n, st =>
    match g[n]? with
    | none => .error .index
    | some nbs =>
      ccbLoopLabeled (ccbDfLabeled g fuel) nbs
        { st with vg := SetBit1 st.vg n, vc := SetBit1 st.vc n, nc := st.nc + 1 }

/-- The loop "for ; n < len(g); n++" of the function that
LabeledUndirected.ConnectedComponentBits returns, over the values of n still to come: the
results order and bits, zeros when the loop ends, and the captured variables after the
call.  At an unvisited node vc is pointed to the fresh result bits and nc is reset. -/
def ccbScanLabeled (g : LabeledAdjacencyList) (fuel : Nat) :
    List Nat → CCBState → Except Err ((Nat × Nat) × CCBState)
  | [], st => .ok ((0, 0), st)
  | n :: rest, st =>
    if Bit st.vg n then ccbScanLabeled g fuel rest { st with n := n + 1 }
    else
      match ccbDfLabeled g fuel n { st with n := n, vc := 0, nc := 0 } with
      | .error e => .error e
      | .ok st1 => .ok ((st1.nc, st1.vc), st1)

/-- One call of the function that LabeledUndirected.ConnectedComponentBits returns, made
with the captured variables st. -/
def ccbNextLabeled (g : LabeledAdjacencyList) (fuel : Nat) (st : CCBState) :
    Except Err ((Nat × Nat) × CCBState) :=
  ccbScanLabeled g fuel (List.range' st.n (g.length - st.n)) st

/-- LabeledUndirected.ConnectedComponentBits: the results (order, bits) of the first k
calls of the function returned, whose captured variables start as zero values. -/
def LabeledUndirected.ConnectedComponentBits (g : LabeledAdjacencyList) (fuel k : Nat) :
    Except Err (List (Nat × Nat)) :=
  callsOf (ccbNextLabeled g fuel) k ⟨0, 0, 0, 0⟩

/-- The bitmap with the bits of the nodes of l set. -/
def bitsOf (l : List Nat) : Nat := l.foldl SetBit1 0

/-- The variables of ConnectedComponentBits that go with the variables st of
ConnectedComponentLists: the bitmap and the counter of the members m. -/
def ccbOf (st : CCLState) : CCBState := ⟨st.vg, bitsOf st.m, st.m.length, st.n⟩

/-- The graph of the test ExampleLabeledUndirected_ConnectedComponentBits: the edges
0 - 3, 0 - 4, 3 - 4 and 1 - 5 added in this order with label 0, and the node 2 without an
edge. -/
def exampleComponents : LabeledAdjacencyList :=
  [[⟨3, 0⟩, ⟨4, 0⟩], [⟨5, 0⟩], [], [⟨0, 0⟩, ⟨4, 0⟩], [⟨0, 0⟩, ⟨3, 0⟩], [⟨1, 0⟩]]

/-- Following the words of the specification, not the source: the depth-first pre-order of
the traversal from a node n that is not yet visited, appended to the list vis of the nodes
visited so far.  The node n comes first; then, for each out-neighbour of n in
adjacency-list order that is still unvisited at that time, comes the pre-order of the
traversal from that neighbour.  The first argument bounds the depth of the traversal, none
standing for a bound that was too small. -/
def preOrderFrom (g : AdjacencyList) : Nat → Nat → List Nat → Option (List Nat)
  | 0, _, _ => none
  | fuel + 1, n, vis =>
    (g.getD n []).foldlM
      (fun acc nb => if nb ∈ acc then some acc else preOrderFrom g fuel nb acc) (vis ++ [n])

/-- Following the words of the specification: the depth-first pre-order from start. -/
def preOrder (g : AdjacencyList) (fuel start : Nat) : Option (List Nat) :=
  preOrderFrom g fuel start []

/-- The order kept by Tarjan: the stack S, top first, and every component found list
their nodes in strictly decreasing order of index; the nodes of the stack and of the
components are indexed; the index of an indexed node is below the counter x, and no two
indexed nodes share an index; no component is empty. -/
structure TjOrder (st : TjState) : Prop where
  sortedS : st.S.Pairwise (fun a b => st.index.getD b 0 < st.index.getD a 0)
  sortedC : ∀ C ∈ st.scc, C.Pairwise (fun a b => st.index.getD b 0 < st.index.getD a 0)
  indexedS : ∀ m ∈ st.S, Bit st.indexed m = true
  indexedC : ∀ C ∈ st.scc, ∀ m ∈ C, Bit st.indexed m = true
  index_lt : ∀ m, Bit st.indexed m = true → st.index.getD m 0 < st.x
  inj : ∀ a b, Bit st.indexed a = true → Bit st.indexed b = true →
    st.index.getD a 0 = st.index.getD b 0 → a = b
  nonempty : ∀ C ∈ st.scc, C ≠ []

/-- The arguments of one call of the closure f of the BronKerbosch methods: the bitmaps
behind R, P and X when f is entered. -/
structure BKCall where
  R : Nat
  P : Nat
  X : Nat
deriving DecidableEq

mutual
/-- The closure f of LabeledUndirected.BronKerbosch1, as bk1F, with the record of the
arguments of every call of f, in call order. -/
def bk1FT (g : LabeledAdjacencyList) (emit : Emit) :
    Nat → Nat → Nat → Nat → List (List Nat) →
      Except Err (Bool × List (List Nat) × List BKCall)
  | 0, _, _, _, _ => .error .fuel
  | fuel + 1, R, P, X, H =>
    if P ≠ 0 then
      match bk1LoopT g emit fuel (NextOne P 0) R P X H with
      | .error e => .error e
      | .ok (b, H1, cs) => .ok (b, H1, ⟨R, P, X⟩ :: cs)
    else if X = 0 then
      match bkEmit emit R H with
      | .error e => .error e
      | .ok (b, H1) => .ok (b, H1, [⟨R, P, X⟩])
    else .ok (true, H, [⟨R, P, X⟩])
termination_by structural fuel => fuel

/-- The loop of the closure f of BronKerbosch1, as bk1Loop, with the record of the calls of
f made from it. -/
def bk1LoopT (g : LabeledAdjacencyList) (emit : Emit) :
    Nat → Option Nat → Nat → Nat → Nat → List (List Nat) →
      Except Err (Bool × List (List Nat) × List BKCall)
  | 0, _, _, _, _, _ => .error .fuel
  | _ + 1, none, _, _, _, H => .ok (true, H, [])
  | fuel + 1, some n, R, P, X, H =>
    match g[n]? with
    | none => .error .index
    | some nbs =>
      match bk1FT g emit fuel (SetBit1 R n) (bkRestrict P X nbs).1 (bkRestrict P X nbs).2 H with
      | .error e => .error e
      | .ok (false, H1, cs) => .ok (false, H1, cs)
      | .ok (true, H1, cs) =>
        match bk1LoopT g emit fuel (NextOne (SetBit0 P n) (n + 1)) R (SetBit0 P n)
            (SetBit1 X n) H1 with
        | .error e => .error e
        | .ok (b, H2, cs2) => .ok (b, H2, cs ++ cs2)
termination_by structural fuel => fuel
end

/-- LabeledUndirected.BronKerbosch1 with the record of the calls of f: the cliques passed
to emit and the arguments of the calls of f. -/
def BronKerbosch1T (g : LabeledAdjacencyList) (emit : Emit) (fuel : Nat) :
    Except Err (List (List Nat) × List BKCall) :=
  match bk1FT g emit fuel 0 (OneBits g.length) 0 [] with
  | .error e => .error e
  | .ok (_, H, cs) => .ok (H, cs)

mutual
/-- The closure f of BronKerbosch2 and BronKerbosch3, as bk2F, with the record of the
arguments of every call of f, in call order. -/
def bk2FT (g : LabeledAdjacencyList) (pivot : Pivot) (emit : Emit) :
    Nat → Nat → Nat → Nat → List (List Nat) →
      Except Err (Bool × List (List Nat) × List BKCall)
  | 0, _, _, _, _ => .error .fuel
  | fuel + 1, R, P, X, H =>
    if P ≠ 0 then
      match pivot P X with
      | .error e => .error e
      | .ok u =>
        match g[u]? with
        | none => .error .index
        | some unbs =>
          match bk2LoopT g pivot emit fuel (bkMinus P unbs) (NextOne (bkMinus P unbs) 0)
              R P X H with
          | .error e => .error e
          | .ok (b, H1, cs) => .ok (b, H1, ⟨R, P, X⟩ :: cs)
    else if X = 0 then
      match bkEmit emit R H with
      | .error e => .error e
      | .ok (b, H1) => .ok (b, H1, [⟨R, P, X⟩])
    else .ok (true, H, [⟨R, P, X⟩])
termination_by structural fuel => fuel

/-- The loop of the closure f of BronKerbosch2, as bk2Loop, with the record of the calls of
f made from it. -/
def bk2LoopT (g : LabeledAdjacencyList) (pivot : Pivot) (emit : Emit) :
    Nat → Nat → Option Nat → Nat → Nat → Nat → List (List Nat) →
      Except Err (Bool × List (List Nat) × List BKCall)
  | 0, _, _, _, _, _, _ => .error .fuel
  | _ + 1, _, none, _, _, _, H => .ok (true, H, [])
  | fuel + 1, pnu, some n, R, P, X, H =>
    match g[n]? with
    | none => .error .index
    | some nbs =>
      match bk2FT g pivot emit fuel (SetBit1 R n) (bkRestrict P X nbs).1
          (bkRestrict P X nbs).2 H with
      | .error e => .error e
      | .ok (false, H1, cs) => .ok (false, H1, cs)
      | .ok (true, H1, cs) =>
        match bk2LoopT g pivot emit fuel pnu (NextOne pnu (n + 1)) R (SetBit0 P n)
            (SetBit1 X n) H1 with
        | .error e => .error e
        | .ok (b, H2, cs2) => .ok (b, H2, cs ++ cs2)
termination_by structural fuel => fuel
end

/-- LabeledUndirected.BronKerbosch2 with the record of the calls of f. -/
def BronKerbosch2T (g : LabeledAdjacencyList) (pivot : Pivot) (emit : Emit) (fuel : Nat) :
    Except Err (List (List Nat) × List BKCall) :=
  match bk2FT g pivot emit fuel 0 (OneBits g.length) 0 [] with
  | .error e => .error e
  | .ok (_, H, cs) => .ok (H, cs)

/-- The loop of BronKerbosch3 over the degeneracy ordering, as bk3Loop, with the record of
the calls of f. -/
def bk3LoopT (g : LabeledAdjacencyList) (pivot : Pivot) (emit : Emit) (fuel : Nat) :
    List Nat → Nat → Nat → Nat → List (List Nat) →
      Except Err (List (List Nat) × List BKCall)
  | [], _, _, _, H => .ok (H, [])
  | n :: rest, R, P, X, H =>
    match g[n]? with
    | none => .error .index
    | some nbs =>
      match bk2FT g pivot emit fuel (SetBit1 R n) (bkRestrict P X nbs).1
          (bkRestrict P X nbs).2 H with
      | .error e => .error e
      | .ok (false, H1, cs) => .ok (H1, cs)
      | .ok (true, H1, cs) =>
        match bk3LoopT g pivot emit fuel rest (SetBit0 (SetBit1 R n) n) (SetBit0 P n)
            (SetBit1 X n) H1 with
        | .error e => .error e
        | .ok (H2, cs2) => .ok (H2, cs ++ cs2)

/-- LabeledUndirected.BronKerbosch3 with the record of the calls of f.  When Degeneracy
fails the method fails before its loop, so before any call of f. -/
def BronKerbosch3T (g : LabeledAdjacencyList) (pivot : Pivot) (emit : Emit) (fuel : Nat) :
    Except Err (List (List Nat) × List BKCall) :=
  match LabeledUndirected.Degeneracy g with
  | .error e => .error e
  | .ok (_, ord, _) => bk3LoopT g pivot emit fuel ord 0 (OneBits g.length) 0 []

/-- The arguments of a call of f are as the BronKerbosch methods need them: R, P and X
are pairwise disjoint, R is a clique of g (nodes of g, any two of them adjacent), and every
node of P and of X is adjacent to every node of R. -/
def BKCallOk (g : LabeledAdjacencyList) (c : BKCall) : Prop :=
  (∀ w, Bit c.R w = true → Bit c.P w = false ∧ Bit c.X w = false) ∧
  (∀ w, Bit c.P w = true → Bit c.X w = false) ∧
  (∀ u, Bit c.R u = true → u < g.length) ∧
  (∀ u v, Bit c.R u = true → Bit c.R v = true → u ≠ v → Adjacent g u v) ∧
  (∀ w, Bit c.P w = true ∨ Bit c.X w = true → ∀ u, Bit c.R u = true → Adjacent g u w)

theorem bit_setBit1 (bm n m : Nat) : Bit (SetBit1 bm n) m = (Bit bm m || decide (n = m)) := by
  unfold Bit SetBit1
  rw [Nat.testBit_or, Nat.one_shiftLeft, Nat.testBit_two_pow]

theorem bit_setBit0 (bm n m : Nat) : Bit (SetBit0 bm n) m = (Bit bm m && !decide (n = m)) := by
  unfold Bit SetBit0
  rw [Nat.testBit_xor, Nat.testBit_and, Nat.one_shiftLeft, Nat.testBit_two_pow]
  cases Nat.testBit bm m <;> cases decide (n = m) <;> rfl

theorem bit_zero (m : Nat) : Bit 0 m = false := by
  unfold Bit; simp

/-- Unfolding of a loop of Except steps over a non-empty list. -/
theorem foldlM_cons_ok {σ α ε : Type} (f : σ → α → Except ε σ) (s : σ) (x : α) (xs : List α)
    (r : σ) :
    (x :: xs).foldlM f s = .ok r ↔ ∃ s1, f s x = .ok s1 ∧ xs.foldlM f s1 = .ok r := by
  rw [List.foldlM_cons]
  cases h : f s x with
  | error e => simp [bind, Except.bind]
  | ok s1 => simp [bind, Except.bind]

theorem foldlM_nil_ok {σ α ε : Type} (f : σ → α → Except ε σ) (s : σ) (r : σ) :
    ([] : List α).foldlM f s = .ok r ↔ s = r := by
  simp [List.foldlM_nil, pure, Except.pure]

theorem unsetCount_mono (g : AdjacencyList) (bm bm' : Nat)
    (h : ∀ m, Bit bm m = true → Bit bm' m = true) : unsetCount g bm' ≤ unsetCount g bm := by
  unfold unsetCount
  apply Finset.card_le_card
  intro m hm
  simp only [Finset.mem_filter, Finset.mem_range] at hm ⊢
  refine ⟨hm.1, ?_⟩
  cases hb : Bit bm m
  · rfl
  · rw [h m hb] at hm; exact absurd hm.2 (by simp)

theorem unsetCount_setBit1_lt (g : AdjacencyList) (bm n : Nat) (hn : n < g.length)
    (hbit : Bit bm n = false) : unsetCount g (SetBit1 bm n) < unsetCount g bm := by
  unfold unsetCount
  apply Finset.card_lt_card
  rw [Finset.ssubset_iff_of_subset]
  · refine ⟨n, ?_, ?_⟩
    · simp [hn, hbit]
    · simp [bit_setBit1]
  · intro m hm
    simp only [Finset.mem_filter, Finset.mem_range, bit_setBit1, Bool.or_eq_false_iff] at hm ⊢
    exact ⟨hm.1, hm.2.1⟩

theorem unsetReach_anti (g : AdjacencyList) (bm bm' : Nat)
    (h : ∀ m, Bit bm m = true → Bit bm' m = true) (s m : Nat) (hr : UnsetReach g bm' s m) :
    UnsetReach g bm s m := by
  have hf : ∀ x, Bit bm' x = false → Bit bm x = false := by
    intro x hx
    cases hb : Bit bm x
    · rfl
    · rw [h x hb] at hx; exact absurd hx (by simp)
  refine ⟨hf _ hr.1, ?_⟩
  exact Relation.ReflTransGen.mono (fun a b hab => ⟨hab.1, hf _ hab.2⟩) hr.2

theorem df_post (g : AdjacencyList) (v : Option Visitor) :
    ∀ fuel n st st', df g v fuel n st = .ok st' →
      BmLe st.bm st'.bm ∧ Bit st'.bm n = true ∧
      (∀ m, Bit st'.bm m = true → Bit st.bm m = false → UnsetReach g st.bm n m) := by
  intro fuel
  induction fuel with
  | zero => intro n st st' h; simp [df] at h
  | succ fuel ih =>
    intro n st st' h
    -- the loop over the neighbours
    have loop : ∀ (nbs : List Nat) (s s' : DFState),
        nbs.foldlM (fun s nb => df g v fuel nb s) s = .ok s' →
        BmLe s.bm s'.bm ∧
        (∀ m, Bit s'.bm m = true → Bit s.bm m = false → ∃ nb ∈ nbs, UnsetReach g s.bm nb m) := by
      intro nbs
      induction nbs with
      | nil =>
        intro s s' hs
        rw [foldlM_nil_ok] at hs
        subst hs
        exact ⟨fun m hm => hm, fun m h1 h0 => by rw [h1] at h0; exact absurd h0 (by simp)⟩
      | cons nb rest ihl =>
        intro s s' hs
        rw [foldlM_cons_ok] at hs
        obtain ⟨s1, h1, h2⟩ := hs
        obtain ⟨hle1, _, hr1⟩ := ih nb s s1 h1
        obtain ⟨hle2, hr2⟩ := ihl s1 s' h2
        refine ⟨fun m hm => hle2 m (hle1 m hm), ?_⟩
        intro m hm h0
        cases hb : Bit s1.bm m
        · obtain ⟨nb', hnb', hreach⟩ := hr2 m hm hb
          exact ⟨nb', List.mem_cons_of_mem _ hnb', unsetReach_anti g s.bm s1.bm hle1 _ _ hreach⟩
        · exact ⟨nb, List.mem_cons_self _ _, hr1 m hb h0⟩
    have finish : ∀ (nbs : List Nat) (s1 : DFState), g[n]? = some nbs → Bit st.bm n = false →
        s1.bm = SetBit1 st.bm n →
        nbs.foldlM (fun s nb => df g v fuel nb s) s1 = .ok st' →
        BmLe st.bm st'.bm ∧ Bit st'.bm n = true ∧
        (∀ m, Bit st'.bm m = true → Bit st.bm m = false → UnsetReach g st.bm n m) := by
      intro nbs s1 hg hn hs1 hl
      obtain ⟨hle, hr⟩ := loop nbs s1 st' hl
      have hle0 : BmLe st.bm s1.bm := by
        intro m hm; rw [hs1, bit_setBit1, hm]; rfl
      have hn1 : Bit s1.bm n = true := by rw [hs1, bit_setBit1]; simp
      refine ⟨fun m hm => hle m (hle0 m hm), hle n hn1, ?_⟩
      intro m hm h0
      cases hb : Bit s1.bm m
      · obtain ⟨nb, hnb, hreach⟩ := hr m hm hb
        have hreach' := unsetReach_anti g st.bm s1.bm hle0 _ _ hreach
        exact ⟨hn, Relation.ReflTransGen.head ⟨⟨nbs, hg, hnb⟩, hreach'.1⟩ hreach'.2⟩
      · rw [hs1, bit_setBit1, h0] at hb
        simp at hb
        subst hb
        exact ⟨h0, Relation.ReflTransGen.refl⟩
    rw [df] at h
    by_cases hbit : Bit st.bm n = true
    · simp only [hbit, if_true] at h
      cases h
      exact ⟨fun m hm => hm, hbit, fun m h1 h0 => by rw [h1] at h0; exact absurd h0 (by simp)⟩
    · simp only [hbit, if_false] at h
      simp only [Bool.not_eq_true] at hbit
      cases v with
      | none =>
        simp only at h
        cases hg : g[n]? with
        | none => simp [hg] at h
        | some nbs =>
          simp only [hg] at h
          exact finish nbs _ hg hbit rfl h
      | some vf =>
        simp only at h
        cases hr : vf st.calls n (SetBit1 st.bm n) with
        | false =>
          simp only [hr, Bool.not_false, if_true] at h
          cases h
          refine ⟨?_, ?_, ?_⟩
          · intro m hm; simp [bit_setBit1, hm]
          · simp [bit_setBit1]
          · intro m hm h0
            simp only [bit_setBit1, h0, Bool.false_or, decide_eq_true_eq] at hm
            subst hm
            exact ⟨h0, Relation.ReflTransGen.refl⟩
        | true =>
          simp only [hr, Bool.not_true, Bool.false_eq_true, if_false] at h
          cases hg : g[n]? with
          | none => simp [hg] at h
          | some nbs =>
            simp only [hg] at h
            exact finish nbs _ hg hbit rfl h

/-- Inversion of one call of df that returns. -/
theorem df_inv (g : AdjacencyList) (v : Option Visitor) (fuel n : Nat) (st st' : DFState)
    (h : df g v (fuel + 1) n st = .ok st') :
    (Bit st.bm n = true ∧ st' = st) ∨
    (Bit st.bm n = false ∧ ∃ vf, v = some vf ∧ vf st.calls n (SetBit1 st.bm n) = false ∧
      st' = ⟨SetBit1 st.bm n, false, st.calls ++ [⟨n, SetBit1 st.bm n, false⟩]⟩) ∨
    (Bit st.bm n = false ∧ ∃ nbs s1, g[n]? = some nbs ∧ s1.bm = SetBit1 st.bm n ∧
      s1.ok = st.ok ∧
      ((v = none ∧ s1.calls = st.calls) ∨
        (∃ vf, v = some vf ∧ vf st.calls n (SetBit1 st.bm n) = true ∧
          s1.calls = st.calls ++ [⟨n, SetBit1 st.bm n, true⟩])) ∧
      nbs.foldlM (fun s nb => df g v fuel nb s) s1 = .ok st') := by
  rw [df] at h
  by_cases hbit : Bit st.bm n = true
  · simp only [hbit, if_true] at h
    cases h
    exact Or.inl ⟨hbit, rfl⟩
  · simp only [hbit, if_false] at h
    simp only [Bool.not_eq_true] at hbit
    cases v with
    | none =>
      simp only at h
      cases hg : g[n]? with
      | none => simp [hg] at h
      | some nbs =>
        simp only [hg] at h
        exact Or.inr (Or.inr ⟨hbit, nbs, ⟨SetBit1 st.bm n, st.ok, st.calls⟩, rfl, rfl, rfl,
          Or.inl ⟨rfl, rfl⟩, h⟩)
    | some vf =>
      simp only at h
      cases hr : vf st.calls n (SetBit1 st.bm n) with
      | false =>
        simp only [hr, Bool.not_false, if_true] at h
        cases h
        exact Or.inr (Or.inl ⟨hbit, vf, rfl, hr, rfl⟩)
      | true =>
        simp only [hr, Bool.not_true, Bool.false_eq_true, if_false] at h
        cases hg : g[n]? with
        | none => simp [hg] at h
        | some nbs =>
          simp only [hg] at h
          exact Or.inr (Or.inr ⟨hbit, nbs,
            ⟨SetBit1 st.bm n, st.ok, st.calls ++ [⟨n, SetBit1 st.bm n, true⟩]⟩, rfl, rfl, rfl,
            Or.inr ⟨vf, rfl, hr, rfl⟩, h⟩)

/-- With a budget above the number of unset nodes, df returns on a bounds-valid graph. -/
theorem df_total (g : AdjacencyList) (v : Option Visitor) (hb : BoundsValid g) :
    ∀ fuel n st, n < g.length → unsetCount g st.bm < fuel → ∃ st', df g v fuel n st = .ok st' := by
  intro fuel
  induction fuel with
  | zero => intro n st _ h; exact absurd h (Nat.not_lt_zero _)
  | succ fuel ih =>
    intro n st hn hfuel
    have loop : ∀ (nbs : List Nat) (s : DFState), (∀ nb ∈ nbs, nb < g.length) →
        unsetCount g s.bm < fuel → ∃ s', nbs.foldlM (fun s nb => df g v fuel nb s) s = .ok s' := by
      intro nbs
      induction nbs with
      | nil => intro s _ _; exact ⟨s, rfl⟩
      | cons nb rest ihl =>
        intro s hlt hc
        obtain ⟨s1, h1⟩ := ih nb s (hlt nb (List.mem_cons_self _ _)) hc
        have hle := (df_post g v fuel nb s s1 h1).1
        obtain ⟨s2, h2⟩ := ihl s1 (fun x hx => hlt x (List.mem_cons_of_mem _ hx))
          (lt_of_le_of_lt (unsetCount_mono g _ _ hle) hc)
        exact ⟨s2, (foldlM_cons_ok _ _ _ _ _).2 ⟨s1, h1, h2⟩⟩
    obtain ⟨nbs, hg⟩ : ∃ nbs, g[n]? = some nbs := ⟨g[n], List.getElem?_eq_getElem hn⟩
    have hnbs : ∀ nb ∈ nbs, nb < g.length := hb nbs (List.getElem?_mem hg)
    rw [df]
    by_cases hbit : Bit st.bm n = true
    · simp only [hbit, if_true]; exact ⟨st, rfl⟩
    · simp only [hbit, if_false]
      simp only [Bool.not_eq_true] at hbit
      have hc : unsetCount g (SetBit1 st.bm n) < fuel :=
        lt_of_lt_of_le (unsetCount_setBit1_lt g st.bm n hn hbit) (Nat.lt_succ_iff.1 hfuel)
      cases v with
      | none =>
        simp only [hg]
        exact loop nbs _ hnbs hc
      | some vf =>
        simp only
        cases hr : vf st.calls n (SetBit1 st.bm n) with
        | false => simp
        | true =>
          simp only [Bool.not_true, Bool.false_eq_true, if_false, hg]
          exact loop nbs _ hnbs hc

theorem dfLoop_mono (g : AdjacencyList) (v : Option Visitor) (fuel : Nat) :
    ∀ (nbs : List Nat) (s s' : DFState),
      nbs.foldlM (fun s nb => df g v fuel nb s) s = .ok s' → BmLe s.bm s'.bm := by
  intro nbs
  induction nbs with
  | nil => intro s s' hs; rw [foldlM_nil_ok] at hs; subst hs; exact fun m hm => hm
  | cons nb rest ihl =>
    intro s s' hs
    rw [foldlM_cons_ok] at hs
    obtain ⟨s1, h1, h2⟩ := hs
    exact fun m hm => ihl s1 s' h2 m ((df_post g v fuel nb s s1 h1).1 m hm)

/-- With no visitor, or a visitor that never returns false, every node that a call of df
sets has all of its successors set when the call returns. -/
theorem df_closed (g : AdjacencyList) (v : Option Visitor)
    (hv : ∀ vf, v = some vf → ∀ h n b, vf h n b = true) :
    ∀ fuel n st st', df g v fuel n st = .ok st' →
      ∀ u, Bit st'.bm u = true → Bit st.bm u = false → ∀ w, Arc g u w → Bit st'.bm w = true := by
  intro fuel
  induction fuel with
  | zero => intro n st st' h; simp [df] at h
  | succ fuel ih =>
    intro n st st' h
    have loop : ∀ (nbs : List Nat) (s s' : DFState),
        nbs.foldlM (fun s nb => df g v fuel nb s) s = .ok s' →
        (∀ nb ∈ nbs, Bit s'.bm nb = true) ∧
        (∀ u, Bit s'.bm u = true → Bit s.bm u = false → ∀ w, Arc g u w → Bit s'.bm w = true) := by
      intro nbs
      induction nbs with
      | nil =>
        intro s s' hs
        rw [foldlM_nil_ok] at hs
        subst hs
        exact ⟨fun nb hnb => absurd hnb (List.not_mem_nil _),
          fun u h1 h0 => by rw [h1] at h0; exact absurd h0 (by simp)⟩
      | cons nb rest ihl =>
        intro s s' hs
        rw [foldlM_cons_ok] at hs
        obtain ⟨s1, h1, h2⟩ := hs
        have hmono := dfLoop_mono g v fuel rest s1 s' h2
        obtain ⟨ha, hc⟩ := ihl s1 s' h2
        refine ⟨?_, ?_⟩
        · intro x hx
          rcases List.mem_cons.1 hx with rfl | hx
          · exact hmono _ (df_post g v fuel _ s s1 h1).2.1
          · exact ha x hx
        · intro u hu h0 w hw
          cases hb : Bit s1.bm u
          · exact hc u hu hb w hw
          · exact hmono _ (ih nb s s1 h1 u hb h0 w hw)
    rcases df_inv g v fuel n st st' h with ⟨_, rfl⟩ | ⟨_, vf, hvf, hfalse, _⟩ |
      ⟨hbit, nbs, s1, hg, hbm, _, _, hl⟩
    · intro u h1 h0; rw [h1] at h0; exact absurd h0 (by simp)
    · rw [hv vf hvf] at hfalse; exact absurd hfalse (by simp)
    · obtain ⟨ha, hc⟩ := loop nbs s1 st' hl
      intro u hu h0 w hw
      cases hb : Bit s1.bm u
      · exact hc u hu hb w hw
      · rw [hbm, bit_setBit1, h0] at hb
        simp only [Bool.false_or, decide_eq_true_eq] at hb
        subst hb
        obtain ⟨nbs', hg', hw'⟩ := hw
        rw [hg] at hg'
        cases hg'
        exact ha w hw'

/-- With no visitor the record of calls and the result ok are left as they were. -/
theorem df_nil (g : AdjacencyList) :
    ∀ fuel n st st', df g none fuel n st = .ok st' → st'.calls = st.calls ∧ st'.ok = st.ok := by
  intro fuel
  induction fuel with
  | zero => intro n st st' h; simp [df] at h
  | succ fuel ih =>
    intro n st st' h
    have loop : ∀ (nbs : List Nat) (s s' : DFState),
        nbs.foldlM (fun s nb => df g none fuel nb s) s = .ok s' →
        s'.calls = s.calls ∧ s'.ok = s.ok := by
      intro nbs
      induction nbs with
      | nil => intro s s' hs; rw [foldlM_nil_ok] at hs; subst hs; exact ⟨rfl, rfl⟩
      | cons nb rest ihl =>
        intro s s' hs
        rw [foldlM_cons_ok] at hs
        obtain ⟨s1, h1, h2⟩ := hs
        obtain ⟨a1, b1⟩ := ih nb s s1 h1
        obtain ⟨a2, b2⟩ := ihl s1 s' h2
        exact ⟨a2.trans a1, b2.trans b1⟩
    rcases df_inv g none fuel n st st' h with ⟨_, rfl⟩ | ⟨_, vf, hvf, _⟩ |
      ⟨hbit, nbs, s1, hg, hbm, hok, hcalls, hl⟩
    · exact ⟨rfl, rfl⟩
    · cases hvf
    · obtain ⟨a, b⟩ := loop nbs s1 st' hl
      rcases hcalls with ⟨_, hc⟩ | ⟨vf, hvf, _⟩
      · exact ⟨a.trans hc, b.trans hok⟩
      · cases hvf

theorem snoc_split {α : Type} {l : List α} {x : α} {a : List α} {c : α} {b : List α}
    (h : l ++ [x] = a ++ c :: b) :
    (b = [] ∧ a = l ∧ c = x) ∨ ∃ b', b = b' ++ [x] ∧ l = a ++ c :: b' := by
  rcases List.eq_nil_or_concat b with rfl | ⟨b', y, rfl⟩
  · left
    have := List.append_inj' h rfl
    exact ⟨rfl, this.1.symm, by simpa using this.2.symm⟩
  · right
    have h' : l ++ [x] = (a ++ c :: b') ++ [y] := by simpa using h
    have := List.append_inj' h' rfl
    refine ⟨b', ?_, this.1⟩
    have hxy : x = y := by simpa using this.2
    simp [hxy]

theorem traceInv_step (vf : Visitor) (bm0 : Nat) (st : DFState) (n : Nat)
    (hinv : TraceInv vf bm0 st) (hbit : Bit st.bm n = false) :
    TraceInv vf bm0 ⟨SetBit1 st.bm n, st.ok && vf st.calls n (SetBit1 st.bm n),
      st.calls ++ [⟨n, SetBit1 st.bm n, vf st.calls n (SetBit1 st.bm n)⟩]⟩ := by
  obtain ⟨h1, h2, h3, h4, h5⟩ := hinv
  have hn0 : Bit bm0 n = false := by
    cases hb : Bit bm0 n
    · rfl
    · rw [(h1 n).2 (Or.inl hb)] at hbit; exact absurd hbit (by simp)
  have hnc : n ∉ st.calls.map Call.node := by
    intro hmem
    rw [(h1 n).2 (Or.inr hmem)] at hbit; exact absurd hbit (by simp)
  have hbm : ∀ m, Bit (SetBit1 st.bm n) m = true ↔
      (Bit bm0 m = true ∨ m ∈ (st.calls ++ [(⟨n, SetBit1 st.bm n,
        vf st.calls n (SetBit1 st.bm n)⟩ : Call)]).map Call.node) := by
    intro m
    rw [bit_setBit1]
    simp only [Bool.or_eq_true, decide_eq_true_eq, h1 m, List.map_append, List.map_cons,
      List.map_nil, List.mem_append, List.mem_singleton]
    constructor
    · rintro ((h | h) | h)
      · exact Or.inl h
      · exact Or.inr (Or.inl h)
      · exact Or.inr (Or.inr h.symm)
    · rintro (h | h | h)
      · exact Or.inl (Or.inl h)
      · exact Or.inl (Or.inr h)
      · exact Or.inr h.symm
  refine ⟨hbm, ?_, ?_, ?_, ?_⟩
  · simp only [List.map_append, List.map_cons, List.map_nil]
    rw [List.nodup_append]
    refine ⟨h2, List.nodup_singleton _, ?_⟩
    intro x hx hx'
    rw [List.mem_singleton] at hx'
    subst hx'
    exact hnc hx
  · intro m hm
    simp only [List.map_append, List.map_cons, List.map_nil, List.mem_append,
      List.mem_singleton] at hm
    rcases hm with hm | rfl
    · exact h3 m hm
    · exact hn0
  · intro a c b hsplit
    rcases snoc_split hsplit with ⟨_, rfl, rfl⟩ | ⟨b', _, hl⟩
    · exact ⟨rfl, hbm⟩
    · exact h4 a c b' hl
  · simp only [Bool.and_eq_true, h5, List.mem_append, List.mem_singleton]
    constructor
    · rintro ⟨ha, hb⟩ c (hc | rfl)
      · exact ha c hc
      · exact hb
    · intro h
      exact ⟨fun c hc => h c (Or.inl hc), h _ (Or.inr rfl)⟩

/-- The record of visitor calls stays in agreement with the initial bitmap over a call of
df. -/
theorem df_trace (g : AdjacencyList) (vf : Visitor) (bm0 : Nat) :
    ∀ fuel n st st', df g (some vf) fuel n st = .ok st' → TraceInv vf bm0 st →
      TraceInv vf bm0 st' := by
  intro fuel
  induction fuel with
  | zero => intro n st st' h; simp [df] at h
  | succ fuel ih =>
    intro n st st' h hinv
    have loop : ∀ (nbs : List Nat) (s s' : DFState),
        nbs.foldlM (fun s nb => df g (some vf) fuel nb s) s = .ok s' →
        TraceInv vf bm0 s → TraceInv vf bm0 s' := by
      intro nbs
      induction nbs with
      | nil => intro s s' hs hi; rw [foldlM_nil_ok] at hs; subst hs; exact hi
      | cons nb rest ihl =>
        intro s s' hs hi
        rw [foldlM_cons_ok] at hs
        obtain ⟨s1, h1, h2⟩ := hs
        exact ihl s1 s' h2 (ih nb s s1 h1 hi)
    rcases df_inv g (some vf) fuel n st st' h with ⟨_, rfl⟩ | ⟨hbit, vf', hvf, hfalse, rfl⟩ |
      ⟨hbit, nbs, s1, hg, hbm, hok, hcalls, hl⟩
    · exact hinv
    · cases hvf
      have := traceInv_step vf bm0 st n hinv hbit
      rw [hfalse] at this
      simpa using this
    · rcases hcalls with ⟨hnone, _⟩ | ⟨vf', hvf, htrue, hc⟩
      · cases hnone
      · cases hvf
        have := traceInv_step vf bm0 st n hinv hbit
        rw [htrue] at this
        apply loop nbs s1 st' hl
        have hs1 : s1 = ⟨SetBit1 st.bm n, st.ok,
            st.calls ++ [⟨n, SetBit1 st.bm n, true⟩]⟩ := by
          cases s1; simp only at hbm hok hc; subst hbm hok hc; rfl
        rw [hs1]
        simpa using this

theorem unsetCount_le (g : AdjacencyList) (bm : Nat) : unsetCount g bm ≤ g.length := by
  unfold unsetCount
  calc ((Finset.range g.length).filter (fun m => Bit bm m = false)).card
      ≤ (Finset.range g.length).card := Finset.card_filter_le _ _
    _ = g.length := Finset.card_range _

theorem traceInv_init (vf : Visitor) (bm0 : Nat) : TraceInv vf bm0 ⟨bm0, true, []⟩ := by
  refine ⟨?_, ?_, ?_, ?_, ?_⟩
  · intro m; simp
  · simp
  · intro m hm; simp at hm
  · intro a c b h; simp at h
  · simp

theorem unsetReach_zero (g : AdjacencyList) (s m : Nat) : UnsetReach g 0 s m ↔ Reach g s m := by
  unfold UnsetReach Reach
  simp only [bit_zero, and_true, true_and]

/-- C1: on a bounds-valid graph, from a node s and an initial bitmap bm0, DepthFirst with no
visitor or with a visitor that always returns true returns, and the bitmap then holds exactly
bm0 and the nodes that can be reached from s along paths whose nodes are all unset in bm0;
a visitor is called exactly once on each newly set node and on no other; with bm0 = 0 the
final bitmap is exactly the set of nodes reachable from s. -/
theorem depthFirst_sets_reachable (g : AdjacencyList) (s bm0 : Nat) (v : Option Visitor)
    (fuel : Nat) (hb : BoundsValid g) (hs : s < g.length)
    (hv : ∀ vf, v = some vf → ∀ h n b, vf h n b = true) (hfuel : g.length < fuel) :
    ∃ r, DepthFirst g s (some bm0) v fuel = .ok r ∧
      (∀ m, Bit r.bm m = true ↔ (Bit bm0 m = true ∨ UnsetReach g bm0 s m)) ∧
      (v = none → r.calls = []) ∧
      (v ≠ none → (r.calls.map Call.node).Nodup ∧
        ∀ m, m ∈ r.calls.map Call.node ↔ (Bit r.bm m = true ∧ Bit bm0 m = false)) ∧
      (bm0 = 0 → ∀ m, Bit r.bm m = true ↔ Reach g s m) := by
  obtain ⟨r, hr⟩ := df_total g v hb fuel s ⟨bm0, true, []⟩ hs
    (lt_of_le_of_lt (unsetCount_le g bm0) hfuel)
  obtain ⟨hle, hself, hsound⟩ := df_post g v fuel s _ r hr
  have hclosed := df_closed g v hv fuel s _ r hr
  simp only at hle hself hsound hclosed
  have hset : ∀ m, Bit r.bm m = true ↔ (Bit bm0 m = true ∨ UnsetReach g bm0 s m) := by
    intro m
    constructor
    · intro hm
      cases h0 : Bit bm0 m
      · exact Or.inr (hsound m hm h0)
      · exact Or.inl rfl
    · rintro (h0 | ⟨hs0, hpath⟩)
      · exact hle m h0
      · have key : Bit r.bm m = true ∧ Bit bm0 m = false := by
          induction hpath with
          | refl => exact ⟨hself, hs0⟩
          | tail _ hstep ihp => exact ⟨hclosed _ ihp.1 ihp.2 _ hstep.1, hstep.2⟩
        exact key.1
  refine ⟨r, ?_, hset, ?_, ?_, ?_⟩
  · simpa [DepthFirst] using hr
  · rintro rfl
    exact (df_nil g fuel s _ r hr).1
  · intro hne
    obtain ⟨vf, rfl⟩ := Option.ne_none_iff_exists'.1 hne
    obtain ⟨h1, h2, h3, _, _⟩ := df_trace g vf bm0 fuel s _ r hr (traceInv_init vf bm0)
    refine ⟨h2, fun m => ⟨fun hm => ⟨(h1 m).2 (Or.inr hm), h3 m hm⟩, ?_⟩⟩
    rintro ⟨hm, h0⟩
    rcases (h1 m).1 hm with h | h
    · rw [h] at h0; exact absurd h0 (by simp)
    · exact h
  · rintro rfl m
    rw [hset m, unsetReach_zero]
    simp [bit_zero]

/-- C2, the code at a failing input: on the graph 0 -> 1, 0 -> 2 with a visitor that returns
false on node 1, DepthFirst goes on after that answer: it sets the bit of node 2 and calls
the visitor on node 2. -/
theorem depthFirst_goes_on_after_false :
    DepthFirst [[1, 2], [], []] 0 (some 0) (some (fun _ n _ => n != 1)) 4 =
      .ok ⟨7, false, [⟨0, 1, true⟩, ⟨1, 3, false⟩, ⟨2, 7, true⟩]⟩ := by
  rfl

/-- C3: whenever DepthFirst returns, it returns false exactly when bm and v are both nil, in
which case no call is made and no bit is set, or some call of the visitor returned false
(the recorded answers are the answers of the visitor), and so it returns true when v is nil
and bm is supplied; and on a bounds-valid graph, from a node of the graph, DepthFirst does
return. -/
theorem depthFirst_false_iff (g : AdjacencyList) (s : Nat) (bm : Option Nat)
    (v : Option Visitor) (fuel : Nat) :
    (∀ r, DepthFirst g s bm v fuel = .ok r →
      (r.ok = false ↔ ((bm = none ∧ v = none) ∨ ∃ c ∈ r.calls, c.ret = false)) ∧
      (bm = none → v = none → r.calls = [] ∧ r.bm = 0) ∧
      (∀ vf, v = some vf → ∀ a c b, r.calls = a ++ c :: b → c.ret = vf a c.node c.bm) ∧
      (v = none → bm ≠ none → r.ok = true)) ∧
    (BoundsValid g → s < g.length → g.length < fuel →
      ∃ r, DepthFirst g s bm v fuel = .ok r) := by
  have key : (bm = none → ∃ vf, v = some vf) →
      DepthFirst g s bm v fuel = df g v fuel s ⟨bm.getD 0, true, []⟩ := by
    intro hcase
    cases bm with
    | none => obtain ⟨vf, rfl⟩ := hcase rfl; rfl
    | some b => cases v <;> rfl
  constructor
  · intro r hrun
    cases v with
    | none =>
      cases bm with
      | none =>
        have hr : r = ⟨0, false, []⟩ := by
          simp only [DepthFirst] at hrun
          cases hrun
          rfl
        subst hr
        refine ⟨?_, ?_, ?_, ?_⟩
        · simp
        · intro _ _; exact ⟨rfl, rfl⟩
        · intro vf h; cases h
        · intro _ h; exact absurd rfl h
      | some b =>
        rw [key (fun h => by cases h)] at hrun
        obtain ⟨hc, hok⟩ := df_nil g fuel s _ r hrun
        simp only at hc hok
        refine ⟨?_, ?_, ?_, ?_⟩
        · simp [hc, hok]
        · intro h; cases h
        · intro vf h; cases h
        · intro _ _; exact hok
    | some vf =>
      rw [key (fun _ => ⟨vf, rfl⟩)] at hrun
      obtain ⟨_, _, _, h4, h5⟩ := df_trace g vf (bm.getD 0) fuel s _ r hrun
        (traceInv_init vf (bm.getD 0))
      refine ⟨?_, ?_, ?_, ?_⟩
      · constructor
        · intro hf
          right
          by_contra hcon
          push_neg at hcon
          have : r.ok = true := h5.2 (fun c hc => by simpa using hcon c hc)
          rw [this] at hf; exact absurd hf (by simp)
        · rintro (⟨_, h⟩ | ⟨c, hc, hret⟩)
          · cases h
          · cases hok : r.ok
            · rfl
            · rw [h5.1 hok c hc] at hret; exact absurd hret (by simp)
      · intro _ h; cases h
      · intro vf' hvf a c b hsplit
        cases hvf
        exact (h4 a c b hsplit).1
      · intro h; cases h
  · intro hb hs hfuel
    cases v with
    | none =>
      cases bm with
      | none => exact ⟨⟨0, false, []⟩, rfl⟩
      | some b =>
        rw [key (fun h => by cases h)]
        exact df_total g none hb fuel s _ hs (lt_of_le_of_lt (unsetCount_le g _) hfuel)
    | some vf =>
      rw [key (fun _ => ⟨vf, rfl⟩)]
      exact df_total g (some vf) hb fuel s _ hs (lt_of_le_of_lt (unsetCount_le g _) hfuel)

/-- C4: whenever DepthFirst returns, at every call of the visitor the bit of the node passed
was already set in the bitmap, which at that moment held exactly the initial bitmap (0 when
bm is nil) and the nodes on which the visitor had been called so far, that node included;
and on a bounds-valid graph, from a node of the graph, DepthFirst does return. -/
theorem depthFirst_bit_set_before_visit (g : AdjacencyList) (s : Nat) (bm : Option Nat)
    (vf : Visitor) (fuel : Nat) :
    (∀ r, DepthFirst g s bm (some vf) fuel = .ok r →
      ∀ a c b, r.calls = a ++ c :: b →
        (Bit c.bm c.node = true ∧
          ∀ m, Bit c.bm m = true ↔
            (Bit (bm.getD 0) m = true ∨ m ∈ (a ++ [c]).map Call.node))) ∧
    (BoundsValid g → s < g.length → g.length < fuel →
      ∃ r, DepthFirst g s bm (some vf) fuel = .ok r) := by
  have key : DepthFirst g s bm (some vf) fuel = df g (some vf) fuel s ⟨bm.getD 0, true, []⟩ := by
    cases bm <;> rfl
  rw [key]
  constructor
  · intro r hrun a c b hsplit
    obtain ⟨_, _, _, h4, _⟩ := df_trace g vf (bm.getD 0) fuel s _ r hrun
      (traceInv_init vf (bm.getD 0))
    have h := (h4 a c b hsplit).2
    exact ⟨(h c.node).2 (Or.inr (by simp)), h⟩
  · intro hb hs hfuel
    exact df_total g (some vf) hb fuel s _ hs (lt_of_le_of_lt (unsetCount_le g _) hfuel)

theorem depthFirst_sets_reachable_witness :
    BoundsValid [[1, 2], [2], [3], [1]] ∧
    ∃ r, DepthFirst [[1, 2], [2], [3], [1]] 0 (some 0) none 5 = .ok r ∧
      (∀ m, Bit r.bm m = true ↔ (Bit 0 m = true ∨ UnsetReach [[1, 2], [2], [3], [1]] 0 0 m)) ∧
      ((none : Option Visitor) = none → r.calls = []) ∧
      ((none : Option Visitor) ≠ none → (r.calls.map Call.node).Nodup ∧
        ∀ m, m ∈ r.calls.map Call.node ↔ (Bit r.bm m = true ∧ Bit 0 m = false)) ∧
      (0 = 0 → ∀ m, Bit r.bm m = true ↔ Reach [[1, 2], [2], [3], [1]] 0 m) :=
  ⟨by decide, depthFirst_sets_reachable [[1, 2], [2], [3], [1]] 0 0 none 5 (by decide)
    (by decide) (fun vf h => by cases h) (by decide)⟩

theorem depthFirst_false_iff_witness :
    BoundsValid [[1, 2], [], []] ∧
    ∃ r, DepthFirst [[1, 2], [], []] 0 (some 0) (some (fun _ n _ => n != 1)) 4 = .ok r ∧
      (r.ok = false ↔ (((some 0 : Option Nat) = none ∧
        (some (fun _ n _ => n != 1) : Option Visitor) = none) ∨ ∃ c ∈ r.calls, c.ret = false)) :=
  ⟨by decide, by
    obtain ⟨h1, h2⟩ :=
      depthFirst_false_iff [[1, 2], [], []] 0 (some 0) (some (fun _ n _ => n != 1)) 4
    obtain ⟨r, hr⟩ := h2 (by decide) (by decide) (by decide)
    exact ⟨r, hr, (h1 r hr).1⟩⟩

theorem depthFirst_bit_set_before_visit_witness :
    BoundsValid [[1, 2], [2], [3], [1]] ∧
    ∃ r, DepthFirst [[1, 2], [2], [3], [1]] 0 none (some (fun _ _ _ => true)) 5 = .ok r ∧
      ∀ a c b, r.calls = a ++ c :: b →
        (Bit c.bm c.node = true ∧
          ∀ m, Bit c.bm m = true ↔
            (Bit ((none : Option Nat).getD 0) m = true ∨ m ∈ (a ++ [c]).map Call.node)) :=
  ⟨by decide, by
    obtain ⟨h1, h2⟩ :=
      depthFirst_bit_set_before_visit [[1, 2], [2], [3], [1]] 0 none (fun _ _ _ => true) 5
    obtain ⟨r, hr⟩ := h2 (by decide) (by decide) (by decide)
    exact ⟨r, hr, h1 r hr⟩⟩

theorem arc_iff_arcCount (g : AdjacencyList) (u v : Nat) : Arc g u v ↔ 0 < arcCount g u v := by
  unfold Arc arcCount
  rw [List.count_pos_iff]
  constructor
  · rintro ⟨nbs, hg, hv⟩
    rw [List.getD_eq_getElem?_getD, hg]
    exact hv
  · intro h
    cases hg : g[u]? with
    | none => rw [List.getD_eq_getElem?_getD, hg] at h; simp at h
    | some nbs =>
      rw [List.getD_eq_getElem?_getD, hg] at h
      exact ⟨nbs, rfl, h⟩

theorem arc_lt (g : AdjacencyList) (u v : Nat) (h : Arc g u v) : u < g.length := by
  obtain ⟨nbs, hg, _⟩ := h
  by_contra hcon
  rw [List.getElem?_eq_none (Nat.le_of_not_lt hcon)] at hg
  cases hg

theorem arc_lt_right (g : AdjacencyList) (hb : BoundsValid g) (u v : Nat) (h : Arc g u v) :
    v < g.length := by
  obtain ⟨nbs, hg, hv⟩ := h
  exact hb nbs (List.getElem?_mem hg) v hv

/-- The arcs leaving the nodes of a duplicate-free list that misses u number, together with
the arcs from u, at most the in-degree. -/
theorem arcsFrom_add_le (g : AdjacencyList) (l : List Nat) (u v : Nat) (hnd : l.Nodup)
    (hl : ∀ x ∈ l, x < g.length) (hu : u < g.length) (hul : u ∉ l) :
    arcsFrom g l v + arcCount g u v ≤ inDegree g v := by
  have hnd' : (u :: l).Nodup := List.nodup_cons.2 ⟨hul, hnd⟩
  have hsub : (u :: l) ⊆ List.range g.length := by
    intro x hx
    rcases List.mem_cons.1 hx with rfl | hx
    · exact List.mem_range.2 hu
    · exact List.mem_range.2 (hl x hx)
  have hsp : List.Subperm (u :: l) (List.range g.length) := List.subperm_of_subset hnd' hsub
  obtain ⟨l', hperm, hsl⟩ := hsp
  have h1 : (l'.map (fun u => arcCount g u v)).sum ≤ inDegree g v := by
    unfold inDegree
    exact List.Sublist.sum_le_sum (hsl.map _) (fun a _ => Nat.zero_le a)
  have h2 : (l'.map (fun u => arcCount g u v)).sum = arcCount g u v + arcsFrom g l v := by
    rw [(hperm.map _).sum_eq]
    simp [arcsFrom]
  omega

theorem arcsFrom_le (g : AdjacencyList) (l : List Nat) (v : Nat) (hnd : l.Nodup)
    (hl : ∀ x ∈ l, x < g.length) : arcsFrom g l v ≤ inDegree g v := by
  have hsp : List.Subperm l (List.range g.length) :=
    List.subperm_of_subset hnd (fun x hx => List.mem_range.2 (hl x hx))
  obtain ⟨l', hperm, hsl⟩ := hsp
  have h1 : (l'.map (fun u => arcCount g u v)).sum ≤ inDegree g v := by
    unfold inDegree
    exact List.Sublist.sum_le_sum (hsl.map _) (fun a _ => Nat.zero_le a)
  rw [(hperm.map _).sum_eq] at h1
  exact h1

theorem nodup_length_le (l : List Nat) (n : Nat) (hnd : l.Nodup) (hl : ∀ x ∈ l, x < n) :
    l.length ≤ n := by
  have hsp : List.Subperm l (List.range n) :=
    List.subperm_of_subset hnd (fun x hx => List.mem_range.2 (hl x hx))
  simpa using hsp.length_le

/-- In an acyclic graph no non-empty set of nodes has a predecessor inside the set for
each of its members. -/
theorem acyclic_no_descent (g : AdjacencyList) (hac : Acyclic g) (P : Nat → Prop)
    (hP : ∀ v, P v → v < g.length) (hstep : ∀ v, P v → ∃ u, Arc g u v ∧ P u) :
    ∀ v, ¬ P v := by
  let r : Fin g.length → Fin g.length → Prop := fun a b => Relation.TransGen (Arc g) a.val b.val
  haveI : IsTrans (Fin g.length) r := ⟨fun a b c hab hbc => Relation.TransGen.trans hab hbc⟩
  haveI : IsIrrefl (Fin g.length) r := ⟨fun a ha => hac a.val ha⟩
  have wf : WellFounded r := Finite.wellFounded_of_trans_of_irrefl r
  have key : ∀ a : Fin g.length, ¬ P a.val := by
    intro a
    induction a using wf.induction with
    | _ a ih =>
      intro hpa
      obtain ⟨u, hu, hpu⟩ := hstep a.val hpa
      exact ih ⟨u, hP u hpu⟩ (Relation.TransGen.single hu) hpu
  intro v hv
  exact key ⟨v, hP v hv⟩ hv

theorem inDegree_eq_sum (g : AdjacencyList) (v : Nat) :
    inDegree g v = (g.map (fun nbs => nbs.count v)).sum := by
  unfold inDegree arcCount
  congr 1
  apply List.ext_getElem
  · simp
  · intro i h1 h2
    simp only [List.length_map, List.length_range] at h1
    simp [List.getD_eq_getElem?_getD, List.getElem?_eq_getElem h1]

theorem transposeArc_spec (n : Nat) (tm tm' : AdjacencyList × Nat) (nb : Nat)
    (h : transposeArc n tm nb = .ok tm') :
    tm'.1.length = tm.1.length ∧
    ∀ v, (tm'.1.getD v []).length = (tm.1.getD v []).length + [nb].count v := by
  unfold transposeArc at h
  cases hg : tm.1[nb]? with
  | none => simp [hg] at h
  | some l =>
    simp only [hg] at h
    cases h
    refine ⟨by simp, ?_⟩
    intro v
    have hlt : nb < tm.1.length := by
      by_contra hcon
      rw [List.getElem?_eq_none (Nat.le_of_not_lt hcon)] at hg
      cases hg
    by_cases hv : nb = v
    · subst hv
      simp [List.getD_eq_getElem?_getD, List.getElem?_set, hlt, hg]
    · have hv' : ¬ v = nb := fun h => hv h.symm
      simp [List.getD_eq_getElem?_getD, List.getElem?_set, hv, hv']

theorem transposeRow_spec (n : Nat) :
    ∀ (nbs : List Nat) (tm tm' : AdjacencyList × Nat),
      nbs.foldlM (transposeArc n) tm = .ok tm' →
      tm'.1.length = tm.1.length ∧
      ∀ v, (tm'.1.getD v []).length = (tm.1.getD v []).length + nbs.count v := by
  intro nbs
  induction nbs with
  | nil => intro tm tm' h; rw [foldlM_nil_ok] at h; subst h; simp
  | cons nb rest ih =>
    intro tm tm' h
    rw [foldlM_cons_ok] at h
    obtain ⟨tm1, h1, h2⟩ := h
    obtain ⟨a1, b1⟩ := transposeArc_spec n tm tm1 nb h1
    obtain ⟨a2, b2⟩ := ih tm1 tm' h2
    refine ⟨a2.trans a1, ?_⟩
    intro v
    rw [b2 v, b1 v, List.count_cons, List.count_cons]
    simp only [List.count_nil]
    omega

theorem transposeRow_total (n : Nat) :
    ∀ (nbs : List Nat) (tm : AdjacencyList × Nat), (∀ nb ∈ nbs, nb < tm.1.length) →
      ∃ tm', nbs.foldlM (transposeArc n) tm = .ok tm' := by
  intro nbs
  induction nbs with
  | nil => intro tm _; exact ⟨tm, rfl⟩
  | cons nb rest ih =>
    intro tm hlt
    have hnb := hlt nb (List.mem_cons_self _ _)
    have h1 : transposeArc n tm nb = .ok (tm.1.set nb (tm.1[nb] ++ [n]), tm.2 + 1) := by
      unfold transposeArc
      rw [List.getElem?_eq_getElem hnb]
    obtain ⟨tm', h2⟩ := ih (tm.1.set nb (tm.1[nb] ++ [n]), tm.2 + 1)
      (fun x hx => by simpa using hlt x (List.mem_cons_of_mem _ hx))
    exact ⟨tm', (foldlM_cons_ok _ _ _ _ _).2 ⟨_, h1, h2⟩⟩

theorem transposeRows_spec :
    ∀ (rows : List (List Nat)) (n : Nat) (tm tm' : AdjacencyList × Nat),
      transposeRows rows n tm = .ok tm' →
      tm'.1.length = tm.1.length ∧
      ∀ v, (tm'.1.getD v []).length =
        (tm.1.getD v []).length + (rows.map (fun nbs => nbs.count v)).sum := by
  intro rows
  induction rows with
  | nil => intro n tm tm' h; simp only [transposeRows] at h; cases h; simp
  | cons nbs rest ih =>
    intro n tm tm' h
    simp only [transposeRows] at h
    cases h1 : nbs.foldlM (transposeArc n) tm with
    | error e => simp [h1] at h
    | ok tm1 =>
      simp only [h1] at h
      obtain ⟨a1, b1⟩ := transposeRow_spec n nbs tm tm1 h1
      obtain ⟨a2, b2⟩ := ih (n + 1) tm1 tm' h
      refine ⟨a2.trans a1, ?_⟩
      intro v
      rw [b2 v, b1 v, List.map_cons, List.sum_cons]
      omega

theorem transposeRows_total :
    ∀ (rows : List (List Nat)) (n : Nat) (tm : AdjacencyList × Nat),
      (∀ nbs ∈ rows, ∀ nb ∈ nbs, nb < tm.1.length) →
      ∃ tm', transposeRows rows n tm = .ok tm' := by
  intro rows
  induction rows with
  | nil => intro n tm _; exact ⟨tm, rfl⟩
  | cons nbs rest ih =>
    intro n tm hlt
    obtain ⟨tm1, h1⟩ := transposeRow_total n nbs tm (hlt nbs (List.mem_cons_self _ _))
    have hlen := (transposeRow_spec n nbs tm tm1 h1).1
    obtain ⟨tm', h2⟩ := ih (n + 1) tm1
      (fun x hx y hy => by rw [hlen]; exact hlt x (List.mem_cons_of_mem _ hx) y hy)
    refine ⟨tm', ?_⟩
    simp only [transposeRows, h1]
    exact h2

/-- Transpose returns on a bounds-valid graph. -/
theorem transpose_total (g : AdjacencyList) (hb : BoundsValid g) :
    ∃ tr m, Transpose g = .ok (tr, m) := by
  obtain ⟨tm, h⟩ := transposeRows_total g 0 (List.replicate g.length [], 0)
    (fun nbs hn nb hnb => by simpa using hb nbs hn nb hnb)
  exact ⟨tm.1, tm.2, h⟩

/-- The transpose has a row for each node of g, of length the in-degree of the node. -/
theorem transpose_spec (g tr : AdjacencyList) (m : Nat) (h : Transpose g = .ok (tr, m)) :
    tr.length = g.length ∧ ∀ v, (tr.getD v []).length = inDegree g v := by
  obtain ⟨a, b⟩ := transposeRows_spec g 0 _ _ h
  refine ⟨by simpa using a, ?_⟩
  intro v
  rw [b v, inDegree_eq_sum]
  simp only [List.getD_eq_getElem?_getD]
  by_cases hv : v < g.length
  · simp [List.getElem?_replicate, hv]
  · simp [List.getElem?_replicate, hv]

theorem getD_set_eq (l : List Nat) (i x : Nat) (h : i < l.length) :
    (l.set i x).getD i 0 = x := by
  simp [List.getD_eq_getElem?_getD, List.getElem?_set, h]

theorem getD_set_ne (l : List Nat) (i j x : Nat) (h : i ≠ j) :
    (l.set i x).getD j 0 = l.getD j 0 := by
  simp [List.getD_eq_getElem?_getD, List.getElem?_set, h]

theorem drop_cons_inv {α : Type} (l : List α) (n : Nat) (x : α) (rest : List α)
    (h : l.drop n = x :: rest) : n < l.length ∧ l[n]? = some x ∧ l.drop (n + 1) = rest := by
  have hn : n < l.length := by
    by_contra hcon
    rw [List.drop_eq_nil_iff.2 (Nat.le_of_not_lt hcon)] at h
    cases h
  rw [List.drop_eq_getElem_cons hn] at h
  injection h with h1 h2
  exact ⟨hn, by rw [List.getElem?_eq_getElem hn, h1], h2⟩

theorem arc_lt_of_get (g : AdjacencyList) (n : Nat) (nbs : List Nat) (hg : g[n]? = some nbs) :
    n < g.length := by
  by_contra hcon
  rw [List.getElem?_eq_none (Nat.le_of_not_lt hcon)] at hg
  cases hg

theorem kahnInit_spec (tr : AdjacencyList) (N : Nat) (hN : tr.length ≤ N) :
    ∀ (rows : List (List Nat)) (n : Nat) (st : KState), tr.drop n = rows → n ≤ tr.length →
      KInitInv tr N n st → ∃ st', kahnInit rows n st = .ok st' ∧ KInitInv tr N tr.length st' := by
  intro rows
  induction rows with
  | nil =>
    intro n st hdrop hle hinv
    have hn : tr.length ≤ n := List.drop_eq_nil_iff.1 hdrop
    have : n = tr.length := le_antisymm hle hn
    subst this
    exact ⟨st, rfl, hinv⟩
  | cons fr rest ih =>
    intro n st hdrop hle hinv
    obtain ⟨hn, hget, hrest⟩ := drop_cons_inv tr n fr rest hdrop
    obtain ⟨h1, h2, h3, h4, h5, h6⟩ := hinv
    have hfr : tr.getD n [] = fr := by rw [List.getD_eq_getElem?_getD, hget]; rfl
    have hnS : n ∉ st.S := fun hmem => absurd ((h6 n).1 hmem).1 (lt_irrefl n)
    simp only [kahnInit]
    by_cases hlen : fr.length = 0
    · simp only [hlen, if_true]
      apply ih (n + 1) _ hrest hn
      refine ⟨h1, h2, ?_, ?_, ?_, ?_⟩
      · intro v hv
        rcases Nat.lt_succ_iff_lt_or_eq.1 hv with hv | rfl
        · exact h3 v hv
        · rw [h4 v (le_refl _), hfr, hlen]
      · intro v hv; exact h4 v (by omega)
      · exact List.Nodup.append h5 (List.nodup_singleton n)
          (by intro x hx hx'; rw [List.mem_singleton] at hx'; subst hx'; exact hnS hx)
      · intro v
        simp only [List.mem_append, List.mem_singleton, h6 v]
        constructor
        · rintro (⟨a, b⟩ | rfl)
          · exact ⟨by omega, b⟩
          · exact ⟨by omega, by rw [hfr, hlen]⟩
        · rintro ⟨a, b⟩
          rcases Nat.lt_succ_iff_lt_or_eq.1 a with a | rfl
          · exact Or.inl ⟨a, b⟩
          · exact Or.inr rfl
    · have hnr : n < st.rem.length := by omega
      simp only [hlen, if_false, hnr, if_true]
      apply ih (n + 1) _ hrest hn
      refine ⟨h1, by simpa using h2, ?_, ?_, h5, ?_⟩
      · intro v hv
        rcases Nat.lt_succ_iff_lt_or_eq.1 hv with hv | rfl
        · rw [getD_set_ne _ _ _ _ (by omega)]; exact h3 v hv
        · rw [getD_set_eq _ _ _ hnr, hfr]
      · intro v hv
        rw [getD_set_ne _ _ _ _ (by omega)]; exact h4 v (by omega)
      · intro v
        simp only [h6 v]
        constructor
        · rintro ⟨a, b⟩; exact ⟨by omega, b⟩
        · rintro ⟨a, b⟩
          rcases Nat.lt_succ_iff_lt_or_eq.1 a with a | rfl
          · exact ⟨a, b⟩
          · rw [hfr] at b; exact absurd b hlen

theorem kCore_init (g tr : AdjacencyList) (st : KState)
    (htr : tr.length = g.length ∧ ∀ v, (tr.getD v []).length = inDegree g v)
    (hinv : KInitInv tr g.length tr.length st) : KCore g st (arcsFrom g st.L) := by
  obtain ⟨h1, h2, h3, h4, h5, h6⟩ := hinv
  rw [htr.1] at h3 h4 h6
  refine ⟨h2, by rw [h1]; exact List.nodup_nil, h5, by rw [h1]; simp, ?_, by rw [h1]; simp,
    ?_, ?_, ?_⟩
  · intro v hv; exact ((h6 v).1 hv).1
  · intro v hv; rw [h1, h3 v hv, htr.2 v]; simp [arcsFrom]
  · intro v hv
    rw [h1, h3 v hv, h6 v]
    simp [hv]
  · intro a v b hsplit
    rw [h1] at hsplit
    simp at hsplit

theorem kahnArc_step (g : AdjacencyList) (st : KState) (credit : Nat → Nat) (m : Nat)
    (hc : KCore g st credit) (hm : m < g.length) (hpos : credit m < inDegree g m) :
    ∃ st', kahnArc st m = .ok st' ∧ st'.L = st.L ∧
      KCore g st' (fun v => credit v + [m].count v) := by
  obtain ⟨h1, h2, h3, h4, h5, h6, h7, h8, h9⟩ := hc
  have hmr : m < st.rem.length := by rw [h1]; exact hm
  have hget : st.rem[m]? = some (st.rem.getD m 0) := by
    rw [List.getD_eq_getElem?_getD, List.getElem?_eq_getElem hmr]; rfl
  have hr := h7 m hm
  have hrpos : st.rem.getD m 0 > 0 := by omega
  have hmS : m ∉ st.S := fun hmem => by
    have := (h8 m hm).2 (Or.inl hmem); omega
  have hmL : m ∉ st.L := fun hmem => by
    have := (h8 m hm).2 (Or.inr hmem); omega
  have hcredit : ∀ v, v < g.length →
      (st.rem.set m (st.rem.getD m 0 - 1)).getD v 0 + (credit v + [m].count v) =
        inDegree g v := by
    intro v hv
    by_cases hvm : m = v
    · subst hvm
      rw [getD_set_eq _ _ _ hmr]
      simp only [List.count_cons_self, List.count_nil]
      omega
    · rw [getD_set_ne _ _ _ _ hvm, List.count_cons_of_ne (fun h => hvm h.symm)]
      simpa using h7 v hv
  unfold kahnArc
  simp only [hget, hrpos, if_true]
  by_cases hz : st.rem.getD m 0 - 1 = 0
  · simp only [hz, if_true]
    refine ⟨_, rfl, rfl, ?_⟩
    refine ⟨by simpa using h1, h2, ?_, h4, ?_, ?_, ?_, ?_, h9⟩
    · exact List.Nodup.append h3 (List.nodup_singleton m)
        (by intro x hx hx'; rw [List.mem_singleton] at hx'; subst hx'; exact hmS hx)
    · intro v hv
      rcases List.mem_append.1 hv with hv | hv
      · exact h5 v hv
      · rw [List.mem_singleton] at hv; subst hv; exact hm
    · intro v hv
      rcases List.mem_append.1 hv with hv | hv
      · exact h6 v hv
      · rw [List.mem_singleton] at hv; subst hv; exact hmL
    · intro v hv
      have := hcredit v hv
      rw [hz] at this
      exact this
    · intro v hv
      by_cases hvm : m = v
      · subst hvm
        rw [getD_set_eq _ _ _ hmr]
        simp [hz]
      · rw [getD_set_ne _ _ _ _ hvm, h8 v hv]
        simp only [List.mem_append, List.mem_singleton]
        constructor
        · rintro (h | h)
          · exact Or.inl (Or.inl h)
          · exact Or.inr h
        · rintro ((h | h) | h)
          · exact Or.inl h
          · exact absurd h.symm hvm
          · exact Or.inr h
  · simp only [hz, if_false]
    refine ⟨_, rfl, rfl, ?_⟩
    refine ⟨by simpa using h1, h2, h3, h4, h5, h6, hcredit, ?_, h9⟩
    intro v hv
    by_cases hvm : m = v
    · subst hvm
      rw [getD_set_eq _ _ _ hmr]
      constructor
      · intro h; exact absurd h hz
      · rintro (h | h)
        · exact absurd h hmS
        · exact absurd h hmL
    · rw [getD_set_ne _ _ _ _ hvm]
      exact h8 v hv

theorem kahnInner (g : AdjacencyList) (hb : BoundsValid g) (n : Nat) (L0 nbs : List Nat)
    (hg : g[n]? = some nbs) (hL0 : L0.Nodup) (hL0lt : ∀ x ∈ L0, x < g.length) (hn : n ∉ L0) :
    ∀ (sfx pfx : List Nat) (st : KState), pfx ++ sfx = nbs → st.L = L0 ++ [n] →
      KCore g st (fun v => arcsFrom g L0 v + pfx.count v) →
      ∃ st', sfx.foldlM kahnArc st = .ok st' ∧ st'.L = L0 ++ [n] ∧
        KCore g st' (fun v => arcsFrom g L0 v + nbs.count v) := by
  have hnlt : n < g.length := arc_lt_of_get g n nbs hg
  intro sfx
  induction sfx with
  | nil =>
    intro pfx st hsplit hL hc
    rw [List.append_nil] at hsplit
    subst hsplit
    exact ⟨st, rfl, hL, hc⟩
  | cons m rest ih =>
    intro pfx st hsplit hL hc
    have hmem : m ∈ nbs := by rw [← hsplit]; simp
    have hm : m < g.length := hb nbs (List.getElem?_mem hg) m hmem
    have hcount : arcCount g n m = pfx.count m + 1 + rest.count m := by
      unfold arcCount
      rw [List.getD_eq_getElem?_getD, hg, ← hsplit]
      simp [List.count_append, List.count_cons_self]
      omega
    have hle := arcsFrom_add_le g L0 n m hL0 hL0lt hnlt hn
    obtain ⟨st1, h1, hL1, hc1⟩ := kahnArc_step g st _ m hc hm (by omega)
    have hc1' : KCore g st1 (fun v => arcsFrom g L0 v + (pfx ++ [m]).count v) := by
      have heq : (fun v => arcsFrom g L0 v + pfx.count v + [m].count v) =
          (fun v => arcsFrom g L0 v + (pfx ++ [m]).count v) := by
        funext v; rw [List.count_append]; omega
      rw [← heq]; exact hc1
    obtain ⟨st', h2, hL2, hc2⟩ := ih (pfx ++ [m]) st1 (by rw [← hsplit]; simp)
      (hL1.trans hL) hc1'
    exact ⟨st', (foldlM_cons_ok _ _ _ _ _).2 ⟨st1, h1, h2⟩, hL2, hc2⟩

theorem arcsFrom_append (g : AdjacencyList) (l : List Nat) (n v : Nat) :
    arcsFrom g (l ++ [n]) v = arcsFrom g l v + arcCount g n v := by
  simp [arcsFrom]

/-- The main loop of TopologicalKahn returns with S empty and keeps its invariant. -/
theorem kahnLoop_spec (g : AdjacencyList) (hb : BoundsValid g) :
    ∀ (fuel : Nat) (st : KState), KCore g st (arcsFrom g st.L) →
      g.length < fuel + st.L.length →
      ∃ st', kahnLoop g fuel st = .ok st' ∧ KCore g st' (arcsFrom g st'.L) ∧ st'.S = [] := by
  intro fuel
  induction fuel with
  | zero =>
    intro st hc hf
    have := nodup_length_le st.L g.length hc.2.1 hc.2.2.2.1
    omega
  | succ fuel ih =>
    intro st hc hf
    simp only [kahnLoop]
    cases hS : st.S.getLast? with
    | none =>
      refine ⟨st, rfl, hc, ?_⟩
      exact List.getLast?_eq_none_iff.1 hS
    | some n =>
      obtain ⟨h1, h2, h3, h4, h5, h6, h7, h8, h9⟩ := hc
      have hSeq : st.S.dropLast ++ [n] = st.S := List.dropLast_append_getLast? n hS
      have hnS : n ∈ st.S := by rw [← hSeq]; simp
      have hnlt : n < g.length := h5 n hnS
      have hnL : n ∉ st.L := h6 n hnS
      have hg : g[n]? = some g[n] := List.getElem?_eq_getElem hnlt
      have hnd : (st.S.dropLast ++ [n]).Nodup := by rw [hSeq]; exact h3
      have hnd' := List.nodup_append.1 hnd
      have hsubS : ∀ v, v ∈ st.S.dropLast → v ∈ st.S := by
        intro v hv; rw [← hSeq]; exact List.mem_append_left _ hv
      have hrem0 : st.rem.getD n 0 = 0 := (h8 n hnlt).2 (Or.inl hnS)
      have hmemS : ∀ v, v ∈ st.S ↔ (v ∈ st.S.dropLast ∨ v = n) := by
        intro v
        conv_lhs => rw [← hSeq]
        simp
      have hstart : KCore g { st with S := st.S.dropLast, L := st.L ++ [n] }
          (fun v => arcsFrom g st.L v + ([] : List Nat).count v) := by
        refine ⟨h1, ?_, hnd'.1, ?_, ?_, ?_, ?_, ?_, ?_⟩
        · exact List.Nodup.append h2 (List.nodup_singleton n)
            (by intro x hx hx'; rw [List.mem_singleton] at hx'; subst hx'; exact hnL hx)
        · intro v hv
          rcases List.mem_append.1 hv with hv | hv
          · exact h4 v hv
          · rw [List.mem_singleton] at hv; subst hv; exact hnlt
        · intro v hv; exact h5 v (hsubS v hv)
        · intro v hv hvL
          rcases List.mem_append.1 hvL with hvL | hvL
          · exact h6 v (hsubS v hv) hvL
          · rw [List.mem_singleton] at hvL; subst hvL
            exact hnd'.2.2 hv (List.mem_singleton_self _)
        · intro v hv
          simpa using h7 v hv
        · intro v hv
          rw [h8 v hv]
          show (v ∈ st.S ∨ v ∈ st.L) ↔ (v ∈ st.S.dropLast ∨ v ∈ st.L ++ [n])
          rw [hmemS v]
          simp only [List.mem_append, List.mem_singleton]
          constructor
          · rintro ((h | h) | h)
            · left; exact h
            · right; right; exact h
            · right; left; exact h
          · rintro (h | h | h)
            · left; left; exact h
            · right; exact h
            · left; right; exact h
        · intro a v b hsplit u hu
          rcases snoc_split hsplit with ⟨_, ha, hvn⟩ | ⟨b', _, hl⟩
          · rw [ha]
            rw [hvn] at hu
            by_contra hua
            have hult := arc_lt g u n hu
            have hle := arcsFrom_add_le g st.L u n h2 h4 hult hua
            have hpos := (arc_iff_arcCount g u n).1 hu
            have := h7 n hnlt
            rw [hrem0] at this
            omega
          · exact h9 a v b' hl u hu
      obtain ⟨st2, hrun, hL2, hc2⟩ := kahnInner g hb n st.L g[n] hg h2 h4 hnL g[n] [] _
        (List.nil_append _) rfl hstart
      have hc2' : KCore g st2 (arcsFrom g st2.L) := by
        have heq : (fun v => arcsFrom g st.L v + (g[n]).count v) = arcsFrom g st2.L := by
          funext v
          rw [hL2, arcsFrom_append]
          congr 1
          unfold arcCount
          rw [List.getD_eq_getElem?_getD, hg]
          rfl
        rw [← heq]; exact hc2
      obtain ⟨st', hrec, hc', hS'⟩ := ih st2 hc2' (by rw [hL2]; simp; omega)
      refine ⟨st', ?_, hc', hS'⟩
      simp only [hg, hrun]
      exact hrec

/-- When the arcs into v from a duplicate-free list of nodes fall short of the in-degree,
some arc into v leaves a node outside the list. -/
theorem exists_arc_not_mem (g : AdjacencyList) (l : List Nat) (v : Nat) (hnd : l.Nodup)
    (hl : ∀ x ∈ l, x < g.length) (h : arcsFrom g l v < inDegree g v) :
    ∃ u, u < g.length ∧ u ∉ l ∧ Arc g u v := by
  by_contra hcon
  push_neg at hcon
  have h1 : inDegree g v = (List.range g.length).toFinset.sum (fun u => arcCount g u v) := by
    unfold inDegree
    rw [List.sum_toFinset _ (List.nodup_range _)]
  have h2 : arcsFrom g l v = l.toFinset.sum (fun u => arcCount g u v) := by
    unfold arcsFrom
    rw [List.sum_toFinset _ hnd]
  have h3 : l.toFinset.sum (fun u => arcCount g u v) =
      (List.range g.length).toFinset.sum (fun u => arcCount g u v) := by
    apply Finset.sum_subset
    · intro x hx
      rw [List.mem_toFinset] at hx ⊢
      exact List.mem_range.2 (hl x hx)
    · intro x hx hxl
      rw [List.mem_toFinset] at hx hxl
      have hnarc : ¬ Arc g x v := hcon x (List.mem_range.1 hx) hxl
      rw [arc_iff_arcCount] at hnarc
      omega
  omega

theorem kahnCycle_none (g : AdjacencyList) (rem : List Nat)
    (hz : ∀ v, v < rem.length → rem.getD v 0 = 0) :
    ∀ (l : List Nat) (cycle : List Nat), (∀ c ∈ l, c < rem.length) →
      l.foldlM (kahnCycleStep g rem) cycle = .ok cycle := by
  intro l
  induction l with
  | nil => intro cycle _; rfl
  | cons c rest ih =>
    intro cycle hlt
    have hc := hlt c (List.mem_cons_self _ _)
    have hstep : kahnCycleStep g rem cycle c = .ok cycle := by
      unfold kahnCycleStep
      have := hz c hc
      rw [List.getD_eq_getElem?_getD, List.getElem?_eq_getElem hc] at this
      simp only [Option.getD_some] at this
      rw [List.getElem?_eq_getElem hc, this]
      simp
    exact (foldlM_cons_ok _ _ _ _ _).2
      ⟨cycle, hstep, ih cycle (fun x hx => hlt x (List.mem_cons_of_mem _ hx))⟩

/-- C7: for a bounds-valid directed acyclic graph g with transpose tr as returned by
Transpose, TopologicalKahn returns cycle = nil and an order that is a permutation of the
nodes 0..N-1 in which, for every arc u -> v of g, u stands before v. -/
theorem topologicalKahn_dag (g tr : AdjacencyList) (m fuel : Nat) (hb : BoundsValid g)
    (hac : Acyclic g) (htr : Transpose g = .ok (tr, m)) (hfuel : g.length < fuel) :
    ∃ order, TopologicalKahn g tr fuel = .ok (order, []) ∧
      order.Perm (List.range g.length) ∧
      ∀ u v, Arc g u v → Before order u v := by
  have hspec := transpose_spec g tr m htr
  obtain ⟨st0, hinit, hinv0⟩ := kahnInit_spec tr g.length (le_of_eq hspec.1) tr 0
    ⟨[], [], List.replicate g.length 0⟩ (List.drop_zero _) (Nat.zero_le _)
    ⟨rfl, by simp, fun v hv => absurd hv (Nat.not_lt_zero v),
      fun v _ => by
        by_cases hv : v < g.length <;> simp [List.getD_eq_getElem?_getD, List.getElem?_replicate, hv],
      List.nodup_nil, fun v => by simp⟩
  have hc0 := kCore_init g tr st0 hspec hinv0
  obtain ⟨st, hloop, hc, hS⟩ := kahnLoop_spec g hb fuel st0 hc0
    (by rw [hinv0.1]; simpa using hfuel)
  obtain ⟨h1, h2, h3, h4, h5, h6, h7, h8, h9⟩ := hc
  have hzero : ∀ v, v < g.length → st.rem.getD v 0 = 0 := by
    intro v hv
    by_contra hne
    refine acyclic_no_descent g hac (fun v => v < g.length ∧ st.rem.getD v 0 ≠ 0)
      (fun v hv => hv.1) ?_ v ⟨hv, hne⟩
    rintro w ⟨hw, hwne⟩
    have hlt : arcsFrom g st.L w < inDegree g w := by
      have := h7 w hw
      omega
    obtain ⟨u, hu, huL, harc⟩ := exists_arc_not_mem g st.L w h2 h4 hlt
    refine ⟨u, harc, hu, ?_⟩
    intro hu0
    rcases (h8 u hu).1 hu0 with h | h
    · rw [hS] at h; exact absurd h (List.not_mem_nil _)
    · exact huL h
  have hcyc := kahnCycle_none g st.rem (by rw [h1]; exact hzero) (List.range st.rem.length) []
    (fun c hc => List.mem_range.1 hc)
  have hall : ∀ v, v < g.length → v ∈ st.L := by
    intro v hv
    rcases (h8 v hv).1 (hzero v hv) with h | h
    · rw [hS] at h; exact absurd h (List.not_mem_nil _)
    · exact h
  refine ⟨st.L, ?_, ?_, ?_⟩
  · simp [TopologicalKahn, hinit, hloop, hcyc]
  · rw [List.perm_ext_iff_of_nodup h2 (List.nodup_range _)]
    intro v
    rw [List.mem_range]
    exact ⟨h4 v, hall v⟩
  · intro u v huv
    obtain ⟨a, c, hs⟩ := List.append_of_mem (hall v (arc_lt_right g hb u v huv))
    obtain ⟨a1, b, ha⟩ := List.append_of_mem (h9 a v c hs u huv)
    exact ⟨a1, b, c, by rw [hs, ha]; simp⟩

/-- A graph all of whose arcs lead to a node of larger number has no cycle. -/
theorem acyclic_of_ascending (g : AdjacencyList)
    (h : ∀ (u : Nat) (nbs : List Nat), g[u]? = some nbs → ∀ v ∈ nbs, u < v) : Acyclic g := by
  have key : ∀ u v, Relation.TransGen (Arc g) u v → u < v := by
    intro u v huv
    induction huv with
    | single hab => obtain ⟨nbs, hg, hv⟩ := hab; exact h _ nbs hg _ hv
    | tail _ hbc ih => obtain ⟨nbs, hg, hv⟩ := hbc; exact lt_trans ih (h _ nbs hg _ hv)
  intro u hu
  exact lt_irrefl u (key u u hu)

theorem acyclic_example : Acyclic [[1, 2], [2], [3], []] :=
  acyclic_of_ascending _ (by
    intro u nbs hg v hv
    match u, hg with
    | 0, hg => cases hg; simp at hv; omega
    | 1, hg => cases hg; simp at hv; omega
    | 2, hg => cases hg; simp at hv; omega
    | 3, hg => cases hg; simp at hv
    | (n + 4), hg => simp at hg)

theorem topologicalKahn_dag_witness :
    BoundsValid [[1, 2], [2], [3], []] ∧
    ∃ order, TopologicalKahn [[1, 2], [2], [3], []] [[], [0], [0, 1], [2]] 5 = .ok (order, []) ∧
      order.Perm (List.range [[1, 2], [2], [3], []].length) ∧
      ∀ u v, Arc [[1, 2], [2], [3], []] u v → Before order u v :=
  ⟨by decide, topologicalKahn_dag [[1, 2], [2], [3], []] [[], [0], [0, 1], [2]] 4 5 (by decide)
    acyclic_example (by rfl) (by decide)⟩

/-- C8, the code at a failing input: on the cycle 0 -> 2 -> 1 -> 0, with its transpose as
returned by Transpose, TopologicalKahn returns the residual nodes in index order, 0 1 2,
which is not a path of g: there is no arc from 0 to 1. -/
theorem topologicalKahn_cycle_not_path :
    Transpose [[2], [0], [1]] = .ok ([[1], [2], [0]], 3) ∧
    TopologicalKahn [[2], [0], [1]] [[1], [2], [0]] 4 = .ok ([], [0, 1, 2]) ∧
    ¬ Arc [[2], [0], [1]] 0 1 := by
  refine ⟨rfl, rfl, ?_⟩
  rintro ⟨nbs, hg, hv⟩
  cases hg
  simp at hv

theorem drop_set_self {α : Type} (l : List α) (k : Nat) (x : α) (hk : k < l.length) :
    (l.set k x).drop k = x :: l.drop (k + 1) := by
  induction l generalizing k with
  | nil => simp at hk
  | cons y ys ih =>
    cases k with
    | zero => simp
    | succ k =>
      simp only [List.set_cons_succ, List.drop_succ_cons]
      exact ih k (by simpa using hk)

theorem length_set' {α : Type} (l : List α) (k : Nat) (x : α) : (l.set k x).length = l.length :=
  List.length_set _ _ _

/-- Writing node n in front of the cycle kept in the tail of order. -/
theorem topoUnwind_spec (g : AdjacencyList) (path : List Nat) (n nb : Nat) (st : TState)
    (hf : TFound g (path ++ [n]) nb st) (harc : Arc g n nb) (hn : n < g.length)
    (hp : ∀ m ∈ path, m < g.length) :
    ∃ st', topoUnwind n st = .ok st' ∧ TFound g path n st' := by
  obtain ⟨h1, h2, h3, h4, h5⟩ := hf
  rcases h5 with ⟨hc0, hcmem, hnd, hlt, hshape⟩ | ⟨hc, hwalk⟩
  · have hlen : (path ++ [n] ++ st.cycle).length ≤ g.length := by
      apply nodup_length_le _ _ hnd
      intro x hx
      rcases List.mem_append.1 hx with hx | hx
      · rcases List.mem_append.1 hx with hx | hx
        · exact hp x hx
        · rw [List.mem_singleton] at hx; subst hx; exact hn
      · exact hlt x hx
    have hlen' : st.cycle.length + 1 ≤ g.length := by
      simp only [List.length_append, List.length_singleton] at hlen
      omega
    have hx : st.order.length - 1 - st.cycle.length < st.order.length := by omega
    have hdrop : (st.order.set (st.order.length - 1 - st.cycle.length) n).drop
        (st.order.length - 1 - st.cycle.length) = n :: st.cycle := by
      rw [drop_set_self _ _ _ hx]
      congr 1
      have : st.order.length - 1 - st.cycle.length + 1 = g.length - st.cycle.length := by omega
      rw [this]
      exact h3.symm
    have hchain : List.Chain' (Arc g) (n :: st.cycle) := by
      rcases hshape with ⟨hnil, _⟩ | ⟨hhead, _⟩
      · rw [hnil]; exact List.chain'_singleton n
      · rw [List.chain'_cons']
        refine ⟨?_, h4⟩
        intro y hy
        rw [hhead] at hy
        cases hy
        exact harc
    have hlastarc : ∀ last, (n :: st.cycle).getLast? = some last →
        Arc g last st.cycleStart.toNat := by
      intro last hl
      rcases hshape with ⟨hnil, hcs⟩ | ⟨_, last', hl', harc'⟩
      · rw [hnil] at hl
        simp at hl
        subst hl
        rw [hcs]
        simpa using harc
      · cases hcy : st.cycle with
        | nil => rw [hcy] at hl'; simp at hl'
        | cons y ys =>
          rw [hcy, List.getLast?_cons_cons, ← hcy, hl'] at hl
          cases hl
          exact harc'
    unfold topoUnwind
    simp only [hc0, if_true]
    have hle : st.cycle.length + 1 ≤ st.order.length := by omega
    simp only [hle, if_true]
    refine ⟨_, rfl, ?_⟩
    refine ⟨h1, by simp [h2], ?_, ?_, ?_⟩
    · show (st.order.set _ n).drop _ = (st.order.set _ n).drop _
      rw [hdrop]
      simp only [List.length_cons]
      rw [← hdrop]
      congr 1
      omega
    · show List.Chain' (Arc g) ((st.order.set _ n).drop _)
      rw [hdrop]; exact hchain
    · show (0 ≤ (if (n : Int) = st.cycleStart then (-1 : Int) else st.cycleStart) ∧ _) ∨ _
      by_cases heq : (n : Int) = st.cycleStart
      · right
        simp only [heq, if_true, true_and]
        show ClosedWalk g ((st.order.set _ n).drop _)
        rw [hdrop]
        refine ⟨by simp, hchain, ?_⟩
        intro first last hfirst hlast
        simp only [List.head?_cons, Option.some.injEq] at hfirst
        subst hfirst
        have := hlastarc last hlast
        rw [← heq] at this
        simpa using this
      · left
        simp only [heq, if_false]
        have hne : st.cycleStart.toNat ≠ n := by
          intro h
          apply heq
          rw [← h]
          exact Int.toNat_of_nonneg hc0
        refine ⟨hc0, ?_, ?_, ?_, ?_⟩
        · rcases List.mem_append.1 hcmem with h | h
          · exact h
          · rw [List.mem_singleton] at h; exact absurd h hne
        · show (path ++ (st.order.set _ n).drop _).Nodup
          rw [hdrop]
          simpa using hnd
        · show ∀ m ∈ (st.order.set _ n).drop _, m < g.length
          rw [hdrop]
          intro m hm
          rcases List.mem_cons.1 hm with rfl | hm
          · exact hn
          · exact hlt m hm
        · right
          show ((st.order.set _ n).drop _).head? = some n ∧ ∃ last,
            ((st.order.set _ n).drop _).getLast? = some last ∧ Arc g last st.cycleStart.toNat
          rw [hdrop]
          refine ⟨rfl, ?_⟩
          have hne' : (n :: st.cycle) ≠ [] := by simp
          refine ⟨(n :: st.cycle).getLast hne', List.getLast?_eq_getLast _ hne', ?_⟩
          exact hlastarc _ (List.getLast?_eq_getLast _ hne')
  · have hneg : ¬ (0 ≤ st.cycleStart) := by rw [hc]; decide
    unfold topoUnwind
    simp only [hneg, if_false]
    exact ⟨st, rfl, h1, h2, h3, h4, Or.inr ⟨hc, hwalk⟩⟩

theorem whiteCount_le (g : AdjacencyList) (st st' : TState)
    (h : ∀ m, Bit st'.temp m = false ∧ Bit st'.perm m = false →
      Bit st.temp m = false ∧ Bit st.perm m = false) :
    whiteCount g st' ≤ whiteCount g st := by
  unfold whiteCount
  apply Finset.card_le_card
  intro m hm
  simp only [Finset.mem_filter, Finset.mem_range] at hm ⊢
  exact ⟨hm.1, h m hm.2⟩

theorem whiteCount_enter (g : AdjacencyList) (st : TState) (n : Nat) (hn : n < g.length)
    (ht : Bit st.temp n = false) (hp : Bit st.perm n = false) :
    whiteCount g { st with temp := SetBit1 st.temp n } < whiteCount g st := by
  unfold whiteCount
  apply Finset.card_lt_card
  rw [Finset.ssubset_iff_of_subset]
  · refine ⟨n, ?_, ?_⟩
    · simp [hn, ht, hp]
    · simp [bit_setBit1]
  · intro m hm
    simp only [Finset.mem_filter, Finset.mem_range, bit_setBit1, Bool.or_eq_false_iff] at hm ⊢
    exact ⟨hm.1, hm.2.1.1, hm.2.2⟩

theorem bool_eq_false_of_not {b : Bool} (h : ¬ b = true) : b = false := by
  cases b
  · rfl
  · exact absurd rfl h

/-- Entering node n: the invariant holds for the longer list of pending nodes. -/
theorem tInv_enter (g : AdjacencyList) (path : List Nat) (n : Nat) (st : TState)
    (hinv : TInv g path st) (hchain : List.Chain' (Arc g) (path ++ [n])) (hn : n < g.length)
    (ht : Bit st.temp n = false) (hp : Bit st.perm n = false) :
    TInv g (path ++ [n]) { st with temp := SetBit1 st.temp n } := by
  obtain ⟨h1, h2, h3, h4, h5, h6, h7, h8, h9, h10, h11, h12, _⟩ := hinv
  have hnp : n ∉ path := fun hmem => by
    rw [(h5 n).2 hmem] at ht; exact absurd ht (by simp)
  refine ⟨h1, h2, h3, h4, ?_, h6, h7, h8, h9, ?_, ?_, ?_, hchain⟩
  · intro m
    show Bit (SetBit1 st.temp n) m = true ↔ m ∈ path ++ [n]
    rw [bit_setBit1]
    simp only [Bool.or_eq_true, decide_eq_true_eq, h5 m, List.mem_append, List.mem_singleton]
    constructor
    · rintro (h | h)
      · exact Or.inl h
      · exact Or.inr h.symm
    · rintro (h | h)
      · exact Or.inl h
      · exact Or.inr h.symm
  · exact List.Nodup.append h10 (List.nodup_singleton n)
      (by intro x hx hx'; rw [List.mem_singleton] at hx'; subst hx'; exact hnp hx)
  · intro m hm
    rcases List.mem_append.1 hm with hm | hm
    · exact h11 m hm
    · rw [List.mem_singleton] at hm; subst hm; exact hn
  · intro m hm
    rcases List.mem_append.1 hm with hm | hm
    · exact h12 m hm
    · rw [List.mem_singleton] at hm; subst hm; exact hp

/-- Leaving node n once all of its neighbours are done: n is written to order and the
invariant holds for the shorter list of pending nodes. -/
theorem tInv_finish (g : AdjacencyList) (path : List Nat) (n : Nat) (st : TState)
    (hinv : TInv g (path ++ [n]) st) (hnbs : ∀ w, Arc g n w → Bit st.perm w = true) :
    (0 < st.i ∧ st.i ≤ st.order.length) ∧
    TInv g path { st with
      temp := SetBit0 st.temp n
      perm := SetBit1 st.perm n
      i := st.i - 1
      order := st.order.set (st.i - 1) n } := by
  obtain ⟨h1, h2, h3, h4, h5, h6, h7, h8, h9, h10, h11, h12, h13⟩ := hinv
  have hnd := List.nodup_append.1 h10
  have hnp : n ∉ path := fun hmem => hnd.2.2 hmem (List.mem_singleton_self n)
  have hn : n < g.length := h11 n (by simp)
  have hpn : Bit st.perm n = false := h12 n (by simp)
  have hnfin : n ∉ st.order.drop st.i := fun hmem => by
    rw [(h6 n).2 hmem] at hpn; exact absurd hpn (by simp)
  have hlen : (n :: st.order.drop st.i).length ≤ g.length := by
    apply nodup_length_le _ _ (List.nodup_cons.2 ⟨hnfin, h7⟩)
    intro x hx
    rcases List.mem_cons.1 hx with rfl | hx
    · exact hn
    · exact h8 x hx
  have hi : 0 < st.i := by
    simp only [List.length_cons, List.length_drop] at hlen
    omega
  have hdrop : (st.order.set (st.i - 1) n).drop (st.i - 1) = n :: st.order.drop st.i := by
    rw [drop_set_self _ _ _ (by omega)]
    congr 2
    omega
  refine ⟨⟨hi, by omega⟩, h1, h2, by simp [h3], by show st.i - 1 ≤ g.length; omega,
    ?_, ?_, ?_, ?_, ?_, hnd.1, ?_, ?_, ?_⟩
  · intro m
    show Bit (SetBit0 st.temp n) m = true ↔ m ∈ path
    rw [bit_setBit0]
    simp only [Bool.and_eq_true, Bool.not_eq_true', decide_eq_false_iff_not, h5 m,
      List.mem_append, List.mem_singleton]
    constructor
    · rintro ⟨h | h, hne⟩
      · exact h
      · exact absurd h.symm hne
    · intro h
      exact ⟨Or.inl h, fun heq => hnp (heq ▸ h)⟩
  · intro m
    show Bit (SetBit1 st.perm n) m = true ↔ m ∈ (st.order.set (st.i - 1) n).drop (st.i - 1)
    rw [hdrop, bit_setBit1]
    simp only [Bool.or_eq_true, decide_eq_true_eq, h6 m, List.mem_cons]
    constructor
    · rintro (h | h)
      · exact Or.inr h
      · exact Or.inl h.symm
    · rintro (h | h)
      · exact Or.inr h.symm
      · exact Or.inl h
  · show ((st.order.set (st.i - 1) n).drop (st.i - 1)).Nodup
    rw [hdrop]; exact List.nodup_cons.2 ⟨hnfin, h7⟩
  · show ∀ m ∈ (st.order.set (st.i - 1) n).drop (st.i - 1), m < g.length
    rw [hdrop]
    intro m hm
    rcases List.mem_cons.1 hm with rfl | hm
    · exact hn
    · exact h8 m hm
  · show ∀ a v b, (st.order.set (st.i - 1) n).drop (st.i - 1) = a ++ v :: b →
      ∀ w, Arc g v w → w ∈ b
    rw [hdrop]
    intro a v b hsplit w hw
    cases a with
    | nil =>
      simp only [List.nil_append, List.cons.injEq] at hsplit
      obtain ⟨rfl, rfl⟩ := hsplit
      exact (h6 w).1 (hnbs w hw)
    | cons x a' =>
      simp only [List.cons_append, List.cons.injEq] at hsplit
      exact h9 a' v b hsplit.2 w hw
  · intro m hm; exact h11 m (List.mem_append_left _ hm)
  · intro m hm
    show Bit (SetBit1 st.perm n) m = false
    rw [bit_setBit1, h12 m (List.mem_append_left _ hm)]
    simp only [Bool.false_or, decide_eq_false_iff_not]
    intro heq
    exact hnp (heq ▸ hm)
  · exact (List.chain'_append.1 h13).1

theorem tInv_white_le (g : AdjacencyList) (path : List Nat) (st st' : TState)
    (h : TInv g path st) (h' : TInv g path st') (hle : BmLe st.perm st'.perm) :
    whiteCount g st' ≤ whiteCount g st := by
  apply whiteCount_le
  rintro m ⟨ht, hp⟩
  constructor
  · apply bool_eq_false_of_not
    intro hcon
    rw [(h'.2.2.2.2.1 m).2 ((h.2.2.2.2.1 m).1 hcon)] at ht
    exact absurd ht (by simp)
  · apply bool_eq_false_of_not
    intro hcon
    rw [hle m hcon] at hp
    exact absurd hp (by simp)

/-- A call of df of Topological on a bounds-valid graph returns; either no cycle has been
found, n is done and the invariant holds, or a cycle has been found. -/
theorem topoDf_spec (g : AdjacencyList) (hb : BoundsValid g) :
    ∀ (fuel n : Nat) (st : TState) (path : List Nat), TInv g path st →
      List.Chain' (Arc g) (path ++ [n]) → n < g.length → whiteCount g st < fuel →
      ∃ st', topoDf g fuel n st = .ok st' ∧
        ((TInv g path st' ∧ Bit st'.perm n = true ∧ BmLe st.perm st'.perm) ∨
          TFound g path n st') := by
  intro fuel
  induction fuel with
  | zero => intro n st path _ _ _ h; exact absurd h (Nat.not_lt_zero _)
  | succ fuel ih =>
    intro n st path hinv hchain hn hfuel
    have loop : ∀ (nbs : List Nat) (s : TState), (∀ nb ∈ nbs, Arc g n nb) →
        TInv g (path ++ [n]) s → whiteCount g s < fuel →
        ∃ s' b, topoLoop (topoDf g fuel) n nbs s = .ok (s', b) ∧
          ((b = false ∧ TInv g (path ++ [n]) s' ∧ (∀ nb ∈ nbs, Bit s'.perm nb = true) ∧
              BmLe s.perm s'.perm) ∨
            (b = true ∧ TFound g path n s')) := by
      intro nbs
      induction nbs with
      | nil =>
        intro s _ hs _
        exact ⟨s, false, rfl, Or.inl ⟨rfl, hs, fun nb h => absurd h (List.not_mem_nil _),
          fun m hm => hm⟩⟩
      | cons nb rest ihl =>
        intro s harcs hs hw
        have harc : Arc g n nb := harcs nb (List.mem_cons_self _ _)
        have hnb : nb < g.length := arc_lt_right g hb n nb harc
        have hch : List.Chain' (Arc g) (path ++ [n] ++ [nb]) := by
          rw [List.chain'_append]
          refine ⟨hchain, List.chain'_singleton nb, ?_⟩
          intro x hx y hy
          rw [Option.mem_def, List.getLast?_concat] at hx
          simp only [Option.mem_def, List.head?_cons, Option.some.injEq] at hx hy
          subst hx hy
          exact harc
        obtain ⟨s1, hrun, hres⟩ := ih nb s (path ++ [n]) hs hch hnb hw
        simp only [topoLoop, hrun]
        rcases hres with ⟨hinv1, hperm1, hle1⟩ | hfound
        · have hcf : s1.cycleFound = false := hinv1.1
          simp only [hcf, Bool.false_eq_true, if_false]
          obtain ⟨s', b, hrun', hres'⟩ := ihl s1
            (fun x hx => harcs x (List.mem_cons_of_mem _ hx)) hinv1
            (lt_of_le_of_lt (tInv_white_le g _ s s1 hs hinv1 hle1) hw)
          refine ⟨s', b, hrun', ?_⟩
          rcases hres' with ⟨hb0, hinv', hall, hle'⟩ | hfound'
          · left
            refine ⟨hb0, hinv', ?_, fun m hm => hle' m (hle1 m hm)⟩
            intro x hx
            rcases List.mem_cons.1 hx with rfl | hx
            · exact hle' _ hperm1
            · exact hall x hx
          · exact Or.inr hfound'
        · have hcf : s1.cycleFound = true := hfound.1
          simp only [hcf, if_true]
          obtain ⟨s2, hun, hfound2⟩ := topoUnwind_spec g path n nb s1 hfound harc hn
            (fun m hm => hinv.2.2.2.2.2.2.2.2.2.2.1 m hm)
          simp only [hun]
          exact ⟨s2, true, rfl, Or.inr ⟨rfl, hfound2⟩⟩
    rw [topoDf]
    by_cases ht : Bit st.temp n = true
    · simp only [ht, if_true]
      refine ⟨_, rfl, Or.inr ?_⟩
      obtain ⟨h1, h2, h3, h4, h5, h6, h7, h8, h9, h10, h11, h12, h13⟩ := hinv
      refine ⟨rfl, h3, ?_, ?_, Or.inl ⟨?_, ?_, ?_, ?_, Or.inl ⟨h2, rfl⟩⟩⟩
      · show st.cycle = st.order.drop (g.length - st.cycle.length)
        rw [h2]
        simp only [List.length_nil, Nat.sub_zero]
        exact (List.drop_eq_nil_of_le (le_of_eq h3)).symm
      · show List.Chain' (Arc g) st.cycle
        rw [h2]; exact List.chain'_nil
      · show (0 : Int) ≤ (n : Int)
        exact Int.natCast_nonneg n
      · show (n : Int).toNat ∈ path
        rw [Int.toNat_natCast]
        exact (h5 n).1 ht
      · show (path ++ st.cycle).Nodup
        rw [h2, List.append_nil]; exact h10
      · show ∀ m ∈ st.cycle, m < g.length
        rw [h2]; intro m hm; exact absurd hm (List.not_mem_nil _)
    · simp only [ht, if_false]
      by_cases hp : Bit st.perm n = true
      · simp only [hp, if_true]
        exact ⟨st, rfl, Or.inl ⟨hinv, hp, fun m hm => hm⟩⟩
      · simp only [hp, if_false]
        have ht' := bool_eq_false_of_not ht
        have hp' := bool_eq_false_of_not hp
        have hg : g[n]? = some g[n] := List.getElem?_eq_getElem hn
        simp only [hg]
        have hinv0 := tInv_enter g path n st hinv hchain hn ht' hp'
        have hw0 : whiteCount g { st with temp := SetBit1 st.temp n } < fuel :=
          lt_of_lt_of_le (whiteCount_enter g st n hn ht' hp') (Nat.lt_succ_iff.1 hfuel)
        obtain ⟨s1, b, hrun, hres⟩ := loop g[n] _ (fun nb hnb => ⟨g[n], hg, hnb⟩) hinv0 hw0
        simp only [hrun]
        rcases hres with ⟨hb0, hinv1, hall, hle⟩ | ⟨hb1, hfound⟩
        · subst hb0
          have hnbs : ∀ w, Arc g n w → Bit s1.perm w = true := by
            rintro w ⟨nbs, hg', hw⟩
            rw [hg] at hg'
            cases hg'
            exact hall w hw
          obtain ⟨hi, hinv2⟩ := tInv_finish g path n s1 hinv1 hnbs
          simp only [hi, and_self, if_true]
          refine ⟨_, rfl, Or.inl ⟨hinv2, ?_, ?_⟩⟩
          · show Bit (SetBit1 s1.perm n) n = true
            simp [bit_setBit1]
          · intro m hm
            show Bit (SetBit1 s1.perm n) m = true
            rw [bit_setBit1, hle m hm]
            rfl
        · subst hb1
          exact ⟨s1, rfl, Or.inr hfound⟩

theorem closedWalk_not_acyclic (g : AdjacencyList) (c : List Nat) (h : ClosedWalk g c) :
    ¬ Acyclic g := by
  obtain ⟨hne, hchain, hclose⟩ := h
  cases c with
  | nil => exact absurd rfl hne
  | cons x xs =>
    have hreach : Relation.ReflTransGen (Arc g) x ((x :: xs).getLast (List.cons_ne_nil _ _)) :=
      List.relationReflTransGen_of_exists_chain xs hchain rfl
    have harc := hclose x _ rfl (List.getLast?_eq_getLast _ (List.cons_ne_nil _ _))
    intro hac
    exact hac x (Relation.TransGen.tail' hreach harc)

/-- A duplicate-free list of nodes in which every successor of a node stands after the node
and which holds every node with an outgoing arc shows that the graph has no cycle. -/
theorem acyclic_of_order (g : AdjacencyList) (order : List Nat) (hnd : order.Nodup)
    (hall : ∀ u, u < g.length → u ∈ order)
    (hord : ∀ a v b, order = a ++ v :: b → ∀ w, Arc g v w → w ∈ b) : Acyclic g := by
  have key : ∀ x y, Relation.TransGen (Arc g) x y →
      ∀ a b, order = a ++ x :: b → y ∈ b := by
    intro x y hxy
    induction hxy with
    | single h => intro a b hs; exact hord a x b hs _ h
    | @tail y z _ hbc ih =>
      intro a b hs
      have hy := ih a b hs
      obtain ⟨b1, b2, hb⟩ := List.append_of_mem hy
      have hs' : order = (a ++ x :: b1) ++ y :: b2 := by rw [hs, hb]; simp
      have hz := hord _ y b2 hs' z hbc
      rw [hb]
      exact List.mem_append_right _ (List.mem_cons_of_mem _ hz)
  intro u hu
  have hu_lt : u < g.length := by
    cases hu with
    | single h => exact arc_lt g u u h
    | tail h1 h2 =>
      rcases Relation.TransGen.head'_iff.1 (Relation.TransGen.tail h1 h2) with ⟨c, hc, _⟩
      exact arc_lt g u c hc
  obtain ⟨a, b, hs⟩ := List.append_of_mem (hall u hu_lt)
  have hub := key u u hu a b hs
  rw [hs] at hnd
  have := (List.nodup_cons.1 (List.nodup_append.1 hnd).2.1).1
  exact this hub

theorem before_of_after (g : AdjacencyList) (order : List Nat)
    (hall : ∀ u, u < g.length → u ∈ order)
    (hord : ∀ a v b, order = a ++ v :: b → ∀ w, Arc g v w → w ∈ b) :
    ∀ u v, Arc g u v → Before order u v := by
  intro u v huv
  obtain ⟨a, b, hs⟩ := List.append_of_mem (hall u (arc_lt g u v huv))
  obtain ⟨b1, b2, hb⟩ := List.append_of_mem (hord a u b hs v huv)
  exact ⟨a, b1, b2, by rw [hs, hb]⟩

/-- The loop of Topological over the nodes returns an order of all nodes in which the
successors of a node stand after it, or the path of a cycle. -/
theorem topoMain_spec (g : AdjacencyList) (hb : BoundsValid g) (fuel : Nat)
    (hfuel : g.length < fuel) :
    ∀ (rest : List Nat) (st : TState), (∀ m ∈ rest, m < g.length) → TInv g [] st →
      (∀ m, m < g.length → m ∉ rest → Bit st.perm m = true) →
      (∃ order, topoMain g fuel rest st = .ok (order, []) ∧ order.Nodup ∧
        (∀ m, m ∈ order ↔ m < g.length) ∧
        ∀ a v b, order = a ++ v :: b → ∀ w, Arc g v w → w ∈ b) ∨
      (∃ cycle, topoMain g fuel rest st = .ok ([], cycle) ∧ ClosedWalk g cycle) := by
  have hwhite : ∀ st : TState, whiteCount g st < fuel := by
    intro st
    refine lt_of_le_of_lt ?_ hfuel
    unfold whiteCount
    calc _ ≤ (Finset.range g.length).card := Finset.card_filter_le _ _
      _ = g.length := Finset.card_range _
  intro rest
  induction rest with
  | nil =>
    intro st _ hinv hdone
    left
    obtain ⟨h1, h2, h3, h4, h5, h6, h7, h8, h9, _⟩ := hinv
    have hmem : ∀ m, m ∈ st.order.drop st.i ↔ m < g.length :=
      fun m => ⟨h8 m, fun hm => (h6 m).1 (hdone m hm (List.not_mem_nil _))⟩
    have hperm : (st.order.drop st.i).Perm (List.range g.length) := by
      rw [List.perm_ext_iff_of_nodup h7 (List.nodup_range _)]
      intro m; rw [hmem m, List.mem_range]
    have hi : st.i = 0 := by
      have := hperm.length_eq
      simp only [List.length_drop, List.length_range] at this
      omega
    rw [hi, List.drop_zero] at h7 h9 hmem
    exact ⟨st.order, rfl, h7, hmem, h9⟩
  | cons n rest ih =>
    intro st hlt hinv hdone
    have hn := hlt n (List.mem_cons_self _ _)
    have hlt' : ∀ m ∈ rest, m < g.length := fun m hm => hlt m (List.mem_cons_of_mem _ hm)
    simp only [topoMain]
    by_cases hp : Bit st.perm n = true
    · simp only [hp, if_true]
      apply ih st hlt' hinv
      intro m hm hmr
      by_cases hmn : m = n
      · rw [hmn]; exact hp
      · exact hdone m hm (fun h => by
          rcases List.mem_cons.1 h with h | h
          · exact hmn h
          · exact hmr h)
    · simp only [hp, if_false]
      obtain ⟨st1, hrun, hres⟩ := topoDf_spec g hb fuel n st [] hinv
        (by simp) hn (hwhite st)
      simp only [hrun]
      rcases hres with ⟨hinv1, hpn, hle⟩ | hfound
      · simp only [hinv1.1, Bool.false_eq_true, if_false]
        apply ih st1 hlt' hinv1
        intro m hm hmr
        by_cases hmn : m = n
        · rw [hmn]; exact hpn
        · exact hle m (hdone m hm (fun h => by
            rcases List.mem_cons.1 h with h | h
            · exact hmn h
            · exact hmr h))
      · right
        obtain ⟨hcf, _, _, _, hcases⟩ := hfound
        simp only [hcf, if_true]
        rcases hcases with ⟨_, hmem, _⟩ | ⟨_, hwalk⟩
        · exact absurd hmem (List.not_mem_nil _)
        · exact ⟨st1.cycle, rfl, hwalk⟩

theorem tInv_init (g : AdjacencyList) :
    TInv g [] ⟨List.replicate g.length 0, g.length, 0, 0, false, 0, []⟩ := by
  refine ⟨rfl, rfl, by simp, le_refl _, ?_, ?_, ?_, ?_, ?_, List.nodup_nil, ?_, ?_,
    List.chain'_nil⟩
  · intro _; simp [bit_zero]
  · intro _; simp [bit_zero]
  · simp
  · intro m hm; simp at hm
  · intro a v b h; simp at h
  · intro m hm; simp at hm
  · intro m hm; simp at hm

/-- Topological on a bounds-valid graph returns either an order of all nodes in which the
successors of each node stand after it, with no cycle, or no order and the path of a
cycle. -/
theorem topological_spec (g : AdjacencyList) (hb : BoundsValid g) (fuel : Nat)
    (hfuel : g.length < fuel) :
    (∃ order, Topological g fuel = .ok (order, []) ∧ order.Nodup ∧
      (∀ m, m ∈ order ↔ m < g.length) ∧
      ∀ a v b, order = a ++ v :: b → ∀ w, Arc g v w → w ∈ b) ∨
    (∃ cycle, Topological g fuel = .ok ([], cycle) ∧ ClosedWalk g cycle) :=
  topoMain_spec g hb fuel hfuel (List.range g.length) _
    (fun _ hm => List.mem_range.1 hm) (tInv_init g)
    (fun _ hm hnot => absurd (List.mem_range.2 hm) hnot)

/-- C5: for a bounds-valid directed acyclic graph Topological returns cycle = nil and an
order that is a permutation of the nodes 0..N-1 in which, for every arc u -> v of g, u
stands before v. -/
theorem topological_dag (g : AdjacencyList) (fuel : Nat) (hb : BoundsValid g) (hac : Acyclic g)
    (hfuel : g.length < fuel) :
    ∃ order, Topological g fuel = .ok (order, []) ∧ order.Perm (List.range g.length) ∧
      ∀ u v, Arc g u v → Before order u v := by
  rcases topological_spec g hb fuel hfuel with ⟨order, hrun, hnd, hmem, hord⟩ |
    ⟨cycle, _, hwalk⟩
  · refine ⟨order, hrun, ?_, before_of_after g order (fun u hu => (hmem u).2 hu) hord⟩
    rw [List.perm_ext_iff_of_nodup hnd (List.nodup_range _)]
    intro m; rw [hmem m, List.mem_range]
  · exact absurd hac (closedWalk_not_acyclic g cycle hwalk)

/-- C6: for a bounds-valid directed graph that contains a cycle (a loop included)
Topological returns order = nil and a non-empty cycle that is a closed walk of g: each node
of it has an arc to the next and the last has an arc to the first. -/
theorem topological_cyclic (g : AdjacencyList) (fuel : Nat) (hb : BoundsValid g)
    (hcyc : ¬ Acyclic g) (hfuel : g.length < fuel) :
    ∃ cycle, Topological g fuel = .ok ([], cycle) ∧ cycle ≠ [] ∧
      List.Chain' (Arc g) cycle ∧
      ∀ first last, cycle.head? = some first → cycle.getLast? = some last →
        Arc g last first := by
  rcases topological_spec g hb fuel hfuel with ⟨order, _, hnd, hmem, hord⟩ |
    ⟨cycle, hrun, hwalk⟩
  · exact absurd (acyclic_of_order g order hnd (fun u hu => (hmem u).2 hu) hord) hcyc
  · exact ⟨cycle, hrun, hwalk.1, hwalk.2.1, hwalk.2.2⟩

theorem topological_dag_witness :
    BoundsValid [[1, 2], [2], [3], []] ∧
    ∃ order, Topological [[1, 2], [2], [3], []] 5 = .ok (order, []) ∧
      order.Perm (List.range [[1, 2], [2], [3], []].length) ∧
      ∀ u v, Arc [[1, 2], [2], [3], []] u v → Before order u v :=
  ⟨by decide, topological_dag [[1, 2], [2], [3], []] 5 (by decide) acyclic_example
    (by decide)⟩

theorem topological_cyclic_witness :
    BoundsValid [[1], [0]] ∧
    ∃ cycle, Topological [[1], [0]] 3 = .ok ([], cycle) ∧ cycle ≠ [] ∧
      List.Chain' (Arc [[1], [0]]) cycle ∧
      ∀ first last, cycle.head? = some first → cycle.getLast? = some last →
        Arc [[1], [0]] last first :=
  ⟨by decide, topological_cyclic [[1], [0]] 3 (by decide)
    (fun h => h 0 (Relation.TransGen.tail
      (Relation.TransGen.single (show Arc [[1], [0]] 0 1 from ⟨[1], rfl, by simp⟩))
      (show Arc [[1], [0]] 1 0 from ⟨[0], rfl, by simp⟩)))
    (by decide)⟩

theorem getElem?_eq_some_getD (l : List Nat) (i : Nat) (h : i < l.length) :
    l[i]? = some (l.getD i 0) := by
  rw [List.getD_eq_getElem?_getD, List.getElem?_eq_getElem h]
  rfl

/-- The pop loop of sc takes the nodes above n and n itself off the stack. -/
theorem tarjanPop_spec (n : Nat) (S0 : List Nat) :
    ∀ (segA : List Nat) (stacked : Nat) (c : List Nat), n ∉ segA →
      ∃ stacked', tarjanPop n (segA ++ n :: S0) stacked c = .ok (S0, stacked', c ++ (segA ++ [n])) ∧
        ∀ m, Bit stacked' m = true ↔ (Bit stacked m = true ∧ m ∉ segA ∧ m ≠ n) := by
  intro segA
  induction segA with
  | nil =>
    intro stacked c _
    refine ⟨SetBit0 stacked n, by simp [tarjanPop], ?_⟩
    intro m
    rw [bit_setBit0]
    simp only [Bool.and_eq_true, Bool.not_eq_true', decide_eq_false_iff_not, List.not_mem_nil,
      not_false_eq_true, true_and]
    exact ⟨fun h => ⟨h.1, fun h' => h.2 h'.symm⟩, fun h => ⟨h.1, fun h' => h.2 h'.symm⟩⟩
  | cons w rest ih =>
    intro stacked c hn
    have hwn : w ≠ n := fun h => hn (h ▸ List.mem_cons_self _ _)
    have hn' : n ∉ rest := fun h => hn (List.mem_cons_of_mem _ h)
    obtain ⟨stacked', hrun, hbits⟩ := ih (SetBit0 stacked w) (c ++ [w]) hn'
    refine ⟨stacked', ?_, ?_⟩
    · show tarjanPop n (w :: (rest ++ n :: S0)) stacked c = _
      rw [tarjanPop]
      simp only [hwn, if_false]
      rw [hrun]
      simp
    · intro m
      rw [hbits m, bit_setBit0]
      simp only [Bool.and_eq_true, Bool.not_eq_true', decide_eq_false_iff_not, List.mem_cons,
        not_or]
      constructor
      · rintro ⟨⟨h1, h2⟩, h3, h4⟩
        exact ⟨h1, ⟨fun h => h2 h.symm, h3⟩, h4⟩
      · rintro ⟨h1, ⟨h2, h3⟩, h4⟩
        exact ⟨⟨h1, fun h => h2 h.symm⟩, h3, h4⟩

theorem tjExt_trans (a b c : TjState) (seg1 seg2 : List Nat) (h1 : TjExt a b seg1)
    (h2 : TjExt b c seg2) : TjExt a c (seg2 ++ seg1) where
  indexed_mono := fun m hm => h2.indexed_mono m (h1.indexed_mono m hm)
  index_eq := fun m hm => (h2.index_eq m (h1.indexed_mono m hm)).trans (h1.index_eq m hm)
  lowlink_eq := fun m hm =>
    (h2.lowlink_eq m (by rw [h1.stack]; exact List.mem_append_right _ hm)).trans
      (h1.lowlink_eq m hm)
  stack := by rw [h2.stack, h1.stack, List.append_assoc]
  fresh := by
    intro y hy
    rcases List.mem_append.1 hy with hy | hy
    · apply bool_eq_false_of_not
      intro hcon
      have := h2.fresh y hy
      rw [h1.indexed_mono y hcon] at this
      exact absurd this (by simp)
    · exact h1.fresh y hy

theorem not_mem_stack_of_white (g : AdjacencyList) (st : TjState) (hinv : TjInv g st) (n : Nat)
    (hw : Bit st.indexed n = false) : n ∉ st.S := by
  intro h
  rw [hinv.stack_indexed n h] at hw
  exact absurd hw (by simp)

/-- Entering sc(n) on a node not yet indexed sets up the invariant of the loop over the
neighbours. -/
theorem tjLoop_enter (g : AdjacencyList) (st : TjState) (n : Nat) (hinv : TjInv g st)
    (hn : n < g.length) (hw : Bit st.indexed n = false) :
    TjLoop g st n []
      { st with
        index := st.index.set n st.x
        indexed := SetBit1 st.indexed n
        lowlink := st.lowlink.set n st.x
        x := st.x + 1
        S := n :: st.S
        stacked := SetBit1 st.stacked n } := by
  have hnS : n ∉ st.S := not_mem_stack_of_white g st hinv n hw
  have hni : n < st.index.length := by rw [hinv.len_index]; exact hn
  have hnl : n < st.lowlink.length := by rw [hinv.len_lowlink]; exact hn
  have hne : ∀ m, m ∈ st.S → n ≠ m := fun m hm h => hnS (h ▸ hm)
  have hnei : ∀ m, Bit st.indexed m = true → n ≠ m := by
    intro m hm h
    rw [← h, hw] at hm
    exact absurd hm (by simp)
  refine ⟨?_, ⟨[], ?_, ?_, List.not_mem_nil n⟩, ?_, ?_⟩
  · refine
      { len_index := by simp [hinv.len_index]
        len_lowlink := by simp [hinv.len_lowlink]
        nodupS := List.nodup_cons.2 ⟨hnS, hinv.nodupS⟩
        stacked_iff := ?_
        stack_indexed := ?_
        indexed_lt := ?_
        index_lt := ?_
        sorted := ?_
        nodup_done := hinv.nodup_done
        done_iff := ?_
        closed := hinv.closed
        strong := hinv.strong
        nonempty := hinv.nonempty
        low := ?_ }
    · intro m
      show Bit (SetBit1 st.stacked n) m = true ↔ m ∈ n :: st.S
      rw [bit_setBit1, List.mem_cons, Bool.or_eq_true, decide_eq_true_eq, hinv.stacked_iff m]
      exact ⟨fun h => h.elim Or.inr (fun h => Or.inl h.symm),
        fun h => h.elim (fun h => Or.inr h.symm) Or.inl⟩
    · intro m hm
      show Bit (SetBit1 st.indexed n) m = true
      rw [bit_setBit1]
      rcases List.mem_cons.1 hm with rfl | hm
      · simp
      · simp [hinv.stack_indexed m hm]
    · intro m hm
      have hm' : Bit (SetBit1 st.indexed n) m = true := hm
      rw [bit_setBit1, Bool.or_eq_true, decide_eq_true_eq] at hm'
      rcases hm' with hm' | rfl
      · exact hinv.indexed_lt m hm'
      · exact hn
    · intro m hm
      have hm' : Bit (SetBit1 st.indexed n) m = true := hm
      show (st.index.set n st.x).getD m 0 < st.x + 1
      rw [bit_setBit1, Bool.or_eq_true, decide_eq_true_eq] at hm'
      by_cases hmn : n = m
      · subst hmn
        rw [getD_set_eq _ _ _ hni]
        exact Nat.lt_succ_self _
      · rcases hm' with hm' | hm'
        · rw [getD_set_ne _ _ _ _ hmn]
          exact Nat.lt_succ_of_lt (hinv.index_lt m hm')
        · exact absurd hm' hmn
    · show (n :: st.S).Pairwise
        (fun a b => (st.index.set n st.x).getD b 0 < (st.index.set n st.x).getD a 0)
      rw [List.pairwise_cons]
      constructor
      · intro a ha
        rw [getD_set_eq _ _ _ hni, getD_set_ne _ _ _ _ (hne a ha)]
        exact hinv.index_lt a (hinv.stack_indexed a ha)
      · refine List.Pairwise.imp_of_mem ?_ hinv.sorted
        intro a b ha hb hab
        rw [getD_set_ne _ _ _ _ (hne a ha), getD_set_ne _ _ _ _ (hne b hb)]
        exact hab
    · intro m
      show m ∈ st.scc.flatten ↔
        (Bit (SetBit1 st.indexed n) m = true ∧ Bit (SetBit1 st.stacked n) m = false)
      rw [hinv.done_iff m, bit_setBit1, bit_setBit1]
      by_cases hmn : n = m
      · subst hmn
        simp [hw]
      · simp [hmn]
    · intro y hy
      show (st.lowlink.set n st.x).getD y 0 ≤ (st.index.set n st.x).getD y 0 ∧
        ∃ w ∈ n :: st.S, (st.index.set n st.x).getD w 0 = (st.lowlink.set n st.x).getD y 0 ∧
          Reach g y w
      rcases List.mem_cons.1 hy with rfl | hy
      · rw [getD_set_eq _ _ _ hni, getD_set_eq _ _ _ hnl]
        exact ⟨le_refl _, y, List.mem_cons_self _ _, by rw [getD_set_eq _ _ _ hni],
          Relation.ReflTransGen.refl⟩
      · rw [getD_set_ne _ _ _ _ (hne y hy), getD_set_ne _ _ _ _ (hne y hy)]
        obtain ⟨h1, w, hw', h2, h3⟩ := hinv.low y hy
        exact ⟨h1, w, List.mem_cons_of_mem _ hw', by rw [getD_set_ne _ _ _ _ (hne w hw')]; exact h2,
          h3⟩
  · exact
      { indexed_mono := fun m hm => by
          show Bit (SetBit1 st.indexed n) m = true
          rw [bit_setBit1, hm]; rfl
        index_eq := fun m hm => getD_set_ne _ _ _ _ (hnei m hm)
        lowlink_eq := fun m hm => getD_set_ne _ _ _ _ (hne m hm)
        stack := rfl
        fresh := fun y hy => by
          rw [List.nil_append, List.mem_singleton] at hy
          rw [hy]; exact hw }
  · exact
      { low_ge := fun y hy => absurd hy (List.not_mem_nil _)
        low_lt := fun y hy => absurd hy (List.not_mem_nil _)
        reach := fun y hy => absurd hy (List.not_mem_nil _)
        done := fun y hy => absurd hy (List.not_mem_nil _) }
  · exact getD_set_eq _ _ _ hni
  · intro w hw'
    exact absurd hw' (List.not_mem_nil _)

theorem tjLoop_mem (g : AdjacencyList) (st : TjState) (n : Nat) (pfx : List Nat) (s : TjState)
    (hl : TjLoop g st n pfx s) : n ∈ s.S ∧ n ∉ st.S := by
  obtain ⟨segA, hext, _, _⟩ := hl.ext
  have hnd := hl.inv.nodupS
  rw [hext.stack] at hnd ⊢
  refine ⟨by simp, ?_⟩
  intro hmem
  exact (List.nodup_append.1 hnd).2.2 (List.mem_append_right _ (List.mem_singleton_self n)) hmem

/-- Lowering lowlink[n] to the index of a stack node that n reaches keeps the invariant. -/
theorem tjInv_lower (g : AdjacencyList) (s : TjState) (n : Nat) (hinv : TjInv g s)
    (hnS : n ∈ s.S) (v : Nat) (hv : v ≤ s.lowlink.getD n 0)
    (hwit : ∃ w ∈ s.S, s.index.getD w 0 = v ∧ Reach g n w) :
    TjInv g { s with lowlink := s.lowlink.set n v } := by
  have hnl : n < s.lowlink.length := by
    rw [hinv.len_lowlink]; exact hinv.indexed_lt n (hinv.stack_indexed n hnS)
  refine
    { len_index := hinv.len_index
      len_lowlink := by simp [hinv.len_lowlink]
      nodupS := hinv.nodupS
      stacked_iff := hinv.stacked_iff
      stack_indexed := hinv.stack_indexed
      indexed_lt := hinv.indexed_lt
      index_lt := hinv.index_lt
      sorted := hinv.sorted
      nodup_done := hinv.nodup_done
      done_iff := hinv.done_iff
      closed := hinv.closed
      strong := hinv.strong
      nonempty := hinv.nonempty
      low := ?_ }
  intro y hy
  show (s.lowlink.set n v).getD y 0 ≤ s.index.getD y 0 ∧
    ∃ w ∈ s.S, s.index.getD w 0 = (s.lowlink.set n v).getD y 0 ∧ Reach g y w
  by_cases hyn : y = n
  · subst hyn
    rw [getD_set_eq _ _ _ hnl]
    exact ⟨le_trans hv (hinv.low y hy).1, hwit⟩
  · rw [getD_set_ne _ _ _ _ (fun h => hyn h.symm)]
    exact hinv.low y hy

/-- Lowering lowlink[n] to the index of a stack node that n reaches keeps the invariant of
the loop of sc(n). -/
theorem tjLoop_lower (g : AdjacencyList) (st : TjState) (n : Nat) (pfx : List Nat)
    (s : TjState) (hl : TjLoop g st n pfx s) (v : Nat) (hv : v ≤ s.lowlink.getD n 0)
    (hwit : ∃ w ∈ s.S, s.index.getD w 0 = v ∧ Reach g n w) :
    TjLoop g st n pfx { s with lowlink := s.lowlink.set n v } := by
  obtain ⟨hnS, hnS0⟩ := tjLoop_mem g st n pfx s hl
  obtain ⟨segA, hext, hseg, hnA⟩ := hl.ext
  have hinv := hl.inv
  have hnl : n < s.lowlink.length := by
    rw [hinv.len_lowlink]; exact hinv.indexed_lt n (hinv.stack_indexed n hnS)
  have hsame : ∀ y, y ≠ n → (s.lowlink.set n v).getD y 0 = s.lowlink.getD y 0 :=
    fun y hy => getD_set_ne _ _ _ _ (fun h => hy h.symm)
  refine ⟨tjInv_lower g s n hinv hnS v hv hwit, ⟨segA, ?_, ?_, hnA⟩, hl.index_n, ?_⟩
  · exact
      { indexed_mono := hext.indexed_mono
        index_eq := hext.index_eq
        lowlink_eq := fun m hm =>
          (hsame m (fun h => hnS0 (h ▸ hm))).trans (hext.lowlink_eq m hm)
        stack := hext.stack
        fresh := hext.fresh }
  · have hyn : ∀ y, y ∈ segA → y ≠ n := fun y hy h => hnA (h ▸ hy)
    exact
      { low_ge := fun y hy => by
          show (s.lowlink.set n v).getD n 0 ≤ (s.lowlink.set n v).getD y 0
          rw [getD_set_eq _ _ _ hnl, hsame y (hyn y hy)]
          exact le_trans hv (hseg.low_ge y hy)
        low_lt := fun y hy hne => by
          show (s.lowlink.set n v).getD y 0 < s.index.getD y 0
          rw [hsame y hne]
          exact hseg.low_lt y hy hne
        reach := hseg.reach
        done := fun y hy hne w hw => by
          obtain ⟨h1, h2⟩ := hseg.done y hy hne w hw
          refine ⟨h1, fun hwS => ?_⟩
          show (s.lowlink.set n v).getD y 0 ≤ s.index.getD w 0
          rw [hsame y hne]
          exact h2 hwS }
  · intro w hw
    obtain ⟨h1, h2⟩ := hl.pfx_done w hw
    refine ⟨h1, fun hwS => ?_⟩
    show (s.lowlink.set n v).getD n 0 ≤ s.index.getD w 0
    rw [getD_set_eq _ _ _ hnl]
    exact le_trans hv (h2 hwS)

theorem set_getD_self (l : List Nat) (n : Nat) : l.set n (l.getD n 0) = l := by
  apply List.ext_getElem
  · simp
  · intro i h1 h2
    by_cases h : n = i
    · subst h
      simp [List.getD_eq_getElem?_getD, List.getElem?_eq_getElem h2]
    · simp [List.getElem_set, h]

theorem tjLoop_snoc (g : AdjacencyList) (st : TjState) (n : Nat) (pfx : List Nat)
    (s : TjState) (hl : TjLoop g st n pfx s) (w : Nat) (h1 : Bit s.indexed w = true)
    (h2 : w ∈ s.S → s.lowlink.getD n 0 ≤ s.index.getD w 0) :
    TjLoop g st n (pfx ++ [w]) s := by
  refine ⟨hl.inv, hl.ext, hl.index_n, ?_⟩
  intro y hy
  rcases List.mem_append.1 hy with hy | hy
  · exact hl.pfx_done y hy
  · rw [List.mem_singleton] at hy
    subst hy
    exact ⟨h1, h2⟩

/-- The step of the loop of sc(n) for a neighbour that is indexed already. -/
theorem tarjanNb_indexed (g : AdjacencyList) (rec : Nat → TjState → Except Err TjState)
    (st : TjState) (n : Nat) (pfx : List Nat) (s : TjState) (nb : Nat)
    (hl : TjLoop g st n pfx s) (harc : Arc g n nb) (hnb : Bit s.indexed nb = true) :
    ∃ s', tarjanNb rec n s nb = .ok s' ∧ TjLoop g st n (pfx ++ [nb]) s' ∧
      s'.indexed = s.indexed := by
  obtain ⟨hnS, _⟩ := tjLoop_mem g st n pfx s hl
  have hinv := hl.inv
  have hn : n < g.length := hinv.indexed_lt n (hinv.stack_indexed n hnS)
  have hnblt : nb < g.length := hinv.indexed_lt nb hnb
  unfold tarjanNb
  simp only [hnb, Bool.true_eq_false, if_false]
  by_cases hst : Bit s.stacked nb = true
  · simp only [hst, if_true]
    rw [getElem?_eq_some_getD _ _ (by rw [hinv.len_index]; exact hnblt),
      getElem?_eq_some_getD _ _ (by rw [hinv.len_lowlink]; exact hn)]
    simp only
    have hnbS : nb ∈ s.S := (hinv.stacked_iff nb).1 hst
    by_cases hlt : s.index.getD nb 0 < s.lowlink.getD n 0
    · simp only [hlt, if_true]
      refine ⟨_, rfl, ?_, rfl⟩
      have hl' := tjLoop_lower g st n pfx s hl (s.index.getD nb 0) (le_of_lt hlt)
        ⟨nb, hnbS, rfl, Relation.ReflTransGen.single harc⟩
      apply tjLoop_snoc g st n pfx _ hl' nb hnb
      intro _
      show (s.lowlink.set n (s.index.getD nb 0)).getD n 0 ≤ s.index.getD nb 0
      rw [getD_set_eq _ _ _ (by rw [hinv.len_lowlink]; exact hn)]
    · simp only [hlt, if_false]
      exact ⟨s, rfl, tjLoop_snoc g st n pfx s hl nb hnb (fun _ => Nat.le_of_not_lt hlt), rfl⟩
  · simp only [hst, if_false]
    refine ⟨s, rfl, tjLoop_snoc g st n pfx s hl nb hnb ?_, rfl⟩
    intro hmem
    exact absurd ((hinv.stacked_iff nb).2 hmem) hst

/-- After the call sc(nb) on a neighbour not yet indexed has returned, giving lowlink[n] a
value v that is at most lowlink[n], at most lowlink[nb] when nb is still on the stack, and
the index of a stack node that n reaches, keeps the invariant of the loop of sc(n). -/
theorem tjLoop_after_call (g : AdjacencyList) (st : TjState) (n : Nat) (pfx : List Nat)
    (s : TjState) (nb : Nat) (s1 : TjState) (hl : TjLoop g st n pfx s) (harc : Arc g n nb)
    (hpost : TjPost g s nb s1) (v : Nat) (hv : v ≤ s1.lowlink.getD n 0)
    (hv2 : s1.lowlink.getD nb 0 < s1.index.getD nb 0 → v ≤ s1.lowlink.getD nb 0)
    (hwit : ∃ w ∈ s1.S, s1.index.getD w 0 = v ∧ Reach g n w) :
    TjLoop g st n (pfx ++ [nb]) { s1 with lowlink := s1.lowlink.set n v } := by
  obtain ⟨hinv1, segN, hextN, hixnb, hnbidx, hcase⟩ := hpost
  obtain ⟨segA, hext, hseg, hnA⟩ := hl.ext
  obtain ⟨hnS, hnS0⟩ := tjLoop_mem g st n pfx s hl
  have hinv := hl.inv
  have hnidx : Bit s.indexed n = true := hinv.stack_indexed n hnS
  have hnN : n ∉ segN := fun h => by
    have := hextN.fresh n h
    rw [hnidx] at this
    exact absurd this (by simp)
  have hnS1 : n ∈ s1.S := by rw [hextN.stack]; exact List.mem_append_right _ hnS
  have hnl1 : n < s1.lowlink.length := by
    rw [hinv1.len_lowlink]; exact hinv1.indexed_lt n (hinv1.stack_indexed n hnS1)
  have hll1n : s1.lowlink.getD n 0 = s.lowlink.getD n 0 := hextN.lowlink_eq n hnS
  have holdS : ∀ w, Bit s.indexed w = true → w ∈ s1.S → w ∈ s.S := by
    intro w hw hmem
    rw [hextN.stack] at hmem
    rcases List.mem_append.1 hmem with h | h
    · have := hextN.fresh w h
      rw [hw] at this
      exact absurd this (by simp)
    · exact h
  have hsame : ∀ y, y ≠ n → (s1.lowlink.set n v).getD y 0 = s1.lowlink.getD y 0 :=
    fun y hy => getD_set_ne _ _ _ _ (fun h => hy h.symm)
  have hAS : ∀ y, y ∈ segA → y ∈ s.S := by
    intro y hy
    rw [hext.stack]
    exact List.mem_append_left _ (List.mem_append_left _ hy)
  have htrans : ∀ y, y ∈ s.S → TjDoneNode g s y → TjDoneNode g s1 y := by
    intro y hy hd w hw
    obtain ⟨h1, h2⟩ := hd w hw
    refine ⟨hextN.indexed_mono w h1, fun hwS => ?_⟩
    rw [hextN.lowlink_eq y hy, hextN.index_eq w h1]
    exact h2 (holdS w h1 hwS)
  have hdone2 : ∀ y, y ≠ n → TjDoneNode g s1 y →
      TjDoneNode g { s1 with lowlink := s1.lowlink.set n v } y := by
    intro y hyn hd w hw
    obtain ⟨h1, h2⟩ := hd w hw
    refine ⟨h1, fun hwS => ?_⟩
    show (s1.lowlink.set n v).getD y 0 ≤ s1.index.getD w 0
    rw [hsame y hyn]
    exact h2 hwS
  have hN : ∀ y, y ∈ segN → v ≤ s1.lowlink.getD y 0 ∧
      s1.lowlink.getD y 0 < s1.index.getD y 0 ∧ Reach g nb y ∧ TjDoneNode g s1 y := by
    intro y hy
    rcases hcase with ⟨hnil, _⟩ | ⟨_, hlt, hsegNb, hdoneNb⟩
    · rw [hnil] at hy; exact absurd hy (List.not_mem_nil _)
    · refine ⟨le_trans (hv2 hlt) (hsegNb.low_ge y hy), ?_, hsegNb.reach y hy, ?_⟩
      · by_cases hynb : y = nb
        · rw [hynb]; exact hlt
        · exact hsegNb.low_lt y hy hynb
      · by_cases hynb : y = nb
        · rw [hynb]; exact hdoneNb
        · exact hsegNb.done y hy hynb
  refine ⟨tjInv_lower g s1 n hinv1 hnS1 v hv hwit, ⟨segN ++ segA, ?_, ?_, ?_⟩, ?_, ?_⟩
  · have h := tjExt_trans st s s1 (segA ++ [n]) segN hext hextN
    exact
      { indexed_mono := h.indexed_mono
        index_eq := h.index_eq
        lowlink_eq := fun m hm =>
          (hsame m (fun h' => hnS0 (h' ▸ hm))).trans (h.lowlink_eq m hm)
        stack := by
          show s1.S = segN ++ segA ++ [n] ++ st.S
          rw [h.stack]; simp
        fresh := fun y hy => h.fresh y (by simpa using hy) }
  · refine
      { low_ge := ?_
        low_lt := ?_
        reach := ?_
        done := ?_ }
    · intro y hy
      show (s1.lowlink.set n v).getD n 0 ≤ (s1.lowlink.set n v).getD y 0
      rw [getD_set_eq _ _ _ hnl1]
      rcases List.mem_append.1 hy with hy | hy
      · rw [hsame y (fun h => hnN (h ▸ hy))]
        exact (hN y hy).1
      · rw [hsame y (fun h => hnA (h ▸ hy)), hextN.lowlink_eq y (hAS y hy)]
        exact le_trans hv (hll1n ▸ hseg.low_ge y hy)
    · intro y hy hyn
      show (s1.lowlink.set n v).getD y 0 < s1.index.getD y 0
      rw [hsame y hyn]
      rcases List.mem_append.1 hy with hy | hy
      · exact (hN y hy).2.1
      · rw [hextN.lowlink_eq y (hAS y hy),
          hextN.index_eq y (hinv.stack_indexed y (hAS y hy))]
        exact hseg.low_lt y hy hyn
    · intro y hy
      rcases List.mem_append.1 hy with hy | hy
      · exact Relation.ReflTransGen.head harc (hN y hy).2.2.1
      · exact hseg.reach y hy
    · intro y hy hyn
      apply hdone2 y hyn
      rcases List.mem_append.1 hy with hy | hy
      · exact (hN y hy).2.2.2
      · exact htrans y (hAS y hy) (hseg.done y hy hyn)
  · intro hmem
    rcases List.mem_append.1 hmem with h | h
    · exact hnN h
    · exact hnA h
  · show s1.index.getD n 0 = st.x
    rw [hextN.index_eq n hnidx]
    exact hl.index_n
  · intro w hw
    show Bit s1.indexed w = true ∧
      (w ∈ s1.S → (s1.lowlink.set n v).getD n 0 ≤ s1.index.getD w 0)
    rw [getD_set_eq _ _ _ hnl1]
    rcases List.mem_append.1 hw with hw | hw
    · obtain ⟨h1, h2⟩ := hl.pfx_done w hw
      refine ⟨hextN.indexed_mono w h1, fun hwS => ?_⟩
      rw [hextN.index_eq w h1]
      exact le_trans hv (hll1n ▸ h2 (holdS w h1 hwS))
    · rw [List.mem_singleton] at hw
      subst hw
      refine ⟨hnbidx, fun hwS => ?_⟩
      rcases hcase with ⟨hnil, _⟩ | ⟨_, hlt, _, _⟩
      · rw [hextN.stack, hnil, List.nil_append] at hwS
        have := hextN.fresh
        rcases hl.inv.stack_indexed w hwS with hidx
        -- nb was not indexed when sc(nb) was called
        exact absurd hidx (by
          have hx := hinv1.index_lt w hnbidx
          have hs := hinv.index_lt w hidx
          rw [hixnb] at hx
          have := hextN.index_eq w hidx
          omega)
      · exact le_of_lt (lt_of_le_of_lt (hv2 hlt) hlt)

/-- The step of the loop of sc(n) for a neighbour not yet indexed, given that the call
sc(nb) returns and achieves its goal. -/
theorem tarjanNb_white (g : AdjacencyList) (rec : Nat → TjState → Except Err TjState)
    (st : TjState) (n : Nat) (pfx : List Nat) (s : TjState) (nb : Nat) (s1 : TjState)
    (hl : TjLoop g st n pfx s) (harc : Arc g n nb) (hnb : Bit s.indexed nb = false)
    (hrun : rec nb s = .ok s1) (hpost : TjPost g s nb s1) :
    ∃ s', tarjanNb rec n s nb = .ok s' ∧ TjLoop g st n (pfx ++ [nb]) s' ∧
      BmLe s.indexed s'.indexed := by
  have hpost' := hpost
  obtain ⟨hinv1, segN, hextN, hixnb, hnbidx, hcase⟩ := hpost
  obtain ⟨hnS, _⟩ := tjLoop_mem g st n pfx s hl
  have hinv := hl.inv
  have hnS1 : n ∈ s1.S := by rw [hextN.stack]; exact List.mem_append_right _ hnS
  have hn : n < g.length := hinv.indexed_lt n (hinv.stack_indexed n hnS)
  have hnblt : nb < g.length := hinv1.indexed_lt nb hnbidx
  unfold tarjanNb
  simp only [hnb, if_true, hrun]
  rw [getElem?_eq_some_getD _ _ (by rw [hinv1.len_lowlink]; exact hnblt),
    getElem?_eq_some_getD _ _ (by rw [hinv1.len_lowlink]; exact hn)]
  simp only
  by_cases hlt : s1.lowlink.getD nb 0 < s1.lowlink.getD n 0
  · simp only [hlt, if_true]
    refine ⟨_, rfl, ?_, hextN.indexed_mono⟩
    apply tjLoop_after_call g st n pfx s nb s1 hl harc hpost' _ (le_of_lt hlt)
      (fun _ => le_refl _)
    rcases hcase with ⟨_, heq⟩ | ⟨⟨segB, hsegN⟩, _, _, _⟩
    · have h1 : s1.lowlink.getD n 0 = s.lowlink.getD n 0 := hextN.lowlink_eq n hnS
      have h2 := (hinv.low n hnS).1
      have h3 := hinv.index_lt n (hinv.stack_indexed n hnS)
      omega
    · have hnbS1 : nb ∈ s1.S := by rw [hextN.stack, hsegN]; simp
      obtain ⟨_, w, hw, hix, hreach⟩ := hinv1.low nb hnbS1
      exact ⟨w, hw, hix, Relation.ReflTransGen.head harc hreach⟩
  · simp only [hlt, if_false]
    refine ⟨s1, rfl, ?_, hextN.indexed_mono⟩
    have h := tjLoop_after_call g st n pfx s nb s1 hl harc hpost' (s1.lowlink.getD n 0)
      (le_refl _) (fun _ => Nat.le_of_not_lt hlt)
      (by obtain ⟨_, w, hw, hix, hreach⟩ := hinv1.low n hnS1; exact ⟨w, hw, hix, hreach⟩)
    rw [set_getD_self] at h
    exact h

/-- When the loop of sc(n) is over and lowlink[n] is below index[n], the call returns with
n and the nodes above it left on the stack. -/
theorem tjPost_keep (g : AdjacencyList) (st : TjState) (n : Nat) (nbs : List Nat)
    (s : TjState) (hl : TjLoop g st n nbs s) (hg : g[n]? = some nbs)
    (hne : s.lowlink.getD n 0 ≠ s.index.getD n 0) : TjPost g st n s := by
  obtain ⟨hnS, _⟩ := tjLoop_mem g st n nbs s hl
  obtain ⟨segA, hext, hseg, hnA⟩ := hl.ext
  have hinv := hl.inv
  refine ⟨hinv, segA ++ [n], hext, hl.index_n, hinv.stack_indexed n hnS,
    Or.inr ⟨⟨segA, rfl⟩, ?_, ?_, ?_⟩⟩
  · exact lt_of_le_of_ne (hinv.low n hnS).1 hne
  · refine
      { low_ge := ?_
        low_lt := ?_
        reach := ?_
        done := ?_ }
    · intro y hy
      rcases List.mem_append.1 hy with hy | hy
      · exact hseg.low_ge y hy
      · rw [List.mem_singleton] at hy; rw [hy]
    · intro y hy hyn
      rcases List.mem_append.1 hy with hy | hy
      · exact hseg.low_lt y hy hyn
      · rw [List.mem_singleton] at hy; exact absurd hy hyn
    · intro y hy
      rcases List.mem_append.1 hy with hy | hy
      · exact hseg.reach y hy
      · rw [List.mem_singleton] at hy; rw [hy]; exact Relation.ReflTransGen.refl
    · intro y hy hyn
      rcases List.mem_append.1 hy with hy | hy
      · exact hseg.done y hy hyn
      · rw [List.mem_singleton] at hy; exact absurd hy hyn
  · rintro w ⟨nbs', hg', hw⟩
    rw [hg] at hg'
    cases hg'
    exact hl.pfx_done w hw

/-- When the loop of sc(n) is over and lowlink[n] equals index[n], the nodes from the top of
the stack down to n are popped as a new component and the call has achieved its goal. -/
theorem tjPost_pop (g : AdjacencyList) (st : TjState) (n : Nat) (nbs : List Nat)
    (s : TjState) (hl : TjLoop g st n nbs s) (hg : g[n]? = some nbs)
    (heq : s.lowlink.getD n 0 = s.index.getD n 0) :
    ∃ S stacked c, tarjanPop n s.S s.stacked [] = .ok (S, stacked, c) ∧
      TjPost g st n { s with S := S, stacked := stacked, scc := s.scc ++ [c] } := by
  obtain ⟨hnS, _⟩ := tjLoop_mem g st n nbs s hl
  obtain ⟨segA, hext, hseg, hnA⟩ := hl.ext
  have hinv := hl.inv
  have hstack : s.S = segA ++ n :: st.S := by rw [hext.stack]; simp
  obtain ⟨stacked', hpop, hbits⟩ := tarjanPop_spec n st.S segA s.stacked [] hnA
  rw [← hstack, List.nil_append] at hpop
  refine ⟨st.S, stacked', segA ++ [n], hpop, ?_⟩
  have hnd : (segA ++ [n] ++ st.S).Nodup := by rw [← hext.stack]; exact hinv.nodupS
  have hnd' := List.nodup_append.1 hnd
  have hsorted := hinv.sorted
  rw [hext.stack, List.pairwise_append] at hsorted
  have hmemS : ∀ m, m ∈ s.S ↔ (m ∈ segA ++ [n] ∨ m ∈ st.S) := by
    intro m; rw [hext.stack, List.mem_append]
  have hseg_mem : ∀ m, m ∈ segA ++ [n] ↔ (m ∈ segA ∨ m = n) := by
    intro m; simp
  have hbits' : ∀ m, Bit stacked' m = true ↔ m ∈ st.S := by
    intro m
    rw [hbits m, hinv.stacked_iff m, hmemS m, hseg_mem m]
    constructor
    · rintro ⟨(h | h) | h, h1, h2⟩
      · exact absurd h h1
      · exact absurd h h2
      · exact h
    · intro h
      have hdis : m ∉ segA ++ [n] := fun h' => hnd'.2.2 h' h
      rw [hseg_mem m] at hdis
      exact ⟨Or.inr h, fun h' => hdis (Or.inl h'), fun h' => hdis (Or.inr h')⟩
  -- every node of the segment has lowlink at least index[n]
  have hlow_ge : ∀ u, u ∈ segA ++ [n] → s.index.getD n 0 ≤ s.lowlink.getD u 0 := by
    intro u hu
    rcases (hseg_mem u).1 hu with h | h
    · rw [← heq]; exact hseg.low_ge u h
    · rw [h, heq]
  -- a stack node of index at least index[n] lies in the segment
  have hin_seg : ∀ w, w ∈ s.S → s.index.getD n 0 ≤ s.index.getD w 0 → w ∈ segA ++ [n] := by
    intro w hw hle
    rcases (hmemS w).1 hw with h | h
    · exact h
    · have := hsorted.2.2 n (by simp) w h
      omega
  have hnode : ∀ u, u ∈ segA ++ [n] → TjDoneNode g s u := by
    intro u hu
    rcases (hseg_mem u).1 hu with h | h
    · exact hseg.done u h (fun h' => hnA (h' ▸ h))
    · rw [h]
      rintro w ⟨nbs', hg', hw⟩
      rw [hg] at hg'
      cases hg'
      exact hl.pfx_done w hw
  have hreach_n : ∀ k u, u ∈ segA ++ [n] → s.index.getD u 0 ≤ k → Reach g u n := by
    intro k
    induction k with
    | zero =>
      intro u hu hk
      rcases (hseg_mem u).1 hu with h | h
      · have := hseg.low_lt u h (fun h' => hnA (h' ▸ h))
        omega
      · rw [h]; exact Relation.ReflTransGen.refl
    | succ k ih =>
      intro u hu hk
      rcases (hseg_mem u).1 hu with h | h
      · have hlt := hseg.low_lt u h (fun h' => hnA (h' ▸ h))
        have huS : u ∈ s.S := (hmemS u).2 (Or.inl hu)
        obtain ⟨_, w, hw, hix, hr⟩ := hinv.low u huS
        have hge := hlow_ge u hu
        have hwseg := hin_seg w hw (by omega)
        exact Relation.ReflTransGen.trans hr (ih w hwseg (by omega))
      · rw [h]; exact Relation.ReflTransGen.refl
  have hflat : (s.scc ++ [segA ++ [n]]).flatten = s.scc.flatten ++ (segA ++ [n]) := by
    simp
  refine ⟨?_, [], ?_, hl.index_n, hinv.stack_indexed n hnS, Or.inl ⟨rfl, heq⟩⟩
  · refine
      { len_index := hinv.len_index
        len_lowlink := hinv.len_lowlink
        nodupS := hnd'.2.1
        stacked_iff := hbits'
        stack_indexed := fun m hm => hinv.stack_indexed m ((hmemS m).2 (Or.inr hm))
        indexed_lt := hinv.indexed_lt
        index_lt := hinv.index_lt
        sorted := hsorted.2.1
        nodup_done := ?_
        done_iff := ?_
        closed := ?_
        strong := ?_
        nonempty := ?_
        low := ?_ }
    · show (s.scc ++ [segA ++ [n]]).flatten.Nodup
      rw [hflat]
      refine List.Nodup.append hinv.nodup_done hnd'.1 ?_
      intro m hm hm'
      have h1 := ((hinv.done_iff m).1 hm).2
      rw [(hinv.stacked_iff m).2 ((hmemS m).2 (Or.inl hm'))] at h1
      exact absurd h1 (by simp)
    · intro m
      show m ∈ (s.scc ++ [segA ++ [n]]).flatten ↔
        (Bit s.indexed m = true ∧ Bit stacked' m = false)
      rw [hflat, List.mem_append, hinv.done_iff m]
      constructor
      · rintro (⟨h1, h2⟩ | h)
        · refine ⟨h1, bool_eq_false_of_not (fun hc => ?_)⟩
          rw [(hinv.stacked_iff m).2 ((hmemS m).2 (Or.inr ((hbits' m).1 hc)))] at h2
          exact absurd h2 (by simp)
        · refine ⟨hinv.stack_indexed m ((hmemS m).2 (Or.inl h)),
            bool_eq_false_of_not (fun hc => ?_)⟩
          exact hnd'.2.2 h ((hbits' m).1 hc)
      · rintro ⟨h1, h2⟩
        by_cases hs : Bit s.stacked m = true
        · rcases (hmemS m).1 ((hinv.stacked_iff m).1 hs) with h | h
          · exact Or.inr h
          · rw [(hbits' m).2 h] at h2
            exact absurd h2 (by simp)
        · exact Or.inl ⟨h1, bool_eq_false_of_not hs⟩
    · intro pre C post hsplit u hu w hw
      have hsplit' : s.scc ++ [segA ++ [n]] = pre ++ C :: post := hsplit
      rcases snoc_split hsplit' with ⟨_, hpre, hC⟩ | ⟨post', _, hl'⟩
      · rw [hpre, hC]
        rw [hC] at hu
        obtain ⟨h1, h2⟩ := hnode u hu w hw
        by_cases hwS : w ∈ s.S
        · left
          exact hin_seg w hwS (le_trans (hlow_ge u hu) (h2 hwS))
        · right
          rw [hinv.done_iff w]
          exact ⟨h1, bool_eq_false_of_not (fun hc => hwS ((hinv.stacked_iff w).1 hc))⟩
      · exact hinv.closed pre C post' hl' u hu w hw
    · intro C hC u hu v hv
      have hC' : C ∈ s.scc ++ [segA ++ [n]] := hC
      rcases List.mem_append.1 hC' with h | h
      · exact hinv.strong C h u hu v hv
      · rw [List.mem_singleton] at h
        rw [h] at hu hv
        refine Relation.ReflTransGen.trans (hreach_n _ u hu (le_refl _)) ?_
        rcases (hseg_mem v).1 hv with h' | h'
        · exact hseg.reach v h'
        · rw [h']
    · intro C hC
      have hC' : C ∈ s.scc ++ [segA ++ [n]] := hC
      rcases List.mem_append.1 hC' with h | h
      · exact hinv.nonempty C h
      · rw [List.mem_singleton] at h
        rw [h]; simp
    · intro y hy
      obtain ⟨h1, w, hw, hix, hr⟩ := hinv.low y ((hmemS y).2 (Or.inr hy))
      refine ⟨h1, w, ?_, hix, hr⟩
      rcases (hmemS w).1 hw with h | h
      · have := hsorted.2.2 w h y hy
        omega
      · exact h
  · exact
      { indexed_mono := hext.indexed_mono
        index_eq := hext.index_eq
        lowlink_eq := hext.lowlink_eq
        stack := rfl
        fresh := fun y hy => absurd hy (List.not_mem_nil _) }

/-- A call of sc on a node not yet indexed of a bounds-valid graph returns and achieves its
goal. -/
theorem tarjanSc_spec (g : AdjacencyList) (hb : BoundsValid g) :
    ∀ (fuel n : Nat) (st : TjState), TjInv g st → n < g.length → Bit st.indexed n = false →
      unsetCount g st.indexed < fuel →
      ∃ st', tarjanSc g fuel n st = .ok st' ∧ TjPost g st n st' := by
  intro fuel
  induction fuel with
  | zero => intro n st _ _ _ h; exact absurd h (Nat.not_lt_zero _)
  | succ fuel ih =>
    intro n st hinv hn hw hfuel
    have hg : g[n]? = some g[n] := List.getElem?_eq_getElem hn
    have loop : ∀ (sfx pfx : List Nat) (s : TjState), pfx ++ sfx = g[n] →
        TjLoop g st n pfx s → unsetCount g s.indexed < fuel →
        ∃ s', sfx.foldlM (tarjanNb (tarjanSc g fuel) n) s = .ok s' ∧ TjLoop g st n g[n] s' := by
      intro sfx
      induction sfx with
      | nil =>
        intro pfx s hsplit hl _
        rw [List.append_nil] at hsplit
        rw [← hsplit]
        exact ⟨s, rfl, hl⟩
      | cons nb rest ihl =>
        intro pfx s hsplit hl hc
        have hmem : nb ∈ g[n] := by rw [← hsplit]; simp
        have harc : Arc g n nb := ⟨g[n], hg, hmem⟩
        have hnb : nb < g.length := arc_lt_right g hb n nb harc
        have hstep : ∃ s1, tarjanNb (tarjanSc g fuel) n s nb = .ok s1 ∧
            TjLoop g st n (pfx ++ [nb]) s1 ∧ BmLe s.indexed s1.indexed := by
          by_cases hi : Bit s.indexed nb = true
          · obtain ⟨s1, h1, h2, h3⟩ := tarjanNb_indexed g (tarjanSc g fuel) st n pfx s nb hl
              harc hi
            exact ⟨s1, h1, h2, by rw [h3]; exact fun m hm => hm⟩
          · have hi' := bool_eq_false_of_not hi
            obtain ⟨s1, hrun, hpost⟩ := ih nb s hl.inv hnb hi' hc
            exact tarjanNb_white g (tarjanSc g fuel) st n pfx s nb s1 hl harc hi' hrun hpost
        obtain ⟨s1, h1, h2, h3⟩ := hstep
        obtain ⟨s', h4, h5⟩ := ihl (pfx ++ [nb]) s1 (by rw [← hsplit]; simp) h2
          (lt_of_le_of_lt (unsetCount_mono g _ _ h3) hc)
        exact ⟨s', (foldlM_cons_ok _ _ _ _ _).2 ⟨s1, h1, h4⟩, h5⟩
    have hni : n < st.index.length := by rw [hinv.len_index]; exact hn
    have hnl : n < st.lowlink.length := by rw [hinv.len_lowlink]; exact hn
    have henter := tjLoop_enter g st n hinv hn hw
    have hc1 : unsetCount g (SetBit1 st.indexed n) < fuel :=
      lt_of_lt_of_le (unsetCount_setBit1_lt g st.indexed n hn hw) (Nat.lt_succ_iff.1 hfuel)
    obtain ⟨s2, hrun, hl2⟩ := loop g[n] [] _ (List.nil_append _) henter hc1
    obtain ⟨hnS, _⟩ := tjLoop_mem g st n g[n] s2 hl2
    rw [tarjanSc]
    simp only [hni, hnl, and_self, if_true, hg, hrun]
    rw [getElem?_eq_some_getD _ _ (by rw [hl2.inv.len_lowlink]; exact hn),
      getElem?_eq_some_getD _ _ (by rw [hl2.inv.len_index]; exact hn)]
    simp only
    by_cases heq : s2.lowlink.getD n 0 = s2.index.getD n 0
    · simp only [heq, if_true]
      obtain ⟨S, stacked, c, hpop, hpost⟩ := tjPost_pop g st n g[n] s2 hl2 hg heq
      simp only [hpop]
      exact ⟨_, rfl, hpost⟩
    · simp only [heq, if_false]
      exact ⟨s2, rfl, tjPost_keep g st n g[n] s2 hl2 hg heq⟩

theorem tjInv_init (g : AdjacencyList) :
    TjInv g ⟨0, 0, List.replicate g.length 0, List.replicate g.length 0, 0, [], []⟩ where
  len_index := by simp
  len_lowlink := by simp
  nodupS := List.nodup_nil
  stacked_iff := fun m => by simp [bit_zero]
  stack_indexed := fun m hm => absurd hm (List.not_mem_nil _)
  indexed_lt := fun m hm => by simp [bit_zero] at hm
  index_lt := fun m hm => by simp [bit_zero] at hm
  sorted := List.Pairwise.nil
  nodup_done := by simp
  done_iff := fun m => by simp [bit_zero]
  closed := fun pre C post h => by simp at h
  strong := fun C hC => absurd hC (List.not_mem_nil _)
  nonempty := fun C hC => absurd hC (List.not_mem_nil _)
  low := fun y hy => absurd hy (List.not_mem_nil _)

/-- The body of the loop of Tarjan over the nodes keeps the invariant and an empty stack. -/
theorem tarjanRoot_spec (g : AdjacencyList) (hb : BoundsValid g) (fuel : Nat)
    (hfuel : g.length < fuel) (st : TjState) (n : Nat) (hinv : TjInv g st) (hS : st.S = [])
    (hn : n < g.length) :
    ∃ st', tarjanRoot g fuel st n = .ok st' ∧ TjInv g st' ∧ st'.S = [] ∧
      BmLe st.indexed st'.indexed ∧ Bit st'.indexed n = true := by
  unfold tarjanRoot
  by_cases hi : Bit st.indexed n = true
  · simp only [hi, Bool.true_eq_false, if_false]
    exact ⟨st, rfl, hinv, hS, fun m hm => hm, hi⟩
  · have hi' := bool_eq_false_of_not hi
    simp only [hi', if_true]
    obtain ⟨st', hrun, hinv', seg, hext, _, hidx, hcase⟩ := tarjanSc_spec g hb fuel n st hinv hn
      hi' (lt_of_le_of_lt (unsetCount_le g _) hfuel)
    refine ⟨st', hrun, hinv', ?_, hext.indexed_mono, hidx⟩
    rcases hcase with ⟨hnil, _⟩ | ⟨⟨segA, hseg⟩, hlt, _, _⟩
    · rw [hext.stack, hnil, hS]; rfl
    · exfalso
      have hstack : st'.S = segA ++ [n] := by rw [hext.stack, hseg, hS, List.append_nil]
      have hnS : n ∈ st'.S := by rw [hstack]; simp
      obtain ⟨_, w, hw, hix, _⟩ := hinv'.low n hnS
      have hsorted := hinv'.sorted
      rw [hstack, List.pairwise_append] at hsorted
      rw [hstack, List.mem_append, List.mem_singleton] at hw
      rcases hw with h | h
      · have := hsorted.2.2 w h n (List.mem_singleton_self n)
        omega
      · rw [h] at hix
        omega

/-- Tarjan returns on a bounds-valid graph, in a state that satisfies the invariant, with an
empty stack and every node indexed. -/
theorem tarjan_spec (g : AdjacencyList) (hb : BoundsValid g) (fuel : Nat)
    (hfuel : g.length < fuel) :
    ∃ st, Tarjan g fuel = .ok st.scc ∧ TjInv g st ∧ st.S = [] ∧
      ∀ m, m < g.length → Bit st.indexed m = true := by
  have loop : ∀ (l : List Nat) (st : TjState), (∀ m ∈ l, m < g.length) → TjInv g st →
      st.S = [] →
      ∃ st', l.foldlM (tarjanRoot g fuel) st = .ok st' ∧ TjInv g st' ∧ st'.S = [] ∧
        BmLe st.indexed st'.indexed ∧ ∀ m ∈ l, Bit st'.indexed m = true := by
    intro l
    induction l with
    | nil =>
      intro st _ hinv hS
      exact ⟨st, rfl, hinv, hS, fun m hm => hm, fun m hm => absurd hm (List.not_mem_nil _)⟩
    | cons n rest ih =>
      intro st hlt hinv hS
      obtain ⟨st1, h1, hinv1, hS1, hle1, hn1⟩ := tarjanRoot_spec g hb fuel hfuel st n hinv hS
        (hlt n (List.mem_cons_self _ _))
      obtain ⟨st', h2, hinv', hS', hle', hall⟩ := ih st1
        (fun m hm => hlt m (List.mem_cons_of_mem _ hm)) hinv1 hS1
      refine ⟨st', (foldlM_cons_ok _ _ _ _ _).2 ⟨st1, h1, h2⟩, hinv', hS',
        fun m hm => hle' m (hle1 m hm), ?_⟩
      intro m hm
      rcases List.mem_cons.1 hm with rfl | hm
      · exact hle' _ hn1
      · exact hall m hm
  obtain ⟨st, hrun, hinv, hS, _, hall⟩ := loop (List.range g.length) _
    (fun m hm => List.mem_range.1 hm) (tjInv_init g) rfl
  refine ⟨st, ?_, hinv, hS, fun m hm => hall m (List.mem_range.2 hm)⟩
  unfold Tarjan
  rw [hrun]

/-- A node reached from a node of a component lies in that component or in an earlier
one. -/
theorem tj_reach_earlier (g : AdjacencyList) (scc : List (List Nat))
    (hclosed : ∀ pre C post, scc = pre ++ C :: post →
      ∀ u ∈ C, ∀ w, Arc g u w → (w ∈ C ∨ w ∈ pre.flatten))
    (pre : List (List Nat)) (C : List Nat) (post : List (List Nat))
    (hsplit : scc = pre ++ C :: post) (u : Nat) (hu : u ∈ C)
    (v : Nat) (hr : Reach g u v) : v ∈ C ∨ v ∈ pre.flatten := by
  induction hr with
  | refl => exact Or.inl hu
  | @tail y z _ hyz ih =>
    rcases ih with h | h
    · exact hclosed pre C post hsplit y h z hyz
    · right
      obtain ⟨C', hC', hy⟩ := List.mem_flatten.1 h
      obtain ⟨p1, p2, hp⟩ := List.append_of_mem hC'
      have hsplit' : scc = p1 ++ C' :: (p2 ++ C :: post) := by rw [hsplit, hp]; simp
      rw [hp]
      rcases hclosed p1 C' _ hsplit' y hy z hyz with h' | h'
      · simp [h']
      · simp [h']

/-- C9: on a bounds-valid directed graph Tarjan returns exactly the strongly connected
components: the returned components hold every node 0..N-1 exactly once between them, none is
empty, and a node lies in the component of a node u if and only if it is reachable from u and
u is reachable from it. -/
theorem tarjan_components (g : AdjacencyList) (fuel : Nat) (hb : BoundsValid g)
    (hfuel : g.length < fuel) :
    ∃ scc, Tarjan g fuel = .ok scc ∧ scc.flatten.Perm (List.range g.length) ∧
      (∀ C ∈ scc, C ≠ []) ∧
      ∀ C ∈ scc, ∀ u ∈ C, ∀ v, (v ∈ C ↔ (Reach g u v ∧ Reach g v u)) := by
  obtain ⟨st, hrun, hinv, hS, hall⟩ := tarjan_spec g hb fuel hfuel
  have hmem : ∀ m, m ∈ st.scc.flatten ↔ m < g.length := by
    intro m
    rw [hinv.done_iff m]
    constructor
    · exact fun h => hinv.indexed_lt m h.1
    · intro h
      refine ⟨hall m h, bool_eq_false_of_not (fun hc => ?_)⟩
      have := (hinv.stacked_iff m).1 hc
      rw [hS] at this
      exact absurd this (List.not_mem_nil _)
  refine ⟨st.scc, hrun, ?_, hinv.nonempty, ?_⟩
  · rw [List.perm_ext_iff_of_nodup hinv.nodup_done (List.nodup_range _)]
    intro m
    rw [hmem m, List.mem_range]
  · intro C hC u hu v
    constructor
    · intro hv
      exact ⟨hinv.strong C hC u hu v hv, hinv.strong C hC v hv u hu⟩
    · rintro ⟨huv, hvu⟩
      obtain ⟨pre, post, hsplit⟩ := List.append_of_mem hC
      rcases tj_reach_earlier g st.scc hinv.closed pre C post hsplit u hu v huv with h | h
      · exact h
      · exfalso
        obtain ⟨C', hC', hv⟩ := List.mem_flatten.1 h
        obtain ⟨p1, p2, hp⟩ := List.append_of_mem hC'
        have hsplit' : st.scc = p1 ++ C' :: (p2 ++ C :: post) := by rw [hsplit, hp]; simp
        have hu' : u ∈ C' ∨ u ∈ p1.flatten :=
          tj_reach_earlier g st.scc hinv.closed p1 C' _ hsplit' v hv u hvu
        have hupre : u ∈ pre.flatten := by
          rw [hp]
          rcases hu' with h' | h'
          · simp [h']
          · simp [h']
        have hnd := hinv.nodup_done
        rw [hsplit, List.flatten_append, List.flatten_cons] at hnd
        exact (List.nodup_append.1 hnd).2.2 hupre (List.mem_append_left _ hu)

/-- Tarjan returns on a bounds-valid graph the list of its strongly connected components,
every node in one of them, and every arc that leaves a component ends in a component that
stands earlier in the list. -/
theorem tarjan_order_run (g : AdjacencyList) (fuel : Nat) (hb : BoundsValid g)
    (hfuel : g.length < fuel) :
    ∃ scc, Tarjan g fuel = .ok scc ∧ scc.flatten.Perm (List.range g.length) ∧
      (∀ C ∈ scc, ∀ u ∈ C, ∀ v, (v ∈ C ↔ (Reach g u v ∧ Reach g v u))) ∧
      ∀ pre C post, scc = pre ++ C :: post → ∀ u ∈ C, ∀ v, Arc g u v → v ∉ C →
        ∃ C' ∈ pre, v ∈ C' := by
  obtain ⟨st, hrun, hinv, hS, hall⟩ := tarjan_spec g hb fuel hfuel
  have hmem : ∀ m, m ∈ st.scc.flatten ↔ m < g.length := by
    intro m
    rw [hinv.done_iff m]
    constructor
    · exact fun h => hinv.indexed_lt m h.1
    · intro h
      refine ⟨hall m h, bool_eq_false_of_not (fun hc => ?_)⟩
      have := (hinv.stacked_iff m).1 hc
      rw [hS] at this
      exact absurd this (List.not_mem_nil _)
  refine ⟨st.scc, hrun, ?_, ?_, ?_⟩
  · rw [List.perm_ext_iff_of_nodup hinv.nodup_done (List.nodup_range _)]
    intro m
    rw [hmem m, List.mem_range]
  · intro C hC u hu v
    constructor
    · intro hv
      exact ⟨hinv.strong C hC u hu v hv, hinv.strong C hC v hv u hu⟩
    · rintro ⟨huv, hvu⟩
      obtain ⟨pre, post, hsplit⟩ := List.append_of_mem hC
      rcases tj_reach_earlier g st.scc hinv.closed pre C post hsplit u hu v huv with h | h
      · exact h
      · exfalso
        obtain ⟨C', hC', hv⟩ := List.mem_flatten.1 h
        obtain ⟨p1, p2, hp⟩ := List.append_of_mem hC'
        have hsplit' : st.scc = p1 ++ C' :: (p2 ++ C :: post) := by rw [hsplit, hp]; simp
        have hu' : u ∈ C' ∨ u ∈ p1.flatten :=
          tj_reach_earlier g st.scc hinv.closed p1 C' _ hsplit' v hv u hvu
        have hupre : u ∈ pre.flatten := by
          rw [hp]
          rcases hu' with h' | h'
          · simp [h']
          · simp [h']
        have hnd := hinv.nodup_done
        rw [hsplit, List.flatten_append, List.flatten_cons] at hnd
        exact (List.nodup_append.1 hnd).2.2 hupre (List.mem_append_left _ hu)
  · intro pre C post hsplit u hu v huv hvC
    rcases hinv.closed pre C post hsplit u hu v huv with h | h
    · exact absurd h hvC
    · exact List.mem_flatten.1 h

/-- C10: on a bounds-valid directed graph Tarjan returns, the components returned hold
every node 0..N-1 exactly once between them and are the strongly connected components (a
node lies in the component of u if and only if it is reachable from u and u from it), and
they stand in reverse topological order of the condensation: for every arc u -> v of g the
component of u stands at some place of the list, and v lies in that component or in a
component that stands earlier; so wherever a component stands, an arc from it to a node
outside it ends in a component earlier in the list. -/
theorem tarjan_reverse_topological (g : AdjacencyList) (fuel : Nat) (hb : BoundsValid g)
    (hfuel : g.length < fuel) :
    ∃ scc, Tarjan g fuel = .ok scc ∧ scc.flatten.Perm (List.range g.length) ∧
      (∀ C ∈ scc, ∀ u ∈ C, ∀ v, (v ∈ C ↔ (Reach g u v ∧ Reach g v u))) ∧
      (∀ u v, Arc g u v → ∃ pre C post, scc = pre ++ C :: post ∧ u ∈ C ∧
        (v ∈ C ∨ ∃ C' ∈ pre, v ∈ C')) ∧
      ∀ pre C post, scc = pre ++ C :: post → ∀ u ∈ C, ∀ v, Arc g u v → v ∉ C →
        ∃ C' ∈ pre, v ∈ C' := by
  obtain ⟨scc, hrun, hperm, hscc, hord⟩ := tarjan_order_run g fuel hb hfuel
  refine ⟨scc, hrun, hperm, hscc, ?_, hord⟩
  intro u v huv
  have hu : u ∈ scc.flatten := hperm.mem_iff.2 (List.mem_range.2 (arc_lt g u v huv))
  obtain ⟨C, hC, huC⟩ := List.mem_flatten.1 hu
  obtain ⟨pre, post, hsplit⟩ := List.append_of_mem hC
  refine ⟨pre, C, post, hsplit, huC, ?_⟩
  by_cases hv : v ∈ C
  · exact Or.inl hv
  · exact Or.inr (hord pre C post hsplit u huC v huv hv)

theorem tarjan_components_witness :
    BoundsValid [[1, 2], [2], [3], [1]] ∧
    ∃ scc, Tarjan [[1, 2], [2], [3], [1]] 5 = .ok scc ∧
      scc.flatten.Perm (List.range [[1, 2], [2], [3], [1]].length) ∧
      (∀ C ∈ scc, C ≠ []) ∧
      ∀ C ∈ scc, ∀ u ∈ C, ∀ v,
        (v ∈ C ↔ (Reach [[1, 2], [2], [3], [1]] u v ∧ Reach [[1, 2], [2], [3], [1]] v u)) :=
  ⟨by decide, tarjan_components [[1, 2], [2], [3], [1]] 5 (by decide) (by decide)⟩

theorem tarjan_reverse_topological_witness :
    BoundsValid [[1, 2], [2], [3], [1]] ∧
    Tarjan [[1, 2], [2], [3], [1]] 5 = .ok [[3, 2, 1], [0]] ∧
    ∃ scc, Tarjan [[1, 2], [2], [3], [1]] 5 = .ok scc ∧
      scc.flatten.Perm (List.range [[1, 2], [2], [3], [1]].length) ∧
      (∀ C ∈ scc, ∀ u ∈ C, ∀ v,
        (v ∈ C ↔ (Reach [[1, 2], [2], [3], [1]] u v ∧ Reach [[1, 2], [2], [3], [1]] v u))) ∧
      (∀ u v, Arc [[1, 2], [2], [3], [1]] u v → ∃ pre C post, scc = pre ++ C :: post ∧ u ∈ C ∧
        (v ∈ C ∨ ∃ C' ∈ pre, v ∈ C')) ∧
      ∀ pre C post, scc = pre ++ C :: post → ∀ u ∈ C, ∀ v,
        Arc [[1, 2], [2], [3], [1]] u v → v ∉ C → ∃ C' ∈ pre, v ∈ C' :=
  ⟨by decide, by rfl,
    tarjan_reverse_topological [[1, 2], [2], [3], [1]] 5 (by decide) (by decide)⟩

theorem bit_lt_succ (b n : Nat) (h : Bit b n = true) : n < b + 1 := by
  have h1 : b ≥ 2 ^ n := Nat.testBit_implies_ge h
  have h2 : n < 2 ^ n := Nat.lt_two_pow n
  omega

theorem nextOneFrom_some (b : Nat) : ∀ (k i n : Nat), nextOneFrom b k i = some n →
    i ≤ n ∧ Bit b n = true ∧ ∀ j, i ≤ j → j < n → Bit b j = false := by
  intro k
  induction k with
  | zero => intro i n h; simp [nextOneFrom] at h
  | succ k ih =>
    intro i n h
    rw [nextOneFrom] at h
    by_cases hb : Bit b i = true
    · simp only [hb, if_true, Option.some.injEq] at h
      subst h
      exact ⟨le_refl _, hb, fun j h1 h2 => by omega⟩
    · simp only [hb] at h
      obtain ⟨h1, h2, h3⟩ := ih (i + 1) n h
      refine ⟨by omega, h2, fun j hj1 hj2 => ?_⟩
      by_cases hji : j = i
      · subst hji; simpa using hb
      · exact h3 j (by omega) hj2

theorem nextOneFrom_none (b : Nat) : ∀ (k i : Nat), nextOneFrom b k i = none →
    ∀ j, i ≤ j → j < i + k → Bit b j = false := by
  intro k
  induction k with
  | zero => intro i _ j h1 h2; omega
  | succ k ih =>
    intro i h j h1 h2
    rw [nextOneFrom] at h
    by_cases hb : Bit b i = true
    · simp [hb] at h
    · simp only [hb] at h
      by_cases hji : j = i
      · subst hji; simpa using hb
      · exact ih (i + 1) h j (by omega) (by omega)

theorem nextOne_some (b s n : Nat) (h : NextOne b s = some n) :
    s ≤ n ∧ Bit b n = true ∧ ∀ j, s ≤ j → j < n → Bit b j = false :=
  nextOneFrom_some b _ s n h

theorem nextOne_none (b s : Nat) (h : NextOne b s = none) :
    ∀ j, s ≤ j → Bit b j = false := by
  intro j hj
  by_cases hb : Bit b j = true
  · have := bit_lt_succ b j hb
    exact nextOneFrom_none b _ s h j hj (by omega)
  · simpa using hb

theorem nextOne_zero_none (b : Nat) (h : NextOne b 0 = none) : b = 0 := by
  apply Nat.eq_of_testBit_eq
  intro i
  have := nextOne_none b 0 h i (Nat.zero_le _)
  simpa [Bit] using this

theorem nextOne_of_least (b s n : Nat) (h1 : s ≤ n) (h2 : Bit b n = true)
    (h3 : ∀ j, s ≤ j → j < n → Bit b j = false) : NextOne b s = some n := by
  cases h : NextOne b s with
  | none => have := nextOne_none b s h n h1; simp [h2] at this
  | some m =>
    obtain ⟨m1, m2, m3⟩ := nextOne_some b s m h
    have : ¬ m < n := fun hlt => by have := h3 m m1 hlt; simp [m2] at this
    have : ¬ n < m := fun hlt => by have := m3 n h1 hlt; simp [h2] at this
    congr 1; omega

theorem bit_oneBits (n m : Nat) : Bit (OneBits n) m = decide (m < n) := by
  simp [Bit, OneBits, Nat.testBit_two_pow_sub_one]

theorem ne_zero_of_bit (b n : Nat) (h : Bit b n = true) : b ≠ 0 := by
  rintro rfl; simp [bit_zero] at h

theorem exists_bit_of_ne_zero (b : Nat) (h : b ≠ 0) : ∃ n, NextOne b 0 = some n := by
  cases hn : NextOne b 0 with
  | none => exact absurd (nextOne_zero_none b hn) h
  | some n => exact ⟨n, rfl⟩

theorem mem_ones (R m : Nat) : m ∈ ones R ↔ Bit R m = true := by
  unfold ones
  rw [List.mem_filter, List.mem_range]
  exact ⟨fun h => h.2, fun h => ⟨bit_lt_succ R m h, h⟩⟩

theorem ones_sorted (R : Nat) : (ones R).Sorted (· < ·) := by
  unfold ones
  exact List.Pairwise.filter _ (List.pairwise_lt_range _)

theorem popCount_eq (R : Nat) : PopCount R = (ones R).length := rfl

theorem bkSlice_of_sorted (R : Nat) : ∀ (c : List Nat) (s : Nat), c.Sorted (· < ·) →
    (∀ m, m ∈ c ↔ (Bit R m = true ∧ s ≤ m)) → bkSlice R c.length s = .ok c := by
  intro c
  induction c with
  | nil => intro s _ _; rfl
  | cons a t ih =>
    intro s hs hm
    have ha := (hm a).1 (List.mem_cons_self _ _)
    have hlt : ∀ m ∈ t, a < m := (List.sorted_cons.1 hs).1
    have hn : NextOne R s = some a := by
      apply nextOne_of_least R s a ha.2 ha.1
      intro j hj1 hj2
      by_contra hb
      have hb1 : Bit R j = true := by simpa using hb
      have hj := (hm j).2 ⟨hb1, hj1⟩
      rcases List.mem_cons.1 hj with h | h
      · omega
      · have := hlt j h; omega
    have ht : bkSlice R t.length (a + 1) = .ok t := by
      apply ih (a + 1) (List.sorted_cons.1 hs).2
      intro m
      constructor
      · intro h
        exact ⟨((hm m).1 (List.mem_cons_of_mem _ h)).1, hlt m h⟩
      · rintro ⟨h1, h2⟩
        have := (hm m).2 ⟨h1, by omega⟩
        rcases List.mem_cons.1 this with h | h
        · omega
        · exact h
    simp only [List.length_cons, bkSlice, hn, ht]

theorem bkSlice_ones (R : Nat) : bkSlice R (PopCount R) 0 = .ok (ones R) := by
  rw [popCount_eq]
  apply bkSlice_of_sorted R (ones R) 0 (ones_sorted R)
  intro m
  rw [mem_ones]
  simp

theorem bkEmit_eq (emit : Emit) (R : Nat) (H : List (List Nat)) :
    bkEmit emit R H = .ok (emit H (ones R), H ++ [ones R]) := by
  simp only [bkEmit, bkSlice_ones]

theorem bkRestrict_fold (P X : Nat) : ∀ (nbs : List Half) (p x : Nat),
    let r := nbs.foldl (fun px nb =>
      ((if Bit P nb.To then SetBit1 px.1 nb.To else px.1,
        if Bit X nb.To then SetBit1 px.2 nb.To else px.2) : Nat × Nat)) (p, x)
    (∀ m, Bit r.1 m = true ↔ (Bit p m = true ∨ (Bit P m = true ∧ m ∈ nbs.map Half.To))) ∧
    (∀ m, Bit r.2 m = true ↔ (Bit x m = true ∨ (Bit X m = true ∧ m ∈ nbs.map Half.To))) := by
  intro nbs
  induction nbs with
  | nil => intro p x; simp
  | cons a t ih =>
    intro p x
    simp only [List.foldl_cons]
    obtain ⟨h1, h2⟩ := ih (if Bit P a.To then SetBit1 p a.To else p)
      (if Bit X a.To then SetBit1 x a.To else x)
    constructor
    · intro m
      rw [h1 m]
      by_cases hP : Bit P a.To = true
      · simp only [hP, if_true, bit_setBit1, Bool.or_eq_true, decide_eq_true_eq, List.map_cons,
          List.mem_cons]
        constructor
        · rintro (h | h)
          · rcases h with h | h
            · exact Or.inl h
            · exact Or.inr ⟨h ▸ hP, Or.inl h.symm⟩
          · exact Or.inr ⟨h.1, Or.inr h.2⟩
        · rintro (h | ⟨h, h3 | h3⟩)
          · exact Or.inl (Or.inl h)
          · exact Or.inl (Or.inr h3.symm)
          · exact Or.inr ⟨h, h3⟩
      · simp only [hP, List.map_cons, List.mem_cons]
        constructor
        · rintro (h | h)
          · exact Or.inl h
          · exact Or.inr ⟨h.1, Or.inr h.2⟩
        · rintro (h | ⟨h, h3 | h3⟩)
          · exact Or.inl h
          · exact absurd (h3 ▸ h) hP
          · exact Or.inr ⟨h, h3⟩
    · intro m
      rw [h2 m]
      by_cases hX : Bit X a.To = true
      · simp only [hX, if_true, bit_setBit1, Bool.or_eq_true, decide_eq_true_eq, List.map_cons,
          List.mem_cons]
        constructor
        · rintro (h | h)
          · rcases h with h | h
            · exact Or.inl h
            · exact Or.inr ⟨h ▸ hX, Or.inl h.symm⟩
          · exact Or.inr ⟨h.1, Or.inr h.2⟩
        · rintro (h | ⟨h, h3 | h3⟩)
          · exact Or.inl (Or.inl h)
          · exact Or.inl (Or.inr h3.symm)
          · exact Or.inr ⟨h, h3⟩
      · simp only [hX, List.map_cons, List.mem_cons]
        constructor
        · rintro (h | h)
          · exact Or.inl h
          · exact Or.inr ⟨h.1, Or.inr h.2⟩
        · rintro (h | ⟨h, h3 | h3⟩)
          · exact Or.inl h
          · exact absurd (h3 ▸ h) hX
          · exact Or.inr ⟨h, h3⟩

theorem adjacent_iff (g : LabeledAdjacencyList) (u v : Nat) (nbs : List Half)
    (h : g[u]? = some nbs) : Adjacent g u v ↔ v ∈ nbs.map Half.To := by
  unfold Adjacent Arc unlabel
  rw [List.getElem?_map, h]
  simp

theorem adjacent_lt (g : LabeledAdjacencyList) (u v : Nat) (h : Adjacent g u v) :
    u < g.length := by
  obtain ⟨nbs, h1, _⟩ := h
  have := (List.getElem?_eq_some_iff.1 h1).1
  simpa [unlabel] using this

theorem bit_bkRestrict (g : LabeledAdjacencyList) (P X n : Nat) (nbs : List Half)
    (h : g[n]? = some nbs) (m : Nat) :
    (Bit (bkRestrict P X nbs).1 m = true ↔ (Bit P m = true ∧ Adjacent g n m)) ∧
    (Bit (bkRestrict P X nbs).2 m = true ↔ (Bit X m = true ∧ Adjacent g n m)) := by
  have := bkRestrict_fold P X nbs 0 0
  simp only [bit_zero, Bool.false_eq_true, false_or] at this
  rw [adjacent_iff g n m nbs h]
  exact ⟨this.1 m, this.2 m⟩

theorem bit_bkMinus (g : LabeledAdjacencyList) (u : Nat) (nbs : List Half)
    (h : g[u]? = some nbs) (P m : Nat) :
    Bit (bkMinus P nbs) m = true ↔ (Bit P m = true ∧ ¬ Adjacent g u m) := by
  rw [adjacent_iff g u m nbs h]
  unfold bkMinus
  clear h
  induction nbs generalizing P with
  | nil => simp
  | cons a t ih =>
    simp only [List.foldl_cons]
    rw [ih, bit_setBit0]
    simp only [Bool.and_eq_true, Bool.not_eq_true', decide_eq_false_iff_not, List.map_cons,
      List.mem_cons, not_or]
    constructor
    · rintro ⟨⟨h1, h2⟩, h3⟩
      exact ⟨h1, fun h => h2 h.symm, h3⟩
    · rintro ⟨h1, h2, h3⟩
      exact ⟨⟨h1, fun h => h2 h.symm⟩, h3⟩

theorem symmetric_adjacent (g : LabeledAdjacencyList) (hs : Symmetric g) (u v : Nat)
    (h : Adjacent g u v) : Adjacent g v u := by
  have hu := adjacent_lt g u v h
  obtain ⟨nbs, h1, h2⟩ := h
  have h3 : v ∈ (unlabel g).getD u [] := by
    rw [List.getD_eq_getElem?_getD, h1]; exact h2
  have h4 := hs u hu v h3
  rw [List.getD_eq_getElem?_getD] at h4
  cases h5 : (unlabel g)[v]? with
  | none => rw [h5] at h4; simp at h4
  | some nbs2 => rw [h5] at h4; exact ⟨nbs2, h5, h4⟩

theorem loopFree_adjacent (g : LabeledAdjacencyList) (hl : LoopFree g) (u : Nat) :
    ¬ Adjacent g u u := by
  intro h
  have hu := adjacent_lt g u u h
  obtain ⟨nbs, h1, h2⟩ := h
  apply hl u hu
  rw [List.getD_eq_getElem?_getD, h1]; exact h2

theorem bmCard_le (N b : Nat) : bmCard N b ≤ N := by
  unfold bmCard
  calc _ ≤ (Finset.range N).card := Finset.card_filter_le _ _
    _ = N := Finset.card_range N

theorem bmCard_lt (N b b' n : Nat) (hsub : ∀ m, Bit b m = true → Bit b' m = true)
    (hn : n < N) (h1 : Bit b' n = true) (h2 : Bit b n = false) : bmCard N b < bmCard N b' := by
  unfold bmCard
  apply Finset.card_lt_card
  rw [Finset.ssubset_iff_of_subset]
  · refine ⟨n, ?_, ?_⟩
    · simp [hn, h1]
    · simp [h2]
  · intro m hm
    simp only [Finset.mem_filter, Finset.mem_range] at hm ⊢
    exact ⟨hm.1, hsub m hm.2⟩

theorem bkPre_init (g : LabeledAdjacencyList) : BKPre g 0 (OneBits g.length) 0 := by
  refine ⟨?_, ?_, ?_, ?_⟩
  · intro u v h; simp [bit_zero] at h
  · intro u h; simp [bit_zero] at h
  · intro w _; exact bit_zero w
  · intro w
    simp [bit_zero, bit_oneBits]

theorem bkPre_rec (g : LabeledAdjacencyList) (hs : Symmetric g) (hl : LoopFree g)
    (R P X n : Nat) (nbs : List Half) (hpre : BKPre g R P X)
    (hn : Bit P n = true ∨ Bit X n = true) (hg : g[n]? = some nbs) :
    BKPre g (SetBit1 R n) (bkRestrict P X nbs).1 (bkRestrict P X nbs).2 := by
  have hcn := (hpre.cand n).1 hn
  refine ⟨?_, ?_, ?_, ?_⟩
  · intro u v hu hv huv
    rw [bit_setBit1] at hu hv
    simp only [Bool.or_eq_true, decide_eq_true_eq] at hu hv
    rcases hu with hu | hu <;> rcases hv with hv | hv
    · exact hpre.clique u v hu hv huv
    · subst hv; exact hcn.2.2 u hu
    · subst hu; exact symmetric_adjacent g hs v n (hcn.2.2 v hv)
    · omega
  · intro u hu
    rw [bit_setBit1] at hu
    simp only [Bool.or_eq_true, decide_eq_true_eq] at hu
    rcases hu with hu | hu
    · exact hpre.nodes u hu
    · subst hu; exact hcn.1
  · intro w hw
    have h1 := ((bit_bkRestrict g P X n nbs hg w).1.1 hw).1
    have h2 := hpre.disj w h1
    by_contra h3
    have h4 : Bit (bkRestrict P X nbs).2 w = true := by simpa using h3
    have := ((bit_bkRestrict g P X n nbs hg w).2.1 h4).1
    simp [h2] at this
  · intro w
    rw [(bit_bkRestrict g P X n nbs hg w).1, (bit_bkRestrict g P X n nbs hg w).2]
    constructor
    · intro h
      have hadj : Adjacent g n w := by rcases h with h | h <;> exact h.2
      have hc := (hpre.cand w).1 (by rcases h with h | h; exact Or.inl h.1; exact Or.inr h.1)
      refine ⟨hc.1, ?_, ?_⟩
      · rw [bit_setBit1, hc.2.1]
        simp only [Bool.false_or, decide_eq_false_iff_not]
        rintro rfl
        exact loopFree_adjacent g hl n hadj
      · intro u hu
        rw [bit_setBit1] at hu
        simp only [Bool.or_eq_true, decide_eq_true_eq] at hu
        rcases hu with hu | hu
        · exact hc.2.2 u hu
        · subst hu; exact hadj
    · rintro ⟨h1, h2, h3⟩
      rw [bit_setBit1] at h2
      simp only [Bool.or_eq_false_iff, decide_eq_false_iff_not] at h2
      have hadj : Adjacent g n w := h3 n (by rw [bit_setBit1]; simp)
      have hc := (hpre.cand w).2 ⟨h1, h2.1, fun u hu => h3 u (by rw [bit_setBit1]; simp [hu])⟩
      rcases hc with hc | hc
      · exact Or.inl ⟨hc, hadj⟩
      · exact Or.inr ⟨hc, hadj⟩

theorem bkPre_next (g : LabeledAdjacencyList) (R P X n : Nat) (hpre : BKPre g R P X)
    (hn : Bit P n = true ∨ Bit X n = true) : BKPre g R (SetBit0 P n) (SetBit1 X n) := by
  refine ⟨hpre.clique, hpre.nodes, ?_, ?_⟩
  · intro w hw
    rw [bit_setBit0] at hw
    simp only [Bool.and_eq_true, Bool.not_eq_true', decide_eq_false_iff_not] at hw
    rw [bit_setBit1, hpre.disj w hw.1]
    simpa using hw.2
  · intro w
    rw [← hpre.cand w, bit_setBit0, bit_setBit1]
    simp only [Bool.and_eq_true, Bool.not_eq_true', decide_eq_false_iff_not, Bool.or_eq_true,
      decide_eq_true_eq]
    constructor
    · rintro (h | h | h)
      · exact Or.inl h.1
      · exact Or.inr h
      · subst h; exact hn
    · rintro (h | h)
      · by_cases hw : n = w
        · exact Or.inr (Or.inr hw)
        · exact Or.inl ⟨h, hw⟩
      · exact Or.inr (Or.inl h)

theorem bkPre_bound (g : LabeledAdjacencyList) (R P X : Nat) (hpre : BKPre g R P X) (m : Nat)
    (h : Bit P m = true ∨ Bit X m = true) : m < g.length :=
  ((hpre.cand m).1 h).1

theorem sorted_eq_of_mem_iff (c d : List Nat) (hc : c.Sorted (· < ·)) (hd : d.Sorted (· < ·))
    (h : ∀ m, m ∈ c ↔ m ∈ d) : c = d := by
  apply List.eq_of_perm_of_sorted _ hc hd
  exact (List.perm_ext_iff_of_nodup hc.nodup hd.nodup).2 h

theorem bkOut_emit (g : LabeledAdjacencyList) (R : Nat) (Q : Nat → Prop)
    (hpre : BKPre g R 0 0) : BKOut g R 0 false Q [ones R] := by
  have hmax : MaxCl g (ones R) := by
    refine ⟨fun u hu => hpre.nodes u ((mem_ones R u).1 hu), ?_, ?_⟩
    · intro u hu v hv huv
      exact hpre.clique u v ((mem_ones R u).1 hu) ((mem_ones R v).1 hv) huv
    · intro w hw hwc
      by_contra hall
      simp only [not_exists, not_and, not_not] at hall
      have hR : Bit R w = false := by
        rw [mem_ones] at hwc; simpa using hwc
      have := (hpre.cand w).2 ⟨hw, hR, fun u hu => hall u ((mem_ones R u).2 hu)⟩
      simp [bit_zero] at this
  refine ⟨?_, ?_, by simp⟩
  · intro c hc
    rw [List.mem_singleton] at hc
    subst hc
    refine ⟨ones_sorted R, hmax, fun m hm => (mem_ones R m).2 hm,
      fun m hm => Or.inl ((mem_ones R m).1 hm), by simp⟩
  · intro c hs _ h1 h2 _
    rw [List.mem_singleton]
    apply sorted_eq_of_mem_iff c (ones R) hs (ones_sorted R)
    intro m
    rw [mem_ones]
    constructor
    · intro hm
      rcases h2 m hm with h | h
      · exact h
      · simp [bit_zero] at h
    · exact h1 m

theorem bkOut_none (g : LabeledAdjacencyList) (R X : Nat) (Q : Nat → Prop)
    (hpre : BKPre g R 0 X) (hX : X ≠ 0) : BKOut g R 0 false Q [] := by
  refine ⟨by simp, ?_, by simp⟩
  intro c _ hmax h1 h2 _
  exfalso
  obtain ⟨x, hx⟩ := exists_bit_of_ne_zero X hX
  have hxb := (nextOne_some X 0 x hx).2.1
  have hc := (hpre.cand x).1 (Or.inr hxb)
  have hxc : x ∉ c := by
    intro hm
    rcases h2 x hm with h | h
    · simp [hc.2.1] at h
    · simp [bit_zero] at h
  obtain ⟨u, hu, hna⟩ := hmax.2.2 x hc.1 hxc
  rcases h2 u hu with h | h
  · exact hna (hc.2.2 u h)
  · simp [bit_zero] at h

theorem bkOut_step (g : LabeledAdjacencyList) (R P X n : Nat) (nbs : List Half)
    (Q Q2 : Nat → Prop) (out1 out2 : List (List Nat))
    (hpre : BKPre g R P X) (hn : Bit P n = true) (hg : g[n]? = some nbs)
    (hQn : Q n) (hQ2 : ∀ m, Q2 m → Q m) (hQ : ∀ m, Q m → m ≠ n → Q2 m)
    (h1 : BKOut g (SetBit1 R n) (bkRestrict P X nbs).1 false (fun _ => True) out1)
    (h2 : BKOut g R (SetBit0 P n) true Q2 out2) :
    BKOut g R P true Q (out1 ++ out2) := by
  have hRn : Bit R n = false := ((hpre.cand n).1 (Or.inl hn)).2.1
  have hn1 : ∀ c ∈ out1, n ∈ c := fun c hc =>
    (h1.sound c hc).2.2.1 n (by rw [bit_setBit1]; simp)
  have hn2 : ∀ c ∈ out2, n ∉ c := by
    intro c hc hm
    rcases (h2.sound c hc).2.2.2.1 n hm with h | h
    · simp [hRn] at h
    · rw [bit_setBit0] at h; simp at h
  refine ⟨?_, ?_, ?_⟩
  · intro c hc
    rcases List.mem_append.1 hc with hc | hc
    · obtain ⟨s1, s2, s3, s4, _⟩ := h1.sound c hc
      refine ⟨s1, s2, fun m hm => s3 m (by rw [bit_setBit1]; simp [hm]), ?_,
        fun _ => ⟨n, hn1 c hc, hQn⟩⟩
      intro m hm
      rcases s4 m hm with h | h
      · rw [bit_setBit1] at h
        simp only [Bool.or_eq_true, decide_eq_true_eq] at h
        rcases h with h | h
        · exact Or.inl h
        · subst h; exact Or.inr hn
      · exact Or.inr ((bit_bkRestrict g P X n nbs hg m).1.1 h).1
    · obtain ⟨s1, s2, s3, s4, s5⟩ := h2.sound c hc
      refine ⟨s1, s2, s3, ?_, ?_⟩
      · intro m hm
        rcases s4 m hm with h | h
        · exact Or.inl h
        · rw [bit_setBit0] at h
          simp only [Bool.and_eq_true] at h
          exact Or.inr h.1
      · intro _
        obtain ⟨m, hm, hq⟩ := s5 rfl
        exact ⟨m, hm, hQ2 m hq⟩
  · intro c hs hmax hR hRP hq
    by_cases hnc : n ∈ c
    · apply List.mem_append_left
      apply h1.complete c hs hmax
      · intro m hm
        rw [bit_setBit1] at hm
        simp only [Bool.or_eq_true, decide_eq_true_eq] at hm
        rcases hm with hm | hm
        · exact hR m hm
        · subst hm; exact hnc
      · intro m hm
        by_cases hmn : n = m
        · left; rw [bit_setBit1]; simp [hmn]
        · rcases hRP m hm with h | h
          · left; rw [bit_setBit1]; simp [h]
          · right
            exact (bit_bkRestrict g P X n nbs hg m).1.2 ⟨h, hmax.2.1 n hnc m hm hmn⟩
      · simp
    · apply List.mem_append_right
      apply h2.complete c hs hmax hR
      · intro m hm
        rcases hRP m hm with h | h
        · exact Or.inl h
        · right
          rw [bit_setBit0, h]
          simp only [Bool.true_and, Bool.not_eq_true', decide_eq_false_iff_not]
          rintro rfl
          exact hnc hm
      · intro _
        obtain ⟨m, hm, hqm⟩ := hq rfl
        exact ⟨m, hm, hQ m hqm (by rintro rfl; exact hnc hm)⟩
  · rw [List.nodup_append]
    refine ⟨h1.nodup, h2.nodup, ?_⟩
    intro c hc1 hc2
    exact hn2 c hc2 (hn1 c hc1)

theorem bkOut_done (g : LabeledAdjacencyList) (R P pnu : Nat) :
    BKOut g R P true (InRest pnu none) [] := by
  refine ⟨by simp, ?_, by simp⟩
  intro c _ _ _ _ hq
  obtain ⟨m, _, hm⟩ := hq rfl
  exact absurd hm (by simp [InRest])

theorem bkOut_cover (g : LabeledAdjacencyList) (R P : Nat) (Q Q2 : Nat → Prop)
    (out : List (List Nat)) (h : BKOut g R P true Q out)
    (hc : ∀ c, MaxCl g c → (∀ m, Bit R m = true → m ∈ c) →
      (∀ m ∈ c, Bit R m = true ∨ Bit P m = true) → ∃ m ∈ c, Q m) :
    BKOut g R P false Q2 out := by
  refine ⟨?_, ?_, h.nodup⟩
  · intro c hm
    obtain ⟨s1, s2, s3, s4, _⟩ := h.sound c hm
    exact ⟨s1, s2, s3, s4, by simp⟩
  · intro c hs hmax h1 h2 _
    exact h.complete c hs hmax h1 h2 (fun _ => hc c hmax h1 h2)

theorem maxCl_meets_P (g : LabeledAdjacencyList) (R P X : Nat) (hpre : BKPre g R P X)
    (hP : P ≠ 0) (c : List Nat) (hmax : MaxCl g c)
    (h2 : ∀ m ∈ c, Bit R m = true ∨ Bit P m = true) : ∃ m ∈ c, Bit P m = true := by
  by_contra hno
  simp only [not_exists, not_and] at hno
  obtain ⟨p, hp⟩ := exists_bit_of_ne_zero P hP
  have hpb := (nextOne_some P 0 p hp).2.1
  have hc := (hpre.cand p).1 (Or.inl hpb)
  have hpc : p ∉ c := fun hm => hno p hm hpb
  obtain ⟨u, hu, hna⟩ := hmax.2.2 p hc.1 hpc
  rcases h2 u hu with h | h
  · exact hna (hc.2.2 u h)
  · exact hno u hu h

theorem maxCl_meets_pivot (g : LabeledAdjacencyList) (hs : Symmetric g) (hl : LoopFree g)
    (R P X u : Nat) (hpre : BKPre g R P X) (hu : Bit P u = true ∨ Bit X u = true)
    (c : List Nat) (hmax : MaxCl g c)
    (h2 : ∀ m ∈ c, Bit R m = true ∨ Bit P m = true) :
    ∃ m ∈ c, Bit P m = true ∧ ¬ Adjacent g u m := by
  by_contra hno
  simp only [not_exists, not_and, not_not] at hno
  have hc := (hpre.cand u).1 hu
  have huc : u ∉ c := by
    intro hm
    rcases h2 u hm with h | h
    · simp [hc.2.1] at h
    · exact loopFree_adjacent g hl u (hno u hm h)
  obtain ⟨v, hv, hna⟩ := hmax.2.2 u hc.1 huc
  rcases h2 v hv with h | h
  · exact hna (hc.2.2 v h)
  · exact hna (symmetric_adjacent g hs u v (hno v hv h))

theorem inRest_next (pnu n m : Nat) (hm : Bit pnu m = true) (hnm : n + 1 ≤ m) :
    InRest pnu (NextOne pnu (n + 1)) m := by
  cases h : NextOne pnu (n + 1) with
  | none => have := nextOne_none pnu (n + 1) h m hnm; simp [hm] at this
  | some k =>
    refine ⟨hm, ?_⟩
    by_contra hlt
    have := (nextOne_some pnu (n + 1) k h).2.2 m hnm (by omega)
    simp [hm] at this

theorem inRest_of_next (pnu n m : Nat) (h : InRest pnu (NextOne pnu (n + 1)) m) :
    Bit pnu m = true ∧ n + 1 ≤ m := by
  cases hk : NextOne pnu (n + 1) with
  | none => rw [hk] at h; exact absurd h (by simp [InRest])
  | some k =>
    rw [hk] at h
    exact ⟨h.1, le_trans (nextOne_some pnu (n + 1) k hk).1 h.2⟩

theorem bk1_spec (g : LabeledAdjacencyList) (hs : Symmetric g) (hl : LoopFree g) :
    ∀ fuel,
    (∀ R P X H, BKPre g R P X → 2 * bmCard g.length P + 2 ≤ fuel →
      ∃ out, bk1F g emitAll fuel R P X H = .ok (true, H ++ out) ∧
        BKOut g R P false (fun _ => True) out) ∧
    (∀ cur R P X H, BKPre g R P X → (∀ n, cur = some n → Bit P n = true) →
      2 * bmCard g.length P + 1 ≤ fuel →
      ∃ out, bk1Loop g emitAll fuel cur R P X H = .ok (true, H ++ out) ∧
        BKOut g R P true (InRest P cur) out) := by
  intro fuel
  induction fuel with
  | zero =>
    constructor
    · intro R P X H _ h; omega
    · intro cur R P X H _ _ h; omega
  | succ fuel ih =>
    constructor
    · intro R P X H hpre hf
      rw [bk1F]
      by_cases hP : P ≠ 0
      · rw [if_pos hP]
        obtain ⟨out, ho1, ho2⟩ := ih.2 (NextOne P 0) R P X H hpre
          (fun n hn => (nextOne_some P 0 n hn).2.1) (by omega)
        refine ⟨out, ho1, bkOut_cover g R P _ _ out ho2 ?_⟩
        intro c hmax _ h2
        obtain ⟨m, hm, hmP⟩ := maxCl_meets_P g R P X hpre hP c hmax h2
        refine ⟨m, hm, ?_⟩
        obtain ⟨n0, hn0⟩ := exists_bit_of_ne_zero P hP
        rw [hn0]
        refine ⟨hmP, ?_⟩
        by_contra hlt
        have := (nextOne_some P 0 n0 hn0).2.2 m (Nat.zero_le _) (by omega)
        simp [hmP] at this
      · rw [if_neg hP]
        have hP0 : P = 0 := by simpa using hP
        subst hP0
        by_cases hX : X = 0
        · rw [if_pos hX, bkEmit_eq]
          subst hX
          exact ⟨[ones R], rfl, bkOut_emit g R _ hpre⟩
        · rw [if_neg hX]
          exact ⟨[], by simp, bkOut_none g R X _ hpre hX⟩
    · intro cur R P X H hpre hcur hf
      cases cur with
      | none =>
        rw [bk1Loop]
        exact ⟨[], by simp, bkOut_done g R P P⟩
      | some n =>
        have hn := hcur n rfl
        have hnN := bkPre_bound g R P X hpre n (Or.inl hn)
        obtain ⟨nbs, hg⟩ : ∃ nbs, g[n]? = some nbs :=
          ⟨g[n], List.getElem?_eq_getElem hnN⟩
        have hRn : Bit R n = false := ((hpre.cand n).1 (Or.inl hn)).2.1
        have hp2 : bmCard g.length (bkRestrict P X nbs).1 < bmCard g.length P := by
          apply bmCard_lt g.length _ _ n _ hnN hn
          · by_contra hb
            have hb1 : Bit (bkRestrict P X nbs).1 n = true := by simpa using hb
            exact loopFree_adjacent g hl n ((bit_bkRestrict g P X n nbs hg n).1.1 hb1).2
          · intro m hm
            exact ((bit_bkRestrict g P X n nbs hg m).1.1 hm).1
        have hp3 : bmCard g.length (SetBit0 P n) < bmCard g.length P := by
          apply bmCard_lt g.length _ _ n _ hnN hn
          · rw [bit_setBit0]; simp
          · intro m hm
            rw [bit_setBit0] at hm
            simp only [Bool.and_eq_true] at hm
            exact hm.1
        obtain ⟨out1, ho1, hb1⟩ := ih.1 (SetBit1 R n) (bkRestrict P X nbs).1
          (bkRestrict P X nbs).2 H (bkPre_rec g hs hl R P X n nbs hpre (Or.inl hn) hg) (by omega)
        obtain ⟨out2, ho2, hb2⟩ := ih.2 (NextOne (SetBit0 P n) (n + 1)) R (SetBit0 P n)
          (SetBit1 X n) (H ++ out1) (bkPre_next g R P X n hpre (Or.inl hn))
          (fun k hk => (nextOne_some _ _ k hk).2.1) (by omega)
        refine ⟨out1 ++ out2, ?_, ?_⟩
        · rw [bk1Loop]
          simp only [hg, ho1, ho2, List.append_assoc]
        · apply bkOut_step g R P X n nbs _ _ out1 out2 hpre hn hg ⟨hn, le_refl _⟩ _ _ hb1 hb2
          · intro m hm
            have := inRest_of_next _ n m hm
            rw [bit_setBit0] at this
            simp only [Bool.and_eq_true] at this
            exact ⟨this.1.1, by omega⟩
          · intro m hm hmn
            apply inRest_next
            · rw [bit_setBit0, hm.1]
              simp only [Bool.true_and, Bool.not_eq_true', decide_eq_false_iff_not]
              exact fun h => hmn h.symm
            · have := hm.2; omega

theorem inRest_zero (pnu m : Nat) (hm : Bit pnu m = true) : InRest pnu (NextOne pnu 0) m := by
  cases h : NextOne pnu 0 with
  | none => have := nextOne_none pnu 0 h m (Nat.zero_le _); simp [hm] at this
  | some k =>
    refine ⟨hm, ?_⟩
    by_contra hlt
    have := (nextOne_some pnu 0 k h).2.2 m (Nat.zero_le _) (by omega)
    simp [hm] at this

theorem inRest_bit (pnu : Nat) (cur : Option Nat) (m : Nat) (h : InRest pnu cur m) :
    Bit pnu m = true := by
  cases cur with
  | none => exact absurd h (by simp [InRest])
  | some k => exact h.1

theorem bk2_spec (g : LabeledAdjacencyList) (hs : Symmetric g) (hl : LoopFree g)
    (pivot : Pivot) (hpiv : PivotOk g pivot) :
    ∀ fuel,
    (∀ R P X H, BKPre g R P X → 2 * bmCard g.length P + 2 ≤ fuel →
      ∃ out, bk2F g pivot emitAll fuel R P X H = .ok (true, H ++ out) ∧
        BKOut g R P false (fun _ => True) out) ∧
    (∀ pnu cur R P X H, BKPre g R P X → (∀ n, cur = some n → Bit pnu n = true) →
      (∀ m, InRest pnu cur m → Bit P m = true) →
      2 * bmCard g.length P + 1 ≤ fuel →
      ∃ out, bk2Loop g pivot emitAll fuel pnu cur R P X H = .ok (true, H ++ out) ∧
        BKOut g R P true (InRest pnu cur) out) := by
  intro fuel
  induction fuel with
  | zero =>
    constructor
    · intro R P X H _ h; omega
    · intro pnu cur R P X H _ _ _ h; omega
  | succ fuel ih =>
    constructor
    · intro R P X H hpre hf
      rw [bk2F]
      by_cases hP : P ≠ 0
      · rw [if_pos hP]
        obtain ⟨u, hu1, hu2⟩ := hpiv P X hP (bkPre_bound g R P X hpre)
        have huN := bkPre_bound g R P X hpre u hu2
        obtain ⟨unbs, hg⟩ : ∃ unbs, g[u]? = some unbs :=
          ⟨g[u], List.getElem?_eq_getElem huN⟩
        obtain ⟨out, ho1, ho2⟩ := ih.2 (bkMinus P unbs) (NextOne (bkMinus P unbs) 0) R P X H
          hpre (fun n hn => (nextOne_some _ 0 n hn).2.1)
          (fun m hm => ((bit_bkMinus g u unbs hg P m).1 (inRest_bit _ _ m hm)).1) (by omega)
        refine ⟨out, ?_, bkOut_cover g R P _ _ out ho2 ?_⟩
        · simp only [hu1, hg, ho1]
        · intro c hmax _ h2
          obtain ⟨m, hm, hmP, hna⟩ := maxCl_meets_pivot g hs hl R P X u hpre hu2 c hmax h2
          exact ⟨m, hm, inRest_zero _ m ((bit_bkMinus g u unbs hg P m).2 ⟨hmP, hna⟩)⟩
      · rw [if_neg hP]
        have hP0 : P = 0 := by simpa using hP
        subst hP0
        by_cases hX : X = 0
        · rw [if_pos hX, bkEmit_eq]
          subst hX
          exact ⟨[ones R], rfl, bkOut_emit g R _ hpre⟩
        · rw [if_neg hX]
          exact ⟨[], by simp, bkOut_none g R X _ hpre hX⟩
    · intro pnu cur R P X H hpre hcur hsub hf
      cases cur with
      | none =>
        rw [bk2Loop]
        exact ⟨[], by simp, bkOut_done g R P pnu⟩
      | some n =>
        have hnq := hcur n rfl
        have hn : Bit P n = true := hsub n ⟨hnq, le_refl _⟩
        have hnN := bkPre_bound g R P X hpre n (Or.inl hn)
        obtain ⟨nbs, hg⟩ : ∃ nbs, g[n]? = some nbs :=
          ⟨g[n], List.getElem?_eq_getElem hnN⟩
        have hp2 : bmCard g.length (bkRestrict P X nbs).1 < bmCard g.length P := by
          apply bmCard_lt g.length _ _ n _ hnN hn
          · by_contra hb
            have hb1 : Bit (bkRestrict P X nbs).1 n = true := by simpa using hb
            exact loopFree_adjacent g hl n ((bit_bkRestrict g P X n nbs hg n).1.1 hb1).2
          · intro m hm
            exact ((bit_bkRestrict g P X n nbs hg m).1.1 hm).1
        have hp3 : bmCard g.length (SetBit0 P n) < bmCard g.length P := by
          apply bmCard_lt g.length _ _ n _ hnN hn
          · rw [bit_setBit0]; simp
          · intro m hm
            rw [bit_setBit0] at hm
            simp only [Bool.and_eq_true] at hm
            exact hm.1
        have hsub2 : ∀ m, InRest pnu (NextOne pnu (n + 1)) m → Bit (SetBit0 P n) m = true := by
          intro m hm
          have h1 := inRest_of_next pnu n m hm
          rw [bit_setBit0, hsub m ⟨h1.1, by omega⟩]
          simp only [Bool.true_and, Bool.not_eq_true', decide_eq_false_iff_not]
          omega
        obtain ⟨out1, ho1, hb1⟩ := ih.1 (SetBit1 R n) (bkRestrict P X nbs).1
          (bkRestrict P X nbs).2 H (bkPre_rec g hs hl R P X n nbs hpre (Or.inl hn) hg) (by omega)
        obtain ⟨out2, ho2, hb2⟩ := ih.2 pnu (NextOne pnu (n + 1)) R (SetBit0 P n)
          (SetBit1 X n) (H ++ out1) (bkPre_next g R P X n hpre (Or.inl hn))
          (fun k hk => (nextOne_some _ _ k hk).2.1) hsub2 (by omega)
        refine ⟨out1 ++ out2, ?_, ?_⟩
        · rw [bk2Loop]
          simp only [hg, ho1, ho2, List.append_assoc]
        · apply bkOut_step g R P X n nbs _ _ out1 out2 hpre hn hg ⟨hnq, le_refl _⟩ _ _ hb1 hb2
          · intro m hm
            have := inRest_of_next _ n m hm
            exact ⟨this.1, by omega⟩
          · intro m hm hmn
            apply inRest_next _ _ _ hm.1
            have := hm.2; omega

theorem maxCl_toFinset (g : LabeledAdjacencyList) (c : List Nat) (h : MaxCl g c) :
    IsMaximalClique g c.toFinset := by
  refine ⟨⟨fun u hu => h.1 u (List.mem_toFinset.1 hu), fun u hu v hv huv =>
    h.2.1 u (List.mem_toFinset.1 hu) v (List.mem_toFinset.1 hv) huv⟩, ?_⟩
  intro T hT hsub
  apply Finset.Subset.antisymm _ hsub
  intro w hw
  by_contra hwc
  obtain ⟨u, hu, hna⟩ := h.2.2 w (hT.1 w hw) (fun hm => hwc (List.mem_toFinset.2 hm))
  apply hna
  apply hT.2 u (hsub (List.mem_toFinset.2 hu)) w hw
  rintro rfl
  exact hwc (List.mem_toFinset.2 hu)

theorem maxCl_sort (g : LabeledAdjacencyList) (hs : Symmetric g) (S : Finset Nat)
    (h : IsMaximalClique g S) : MaxCl g (S.sort (· ≤ ·)) := by
  refine ⟨fun u hu => h.1.1 u ((Finset.mem_sort _).1 hu), fun u hu v hv huv =>
    h.1.2 u ((Finset.mem_sort _).1 hu) v ((Finset.mem_sort _).1 hv) huv, ?_⟩
  intro w hw hwc
  have hwS : w ∉ S := fun hm => hwc ((Finset.mem_sort _).2 hm)
  by_contra hall
  simp only [not_exists, not_and, not_not] at hall
  have hall2 : ∀ u ∈ S, Adjacent g u w := fun u hu => hall u ((Finset.mem_sort _).2 hu)
  have hT : IsClique g (insert w S) := by
    constructor
    · intro u hu
      rcases Finset.mem_insert.1 hu with rfl | hu
      · exact hw
      · exact h.1.1 u hu
    · intro u hu v hv huv
      rcases Finset.mem_insert.1 hu with hu1 | hu1 <;>
        rcases Finset.mem_insert.1 hv with hv1 | hv1
      · exact absurd (hu1.trans hv1.symm) huv
      · rw [hu1]; exact symmetric_adjacent g hs v w (hall2 v hv1)
      · rw [hv1]; exact hall2 u hu1
      · exact h.1.2 u hu1 v hv1 huv
  have := h.2 (insert w S) hT (Finset.subset_insert w S)
  exact hwS (this ▸ Finset.mem_insert_self w S)

theorem countP_eq_one_of_nodup {α : Type} (l : List α) (p : α → Bool) (a : α)
    (hn : l.Nodup) (ha : a ∈ l) (hp : ∀ x ∈ l, p x = true ↔ x = a) : l.countP p = 1 := by
  induction l with
  | nil => simp at ha
  | cons b t ih =>
    rw [List.nodup_cons] at hn
    by_cases hba : b = a
    · have hpb : p b = true := (hp b (List.mem_cons_self _ _)).2 hba
      rw [List.countP_cons_of_pos _ _ hpb]
      have : t.countP p = 0 := by
        rw [List.countP_eq_zero]
        intro x hx hpx
        have := (hp x (List.mem_cons_of_mem _ hx)).1 hpx
        exact hn.1 (hba ▸ this ▸ hx)
      omega
    · have hpb : ¬ p b = true := fun h => hba ((hp b (List.mem_cons_self _ _)).1 h)
      rw [List.countP_cons_of_neg _ _ hpb]
      apply ih hn.2
      · rcases List.mem_cons.1 ha with h | h
        · exact absurd h.symm hba
        · exact h
      · intro x hx
        exact hp x (List.mem_cons_of_mem _ hx)

theorem bkOut_final (g : LabeledAdjacencyList) (hs : Symmetric g) (Q : Nat → Prop)
    (out : List (List Nat)) (h : BKOut g 0 (OneBits g.length) false Q out) :
    (∀ c ∈ out, c.Sorted (· < ·) ∧ IsMaximalClique g c.toFinset) ∧
    (∀ S, IsMaximalClique g S → out.countP (fun c => decide (c.toFinset = S)) = 1) ∧
    out.Nodup ∧ (∀ c, c ∈ out ↔ (c.Sorted (· < ·) ∧ MaxCl g c)) := by
  have hmem : ∀ c, c ∈ out ↔ (c.Sorted (· < ·) ∧ MaxCl g c) := by
    intro c
    constructor
    · intro hc
      exact ⟨(h.sound c hc).1, (h.sound c hc).2.1⟩
    · rintro ⟨h1, h2⟩
      apply h.complete c h1 h2
      · intro m hm; simp [bit_zero] at hm
      · intro m hm
        right
        rw [bit_oneBits]
        simpa using h2.1 m hm
      · simp
  refine ⟨fun c hc => ⟨(h.sound c hc).1, maxCl_toFinset g c (h.sound c hc).2.1⟩, ?_, h.nodup,
    hmem⟩
  intro S hS
  have hc0 : S.sort (· ≤ ·) ∈ out := (hmem _).2 ⟨Finset.sort_sorted_lt S, maxCl_sort g hs S hS⟩
  apply countP_eq_one_of_nodup out _ (S.sort (· ≤ ·)) h.nodup hc0
  intro c hc
  simp only [decide_eq_true_eq]
  constructor
  · intro hcS
    apply sorted_eq_of_mem_iff c _ (h.sound c hc).1 (Finset.sort_sorted_lt S)
    intro m
    rw [Finset.mem_sort, ← hcS, List.mem_toFinset]
  · intro hcS
    rw [hcS, Finset.sort_toFinset]

theorem pivotOk_minP (g : LabeledAdjacencyList) : PivotOk g BKPivotMinP := by
  intro P X hP _
  obtain ⟨n, hn⟩ := exists_bit_of_ne_zero P hP
  exact ⟨n, by simp [BKPivotMinP, hn], Or.inl (nextOne_some P 0 n hn).2.1⟩

theorem pivotScan_spec (g : LabeledAdjacencyList) (b : Nat)
    (hb : ∀ m, Bit b m = true → m < g.length) :
    ∀ (k start u maxDeg : Nat), start ≤ b + 1 → b + 1 < k + start →
      ∃ u1 d1, pivotScan g b k start u maxDeg = .ok (u1, d1) ∧ (u1 = u ∨ Bit b u1 = true) := by
  intro k
  induction k with
  | zero => intro start u maxDeg h1 h2; omega
  | succ k ih =>
    intro start u maxDeg h1 h2
    rw [pivotScan]
    cases hn : NextOne b start with
    | none => exact ⟨u, maxDeg, rfl, Or.inl rfl⟩
    | some n =>
      obtain ⟨n1, n2, _⟩ := nextOne_some b start n hn
      have hnN := hb n n2
      have hnb := bit_lt_succ b n n2
      have hg : g[n]? = some g[n] := List.getElem?_eq_getElem hnN
      simp only [hg]
      by_cases hd : g[n].length > maxDeg
      · rw [if_pos hd]
        obtain ⟨u1, d1, e1, e2⟩ := ih (n + 1) n g[n].length (by omega) (by omega)
        refine ⟨u1, d1, e1, ?_⟩
        rcases e2 with e2 | e2
        · right; rw [e2]; exact n2
        · exact Or.inr e2
      · rw [if_neg hd]
        exact ih (n + 1) u maxDeg (by omega) (by omega)

theorem pivotOk_maxDegree (g : LabeledAdjacencyList) : PivotOk g (BKPivotMaxDegree g) := by
  intro P X hP hb
  obtain ⟨n, hn⟩ := exists_bit_of_ne_zero P hP
  obtain ⟨_, n2, _⟩ := nextOne_some P 0 n hn
  have hnN := hb n (Or.inl n2)
  have hnb := bit_lt_succ P n n2
  have hg : g[n]? = some g[n] := List.getElem?_eq_getElem hnN
  obtain ⟨u1, d1, e1, e2⟩ := pivotScan_spec g P (fun m hm => hb m (Or.inl hm)) (P + 2) (n + 1)
    n g[n].length (by omega) (by omega)
  obtain ⟨u2, d2, e3, e4⟩ := pivotScan_spec g X (fun m hm => hb m (Or.inr hm)) (X + 2) 0
    u1 d1 (by omega) (by omega)
  refine ⟨u2, by simp only [BKPivotMaxDegree, hn, hg, e1, e3], ?_⟩
  rcases e4 with e4 | e4
  · rw [e4]
    rcases e2 with e2 | e2
    · rw [e2]; exact Or.inl n2
    · exact Or.inl e2
  · exact Or.inr e4

theorem bmCard_oneBits (N : Nat) : bmCard N (OneBits N) ≤ N := bmCard_le N _

theorem bronKerbosch1_run (g : LabeledAdjacencyList) (hs : Symmetric g) (hl : LoopFree g)
    (fuel : Nat) (hf : 2 * g.length + 2 ≤ fuel) :
    ∃ H, BronKerbosch1 g emitAll fuel = .ok H ∧
      BKOut g 0 (OneBits g.length) false (fun _ => True) H := by
  have hc := bmCard_oneBits g.length
  obtain ⟨out, ho1, ho2⟩ := (bk1_spec g hs hl fuel).1 0 (OneBits g.length) 0 [] (bkPre_init g)
    (by omega)
  refine ⟨out, ?_, ho2⟩
  simp only [BronKerbosch1, ho1, List.nil_append]

theorem bronKerbosch2_run (g : LabeledAdjacencyList) (hs : Symmetric g) (hl : LoopFree g)
    (pivot : Pivot) (hpiv : PivotOk g pivot) (fuel : Nat) (hf : 2 * g.length + 2 ≤ fuel) :
    ∃ H, BronKerbosch2 g pivot emitAll fuel = .ok H ∧
      BKOut g 0 (OneBits g.length) false (fun _ => True) H := by
  have hc := bmCard_oneBits g.length
  obtain ⟨out, ho1, ho2⟩ := (bk2_spec g hs hl pivot hpiv fuel).1 0 (OneBits g.length) 0 []
    (bkPre_init g) (by omega)
  refine ⟨out, ?_, ho2⟩
  simp only [BronKerbosch2, ho1, List.nil_append]

/-- C17: on every undirected graph g without loops (symmetric neighbour slices; parallel
edges do no harm, so every simple graph is covered), with an emit function that always
returns true and a recursion budget of at least 2 len(g) + 2, BronKerbosch1 returns, every
node list passed to emit is ascending and its nodes form a maximal clique of g, and every
maximal clique of g is passed to emit exactly once. -/
theorem bronKerbosch1_maximal_cliques (g : LabeledAdjacencyList) (fuel : Nat)
    (hs : Symmetric g) (hl : LoopFree g) (hf : 2 * g.length + 2 ≤ fuel) :
    ∃ H, BronKerbosch1 g emitAll fuel = .ok H ∧
      (∀ c ∈ H, c.Sorted (· < ·) ∧ IsMaximalClique g c.toFinset) ∧
      ∀ S, IsMaximalClique g S → H.countP (fun c => decide (c.toFinset = S)) = 1 := by
  obtain ⟨H, h1, h2⟩ := bronKerbosch1_run g hs hl fuel hf
  have h3 := bkOut_final g hs _ H h2
  exact ⟨H, h1, h3.1, h3.2.1⟩

theorem bronKerbosch1_maximal_cliques_witness :
    (Symmetric exampleBK ∧ LoopFree exampleBK) ∧
    ∃ H, BronKerbosch1 exampleBK emitAll 14 = .ok H ∧
      (∀ c ∈ H, c.Sorted (· < ·) ∧ IsMaximalClique exampleBK c.toFinset) ∧
      ∀ S, IsMaximalClique exampleBK S → H.countP (fun c => decide (c.toFinset = S)) = 1 :=
  ⟨by decide, bronKerbosch1_maximal_cliques exampleBK 14 (by decide) (by decide) (by decide)⟩

/-- C18: BKPivotMinP and BKPivotMaxDegree answer with a node of P or X; and on every
undirected graph g without loops, with any pivot function that answers with a node of P or
X, an emit function that always returns true and a recursion budget of at least
2 len(g) + 2, BronKerbosch2 returns, every node list passed to emit is ascending and its
nodes form a maximal clique of g, every maximal clique of g is passed to emit exactly once,
and the lists passed are those BronKerbosch1 passes, up to their order. -/
theorem bronKerbosch2_maximal_cliques (g : LabeledAdjacencyList) (fuel : Nat)
    (hs : Symmetric g) (hl : LoopFree g) (hf : 2 * g.length + 2 ≤ fuel) :
    PivotOk g BKPivotMinP ∧ PivotOk g (BKPivotMaxDegree g) ∧
    ∀ pivot, PivotOk g pivot →
      ∃ H H1, BronKerbosch2 g pivot emitAll fuel = .ok H ∧
        (∀ c ∈ H, c.Sorted (· < ·) ∧ IsMaximalClique g c.toFinset) ∧
        (∀ S, IsMaximalClique g S → H.countP (fun c => decide (c.toFinset = S)) = 1) ∧
        BronKerbosch1 g emitAll fuel = .ok H1 ∧ H.Perm H1 := by
  refine ⟨pivotOk_minP g, pivotOk_maxDegree g, ?_⟩
  intro pivot hpiv
  obtain ⟨H1, h1, h2⟩ := bronKerbosch1_run g hs hl fuel hf
  obtain ⟨H, k1, k2⟩ := bronKerbosch2_run g hs hl pivot hpiv fuel hf
  have h3 := bkOut_final g hs _ H1 h2
  have k3 := bkOut_final g hs _ H k2
  refine ⟨H, H1, k1, k3.1, k3.2.1, h1, ?_⟩
  rw [List.perm_ext_iff_of_nodup k3.2.2.1 h3.2.2.1]
  intro c
  rw [k3.2.2.2 c, h3.2.2.2 c]

theorem bronKerbosch2_maximal_cliques_witness :
    (Symmetric exampleBK ∧ LoopFree exampleBK) ∧
    PivotOk exampleBK BKPivotMinP ∧ PivotOk exampleBK (BKPivotMaxDegree exampleBK) ∧
    ∀ pivot, PivotOk exampleBK pivot →
      ∃ H H1, BronKerbosch2 exampleBK pivot emitAll 14 = .ok H ∧
        (∀ c ∈ H, c.Sorted (· < ·) ∧ IsMaximalClique exampleBK c.toFinset) ∧
        (∀ S, IsMaximalClique exampleBK S → H.countP (fun c => decide (c.toFinset = S)) = 1) ∧
        BronKerbosch1 exampleBK emitAll 14 = .ok H1 ∧ H.Perm H1 :=
  ⟨by decide, bronKerbosch2_maximal_cliques exampleBK 14 (by decide) (by decide) (by decide)⟩

theorem emitCut_all (H out : List (List Nat)) : emitCut emitAll H out = (true, out) := by
  induction out generalizing H with
  | nil => rfl
  | cons c t ih => simp [emitCut, emitAll, ih]

theorem emitCut_true (emit : Emit) (H out : List (List Nat))
    (h : (emitCut emit H out).1 = true) : (emitCut emit H out).2 = out := by
  induction out generalizing H with
  | nil => rfl
  | cons c t ih =>
    rw [emitCut] at h ⊢
    by_cases he : emit H c = true
    · simp only [he, if_true] at h ⊢
      rw [ih _ h]
    · simp [he] at h

theorem emitCut_append (emit : Emit) (H o1 o2 : List (List Nat)) :
    emitCut emit H (o1 ++ o2) =
      if (emitCut emit H o1).1 then
        ((emitCut emit (H ++ o1) o2).1, o1 ++ (emitCut emit (H ++ o1) o2).2)
      else emitCut emit H o1 := by
  induction o1 generalizing H with
  | nil => simp [emitCut]
  | cons c t ih =>
    have e1 : emitCut emit H (c :: t ++ o2) =
        if emit H c then ((emitCut emit (H ++ [c]) (t ++ o2)).1,
          c :: (emitCut emit (H ++ [c]) (t ++ o2)).2) else (false, [c]) := by
      rw [List.cons_append, emitCut]
    have e2 : emitCut emit H (c :: t) =
        if emit H c then ((emitCut emit (H ++ [c]) t).1,
          c :: (emitCut emit (H ++ [c]) t).2) else (false, [c]) := by
      rw [emitCut]
    rw [e1, e2]
    by_cases he : emit H c = true
    · simp only [he, if_true]
      rw [ih (H ++ [c])]
      by_cases h1 : (emitCut emit (H ++ [c]) t).1 = true
      · simp [h1]
      · simp [h1]
    · simp [he]

theorem emitCut_single (emit : Emit) (H : List (List Nat)) (c : List Nat) :
    emitCut emit H [c] = (emit H c, [c]) := by
  simp only [emitCut]
  by_cases he : emit H c = true
  · simp [he]
  · simp [he]

theorem bk1_sim (g : LabeledAdjacencyList) (emit : Emit) :
    ∀ fuel,
    (∀ R P X H0 r, bk1F g emitAll fuel R P X H0 = .ok r →
      ∃ out, r = (true, H0 ++ out) ∧ ∀ H, bk1F g emit fuel R P X H =
        .ok ((emitCut emit H out).1, H ++ (emitCut emit H out).2)) ∧
    (∀ cur R P X H0 r, bk1Loop g emitAll fuel cur R P X H0 = .ok r →
      ∃ out, r = (true, H0 ++ out) ∧ ∀ H, bk1Loop g emit fuel cur R P X H =
        .ok ((emitCut emit H out).1, H ++ (emitCut emit H out).2)) := by
  intro fuel
  induction fuel with
  | zero =>
    constructor
    · intro R P X H0 r h; simp [bk1F] at h
    · intro cur R P X H0 r h; simp [bk1Loop] at h
  | succ fuel ih =>
    constructor
    · intro R P X H0 r h
      rw [bk1F] at h
      by_cases hP : P ≠ 0
      · rw [if_pos hP] at h
        obtain ⟨out, h1, h2⟩ := ih.2 _ R P X H0 r h
        refine ⟨out, h1, fun H => ?_⟩
        rw [bk1F, if_pos hP]
        exact h2 H
      · rw [if_neg hP] at h
        by_cases hX : X = 0
        · rw [if_pos hX, bkEmit_eq] at h
          refine ⟨[ones R], ?_, fun H => ?_⟩
          · simp only [Except.ok.injEq] at h
            rw [← h]; rfl
          · rw [bk1F, if_neg hP, if_pos hX, bkEmit_eq, emitCut_single]
        · rw [if_neg hX] at h
          refine ⟨[], ?_, fun H => ?_⟩
          · simp only [Except.ok.injEq] at h
            rw [← h]; simp
          · rw [bk1F, if_neg hP, if_neg hX]
            simp [emitCut]
    · intro cur R P X H0 r h
      cases cur with
      | none =>
        rw [bk1Loop] at h
        refine ⟨[], ?_, fun H => ?_⟩
        · simp only [Except.ok.injEq] at h
          rw [← h]; simp
        · rw [bk1Loop]
          simp [emitCut]
      | some n =>
        rw [bk1Loop] at h
        cases hg : g[n]? with
        | none => simp [hg] at h
        | some nbs =>
          simp only [hg] at h
          cases h1 : bk1F g emitAll fuel (SetBit1 R n) (bkRestrict P X nbs).1
              (bkRestrict P X nbs).2 H0 with
          | error e => simp [h1] at h
          | ok r1 =>
            obtain ⟨out1, e1, s1⟩ := ih.1 _ _ _ H0 r1 h1
            subst e1
            simp only [h1] at h
            obtain ⟨out2, e2, s2⟩ := ih.2 _ R _ _ (H0 ++ out1) r h
            refine ⟨out1 ++ out2, by rw [e2, List.append_assoc], fun H => ?_⟩
            rw [bk1Loop]
            simp only [hg, s1 H, emitCut_append]
            by_cases hc : (emitCut emit H out1).1 = true
            · have hc2 := emitCut_true emit H out1 hc
              simp only [hc, hc2, if_true, s2 (H ++ out1), List.append_assoc]
            · have hc1 : (emitCut emit H out1).1 = false := by simpa using hc
              simp only [hc1, Bool.false_eq_true, if_false]

theorem bk2_sim (g : LabeledAdjacencyList) (pivot : Pivot) (emit : Emit) :
    ∀ fuel,
    (∀ R P X H0 r, bk2F g pivot emitAll fuel R P X H0 = .ok r →
      ∃ out, r = (true, H0 ++ out) ∧ ∀ H, bk2F g pivot emit fuel R P X H =
        .ok ((emitCut emit H out).1, H ++ (emitCut emit H out).2)) ∧
    (∀ pnu cur R P X H0 r, bk2Loop g pivot emitAll fuel pnu cur R P X H0 = .ok r →
      ∃ out, r = (true, H0 ++ out) ∧ ∀ H, bk2Loop g pivot emit fuel pnu cur R P X H =
        .ok ((emitCut emit H out).1, H ++ (emitCut emit H out).2)) := by
  intro fuel
  induction fuel with
  | zero =>
    constructor
    · intro R P X H0 r h; simp [bk2F] at h
    · intro pnu cur R P X H0 r h; simp [bk2Loop] at h
  | succ fuel ih =>
    constructor
    · intro R P X H0 r h
      rw [bk2F] at h
      by_cases hP : P ≠ 0
      · rw [if_pos hP] at h
        cases hu : pivot P X with
        | error e => simp [hu] at h
        | ok u =>
          simp only [hu] at h
          cases hg : g[u]? with
          | none => simp [hg] at h
          | some unbs =>
            simp only [hg] at h
            obtain ⟨out, h1, h2⟩ := ih.2 _ _ R P X H0 r h
            refine ⟨out, h1, fun H => ?_⟩
            rw [bk2F, if_pos hP]
            simp only [hu, hg]
            exact h2 H
      · rw [if_neg hP] at h
        by_cases hX : X = 0
        · rw [if_pos hX, bkEmit_eq] at h
          refine ⟨[ones R], ?_, fun H => ?_⟩
          · simp only [Except.ok.injEq] at h
            rw [← h]; rfl
          · rw [bk2F, if_neg hP, if_pos hX, bkEmit_eq, emitCut_single]
        · rw [if_neg hX] at h
          refine ⟨[], ?_, fun H => ?_⟩
          · simp only [Except.ok.injEq] at h
            rw [← h]; simp
          · rw [bk2F, if_neg hP, if_neg hX]
            simp [emitCut]
    · intro pnu cur R P X H0 r h
      cases cur with
      | none =>
        rw [bk2Loop] at h
        refine ⟨[], ?_, fun H => ?_⟩
        · simp only [Except.ok.injEq] at h
          rw [← h]; simp
        · rw [bk2Loop]
          simp [emitCut]
      | some n =>
        rw [bk2Loop] at h
        cases hg : g[n]? with
        | none => simp [hg] at h
        | some nbs =>
          simp only [hg] at h
          cases h1 : bk2F g pivot emitAll fuel (SetBit1 R n) (bkRestrict P X nbs).1
              (bkRestrict P X nbs).2 H0 with
          | error e => simp [h1] at h
          | ok r1 =>
            obtain ⟨out1, e1, s1⟩ := ih.1 _ _ _ H0 r1 h1
            subst e1
            simp only [h1] at h
            obtain ⟨out2, e2, s2⟩ := ih.2 pnu _ R _ _ (H0 ++ out1) r h
            refine ⟨out1 ++ out2, by rw [e2, List.append_assoc], fun H => ?_⟩
            rw [bk2Loop]
            simp only [hg, s1 H, emitCut_append]
            by_cases hc : (emitCut emit H out1).1 = true
            · have hc2 := emitCut_true emit H out1 hc
              simp only [hc, hc2, if_true, s2 (H ++ out1), List.append_assoc]
            · have hc1 : (emitCut emit H out1).1 = false := by simpa using hc
              simp only [hc1, Bool.false_eq_true, if_false]

theorem bk3Loop_sim (g : LabeledAdjacencyList) (pivot : Pivot) (emit : Emit) (fuel : Nat) :
    ∀ (ord : List Nat) (R P X : Nat) (H0 r : List (List Nat)),
      bk3Loop g pivot emitAll fuel ord R P X H0 = .ok r →
      ∃ out, r = H0 ++ out ∧ ∀ H, bk3Loop g pivot emit fuel ord R P X H =
        .ok (H ++ (emitCut emit H out).2) := by
  intro ord
  induction ord with
  | nil =>
    intro R P X H0 r h
    rw [bk3Loop] at h
    refine ⟨[], ?_, fun H => ?_⟩
    · simp only [Except.ok.injEq] at h
      rw [← h]; simp
    · rw [bk3Loop]
      simp [emitCut]
  | cons n rest ih =>
    intro R P X H0 r h
    rw [bk3Loop] at h
    cases hg : g[n]? with
    | none => simp [hg] at h
    | some nbs =>
      simp only [hg] at h
      cases h1 : bk2F g pivot emitAll fuel (SetBit1 R n) (bkRestrict P X nbs).1
          (bkRestrict P X nbs).2 H0 with
      | error e => simp [h1] at h
      | ok r1 =>
        obtain ⟨out1, e1, s1⟩ := (bk2_sim g pivot emit fuel).1 _ _ _ H0 r1 h1
        subst e1
        simp only [h1] at h
        obtain ⟨out2, e2, s2⟩ := ih _ _ _ (H0 ++ out1) r h
        refine ⟨out1 ++ out2, by rw [e2, List.append_assoc], fun H => ?_⟩
        rw [bk3Loop]
        simp only [hg, s1 H, emitCut_append]
        by_cases hc : (emitCut emit H out1).1 = true
        · have hc2 := emitCut_true emit H out1 hc
          simp only [hc, hc2, if_true, s2 (H ++ out1), List.append_assoc]
        · have hc1 : (emitCut emit H out1).1 = false := by simpa using hc
          simp only [hc1, Bool.false_eq_true, if_false]

theorem emitCut_stops (emit : Emit) : ∀ (out H : List (List Nat)),
    (emitCut emit H out).2 <+: out ∧
    (∀ i c, (emitCut emit H out).2[i]? = some c → i + 1 < (emitCut emit H out).2.length →
      emit (H ++ (emitCut emit H out).2.take i) c = true) ∧
    ((emitCut emit H out).2.length < out.length →
      ∃ c, (emitCut emit H out).2.getLast? = some c ∧
        emit (H ++ (emitCut emit H out).2.dropLast) c = false) := by
  intro out
  induction out with
  | nil =>
    intro H
    simp [emitCut]
  | cons a t ih =>
    intro H
    rw [emitCut]
    by_cases he : emit H a = true
    · simp only [he, if_true]
      obtain ⟨i1, i2, i3⟩ := ih (H ++ [a])
      refine ⟨?_, ?_, ?_⟩
      · rw [List.prefix_cons_inj]; exact i1
      · intro i c hi hlen
        cases i with
        | zero =>
          simp only [List.getElem?_cons_zero, Option.some.injEq] at hi
          subst hi
          simpa using he
        | succ j =>
          simp only [List.getElem?_cons_succ] at hi
          simp only [List.length_cons] at hlen
          have := i2 j c hi (by omega)
          simpa using this
      · intro hlen
        simp only [List.length_cons] at hlen
        obtain ⟨c, hc1, hc2⟩ := i3 (by omega)
        have hne : (emitCut emit (H ++ [a]) t).2 ≠ [] := by
          intro h0; rw [h0] at hc1; simp at hc1
        refine ⟨c, ?_, ?_⟩
        · obtain ⟨b, l, hbl⟩ := List.exists_cons_of_ne_nil hne
          rw [hbl] at hc1 ⊢
          rw [List.getLast?_cons_cons, hc1]
        · rw [List.dropLast_cons_of_ne_nil hne]
          simpa using hc2
    · have he1 : emit H a = false := by simpa using he
      simp only [he1, Bool.false_eq_true, if_false]
      refine ⟨by simp, ?_, ?_⟩
      · intro i c _ hlen
        simp at hlen
      · intro _
        exact ⟨a, by simp, by simpa using he1⟩

theorem stopsAtFalse_emitCut (emit : Emit) (Ht : List (List Nat)) :
    StopsAtFalse emit Ht (emitCut emit [] Ht).2 := by
  have := emitCut_stops emit Ht []
  simpa [StopsAtFalse] using this

theorem degStep_ordering (g : LabeledAdjacencyList) (st st1 : DegState) (ox : Nat)
    (h : degStep g st ox = .ok st1) (hlt : ∀ x ∈ st.ordering, x < g.length) :
    ∀ x ∈ st1.ordering, x < g.length := by
  unfold degStep at h
  cases h1 : degFind st.D 0 with
  | error e => simp [h1] at h
  | ok i =>
    simp only [h1] at h
    cases h2 : (st.D.getD i []).getLast? with
    | none => rw [h2] at h; cases h
    | some v =>
      simp only [h2] at h
      cases h3 : g[v]? with
      | none => rw [h3] at h; cases h
      | some nbs =>
        simp only [h3] at h
        cases h4 : degMove nbs (SetBit1 st.L v) st.d (st.D.set i (st.D.getD i []).dropLast) with
        | error e => rw [h4] at h; cases h
        | ok r =>
          simp only [h4, Except.ok.injEq] at h
          subst h
          intro x hx
          rcases List.mem_or_eq_of_mem_set hx with hx | hx
          · exact hlt x hx
          · rw [hx]; exact (List.getElem?_eq_some_iff.1 h3).1

theorem degLoop_ordering (g : LabeledAdjacencyList) : ∀ (oxs : List Nat) (st st1 : DegState),
    degLoop g oxs st = .ok st1 → (∀ x ∈ st.ordering, x < g.length) →
    ∀ x ∈ st1.ordering, x < g.length := by
  intro oxs
  induction oxs with
  | nil =>
    intro st st1 h hlt
    simp only [degLoop, Except.ok.injEq] at h
    subst h; exact hlt
  | cons ox rest ih =>
    intro st st1 h hlt
    rw [degLoop] at h
    cases h1 : degStep g st ox with
    | error e => simp [h1] at h
    | ok st2 =>
      simp only [h1] at h
      exact ih st2 st1 h (degStep_ordering g st st2 ox h1 hlt)

theorem degeneracy_ordering_lt (g : LabeledAdjacencyList) (k : Nat) (ord cores : List Nat)
    (h : LabeledUndirected.Degeneracy g = .ok (k, ord, cores)) : ∀ x ∈ ord, x < g.length := by
  unfold LabeledUndirected.Degeneracy at h
  simp only at h
  cases h1 : degLoop g (List.range g.length)
      ⟨0, List.replicate g.length 0, [], 0,
        (degBuckets g 0 (List.replicate g.length 0) []).1,
        (degBuckets g 0 (List.replicate g.length 0) []).2⟩ with
  | error e => simp [h1] at h
  | ok st =>
    simp only [h1] at h
    by_cases hk : st.k < st.cores.length
    · rw [if_pos hk] at h
      simp only [Except.ok.injEq, Prod.mk.injEq] at h
      rw [← h.2.1]
      apply degLoop_ordering g _ _ st h1
      intro x hx
      simp only [List.mem_replicate] at hx
      omega
    · rw [if_neg hk] at h
      simp at h

theorem setBit0_setBit1_zero (n : Nat) : SetBit0 (SetBit1 0 n) n = 0 := by
  apply Nat.eq_of_testBit_eq
  intro i
  have := bit_setBit0 (SetBit1 0 n) n i
  rw [bit_setBit1, bit_zero] at this
  simp only [Bit] at this
  rw [this]
  by_cases h : n = i <;> simp [h]

theorem bk3Loop_total (g : LabeledAdjacencyList) (hs : Symmetric g) (hl : LoopFree g)
    (pivot : Pivot) (hpiv : PivotOk g pivot) (fuel : Nat) (hf : 2 * g.length + 2 ≤ fuel) :
    ∀ (ord : List Nat), (∀ n ∈ ord, n < g.length) → ∀ (P X : Nat) (H : List (List Nat)),
      BKPre g 0 P X → ∃ r, bk3Loop g pivot emitAll fuel ord 0 P X H = .ok r := by
  intro ord
  induction ord with
  | nil => intro _ P X H _; exact ⟨H, rfl⟩
  | cons n rest ih =>
    intro hlt P X H hpre
    have hnN := hlt n (List.mem_cons_self _ _)
    have hn : Bit P n = true ∨ Bit X n = true :=
      (hpre.cand n).2 ⟨hnN, bit_zero n, fun u hu => by simp [bit_zero] at hu⟩
    have hg : g[n]? = some g[n] := List.getElem?_eq_getElem hnN
    have hc := bmCard_le g.length (bkRestrict P X g[n]).1
    obtain ⟨out, ho, _⟩ := (bk2_spec g hs hl pivot hpiv fuel).1 (SetBit1 0 n)
      (bkRestrict P X g[n]).1 (bkRestrict P X g[n]).2 H
      (bkPre_rec g hs hl 0 P X n g[n] hpre hn hg) (by omega)
    obtain ⟨r, hr⟩ := ih (fun m hm => hlt m (List.mem_cons_of_mem _ hm)) (SetBit0 P n)
      (SetBit1 X n) (H ++ out) (bkPre_next g 0 P X n hpre hn)
    refine ⟨r, ?_⟩
    rw [bk3Loop]
    simp only [hg, ho, setBit0_setBit1_zero, hr]

/-- C19, the code at a failing input: the graph with the single node 0 and no edge is a
simple undirected graph whose only maximal clique is the node 0 alone, which BronKerbosch1
emits; on it Degeneracy fails at its last statement, cores[k] = len(ordering), cores being
empty, so BronKerbosch3 fails with every pivot and emit function before emit is called.
The same happens on the empty graph. -/
theorem bronKerbosch3_fails_without_edges :
    (Symmetric ([[]] : LabeledAdjacencyList) ∧ LoopFree ([[]] : LabeledAdjacencyList)) ∧
    IsMaximalClique ([[]] : LabeledAdjacencyList) {0} ∧
    BronKerbosch1 ([[]] : LabeledAdjacencyList) emitAll 4 = .ok [[0]] ∧
    LabeledUndirected.Degeneracy ([[]] : LabeledAdjacencyList) = .error .index ∧
    (∀ pivot emit fuel,
      BronKerbosch3 ([[]] : LabeledAdjacencyList) pivot emit fuel = .error .index) ∧
    (∀ pivot emit fuel,
      BronKerbosch3 ([] : LabeledAdjacencyList) pivot emit fuel = .error .index) := by
  refine ⟨by decide, ?_, by rfl, by rfl, fun _ _ _ => by rfl, fun _ _ _ => by rfl⟩
  refine ⟨⟨?_, ?_⟩, ?_⟩
  · intro u hu
    simp only [Finset.mem_singleton] at hu
    simp [hu]
  · intro u hu v hv huv
    simp only [Finset.mem_singleton] at hu hv
    exact absurd (hu.trans hv.symm) huv
  · intro T hT hsub
    apply Finset.Subset.antisymm _ hsub
    intro w hw
    have := hT.1 w hw
    simp only [List.length_singleton, Nat.lt_one_iff] at this
    simp [this]

/-- C20: on every undirected graph g without loops, with a pivot function that answers
with a node of P or X, any emit function and a recursion budget of at least 2 len(g) + 2,
each of BronKerbosch1, BronKerbosch2 and BronKerbosch3 returns both with the given emit
function and with the one that always returns true, and the cliques He passed to the given
function are a prefix of the cliques Ht passed to the other, every call but the last of He
was answered true, so no call follows an answer false, and He is shorter than Ht only if
its last call was answered false.  For BronKerbosch3 this holds when Degeneracy returns;
when Degeneracy fails both runs fail before any call of emit. -/
theorem bronKerbosch_stops_at_false (g : LabeledAdjacencyList) (pivot : Pivot) (emit : Emit)
    (fuel : Nat) (hs : Symmetric g) (hl : LoopFree g) (hpiv : PivotOk g pivot)
    (hf : 2 * g.length + 2 ≤ fuel) :
    (∃ Ht He, BronKerbosch1 g emitAll fuel = .ok Ht ∧ BronKerbosch1 g emit fuel = .ok He ∧
      StopsAtFalse emit Ht He) ∧
    (∃ Ht He, BronKerbosch2 g pivot emitAll fuel = .ok Ht ∧
      BronKerbosch2 g pivot emit fuel = .ok He ∧ StopsAtFalse emit Ht He) ∧
    ((∃ Ht He, BronKerbosch3 g pivot emitAll fuel = .ok Ht ∧
        BronKerbosch3 g pivot emit fuel = .ok He ∧ StopsAtFalse emit Ht He) ∨
      (∃ err, LabeledUndirected.Degeneracy g = .error err ∧
        BronKerbosch3 g pivot emitAll fuel = .error err ∧
        BronKerbosch3 g pivot emit fuel = .error err)) := by
  have hc := bmCard_oneBits g.length
  refine ⟨?_, ?_, ?_⟩
  · obtain ⟨out, ho, _⟩ := (bk1_spec g hs hl fuel).1 0 (OneBits g.length) 0 [] (bkPre_init g)
      (by omega)
    obtain ⟨out1, e1, s1⟩ := (bk1_sim g emit fuel).1 _ _ _ _ _ ho
    refine ⟨out1, (emitCut emit [] out1).2, ?_, ?_, stopsAtFalse_emitCut emit out1⟩
    · rw [BronKerbosch1, ho, e1]; simp
    · rw [BronKerbosch1, s1 []]; simp
  · obtain ⟨out, ho, _⟩ := (bk2_spec g hs hl pivot hpiv fuel).1 0 (OneBits g.length) 0 []
      (bkPre_init g) (by omega)
    obtain ⟨out1, e1, s1⟩ := (bk2_sim g pivot emit fuel).1 _ _ _ _ _ ho
    refine ⟨out1, (emitCut emit [] out1).2, ?_, ?_, stopsAtFalse_emitCut emit out1⟩
    · rw [BronKerbosch2, ho, e1]; simp
    · rw [BronKerbosch2, s1 []]; simp
  · cases hd : LabeledUndirected.Degeneracy g with
    | error err =>
      right
      exact ⟨err, rfl, by simp only [BronKerbosch3, hd], by simp only [BronKerbosch3, hd]⟩
    | ok r =>
      left
      obtain ⟨k, ord, cores⟩ := r
      have hlt := degeneracy_ordering_lt g k ord cores hd
      obtain ⟨Ht, ht⟩ := bk3Loop_total g hs hl pivot hpiv fuel hf ord hlt (OneBits g.length) 0
        [] (bkPre_init g)
      obtain ⟨out1, e1, s1⟩ := bk3Loop_sim g pivot emit fuel ord _ _ _ _ _ ht
      simp only [List.nil_append] at e1
      subst e1
      refine ⟨Ht, (emitCut emit [] Ht).2, ?_, ?_, stopsAtFalse_emitCut emit Ht⟩
      · simp only [BronKerbosch3, hd, ht]
      · simp only [BronKerbosch3, hd, s1 [], List.nil_append]

theorem bronKerbosch_stops_at_false_witness :
    (Symmetric exampleBK ∧ LoopFree exampleBK ∧ PivotOk exampleBK BKPivotMinP) ∧
    (∃ Ht He, BronKerbosch1 exampleBK emitAll 14 = .ok Ht ∧
      BronKerbosch1 exampleBK (fun _ c => decide (c ≠ [1, 2, 5])) 14 = .ok He ∧
      StopsAtFalse (fun _ c => decide (c ≠ [1, 2, 5])) Ht He) ∧
    (∃ Ht He, BronKerbosch2 exampleBK BKPivotMinP emitAll 14 = .ok Ht ∧
      BronKerbosch2 exampleBK BKPivotMinP (fun _ c => decide (c ≠ [1, 2, 5])) 14 = .ok He ∧
      StopsAtFalse (fun _ c => decide (c ≠ [1, 2, 5])) Ht He) ∧
    ((∃ Ht He, BronKerbosch3 exampleBK BKPivotMinP emitAll 14 = .ok Ht ∧
        BronKerbosch3 exampleBK BKPivotMinP (fun _ c => decide (c ≠ [1, 2, 5])) 14 = .ok He ∧
        StopsAtFalse (fun _ c => decide (c ≠ [1, 2, 5])) Ht He) ∨
      (∃ err, LabeledUndirected.Degeneracy exampleBK = .error err ∧
        BronKerbosch3 exampleBK BKPivotMinP emitAll 14 = .error err ∧
        BronKerbosch3 exampleBK BKPivotMinP (fun _ c => decide (c ≠ [1, 2, 5])) 14 =
          .error err)) :=
  ⟨⟨by decide, by decide, pivotOk_minP exampleBK⟩,
    bronKerbosch_stops_at_false exampleBK BKPivotMinP (fun _ c => decide (c ≠ [1, 2, 5])) 14
      (by decide) (by decide) (pivotOk_minP exampleBK) (by decide)⟩

theorem arc_iff_getD (g : AdjacencyList) (u v : Nat) :
    Arc g u v ↔ (u < g.length ∧ v ∈ g.getD u []) := by
  unfold Arc
  rw [List.getD_eq_getElem?_getD]
  constructor
  · rintro ⟨nbs, h1, h2⟩
    refine ⟨(List.getElem?_eq_some_iff.1 h1).1, ?_⟩
    rw [h1]; exact h2
  · rintro ⟨h1, h2⟩
    rw [List.getElem?_eq_getElem h1] at h2 ⊢
    exact ⟨g[u], rfl, h2⟩

theorem undirected_arc (g : AdjacencyList) (hs : Undirected g) (u v : Nat) (h : Arc g u v) :
    Arc g v u := by
  rw [arc_iff_getD] at h
  have h1 := hs u h.1 v h.2
  rw [arc_iff_getD]
  refine ⟨?_, h1⟩
  by_contra hv
  rw [List.getD_eq_getElem?_getD, List.getElem?_eq_none (by omega)] at h1
  simp at h1

theorem bipWhite_swap (g : AdjacencyList) (c1 c2 : Nat) : bipWhite g c2 c1 = bipWhite g c1 c2 := by
  unfold bipWhite
  congr 1
  apply Finset.filter_congr
  intro m _
  exact And.comm

theorem bipWhite_mono (g : AdjacencyList) (c1 c2 d1 d2 : Nat) (h1 : BmLe c1 d1)
    (h2 : BmLe c2 d2) : bipWhite g d1 d2 ≤ bipWhite g c1 c2 := by
  unfold bipWhite
  apply Finset.card_le_card
  intro m hm
  simp only [Finset.mem_filter, Finset.mem_range] at hm ⊢
  refine ⟨hm.1, ?_, ?_⟩
  · cases hb : Bit c1 m
    · rfl
    · rw [h1 m hb] at hm; exact absurd hm.2.1 (by simp)
  · cases hb : Bit c2 m
    · rfl
    · rw [h2 m hb] at hm; exact absurd hm.2.2 (by simp)

theorem bipWhite_lt (g : AdjacencyList) (c1 c2 n : Nat) (hn : n < g.length)
    (h1 : Bit c1 n = false) (h2 : Bit c2 n = false) :
    bipWhite g (SetBit1 c1 n) c2 < bipWhite g c1 c2 := by
  unfold bipWhite
  apply Finset.card_lt_card
  rw [Finset.ssubset_iff_of_subset]
  · refine ⟨n, ?_, ?_⟩
    · simp [hn, h1, h2]
    · simp [bit_setBit1]
  · intro m hm
    simp only [Finset.mem_filter, Finset.mem_range, bit_setBit1, Bool.or_eq_false_iff] at hm ⊢
    exact ⟨hm.1, hm.2.1.1, hm.2.2⟩

theorem bipWhite_le (g : AdjacencyList) (c1 c2 : Nat) : bipWhite g c1 c2 ≤ g.length := by
  unfold bipWhite
  calc _ ≤ (Finset.range g.length).card := Finset.card_filter_le _ _
    _ = g.length := Finset.card_range _

theorem bipGood_swap (g : AdjacencyList) (chi : Nat → Bool) (n0 : Nat) (col : Bool)
    (st : BipState) (h : BipGood g chi n0 col st) : BipGood g chi n0 (!col) st.swap :=
  ⟨h.b, h.other, fun m hm => by simpa using h.own m hm⟩

theorem bipPost_swap (g : AdjacencyList) (st st' : BipState) (h : BipPost g st st') :
    BipPost g st.swap st'.swap :=
  ⟨h.isOpen, h.oc, h.le2, h.le1, fun u hu h1 h2 w hw => (h.closed u hu.symm h2 h1 w hw).symm⟩

theorem bipPost_refl (g : AdjacencyList) (st : BipState) : BipPost g st st := by
  refine ⟨rfl, rfl, fun m hm => hm, fun m hm => hm, ?_⟩
  intro u hu h1 h2
  rcases hu with hu | hu
  · rw [h1] at hu; exact absurd hu (by simp)
  · rw [h2] at hu; exact absurd hu (by simp)

theorem bipPost_trans (g : AdjacencyList) (s1 s2 s3 : BipState) (h12 : BipPost g s1 s2)
    (h23 : BipPost g s2 s3) : BipPost g s1 s3 := by
  refine ⟨h23.isOpen.trans h12.isOpen, h23.oc.trans h12.oc,
    fun m hm => h23.le1 m (h12.le1 m hm), fun m hm => h23.le2 m (h12.le2 m hm), ?_⟩
  intro u hu h1 h2 w hw
  by_cases hc : Bit s2.c1 u = true ∨ Bit s2.c2 u = true
  · rcases h12.closed u hc h1 h2 w hw with h | h
    · exact Or.inl (h23.le1 w h)
    · exact Or.inr (h23.le2 w h)
  · simp only [not_or, Bool.not_eq_true] at hc
    exact h23.closed u hu hc.1 hc.2 w hw

theorem bipDf_spec (g : AdjacencyList) (hs : Undirected g) (chi : Nat → Bool) (n0 : Nat)
    (hchi : ∀ u v, Reach g n0 u → Arc g u v → chi u ≠ chi v) :
    ∀ fuel n st col, BipGood g chi n0 col st → chi n = col → Reach g n0 n → n < g.length →
      Bit st.c1 n = false → Bit st.c2 n = false → bipWhite g st.c1 st.c2 < fuel →
      ∃ st', bipDf g fuel n st = .ok st' ∧ BipGood g chi n0 col st' ∧ BipPost g st st' ∧
        Bit st'.c1 n = true := by
  intro fuel
  induction fuel with
  | zero => intro n st col _ _ _ _ _ _ h; omega
  | succ fuel ih =>
    intro n st col hgood hcol hreach hn h1 h2 hf
    have loop : ∀ (nbs : List Nat) (s : BipState), BipGood g chi n0 col s →
        Bit s.c1 n = true → (∀ nb ∈ nbs, Arc g n nb) → bipWhite g s.c1 s.c2 < fuel →
        ∃ s', bipLoop (bipDf g fuel) n nbs s = .ok s' ∧ BipGood g chi n0 col s' ∧
          BipPost g s s' ∧ ∀ nb ∈ nbs, (Bit s'.c1 nb = true ∨ Bit s'.c2 nb = true) := by
      intro nbs
      induction nbs with
      | nil =>
        intro s hg _ _ _
        exact ⟨s, rfl, hg, bipPost_refl g s, fun nb hnb => absurd hnb (List.not_mem_nil _)⟩
      | cons nb rest ihl =>
        intro s hg hsn harc hw
        have hnb := harc nb (List.mem_cons_self _ _)
        have hrest : ∀ x ∈ rest, Arc g n x := fun x hx => harc x (List.mem_cons_of_mem _ hx)
        have hnblt : nb < g.length := arc_lt g nb n (undirected_arc g hs n nb hnb)
        have hchinb : chi nb = !col := by
          have := hchi n nb hreach hnb
          rw [hcol] at this
          cases hc : chi nb <;> cases col <;> simp_all
        have hc1 : Bit s.c1 nb = false := by
          cases hb : Bit s.c1 nb
          · rfl
          · have := (hg.own nb hb).1
            rw [hchinb] at this
            cases col <;> simp at this
        rw [bipLoop]
        simp only [hc1, Bool.false_eq_true, if_false]
        by_cases hc2 : Bit s.c2 nb = true
        · simp only [hc2, if_true]
          obtain ⟨s', e1, e2, e3, e4⟩ := ihl s hg hsn hrest hw
          refine ⟨s', e1, e2, e3, ?_⟩
          intro x hx
          rcases List.mem_cons.1 hx with hx | hx
          · rw [hx]; exact Or.inr (e3.le2 nb hc2)
          · exact e4 x hx
        · simp only [hc2, if_false]
          have hc2f : Bit s.c2 nb = false := by simpa using hc2
          obtain ⟨r, r1, r2, r3, r4⟩ := ih nb s.swap (!col) (bipGood_swap g chi n0 col s hg)
            hchinb (Relation.ReflTransGen.tail hreach hnb) hnblt hc2f hc1
            (by simp only [BipState.swap]; rw [bipWhite_swap]; exact hw)
          have g1 : BipGood g chi n0 col r.swap := by
            have := bipGood_swap g chi n0 (!col) r r2
            simpa using this
          have p1 : BipPost g s r.swap := bipPost_swap g s.swap r r3
          obtain ⟨s', e1, e2, e3, e4⟩ := ihl r.swap g1 (p1.le1 n hsn) hrest
            (lt_of_le_of_lt (bipWhite_mono g _ _ _ _ p1.le1 p1.le2) hw)
          refine ⟨s', ?_, e2, bipPost_trans g s r.swap s' p1 e3, ?_⟩
          · simp only [r1, g1.b, if_true]
            exact e1
          · intro x hx
            rcases List.mem_cons.1 hx with hx | hx
            · rw [hx]; exact Or.inr (e3.le2 nb r4)
            · exact e4 x hx
    have hg : g[n]? = some g[n] := List.getElem?_eq_getElem hn
    have hgood0 : BipGood g chi n0 col { st with c1 := SetBit1 st.c1 n } := by
      refine ⟨hgood.b, ?_, hgood.other⟩
      intro m hm
      simp only [bit_setBit1, Bool.or_eq_true, decide_eq_true_eq] at hm
      rcases hm with hm | hm
      · exact hgood.own m hm
      · rw [← hm]; exact ⟨hcol, hreach⟩
    obtain ⟨s', e1, e2, e3, e4⟩ := loop g[n] { st with c1 := SetBit1 st.c1 n } hgood0
      (by simp [bit_setBit1]) (fun nb hnb => ⟨g[n], hg, hnb⟩)
      (by
        have := bipWhite_lt g st.c1 st.c2 n hn h1 h2
        simp only
        omega)
    refine ⟨s', ?_, e2, ?_, e3.le1 n (by simp [bit_setBit1])⟩
    · rw [bipDf]
      simp only [hg]
      exact e1
    · refine ⟨e3.isOpen, e3.oc, ?_, e3.le2, ?_⟩
      · intro m hm
        exact e3.le1 m (by simp [bit_setBit1, hm])
      · intro u hu hu1 hu2 w hw
        by_cases hun : u = n
        · subst hun
          obtain ⟨nbs, hg', hw'⟩ := hw
          rw [hg] at hg'
          cases hg'
          exact e4 w hw'
        · apply e3.closed u hu _ hu2 w hw
          simp only [bit_setBit1, hu1, Bool.false_or, decide_eq_false_iff_not]
          exact fun h => hun h.symm

theorem bipLoopLabeled_eq (r1 r2 : Nat → BipState → Except Err BipState) (h : r1 = r2)
    (n : Nat) : ∀ (nbs : List Half) (st : BipState),
      bipLoopLabeled r1 n nbs st = bipLoop r2 n (nbs.map Half.To) st := by
  subst h
  intro nbs
  induction nbs with
  | nil => intro st; rfl
  | cons a t ih =>
    intro st
    simp only [List.map_cons, bipLoopLabeled, bipLoop, ih]

theorem bipDfLabeled_eq (g : LabeledAdjacencyList) : ∀ (fuel n : Nat) (st : BipState),
    bipDfLabeled g fuel n st = bipDf (unlabel g) fuel n st := by
  intro fuel
  induction fuel with
  | zero => intro n st; rfl
  | succ fuel ih =>
    intro n st
    have hrec : bipDfLabeled g fuel = bipDf (unlabel g) fuel := by
      funext a b; exact ih a b
    rw [bipDfLabeled, bipDf]
    have hg : (unlabel g)[n]? = (g[n]?).map (fun nbs => nbs.map Half.To) := by
      unfold unlabel; rw [List.getElem?_map]
    rw [hg]
    cases g[n]? with
    | none => rfl
    | some nbs =>
      simp only [Option.map_some']
      exact bipLoopLabeled_eq _ _ hrec n nbs _

theorem bipartite_labeled_eq (g : LabeledAdjacencyList) (n fuel : Nat) :
    LabeledUndirected.Bipartite g n fuel = Bipartite (unlabel g) n fuel := by
  unfold LabeledUndirected.Bipartite Bipartite
  rw [bipDfLabeled_eq]

theorem bipartite_of_coloring (g : AdjacencyList) (chi : Nat → Bool) (n : Nat)
    (h : ∀ u < g.length, ∀ v ∈ g.getD u [], chi u ≠ chi v) :
    ∃ chi : Nat → Bool, ∀ u v, Reach g n u → Arc g u v → chi u ≠ chi v :=
  ⟨chi, fun u v _ harc => h u ((arc_iff_getD g u v).1 harc).1 v ((arc_iff_getD g u v).1 harc).2⟩

/-- C11: for every undirected graph g (symmetric neighbour slices), node n of g whose
connected component has a two-colouring, and recursion budget above len(g),
AdjacencyList.Bipartite(n) returns b = true, a nil oc, and bitmaps c1 and c2 that are
disjoint, hold together exactly the nodes of the component of n, with n in c1, and every
edge of the component has one end in c1 and the other in c2.  LabeledUndirected.Bipartite
returns on a labeled graph what AdjacencyList.Bipartite returns on the graph without the
labels. -/
theorem bipartite_two_coloring (g : AdjacencyList) (n fuel : Nat) (hs : Undirected g)
    (hn : n < g.length)
    (hbip : ∃ chi : Nat → Bool, ∀ u v, Reach g n u → Arc g u v → chi u ≠ chi v)
    (hf : g.length < fuel) :
    (∃ c1 c2, Bipartite g n fuel = .ok (true, some c1, some c2, []) ∧
      (∀ m, ¬ (Bit c1 m = true ∧ Bit c2 m = true)) ∧
      (∀ m, (Bit c1 m = true ∨ Bit c2 m = true) ↔ Reach g n m) ∧
      Bit c1 n = true ∧
      ∀ u v, Reach g n u → Arc g u v →
        ((Bit c1 u = true ∧ Bit c2 v = true) ∨ (Bit c2 u = true ∧ Bit c1 v = true))) ∧
    ∀ (lg : LabeledAdjacencyList) (k f : Nat),
      LabeledUndirected.Bipartite lg k f = Bipartite (unlabel lg) k f := by
  refine ⟨?_, bipartite_labeled_eq⟩
  obtain ⟨chi, hchi⟩ := hbip
  have hgood0 : BipGood g chi n (chi n) ⟨0, 0, true, false, []⟩ :=
    ⟨rfl, fun m hm => by simp [bit_zero] at hm, fun m hm => by simp [bit_zero] at hm⟩
  obtain ⟨st, e1, e2, e3, e4⟩ := bipDf_spec g hs chi n hchi fuel n ⟨0, 0, true, false, []⟩
    (chi n) hgood0 rfl Relation.ReflTransGen.refl hn (bit_zero n) (bit_zero n)
    (lt_of_le_of_lt (bipWhite_le g 0 0) hf)
  have hcl : ∀ u, (Bit st.c1 u = true ∨ Bit st.c2 u = true) → ∀ w, Arc g u w →
      (Bit st.c1 w = true ∨ Bit st.c2 w = true) :=
    fun u hu w hw => e3.closed u hu (bit_zero u) (bit_zero u) w hw
  have hall : ∀ m, Reach g n m → (Bit st.c1 m = true ∨ Bit st.c2 m = true) := by
    intro m hm
    induction hm with
    | refl => exact Or.inl e4
    | tail _ hbc ih => exact hcl _ ih _ hbc
  have hdisj : ∀ m, ¬ (Bit st.c1 m = true ∧ Bit st.c2 m = true) := by
    rintro m ⟨h1, h2⟩
    have a := (e2.own m h1).1
    have b := (e2.other m h2).1
    rw [a] at b
    cases hc : chi n <;> simp [hc] at b
  refine ⟨st.c1, st.c2, ?_, hdisj, ?_, e4, ?_⟩
  · simp only [Bipartite, e1, e2.b, if_true]
  · intro m
    constructor
    · rintro (h | h)
      · exact (e2.own m h).2
      · exact (e2.other m h).2
    · exact hall m
  · intro u v hu huv
    have hne := hchi u v hu huv
    have hv := hcl u (hall u hu) v huv
    rcases hall u hu with h1 | h1
    · left
      refine ⟨h1, ?_⟩
      rcases hv with h2 | h2
      · exact absurd ((e2.own u h1).1.trans (e2.own v h2).1.symm) hne
      · exact h2
    · right
      refine ⟨h1, ?_⟩
      rcases hv with h2 | h2
      · exact h2
      · exact absurd ((e2.other u h1).1.trans (e2.other v h2).1.symm) hne

theorem bipartite_two_coloring_witness :
    (Undirected [[3], [3], [3, 4], [0, 1, 2], [2]] ∧
      0 < [[3], [3], [3, 4], [0, 1, 2], [2]].length) ∧
    (∃ c1 c2, Bipartite [[3], [3], [3, 4], [0, 1, 2], [2]] 0 6 =
        .ok (true, some c1, some c2, []) ∧
      (∀ m, ¬ (Bit c1 m = true ∧ Bit c2 m = true)) ∧
      (∀ m, (Bit c1 m = true ∨ Bit c2 m = true) ↔
        Reach [[3], [3], [3, 4], [0, 1, 2], [2]] 0 m) ∧
      Bit c1 0 = true ∧
      ∀ u v, Reach [[3], [3], [3, 4], [0, 1, 2], [2]] 0 u →
        Arc [[3], [3], [3, 4], [0, 1, 2], [2]] u v →
        ((Bit c1 u = true ∧ Bit c2 v = true) ∨ (Bit c2 u = true ∧ Bit c1 v = true))) ∧
    ∀ (lg : LabeledAdjacencyList) (k f : Nat),
      LabeledUndirected.Bipartite lg k f = Bipartite (unlabel lg) k f :=
  ⟨by decide, bipartite_two_coloring [[3], [3], [3, 4], [0, 1, 2], [2]] 0 6 (by decide)
    (by decide)
    (bipartite_of_coloring _ (fun m => decide (3 ≤ m)) 0 (by decide)) (by decide)⟩

/-- C12, the code at failing inputs: a node with a loop is an undirected graph whose
component is not bipartite; on it Bipartite returns oc = [0 0], which has an even number
of nodes.  On the path 0 - 1 - 2 with a loop at 2, Bipartite(0) returns oc = [2 2 1 0]:
an even number of nodes, and the last node 0 is not adjacent to the first node 2.  The
labeled method returns the same. -/
theorem bipartite_loop_no_odd_cycle :
    (Undirected [[0]] ∧
      (¬ ∃ chi : Nat → Bool, ∀ u v, Reach [[0]] 0 u → Arc [[0]] u v → chi u ≠ chi v) ∧
      Bipartite [[0]] 0 2 = .ok (false, none, none, [0, 0]) ∧
      LabeledUndirected.Bipartite [[⟨0, 0⟩]] 0 2 = .ok (false, none, none, [0, 0]) ∧
      [0, 0].length % 2 = 0) ∧
    (Undirected [[1], [0, 2], [1, 2]] ∧
      (¬ ∃ chi : Nat → Bool,
        ∀ u v, Reach [[1], [0, 2], [1, 2]] 0 u → Arc [[1], [0, 2], [1, 2]] u v → chi u ≠ chi v) ∧
      Bipartite [[1], [0, 2], [1, 2]] 0 4 = .ok (false, none, none, [2, 2, 1, 0]) ∧
      [2, 2, 1, 0].length % 2 = 0 ∧ ¬ Arc [[1], [0, 2], [1, 2]] 0 2) := by
  refine ⟨⟨by decide, ?_, by rfl, by rfl, by rfl⟩, ⟨by decide, ?_, by rfl, by rfl, ?_⟩⟩
  · rintro ⟨chi, h⟩
    exact h 0 0 Relation.ReflTransGen.refl ⟨[0], rfl, by simp⟩ rfl
  · rintro ⟨chi, h⟩
    have r1 : Reach [[1], [0, 2], [1, 2]] 0 1 :=
      Relation.ReflTransGen.single ⟨[1], rfl, by simp⟩
    have r2 : Reach [[1], [0, 2], [1, 2]] 0 2 :=
      Relation.ReflTransGen.tail r1 ⟨[0, 2], rfl, by simp⟩
    exact h 2 2 r2 ⟨[1, 2], rfl, by simp⟩ rfl
  · rw [arc_iff_getD]
    decide

theorem pairs_nil : pairs [] = [] := rfl

theorem pairs_single (a : Nat) : pairs [a] = [] := rfl

theorem pairs_cons_cons (a b : Nat) (l : List Nat) :
    pairs (a :: b :: l) = (a, b) :: pairs (b :: l) := rfl

theorem pairs_append_cons (A : List Nat) (v : Nat) (B : List Nat) :
    pairs (A ++ v :: B) = pairs (A ++ [v]) ++ pairs (v :: B) := by
  induction A with
  | nil => simp [pairs_single]
  | cons a t ih =>
    cases t with
    | nil => simp [pairs_cons_cons, pairs_single]
    | cons b t2 =>
      simp only [List.cons_append, pairs_cons_cons] at ih ⊢
      rw [ih]

theorem pairs_snoc (S : List Nat) (u w : Nat) :
    pairs (S ++ [u, w]) = pairs (S ++ [u]) ++ [(u, w)] := by
  rw [pairs_append_cons S u [w]]
  rfl

theorem length_pairs (l : List Nat) : (pairs l).length = l.length - 1 := by
  simp [pairs, List.length_zip, List.length_tail]

theorem map_fst_pairs (l : List Nat) : (pairs l).map Prod.fst = l.dropLast := by
  induction l with
  | nil => rfl
  | cons a t ih =>
    cases t with
    | nil => rfl
    | cons b t2 =>
      rw [pairs_cons_cons, List.map_cons, ih]
      rfl

theorem map_snd_pairs (l : List Nat) : (pairs l).map Prod.snd = l.tail := by
  induction l with
  | nil => rfl
  | cons a t ih =>
    cases t with
    | nil => rfl
    | cons b t2 =>
      rw [pairs_cons_cons, List.map_cons, ih]
      rfl

theorem intGet_eq (p : List Nat) (i : Nat) (v : Nat) (h : p[i]? = some v) :
    intGet p (i : Int) = .ok v := by
  unfold intGet
  have : ¬ ((i : Int) < 0) := by omega
  simp only [this, if_false, Int.toNat_ofNat, h]

theorem intSet_eq (p : List Nat) (i : Nat) (v : Nat) (h : i < p.length) :
    intSet p (i : Int) v = .ok (p.set i v) := by
  unfold intSet
  have : ¬ ((i : Int) < 0) := by omega
  simp only [this, if_false, Int.toNat_ofNat, h, if_true]

theorem euRel_top (e : Eulerian) (S gap F : List Nat) (n : Nat)
    (h : EuRel e (S ++ [n]) gap F) : e.top = .ok n := by
  unfold Eulerian.top
  have hs : e.s = ((S.length : Nat) : Int) := by
    rw [h.s_eq]; simp
  rw [hs]
  apply intGet_eq
  have hp : e.p = S ++ (n :: (gap ++ F)) := by rw [h.p_eq]; simp
  rw [hp, List.getElem?_append_right (le_refl _)]
  simp

theorem euRel_push (e : Eulerian) (S gap F : List Nat) (x w : Nat) (g1 : AdjacencyList)
    (uv1 : Nat) (h : EuRel e S (x :: gap) F) :
    intSet e.p (e.s + 1) w = .ok (S ++ [w] ++ gap ++ F) ∧
    EuRel ⟨g1, e.m, uv1, S ++ [w] ++ gap ++ F, e.s + 1⟩ (S ++ [w]) gap F := by
  have hs : e.s + 1 = ((S.length : Nat) : Int) := by
    rw [h.s_eq]; omega
  have hp : e.p = S ++ (x :: (gap ++ F)) := by rw [h.p_eq]; simp
  constructor
  · rw [hs, intSet_eq _ _ _ (by rw [hp]; simp)]
    congr 1
    rw [hp, List.set_append_right _ _ (le_refl _)]
    simp
  · refine ⟨rfl, ?_, ?_⟩
    · simp only [List.length_append, List.length_singleton]
      rw [h.s_eq]; push_cast; omega
    · simp only [List.length_append, List.length_singleton]
      rw [h.m_eq]
      simp only [List.length_cons]
      push_cast; omega

theorem euRel_keep (e : Eulerian) (S gap F : List Nat) (n : Nat)
    (h : EuRel e (S ++ [n]) gap F) :
    ∃ gap1 p1, gap1.length = gap.length ∧ intSet e.p e.m n = .ok p1 ∧
      EuRel ⟨e.g, e.m - 1, e.uv, p1, e.s - 1⟩ S gap1 (n :: F) := by
  have hm : e.m = ((S.length + gap.length : Nat) : Int) := by
    rw [h.m_eq]; simp only [List.length_append, List.length_singleton]; push_cast; omega
  have hs : e.s - 1 = (S.length : Int) - 1 := by
    rw [h.s_eq]; simp only [List.length_append, List.length_singleton]; push_cast; omega
  have hm1 : e.m - 1 = (S.length : Int) + (gap.length : Int) - 1 := by
    rw [hm]; push_cast; omega
  rcases List.eq_nil_or_concat gap with hg | ⟨gap0, x, hg⟩
  · subst hg
    have hp : e.p = S ++ (n :: F) := by rw [h.p_eq]; simp
    refine ⟨[], S ++ n :: F, rfl, ?_, ⟨by simp, hs, by simpa using hm1⟩⟩
    rw [hm, intSet_eq _ _ _ (by rw [hp]; simp)]
    congr 1
    rw [hp]
    simp only [List.length_nil, Nat.add_zero]
    rw [List.set_append_right _ _ (le_refl _)]
    simp
  · rw [List.concat_eq_append] at hg
    subst hg
    have hp : e.p = (S ++ n :: gap0) ++ (x :: F) := by rw [h.p_eq]; simp
    have hl : S.length + (gap0 ++ [x]).length = (S ++ n :: gap0).length := by
      simp
    refine ⟨n :: gap0, S ++ (n :: gap0) ++ n :: F, by simp, ?_, ⟨rfl, hs, ?_⟩⟩
    · rw [hm, hl, intSet_eq _ _ _ (by rw [hp]; simp)]
      congr 1
      rw [hp, List.set_append_right _ _ (le_refl _)]
      simp
    · rw [hm1]
      simp

theorem sum_map_set {α : Type} (f : α → Nat) : ∀ (l : List α) (i : Nat) (a b : α),
    l[i]? = some a → ((l.set i b).map f).sum + f a = (l.map f).sum + f b := by
  intro l
  induction l with
  | nil => intro i a b h; simp at h
  | cons c t ih =>
    intro i a b h
    cases i with
    | zero =>
      simp only [List.getElem?_cons_zero, Option.some.injEq] at h
      subst h
      simp only [List.set_cons_zero, List.map_cons, List.sum_cons]
      omega
    | succ j =>
      simp only [List.getElem?_cons_succ] at h
      have := ih j a b h
      simp only [List.set_cons_succ, List.map_cons, List.sum_cons]
      omega

theorem getD_set (g : AdjacencyList) (u x : Nat) (rest : List Nat) (hu : u < g.length) :
    (g.set u rest).getD x [] = if x = u then rest else g.getD x [] := by
  rw [List.getD_eq_getElem?_getD, List.getD_eq_getElem?_getD, List.getElem?_set]
  by_cases h : u = x
  · subst h; simp [hu]
  · have h2 : ¬ x = u := fun h3 => h h3.symm
    simp [h, h2]

theorem arcTotal_step (g : AdjacencyList) (u w : Nat) (rest : List Nat)
    (h : g[u]? = some (w :: rest)) : arcTotal (g.set u rest) + 1 = arcTotal g := by
  unfold arcTotal
  have := sum_map_set List.length g u (w :: rest) rest h
  simp only [List.length_cons] at this
  omega

theorem arcCount_step (g : AdjacencyList) (u w : Nat) (rest : List Nat)
    (h : g[u]? = some (w :: rest)) (a b : Nat) :
    arcCount (g.set u rest) a b + (if a = u ∧ b = w then 1 else 0) = arcCount g a b := by
  have hu : u < g.length := arc_lt_of_get g u _ h
  unfold arcCount
  rw [getD_set g u a rest hu]
  by_cases ha : a = u
  · subst ha
    rw [List.getD_eq_getElem?_getD, h]
    simp only [if_true, Option.getD_some, true_and, List.count_cons]
    by_cases hb : b = w
    · subst hb; simp
    · have : ¬ (w == b) = true := by simpa using fun h3 : w = b => hb h3.symm
      simp [hb, this]
  · simp [ha]

theorem outDegree_step (g : AdjacencyList) (u w : Nat) (rest : List Nat)
    (h : g[u]? = some (w :: rest)) (x : Nat) :
    outDegree (g.set u rest) x + (if x = u then 1 else 0) = outDegree g x := by
  have hu : u < g.length := arc_lt_of_get g u _ h
  unfold outDegree
  rw [getD_set g u x rest hu]
  by_cases hx : x = u
  · subst hx
    rw [List.getD_eq_getElem?_getD, h]
    simp
  · simp [hx]

theorem inDegree_step (g : AdjacencyList) (u w : Nat) (rest : List Nat)
    (h : g[u]? = some (w :: rest)) (x : Nat) :
    inDegree (g.set u rest) x + (if x = w then 1 else 0) = inDegree g x := by
  rw [inDegree_eq_sum, inDegree_eq_sum]
  have := sum_map_set (fun nbs => List.count x nbs) g u (w :: rest) rest h
  simp only [List.count_cons] at this
  by_cases hx : x = w
  · subst hx
    simp only [if_true, beq_self_eq_true] at this ⊢
    omega
  · have h2 : (w == x) = false := by simpa using fun h3 : w = x => hx h3.symm
    simp only [hx, if_false, h2, Bool.false_eq_true] at this ⊢
    omega

theorem bal_step (g : AdjacencyList) (u w b : Nat) (rest : List Nat)
    (h : g[u]? = some (w :: rest)) (hb : Bal g b u) : Bal (g.set u rest) b w := by
  intro x hx
  rw [List.length_set] at hx
  have h1 := hb x hx
  have h2 := outDegree_step g u w rest h x
  have h3 := inDegree_step g u w rest h x
  by_cases e1 : x = u <;> by_cases e2 : x = w <;> by_cases e3 : x = b <;>
    simp only [e1, e2, e3, if_true, if_false] at h1 h2 h3 ⊢ <;> omega

theorem bal_stuck (g : AdjacencyList) (u b : Nat) (hu : u < g.length) (hb : Bal g b u)
    (hs : g.getD u [] = []) : u = b ∧ IsBalanced g := by
  have h1 := hb u hu
  have h0 : outDegree g u = 0 := by unfold outDegree; rw [hs]; rfl
  have hub : u = b := by
    by_contra hne
    simp only [hne, if_false, if_true, h0] at h1
    omega
  refine ⟨hub, ?_⟩
  intro x hx
  have h2 := hb x hx
  rw [hub] at h2
  omega

theorem bal_of_balanced (g : AdjacencyList) (v : Nat) (h : IsBalanced g) : Bal g v v := by
  intro x hx
  rw [h x hx]

theorem arcTotal_eq_zero (g : AdjacencyList) (h : ∀ x, x < g.length → g.getD x [] = []) :
    arcTotal g = 0 := by
  unfold arcTotal
  rw [List.sum_eq_zero_iff]
  intro n hn
  rw [List.mem_map] at hn
  obtain ⟨nbs, h1, h2⟩ := hn
  obtain ⟨i, hi, h3⟩ := List.getElem_of_mem h1
  have := h i hi
  rw [List.getD_eq_getElem?_getD, List.getElem?_eq_getElem hi] at this
  simp only [Option.getD_some] at this
  rw [← h2, ← h3, this]
  rfl

theorem arcTotal_pos (g : AdjacencyList) (u w : Nat) (rest : List Nat)
    (h : g[u]? = some (w :: rest)) : 0 < arcTotal g := by
  have := arcTotal_step g u w rest h
  omega

theorem count_filter_pairs (x w : Nat) : ∀ (L : List (Nat × Nat)),
    List.count w ((L.filter (fun q => decide (q.1 = x))).map Prod.snd) = L.count (x, w) := by
  intro L
  induction L with
  | nil => rfl
  | cons q t ih =>
    obtain ⟨a, b⟩ := q
    by_cases ha : a = x
    · subst ha
      simp only [List.filter_cons, decide_True, if_true, List.map_cons, List.count_cons, ih]
      by_cases hb : b = w
      · subst hb; simp
      · have h1 : (b == w) = false := by simpa using hb
        have h2 : ((a, b) == (a, w)) = false := by simpa using hb
        simp [h1, h2]
    · have h2 : ((a, b) == (x, w)) = false := by
        simp only [beq_eq_false_iff_ne, ne_eq, Prod.mk.injEq, not_and]
        exact fun h => absurd h ha
      simp only [List.filter_cons, ha, decide_False, Bool.false_eq_true, if_false, ih,
        List.count_cons, h2, Nat.add_zero]

theorem sum_ite_range (a : Nat) : ∀ (N : Nat),
    ((List.range N).map (fun u => if a = u then 1 else 0)).sum = if a < N then 1 else 0 := by
  intro N
  induction N with
  | zero => simp
  | succ n ih =>
    rw [List.range_succ, List.map_append, List.sum_append, ih]
    simp only [List.map_cons, List.map_nil, List.sum_cons, List.sum_nil]
    by_cases h1 : a < n
    · have h2 : a ≠ n := by omega
      have h3 : a < n + 1 := by omega
      simp [h1, h2, h3]
    · by_cases h2 : a = n
      · subst h2; simp
      · have h3 : ¬ a < n + 1 := by omega
        simp [h1, h2, h3]

theorem sum_count_range (x N : Nat) : ∀ (L : List (Nat × Nat)), (∀ q ∈ L, q.1 < N) →
    ((List.range N).map (fun u => L.count (u, x))).sum = (L.map Prod.snd).count x := by
  intro L
  induction L with
  | nil => intro _; simp
  | cons q t ih =>
    intro hq
    obtain ⟨a, b⟩ := q
    have haN : a < N := hq (a, b) (List.mem_cons_self _ _)
    have h1 : (fun u => (((a, b) :: t).count (u, x))) =
        (fun u => t.count (u, x) + (if a = u then (if b = x then 1 else 0) else 0)) := by
      funext u
      rw [List.count_cons]
      by_cases hau : a = u
      · subst hau
        by_cases hbx : b = x
        · subst hbx; simp
        · have : ((a, b) == (a, x)) = false := by simpa using hbx
          simp [this, hbx]
      · have : ((a, b) == (u, x)) = false := by
          simp only [beq_eq_false_iff_ne, ne_eq, Prod.mk.injEq, not_and]
          exact fun h => absurd h hau
        simp [this, hau]
    rw [h1, List.sum_map_add, ih (fun q hq' => hq q (List.mem_cons_of_mem _ hq'))]
    simp only [List.map_cons, List.count_cons]
    congr 1
    by_cases hbx : b = x
    · subst hbx
      simp only [if_true, beq_self_eq_true]
      rw [sum_ite_range a N, if_pos haN]
    · have : (b == x) = false := by simpa using hbx
      simp [hbx, this]

theorem outDegree_of_walk (g : AdjacencyList) (W : List Nat)
    (hw : ∀ u w, (pairs W).count (u, w) = arcCount g u w) (x : Nat) :
    outDegree g x = W.dropLast.count x := by
  have hperm : (g.getD x []).Perm
      (((pairs W).filter (fun q => decide (q.1 = x))).map Prod.snd) := by
    rw [List.perm_iff_count]
    intro w
    rw [count_filter_pairs, hw x w]
    rfl
  unfold outDegree
  rw [hperm.length_eq, List.length_map, ← map_fst_pairs, List.count, List.countP_map,
    List.countP_eq_length_filter]
  congr 1

theorem inDegree_of_walk (g : AdjacencyList) (W : List Nat)
    (hw : ∀ u w, (pairs W).count (u, w) = arcCount g u w) (x : Nat) :
    inDegree g x = W.tail.count x := by
  unfold inDegree
  have h1 : (fun u => arcCount g u x) = (fun u => (pairs W).count (u, x)) := by
    funext u; rw [hw]
  rw [h1, sum_count_range x g.length (pairs W), map_snd_pairs]
  intro q hq
  have h2 : 0 < (pairs W).count (q.1, q.2) := List.count_pos_iff.2 hq
  rw [hw] at h2
  exact arc_lt g q.1 q.2 ((arc_iff_arcCount g q.1 q.2).2 h2)

theorem count_dropLast (W : List Nat) (x : Nat) :
    W.dropLast.count x + (if W.getLast? = some x then 1 else 0) = W.count x := by
  rcases List.eq_nil_or_concat W with h | ⟨l, a, h⟩
  · subst h; simp
  · rw [List.concat_eq_append] at h
    subst h
    rw [List.dropLast_concat, List.count_append]
    by_cases hax : a = x
    · subst hax; simp
    · have : (a == x) = false := by simpa using hax
      simp [hax, List.count_cons, this]

theorem count_tail (W : List Nat) (x : Nat) :
    W.tail.count x + (if W.head? = some x then 1 else 0) = W.count x := by
  cases W with
  | nil => simp
  | cons a t =>
    by_cases hax : a = x
    · subst hax; simp
    · have : (a == x) = false := by simpa using hax
      simp [hax, List.count_cons, this]

theorem bal_of_walk (g : AdjacencyList) (W : List Nat) (a b : Nat)
    (hw : ∀ u w, (pairs W).count (u, w) = arcCount g u w)
    (ha : W.head? = some a) (hb : W.getLast? = some b) : Bal g b a := by
  intro x _
  have h1 := outDegree_of_walk g W hw x
  have h2 := inDegree_of_walk g W hw x
  have h3 := count_dropLast W x
  have h4 := count_tail W x
  rw [ha] at h4
  rw [hb] at h3
  simp only [Option.some.injEq] at h3 h4
  have e1 : (if x = b then 1 else 0) = (if b = x then 1 else 0) := by
    by_cases h : x = b
    · subst h; simp
    · have : ¬ b = x := fun h' => h h'.symm
      simp [h, this]
  have e2 : (if x = a then 1 else 0) = (if a = x then 1 else 0) := by
    by_cases h : x = a
    · subst h; simp
    · have : ¬ a = x := fun h' => h h'.symm
      simp [h, this]
  rw [e1, e2]
  omega

theorem mem_pairs_getD : ∀ (l : List Nat) (i : Nat), i + 1 < l.length →
    (l.getD i 0, l.getD (i + 1) 0) ∈ pairs l := by
  intro l
  induction l with
  | nil => intro i h; simp at h
  | cons a t ih =>
    intro i h
    cases t with
    | nil => simp at h
    | cons b t2 =>
      rw [pairs_cons_cons]
      cases i with
      | zero => simp
      | succ j =>
        have := ih j (by simpa using h)
        simp only [List.getD_cons_succ] at this ⊢
        exact List.mem_cons_of_mem _ this

theorem walk_arc (g : AdjacencyList) (W : List Nat)
    (hw : ∀ u w, (pairs W).count (u, w) = arcCount g u w) (u w : Nat) (h : (u, w) ∈ pairs W) :
    Arc g u w := by
  have h2 : 0 < (pairs W).count (u, w) := List.count_pos_iff.2 h
  rw [hw] at h2
  exact (arc_iff_arcCount g u w).2 h2

theorem reach_from_head (g : AdjacencyList) : ∀ (W : List Nat) (a : Nat),
    (∀ u w, (u, w) ∈ pairs (a :: W) → Arc g u w) → ∀ y ∈ a :: W, Reach g a y := by
  intro W
  induction W with
  | nil =>
    intro a _ y hy
    simp only [List.mem_singleton] at hy
    rw [hy]; exact Relation.ReflTransGen.refl
  | cons c t ih =>
    intro a h y hy
    rw [pairs_cons_cons] at h
    rcases List.mem_cons.1 hy with hy | hy
    · rw [hy]; exact Relation.ReflTransGen.refl
    · exact Relation.ReflTransGen.head (h a c (List.mem_cons_self _ _))
        (ih c (fun u w hq => h u w (List.mem_cons_of_mem _ hq)) y hy)

theorem reach_to_last (g : AdjacencyList) : ∀ (W : List Nat) (a l : Nat),
    (∀ u w, (u, w) ∈ pairs (a :: W) → Arc g u w) → (a :: W).getLast? = some l →
    ∀ x ∈ a :: W, Reach g x l := by
  intro W
  induction W with
  | nil =>
    intro a l _ hl x hx
    simp only [List.getLast?_singleton, Option.some.injEq] at hl
    simp only [List.mem_singleton] at hx
    rw [hx, hl]; exact Relation.ReflTransGen.refl
  | cons c t ih =>
    intro a l h hl x hx
    rw [pairs_cons_cons] at h
    rw [List.getLast?_cons_cons] at hl
    have hc := ih c l (fun u w hq => h u w (List.mem_cons_of_mem _ hq)) hl
    rcases List.mem_cons.1 hx with hx | hx
    · rw [hx]
      exact Relation.ReflTransGen.head (h a c (List.mem_cons_self _ _))
        (hc c (List.mem_cons_self _ _))
    · exact hc x hx

theorem eulerWalk_closed (g : AdjacencyList) (W : List Nat) (a : Nat) (hw : EulerWalk g W)
    (hh : W.head? = some a) (hl : W.getLast? = some a) :
    IsBalanced g ∧ StronglyConnected g := by
  constructor
  · intro x hx
    have := bal_of_walk g W a a hw.1 hh hl x hx
    omega
  · intro u v hu hv
    cases W with
    | nil => simp at hh
    | cons c t =>
      simp only [List.head?_cons, Option.some.injEq] at hh
      subst hh
      have harc : ∀ u w, (u, w) ∈ pairs (c :: t) → Arc g u w :=
        fun u w => walk_arc g (c :: t) hw.1 u w
      exact Relation.ReflTransGen.trans (reach_to_last g t c c harc hl u (hw.2 u hu))
        (reach_from_head g t c harc v (hw.2 v hv))

theorem foldl_add_length (g : AdjacencyList) (m : Nat) :
    g.foldl (fun m nbs => m + nbs.length) m = m + arcTotal g := by
  unfold arcTotal
  induction g generalizing m with
  | nil => simp
  | cons a t ih =>
    simp only [List.foldl_cons, List.map_cons, List.sum_cons]
    rw [ih]; omega

theorem arcSize_eq (g : AdjacencyList) : ArcSize g = arcTotal g := by
  unfold ArcSize; rw [foldl_add_length]; omega

theorem copy_eq (g : AdjacencyList) : Copy g = (g, arcTotal g) := by
  unfold Copy
  rw [foldl_add_length]
  simp

theorem arcCount_head (g : AdjacencyList) (u w : Nat) (rest : List Nat)
    (h : g[u]? = some (w :: rest)) : 0 < arcCount g u w := by
  unfold arcCount
  rw [List.getD_eq_getElem?_getD, h]
  simp

theorem euCount_arc (g0 g : AdjacencyList) (L : List (Nat × Nat)) (hc : EuCount g0 g L)
    (hb0 : BoundsValid g0) (u w : Nat) (rest : List Nat) (h : g[u]? = some (w :: rest)) :
    w < g0.length := by
  have h1 := arcCount_head g u w rest h
  have h2 := hc u w
  exact arc_lt_right g0 hb0 u w ((arc_iff_arcCount g0 u w).2 (by omega))

theorem euInv_push_step (g0 : AdjacencyList) (e : Eulerian) (S1 gap F : List Nat)
    (u x w : Nat) (rest : List Nat) (hinv : EuInv 1 g0 e (S1 ++ [u]) (x :: gap) F)
    (hg : e.g[u]? = some (w :: rest)) (hw : w < g0.length) :
    EuInv 1 g0 ⟨e.g.set u rest, e.m, SetBit0 e.uv u, S1 ++ [u] ++ [w] ++ gap ++ F, e.s + 1⟩
      (S1 ++ [u] ++ [w]) gap F := by
  have hu : u < e.g.length := arc_lt_of_get e.g u _ hg
  refine ⟨(euRel_push e (S1 ++ [u]) gap F x w _ _ hinv.rel).2, ?_, ?_, ?_, ?_, ?_, ?_, ?_, ?_⟩
  · simp only [List.length_set]; exact hinv.len
  · have h1 := arcTotal_step e.g u w rest hg
    have h2 := hinv.gapLen
    simp only [List.length_cons] at h2
    simp only
    omega
  · intro y hy
    simp only [List.mem_append, List.mem_singleton] at hy
    rcases hy with ((hy | hy) | hy) | hy
    · exact hinv.nodes y (by simp [hy])
    · exact hinv.nodes y (by simp [hy])
    · rw [hy]; exact hw
    · exact hinv.nodes y (by simp [hy])
  · intro y hy
    simp only
    rw [getD_set e.g u y rest hu]
    have hd := hinv.done y hy
    by_cases hyu : y = u
    · subst hyu
      rw [List.getD_eq_getElem?_getD, hg] at hd
      simp at hd
    · rw [if_neg hyu]; exact hd
  · intro y hy
    simp only [bit_setBit0, hinv.seen y hy, Bool.false_and]
  · intro y hy
    simp only [List.dropLast_concat] at hy
    simp only [bit_setBit0]
    rcases List.mem_append.1 hy with hy | hy
    · have := hinv.seenS y (by simp [hy])
      simp [this]
    · simp only [List.mem_singleton] at hy
      simp [hy]
  · intro y hy hyN
    rw [bit_setBit0] at hy
    by_cases hyu : u = y
    · subst hyu; simp
    · have hb : Bit e.uv y = false := by
        cases hb : Bit e.uv y
        · rfl
        · simp [hb, hyu] at hy
      have := hinv.unseen y hb hyN
      simp only [List.mem_append, List.mem_singleton] at this ⊢
      tauto
  · intro y hy
    simp only [bit_setBit0, Bool.and_eq_true] at hy
    exact hinv.uvBound y hy.1

theorem euCount_push_step (g0 g : AdjacencyList) (S1 : List Nat) (u w : Nat)
    (rest : List Nat) (L : List (Nat × Nat))
    (hc : EuCount g0 g (pairs (S1 ++ [u]) ++ L)) (hg : g[u]? = some (w :: rest)) :
    EuCount g0 (g.set u rest) (pairs (S1 ++ [u] ++ [w]) ++ L) := by
  intro a b
  have h1 := hc a b
  have h2 := arcCount_step g u w rest hg a b
  have h3 : pairs (S1 ++ [u] ++ [w]) = pairs (S1 ++ [u]) ++ [(u, w)] := by
    rw [List.append_assoc]; exact pairs_snoc S1 u w
  rw [h3]
  simp only [List.count_append, List.count_cons, List.count_nil] at h1 ⊢
  by_cases hab : a = u ∧ b = w
  · obtain ⟨rfl, rfl⟩ := hab
    simp only [and_self, if_true, beq_self_eq_true] at h2 ⊢
    omega
  · have hne : ((u, w) == (a, b)) = false := by
      simp only [beq_eq_false_iff_ne, ne_eq, Prod.mk.injEq]
      rintro ⟨rfl, rfl⟩
      exact hab ⟨rfl, rfl⟩
    simp only [hab, if_false, hne, Bool.false_eq_true] at h2 ⊢
    omega

theorem euPushFrom_spec (g0 : AdjacencyList) (hb0 : BoundsValid g0) (L : List (Nat × Nat)) :
    ∀ (fuel : Nat) (e : Eulerian) (S1 : List Nat) (u : Nat) (gap F : List Nat),
      EuInv 1 g0 e (S1 ++ [u]) gap F → EuCount g0 e.g (pairs (S1 ++ [u]) ++ L) →
      arcTotal e.g < fuel →
      ∃ e1 T gap1 t, euPushFrom fuel u e = .ok e1 ∧ EuInv 1 g0 e1 (S1 ++ [u] ++ T) gap1 F ∧
        (S1 ++ [u] ++ T).getLast? = some t ∧
        EuCount g0 e1.g (pairs (S1 ++ [u] ++ T) ++ L) ∧
        e1.g.getD t [] = [] ∧ Bit e1.uv t = false ∧
        arcTotal e1.g + T.length = arcTotal e.g ∧
        (∀ b, Bal e.g b u → Bal e1.g b t) := by
  intro fuel
  induction fuel with
  | zero => intro e S1 u gap F _ _ h; omega
  | succ fuel ih =>
    intro e S1 u gap F hinv hc hf
    have huN : u < e.g.length := by
      rw [hinv.len]; exact hinv.nodes u (by simp)
    rw [euPushFrom]
    have hg : e.g[u]? = some e.g[u] := List.getElem?_eq_getElem huN
    cases hrow : e.g[u] with
    | nil =>
      rw [hrow] at hg
      simp only [hg]
      refine ⟨{ e with uv := SetBit0 e.uv u }, [], gap, u, rfl, ?_, by simp, ?_, ?_, ?_, by simp,
        fun b hb => hb⟩
      · refine ⟨⟨?_, ?_, ?_⟩, hinv.len, hinv.gapLen, ?_, hinv.done, ?_, ?_, ?_, ?_⟩
        · simpa using hinv.rel.p_eq
        · simpa using hinv.rel.s_eq
        · simpa using hinv.rel.m_eq
        · simpa using hinv.nodes
        · intro y hy
          simp only [bit_setBit0, hinv.seen y hy, Bool.false_and]
        · intro y hy
          simp only [List.append_nil] at hy
          simp only [bit_setBit0, hinv.seenS y hy, Bool.false_and]
        · intro y hy hyN
          rw [bit_setBit0] at hy
          by_cases hyu : u = y
          · subst hyu; simp
          · have hb : Bit e.uv y = false := by
              cases hb : Bit e.uv y
              · rfl
              · simp [hb, hyu] at hy
            simpa using hinv.unseen y hb hyN
        · intro y hy
          simp only [bit_setBit0, Bool.and_eq_true] at hy
          exact hinv.uvBound y hy.1
      · simpa using hc
      · simp only
        rw [List.getD_eq_getElem?_getD, hg]; rfl
      · simp [bit_setBit0]
    | cons w rest =>
      rw [hrow] at hg
      simp only [hg]
      have hpos := arcTotal_pos e.g u w rest hg
      have hgl := hinv.gapLen
      cases hgap : gap with
      | nil => rw [hgap] at hgl; simp at hgl; omega
      | cons x gap' =>
        rw [hgap] at hinv
        have hw := euCount_arc g0 e.g _ hc hb0 u w rest hg
        have hset := (euRel_push e (S1 ++ [u]) gap' F x w (e.g.set u rest) (SetBit0 e.uv u)
          hinv.rel).1
        have hinv1 := euInv_push_step g0 e S1 gap' F u x w rest hinv hg hw
        have hc1 := euCount_push_step g0 e.g S1 u w rest L hc hg
        have hat := arcTotal_step e.g u w rest hg
        obtain ⟨e1, T, gap1, t, r1, r2, r3, r4, r5, r6, r7, r8⟩ :=
          ih ⟨e.g.set u rest, e.m, SetBit0 e.uv u, S1 ++ [u] ++ [w] ++ gap' ++ F, e.s + 1⟩
            (S1 ++ [u]) w gap' F hinv1 hc1 (by simp only; omega)
        refine ⟨e1, w :: T, gap1, t, ?_, ?_, ?_, ?_, r5, r6, ?_, ?_⟩
        · simp only [hset]; exact r1
        · simpa using r2
        · simpa using r3
        · simpa using r4
        · simp only [List.length_cons] at r7 ⊢; omega
        · intro b hb
          exact r8 b (bal_step e.g u w b rest hg hb)

theorem getLast?_snoc (l : List Nat) (a : Nat) : (l ++ [a]).getLast? = some a := by
  simp

theorem euRel_nil_s (e : Eulerian) (gap F : List Nat) (h : EuRel e [] gap F) : ¬ (0 ≤ e.s) := by
  rw [h.s_eq]; simp

theorem euRel_snoc_s (e : Eulerian) (S gap F : List Nat) (n : Nat)
    (h : EuRel e (S ++ [n]) gap F) : 0 ≤ e.s := by
  rw [h.s_eq]; simp only [List.length_append, List.length_singleton]; push_cast; omega

theorem euKeep_spec (c : Nat) (g0 : AdjacencyList) :
    ∀ (fuel : Nat) (e : Eulerian) (S gap F : List Nat),
      EuInv c g0 e S gap F → (∀ x ∈ S, Bit e.uv x = false) → S.length < fuel →
      ∃ e1 S1 T gap1, euKeep fuel e = .ok e1 ∧ S = S1 ++ T ∧ EuInv c g0 e1 S1 gap1 (T ++ F) ∧
        e1.g = e.g ∧ e1.uv = e.uv ∧ gap1.length = gap.length ∧
        (∀ n, S1.getLast? = some n → e.g.getD n [] ≠ []) ∧
        (∀ n, S.getLast? = some n → e.g.getD n [] = [] → T ≠ []) := by
  intro fuel
  induction fuel with
  | zero => intro e S gap F _ _ h; omega
  | succ fuel ih =>
    intro e S gap F hinv hseen hf
    rw [euKeep]
    rcases List.eq_nil_or_concat S with hS | ⟨S0, n, hS⟩
    · subst hS
      rw [if_neg (euRel_nil_s e gap F hinv.rel)]
      exact ⟨e, [], [], gap, rfl, rfl, by simpa using hinv, rfl, rfl, rfl, by simp, by simp⟩
    · rw [List.concat_eq_append] at hS
      subst hS
      rw [if_pos (euRel_snoc_s e S0 gap F n hinv.rel), euRel_top e S0 gap F n hinv.rel]
      have hnN : n < e.g.length := by
        rw [hinv.len]; exact hinv.nodes n (by simp)
      have hg : e.g[n]? = some e.g[n] := List.getElem?_eq_getElem hnN
      have hgd : e.g.getD n [] = e.g[n] := by
        rw [List.getD_eq_getElem?_getD, hg]; rfl
      simp only [hg]
      by_cases hlen : e.g[n].length > 0
      · rw [if_pos hlen]
        refine ⟨e, S0 ++ [n], [], gap, rfl, by simp, by simpa using hinv, rfl, rfl, rfl, ?_, ?_⟩
        · intro k hk
          rw [getLast?_snoc, Option.some.injEq] at hk
          subst hk
          rw [hgd]
          intro h0; rw [h0] at hlen; simp at hlen
        · intro k hk h0
          rw [getLast?_snoc, Option.some.injEq] at hk
          subst hk
          rw [hgd] at h0; rw [h0] at hlen; simp at hlen
      · rw [if_neg hlen]
        have hrow : e.g[n] = [] := by
          cases hr : e.g[n] with
          | nil => rfl
          | cons a t => rw [hr] at hlen; simp at hlen
        obtain ⟨gap1, p1, k1, k2, k3⟩ := euRel_keep e S0 gap F n hinv.rel
        simp only [k2]
        have hinv2 : EuInv c g0 ⟨e.g, e.m - 1, e.uv, p1, e.s - 1⟩ S0 gap1 (n :: F) := by
          refine ⟨k3, hinv.len, by rw [k1]; exact hinv.gapLen, ?_, ?_, ?_, ?_, ?_, hinv.uvBound⟩
          · intro y hy
            exact hinv.nodes y (by
              simp only [List.mem_append, List.mem_cons, List.mem_singleton] at hy ⊢; tauto)
          · intro y hy
            rcases List.mem_cons.1 hy with hy | hy
            · rw [hy]; simp only; rw [hgd, hrow]
            · exact hinv.done y hy
          · intro y hy
            rcases List.mem_cons.1 hy with hy | hy
            · rw [hy]; exact hseen n (by simp)
            · exact hinv.seen y hy
          · intro y hy
            exact hseen y (List.mem_append_left _ (List.mem_of_mem_dropLast hy))
          · intro y hy hyN
            have := hinv.unseen y hy hyN
            simp only [List.mem_append, List.mem_cons, List.mem_singleton] at this ⊢; tauto
        obtain ⟨e1, S1, T, gap2, r1, r2, r3, r4, r5, r6, r7, _⟩ := ih _ S0 gap1 (n :: F) hinv2
          (fun y hy => hseen y (List.mem_append_left _ hy))
          (by simp only [List.length_append, List.length_singleton] at hf; omega)
        refine ⟨e1, S1, T ++ [n], gap2, r1, by rw [r2]; simp, by simpa using r3, r4, r5,
          by rw [r6, k1], r7, by simp⟩

theorem euInv_seen_all (c : Nat) (g0 : AdjacencyList) (e : Eulerian) (S gap F : List Nat)
    (t : Nat) (hinv : EuInv c g0 e S gap F) (hl : S.getLast? = some t) (ht : Bit e.uv t = false) :
    ∀ x ∈ S, Bit e.uv x = false := by
  intro x hx
  rcases List.eq_nil_or_concat S with hS | ⟨S0, n, hS⟩
  · subst hS; simp at hx
  · rw [List.concat_eq_append] at hS
    subst hS
    rw [getLast?_snoc, Option.some.injEq] at hl
    subst hl
    rcases List.mem_append.1 hx with hx | hx
    · exact hinv.seenS x (by simpa using hx)
    · simp only [List.mem_singleton] at hx
      rw [hx]; exact ht

theorem euLoop_spec (g0 : AdjacencyList) (hb0 : BoundsValid g0) (st b k : Nat) :
    ∀ (fuel : Nat) (e : Eulerian) (S gap F : List Nat),
      EuInv 1 g0 e S gap F → EuCount g0 e.g (pairs (S ++ F)) → EuEnds st b S F →
      S.length + gap.length + F.length < k → arcTotal e.g + S.length < fuel →
      ∃ r, euLoop k fuel e = .ok r ∧
        (∀ e1, r = some e1 → ∃ gap1 F1, EuInv 1 g0 e1 [] gap1 F1 ∧ EuCount g0 e1.g (pairs F1) ∧
          EuEnds st b [] F1 ∧ gap1.length + F1.length = S.length + gap.length + F.length) ∧
        (r = none → ¬ IsBalanced e.g) := by
  intro fuel
  induction fuel with
  | zero => intro e S gap F _ _ _ _ h; omega
  | succ fuel ih =>
    intro e S gap F hinv hc hends hk hf
    rw [euLoop]
    rcases List.eq_nil_or_concat S with hS | ⟨S0, v, hS⟩
    · subst hS
      rw [if_neg (euRel_nil_s e gap F hinv.rel)]
      refine ⟨some e, rfl, ?_, by simp⟩
      intro e1 he1
      simp only [Option.some.injEq] at he1
      subst he1
      exact ⟨gap, F, hinv, by simpa using hc, hends, by simp⟩
    · rw [List.concat_eq_append] at hS
      subst hS
      rw [if_pos (euRel_snoc_s e S0 gap F v hinv.rel), euRel_top e S0 gap F v hinv.rel]
      simp only [euPush, euRel_top e S0 gap F v hinv.rel]
      have hc1 : EuCount g0 e.g (pairs (S0 ++ [v]) ++ pairs (v :: F)) := by
        rw [← pairs_append_cons]; simpa using hc
      have hgl := hinv.gapLen
      obtain ⟨e1, T, gap1, t, p1, p2, p3, p4, p5, p6, p7, p8⟩ :=
        euPushFrom_spec g0 hb0 (pairs (v :: F)) k e S0 v gap F hinv hc1 (by omega)
      simp only [p1]
      obtain ⟨S2, hS2⟩ : ∃ S2, S0 ++ [v] ++ T = S2 ++ [t] := by
        rcases List.eq_nil_or_concat (S0 ++ [v] ++ T) with h0 | ⟨S2, n, h0⟩
        · simp at h0
        · rw [List.concat_eq_append] at h0
          rw [h0, getLast?_snoc, Option.some.injEq] at p3
          exact ⟨S2, by rw [h0, p3]⟩
      have htop : e1.top = .ok t := by
        apply euRel_top e1 S2 gap1 F t
        rw [← hS2]; exact p2.rel
      simp only [htop]
      have htN : t < e1.g.length := by
        rw [p2.len]; exact p2.nodes t (by rw [hS2]; simp)
      have hbal : IsBalanced e.g → t = v ∧ IsBalanced e1.g := by
        intro hb
        exact bal_stuck e1.g t v htN (p8 v (bal_of_balanced e.g v hb)) p5
      by_cases htv : t = v
      · subst htv
        rw [if_neg (by simp)]
        have hgl1 := p2.gapLen
        obtain ⟨e2, S3, T3, gap3, q1, q2, q3, q4, q5, q6, q7, q8⟩ :=
          euKeep_spec 1 g0 k e1 (S0 ++ [t] ++ T) gap1 F p2
            (euInv_seen_all 1 g0 e1 _ gap1 F t p2 p3 p6)
            (by simp only [List.length_append, List.length_singleton] at hk ⊢; omega)
        simp only [q1]
        have hT3 : T3 ≠ [] := q8 t p3 (by rw [p5])
        have hc2 : EuCount g0 e2.g (pairs (S3 ++ (T3 ++ F))) := by
          rw [q4, ← List.append_assoc, ← q2, hS2, List.append_assoc]
          have e1 : S2 ++ ([t] ++ F) = S2 ++ t :: F := by simp
          rw [e1, pairs_append_cons S2 t F, ← hS2]
          exact p4
        have hends2 : EuEnds st b S3 (T3 ++ F) := by
          refine ⟨?_, ?_, ?_⟩
          · rw [← List.append_assoc, ← q2]
            have := hends.head
            simp only [List.append_assoc, List.head?_append, List.head?_cons] at this ⊢
            cases S0 with
            | nil => simpa using this
            | cons a tl => simpa using this
          · intro _
            by_cases hF : F = []
            · subst hF
              obtain ⟨hs1, hb1⟩ := hends.first rfl
              have hv : t = st := by
                have : (S0 ++ [t]).getLast? = [st].getLast? := by rw [hs1]
                rw [getLast?_snoc] at this
                simpa using this
              rw [List.append_nil]
              have h1 : (S3 ++ T3).getLast? = some t := by rw [← q2]; exact p3
              rw [List.getLast?_append_of_ne_nil _ hT3] at h1
              rw [h1, hb1, hv]
            · rw [List.getLast?_append_of_ne_nil _ hF]
              exact hends.last hF
          · intro h0
            simp only [List.append_eq_nil] at h0
            exact absurd h0.1 hT3
        have hlen3 : S3.length + T3.length = S0.length + 1 + T.length := by
          have := congrArg List.length q2
          simp only [List.length_append, List.length_singleton] at this
          omega
        have hT3l : 0 < T3.length := List.length_pos.2 hT3
        obtain ⟨r, r1, r2, r3⟩ := ih e2 S3 gap3 (T3 ++ F) q3 hc2 hends2
          (by
            simp only [List.length_append, List.length_singleton] at hk ⊢
            omega)
          (by
            rw [q4]
            simp only [List.length_append, List.length_singleton] at hf
            omega)
        refine ⟨r, r1, ?_, ?_⟩
        · intro e3 he3
          obtain ⟨gap4, F4, a1, a2, a3, a4⟩ := r2 e3 he3
          refine ⟨gap4, F4, a1, a2, a3, ?_⟩
          simp only [List.length_append, List.length_singleton] at a4 ⊢
          omega
        · intro hr hb
          have := (hbal hb).2
          rw [← q4] at this
          exact r3 hr this
      · rw [if_pos htv]
        refine ⟨none, rfl, by simp, ?_⟩
        intro _ hb
        exact htv (hbal hb).1

theorem mem_of_mem_pairs (l : List Nat) (u w : Nat) (h : (u, w) ∈ pairs l) : u ∈ l ∧ w ∈ l := by
  have := List.of_mem_zip h
  exact ⟨this.1, List.mem_of_mem_tail this.2⟩

theorem arcCount_of_done (g : AdjacencyList) (u w : Nat) (h : g.getD u [] = []) :
    arcCount g u w = 0 := by
  unfold arcCount; rw [h]; rfl

theorem euFinal_closed (g0 : AdjacencyList) (e : Eulerian) (gap F : List Nat)
    (hinv : EuInv 1 g0 e [] gap F) (hc : EuCount g0 e.g (pairs F)) (x w : Nat) (hx : x ∈ F)
    (harc : Arc g0 x w) : w ∈ F := by
  have h1 := (arc_iff_arcCount g0 x w).1 harc
  have h2 := hc x w
  rw [arcCount_of_done e.g x w (hinv.done x hx)] at h2
  have h3 : 0 < (pairs F).count (x, w) := by omega
  exact (mem_of_mem_pairs F x w (List.count_pos_iff.1 h3)).2

theorem euFinal_uv (g0 : AdjacencyList) (e : Eulerian) (gap F : List Nat) (st b : Nat)
    (hinv : EuInv 1 g0 e [] gap F) (hc : EuCount g0 e.g (pairs F)) (hends : EuEnds st b [] F)
    (hreach : ∀ x, x < g0.length → Reach g0 st x) : e.uv = 0 := by
  have hst : st ∈ F := by
    have := hends.head
    simp only [List.nil_append] at this
    exact List.mem_of_mem_head? this
  have hall : ∀ x, Reach g0 st x → x ∈ F := by
    intro x hx
    induction hx with
    | refl => exact hst
    | tail _ hbc ih => exact euFinal_closed g0 e gap F hinv hc _ _ ih hbc
  apply Nat.eq_of_testBit_eq
  intro i
  rw [Nat.zero_testBit]
  cases hb : Bit e.uv i
  · exact hb
  · have hi := hinv.uvBound i hb
    have := hinv.seen i (hall i (hreach i hi))
    rw [hb] at this; cases this

theorem euFinal_walk (g0 : AdjacencyList) (e : Eulerian) (gap F : List Nat)
    (hinv : EuInv 1 g0 e [] gap F) (hc : EuCount g0 e.g (pairs F)) (huv : e.uv = 0) :
    e.p = F ∧ gap = [] ∧ EulerWalk g0 F := by
  have hin : ∀ x, x < g0.length → x ∈ F := by
    intro x hx
    have := hinv.unseen x (by rw [huv]; exact bit_zero x) hx
    simpa using this
  have hdone : ∀ x, e.g.getD x [] = [] := by
    intro x
    by_cases hx : x < g0.length
    · exact hinv.done x (hin x hx)
    · rw [List.getD_eq_getElem?_getD, List.getElem?_eq_none (by rw [hinv.len]; omega)]
      rfl
  have h0 : arcTotal e.g = 0 := arcTotal_eq_zero e.g (fun x _ => hdone x)
  have hgap : gap = [] := List.length_eq_zero.1 (by have := hinv.gapLen; omega)
  refine ⟨by rw [hinv.rel.p_eq, hgap]; simp, hgap, ?_, hin⟩
  intro u w
  have := hc u w
  rw [arcCount_of_done e.g u w (hdone u)] at this
  omega

theorem newEulerian_inv (g0 : AdjacencyList) (st : Nat) (hst : st < g0.length) :
    ∃ e p1, newEulerian g0 (arcTotal g0 : Int) = .ok e ∧ intSet e.p 0 st = .ok p1 ∧
      (st = 0 → p1 = e.p) ∧
      EuInv 1 g0 { e with p := p1 } [st] (List.replicate (arcTotal g0) 0) [] ∧
      ({ e with p := p1 } : Eulerian).g = g0 := by
  have h1 : ¬ ((arcTotal g0 : Int) + 1 < 0) := by omega
  have h2 : ((arcTotal g0 : Int) + 1).toNat = arcTotal g0 + 1 := by omega
  refine ⟨⟨g0, arcTotal g0, 2 ^ g0.length - 1, List.replicate (arcTotal g0 + 1) 0, 0⟩,
    st :: List.replicate (arcTotal g0) 0, ?_, ?_, ?_, ?_, rfl⟩
  · simp only [newEulerian, h1, if_false, h2]
  · have := intSet_eq (List.replicate (arcTotal g0 + 1) 0) 0 st (by simp)
    simp only [Nat.cast_zero] at this
    rw [this, List.replicate_succ]
    rfl
  · intro h0
    rw [h0, List.replicate_succ]
  · refine ⟨⟨by simp, by simp, by simp⟩, rfl, by simp, ?_, by simp, by simp, by simp, ?_, ?_⟩
    · intro x hx
      simp only [List.append_nil, List.mem_singleton] at hx
      rw [hx]; exact hst
    · intro x hx hxN
      have := bit_oneBits g0.length x
      unfold OneBits at this
      rw [this] at hx
      simp [hxN] at hx
    · intro x hx
      have := bit_oneBits g0.length x
      unfold OneBits at this
      rw [this] at hx
      simpa using hx

theorem euCount_init (g0 : AdjacencyList) (st : Nat) : EuCount g0 g0 (pairs ([st] ++ [])) := by
  intro u w
  simp [pairs_single]

theorem eulerianCycleD_spec (g : AdjacencyList) (hne : g ≠ []) (hb : BoundsValid g)
    (fuel : Nat) (hf : arcTotal g + 2 ≤ fuel) :
    ∃ r, EulerianCycleD g (arcTotal g : Int) fuel = .ok r ∧
      ((∃ msg, r = ([], some msg)) ∨
        (∃ p, r = (p, none) ∧ p.length = arcTotal g + 1 ∧ EulerWalk g p ∧
          p.head? = some 0 ∧ p.getLast? = some 0)) ∧
      (IsBalanced g → StronglyConnected g → r.2 = none) := by
  have hlen : 0 < g.length := List.length_pos.2 hne
  have hlen0 : ¬ g.length = 0 := by omega
  obtain ⟨e, p1, h1, h2, h3, h4, h5⟩ := newEulerian_inv g 0 hlen
  have hp : p1 = e.p := h3 rfl
  subst hp
  have hg : e.g = g := h5
  have hends : EuEnds 0 0 [0] [] := ⟨rfl, by simp, fun _ => ⟨rfl, rfl⟩⟩
  obtain ⟨r, r1, r2, r3⟩ := euLoop_spec g hb 0 0 fuel fuel e [0] _ [] h4
    (by rw [hg]; exact euCount_init g 0) hends (by simp; omega)
    (by rw [hg]; simp; omega)
  unfold EulerianCycleD
  rw [if_neg hlen0]
  simp only [h1, r1]
  cases r with
  | none =>
    refine ⟨_, rfl, Or.inl ⟨_, rfl⟩, ?_⟩
    intro hbal _
    exact absurd (by rw [hg]; exact hbal) (r3 rfl)
  | some e1 =>
    obtain ⟨gap1, F1, a1, a2, a3, a4⟩ := r2 e1 rfl
    simp only
    by_cases huv : e1.uv ≠ 0
    · rw [if_pos huv]
      refine ⟨_, rfl, Or.inl ⟨_, rfl⟩, ?_⟩
      intro _ hsc
      exact absurd (euFinal_uv g e1 gap1 F1 0 0 a1 a2 a3 (fun x hx => hsc 0 x hlen hx)) huv
    · rw [if_neg huv]
      have huv0 : e1.uv = 0 := by simpa using huv
      obtain ⟨b1, b2, b3⟩ := euFinal_walk g e1 gap1 F1 a1 a2 huv0
      refine ⟨_, rfl, Or.inr ⟨e1.p, rfl, ?_, by rw [b1]; exact b3, ?_, ?_⟩, fun _ _ => rfl⟩
      · rw [b1]
        rw [b2] at a4
        simp only [List.length_nil, List.length_singleton, List.length_replicate] at a4
        omega
      · rw [b1]; simpa using a3.head
      · rw [b1]
        apply a3.last
        intro h0
        rw [h0, b2] at a4
        simp at a4
        omega

theorem inDegreeRow_spec : ∀ (nbs ind : List Nat), (∀ nb ∈ nbs, nb < ind.length) →
    ∃ ind1, inDegreeRow nbs ind = .ok ind1 ∧ ind1.length = ind.length ∧
      ∀ x, ind1.getD x 0 = ind.getD x 0 + nbs.count x := by
  intro nbs
  induction nbs with
  | nil => intro ind _; exact ⟨ind, rfl, rfl, by simp⟩
  | cons nb rest ih =>
    intro ind h
    have hnb := h nb (List.mem_cons_self _ _)
    rw [inDegreeRow, List.getElem?_eq_getElem hnb]
    simp only
    obtain ⟨ind1, e1, e2, e3⟩ := ih (ind.set nb (ind[nb] + 1))
      (fun x hx => by rw [List.length_set]; exact h x (List.mem_cons_of_mem _ hx))
    refine ⟨ind1, e1, by rw [e2, List.length_set], ?_⟩
    intro x
    rw [e3 x, List.count_cons]
    by_cases hx : nb = x
    · subst hx
      rw [getD_set_eq _ _ _ hnb]
      simp only [beq_self_eq_true, if_true]
      rw [List.getD_eq_getElem?_getD, List.getElem?_eq_getElem hnb]
      simp only [Option.getD_some]
      omega
    · have : (nb == x) = false := by simpa using hx
      rw [getD_set_ne _ _ _ _ hx]
      simp [this]

theorem inDegreeRows_spec : ∀ (rows : List (List Nat)) (ind : List Nat),
    (∀ nbs ∈ rows, ∀ nb ∈ nbs, nb < ind.length) →
    ∃ ind1, inDegreeRows rows ind = .ok ind1 ∧ ind1.length = ind.length ∧
      ∀ x, ind1.getD x 0 = ind.getD x 0 + (rows.map (fun nbs => nbs.count x)).sum := by
  intro rows
  induction rows with
  | nil => intro ind _; exact ⟨ind, rfl, rfl, by simp⟩
  | cons nbs rest ih =>
    intro ind h
    obtain ⟨ind1, e1, e2, e3⟩ := inDegreeRow_spec nbs ind (h nbs (List.mem_cons_self _ _))
    obtain ⟨ind2, f1, f2, f3⟩ := ih ind1
      (fun r hr nb hnb => by rw [e2]; exact h r (List.mem_cons_of_mem _ hr) nb hnb)
    refine ⟨ind2, ?_, by rw [f2, e2], ?_⟩
    · rw [inDegreeRows]
      simp only [e1, f1]
    · intro x
      rw [f3 x, e3 x]
      simp only [List.map_cons, List.sum_cons]
      omega

theorem inDegree_spec (g : AdjacencyList) (hb : BoundsValid g) :
    ∃ ind, InDegree g = .ok ind ∧ ind.length = g.length ∧
      ∀ x, ind.getD x 0 = inDegree g x := by
  obtain ⟨ind, e1, e2, e3⟩ := inDegreeRows_spec g (List.replicate g.length 0)
    (fun nbs hn nb hnb => by rw [List.length_replicate]; exact hb nbs hn nb hnb)
  refine ⟨ind, e1, by rw [e2, List.length_replicate], ?_⟩
  intro x
  rw [e3 x, inDegree_eq_sum]
  have : (List.replicate g.length 0).getD x 0 = 0 := by
    rw [List.getD_eq_getElem?_getD, List.getElem?_replicate]
    by_cases h : x < g.length <;> simp [h]
  rw [this]; omega

theorem euStart_spec (g : AdjacencyList) (ind : List Nat) (hl : ind.length = g.length) :
    ∀ (rows : List (List Nat)) (n : Nat), g.drop n = rows →
    ∃ st, euStart rows n ind = .ok st ∧
      ((n ≤ st ∧ st < g.length ∧ ind.getD st 0 < outDegree g st ∧
          ∀ x, n ≤ x → x < st → outDegree g x ≤ ind.getD x 0) ∨
        (st = 0 ∧ ∀ x, n ≤ x → x < g.length → outDegree g x ≤ ind.getD x 0)) := by
  intro rows
  induction rows with
  | nil =>
    intro n h
    refine ⟨0, rfl, Or.inr ⟨rfl, ?_⟩⟩
    intro x h1 h2
    have := List.drop_eq_nil_iff.1 h
    omega
  | cons nbs rest ih =>
    intro n h
    obtain ⟨hn, hgq, hrest⟩ := drop_cons_inv g n nbs rest h
    have hgn : g[n] = nbs := by
      rw [List.getElem?_eq_getElem hn] at hgq
      exact Option.some.inj hgq
    have hout : outDegree g n = nbs.length := by
      unfold outDegree
      rw [List.getD_eq_getElem?_getD, List.getElem?_eq_getElem hn, hgn]; rfl
    have hind : ind[n]? = some (ind.getD n 0) := by
      rw [List.getD_eq_getElem?_getD, List.getElem?_eq_getElem (by omega)]; rfl
    rw [euStart, hind]
    simp only
    by_cases hgt : nbs.length > ind.getD n 0
    · rw [if_pos hgt]
      exact ⟨n, rfl, Or.inl ⟨le_refl _, hn, by rw [hout]; exact hgt, fun x h1 h2 => by omega⟩⟩
    · rw [if_neg hgt]
      obtain ⟨st, e1, e2⟩ := ih (n + 1) hrest
      refine ⟨st, e1, ?_⟩
      rcases e2 with ⟨a1, a2, a3, a4⟩ | ⟨a1, a2⟩
      · left
        refine ⟨by omega, a2, a3, ?_⟩
        intro x h1 h2
        by_cases hx : x = n
        · subst hx; rw [hout]; omega
        · exact a4 x (by omega) h2
      · right
        refine ⟨a1, ?_⟩
        intro x h1 h2
        by_cases hx : x = n
        · subst hx; rw [hout]; omega
        · exact a2 x (by omega) h2

theorem eulerWalk_head_lt (g : AdjacencyList) (hne : g ≠ []) (W : List Nat) (a : Nat)
    (hw : EulerWalk g W) (hh : W.head? = some a) : a < g.length := by
  have hlen : 0 < g.length := List.length_pos.2 hne
  cases W with
  | nil => simp at hh
  | cons c t =>
    simp only [List.head?_cons, Option.some.injEq] at hh
    subst hh
    cases t with
    | nil =>
      have := hw.2 0 hlen
      simp only [List.mem_singleton] at this
      omega
    | cons d t2 =>
      exact arc_lt g c d (walk_arc g _ hw.1 c d (by rw [pairs_cons_cons]; simp))

theorem eulerianPathD_spec (g : AdjacencyList) (hb : BoundsValid g) (st b : Nat)
    (hst : st < g.length) (hbal : Bal g b st) (hreach : ∀ x, x < g.length → Reach g st x)
    (fuel : Nat) (hf : arcTotal g + 2 ≤ fuel) :
    ∃ p, EulerianPathD g (arcTotal g : Int) st fuel = .ok (p, none) ∧
      p.length = arcTotal g + 1 ∧ EulerWalk g p ∧ p.head? = some st := by
  have hlen0 : ¬ g.length = 0 := by omega
  obtain ⟨e, p1, h1, h2, _, h4, h5⟩ := newEulerian_inv g st hst
  have hg : ({ e with p := p1 } : Eulerian).g = g := h5
  have hc0 : EuCount g ({ e with p := p1 } : Eulerian).g (pairs ([] ++ [st]) ++ []) := by
    rw [hg]; simpa using euCount_init g st
  have h4' : EuInv 1 g { e with p := p1 } ([] ++ [st]) (List.replicate (arcTotal g) 0) [] := by
    simpa using h4
  obtain ⟨e1, T, gap1, t, p1', p2, p3, p4, p5, p6, p7, p8⟩ :=
    euPushFrom_spec g hb [] fuel { e with p := p1 } [] st _ [] h4' hc0 (by rw [hg]; omega)
  have htop0 : ({ e with p := p1 } : Eulerian).top = .ok st :=
    euRel_top _ [] _ [] st h4'.rel
  have htN : t < e1.g.length := by
    rw [p2.len]
    apply p2.nodes t
    have := List.mem_of_mem_getLast? p3
    simpa using this
  have hbal1 := bal_stuck e1.g t b htN (p8 b (by rw [hg]; exact hbal)) p5
  have hT : arcTotal e1.g + T.length = arcTotal g := by rw [← hg]; exact p7
  obtain ⟨e2, S3, T3, gap3, q1, q2, q3, q4, q5, q6, q7, q8⟩ :=
    euKeep_spec 1 g fuel e1 ([] ++ [st] ++ T) gap1 [] p2
      (euInv_seen_all 1 g e1 _ gap1 [] t p2 p3 p6)
      (by simp only [List.nil_append, List.length_append, List.length_singleton]; omega)
  have hT3 : T3 ≠ [] := q8 t p3 (by rw [p5])
  have hc2 : EuCount g e2.g (pairs (S3 ++ (T3 ++ []))) := by
    rw [q4, List.append_nil, ← q2]
    simpa using p4
  have hends2 : EuEnds st t S3 (T3 ++ []) := by
    refine ⟨?_, ?_, ?_⟩
    · rw [List.append_nil, ← q2]; simp
    · intro _
      rw [List.append_nil]
      have h1 : (S3 ++ T3).getLast? = some t := by rw [← q2]; exact p3
      rw [List.getLast?_append_of_ne_nil _ hT3] at h1
      exact h1
    · intro h0
      simp only [List.append_nil] at h0
      exact absurd h0 hT3
  have hlen3 : S3.length + T3.length = 1 + T.length := by
    have := congrArg List.length q2
    simp only [List.nil_append, List.length_append, List.length_singleton] at this
    omega
  have hgl1 := p2.gapLen
  obtain ⟨r, r1, r2, r3⟩ := euLoop_spec g hb st t fuel fuel e2 S3 gap3 (T3 ++ []) q3 hc2 hends2
    (by simp only [List.append_nil]; omega)
    (by rw [q4]; omega)
  unfold EulerianPathD
  rw [if_neg hlen0]
  simp only [h1, h2, euPush, htop0, p1', q1, r1]
  cases r with
  | none => exact absurd (by rw [q4]; exact hbal1.2) (r3 rfl)
  | some e3 =>
    obtain ⟨gap4, F4, a1, a2, a3, a4⟩ := r2 e3 rfl
    have huv := euFinal_uv g e3 gap4 F4 st t a1 a2 a3 hreach
    obtain ⟨b1, b2, b3⟩ := euFinal_walk g e3 gap4 F4 a1 a2 huv
    simp only
    rw [if_neg (by simp [huv])]
    refine ⟨e3.p, rfl, ?_, by rw [b1]; exact b3, by rw [b1]; simpa using a3.head⟩
    rw [b1]
    rw [b2] at a4
    simp only [List.length_nil, List.append_nil] at a4
    omega

theorem eulerWalk_of_perm (g : AdjacencyList) (W : List Nat)
    (h1 : ∀ u, u < g.length → (g.getD u []).Perm
      (((pairs W).filter (fun q => decide (q.1 = u))).map Prod.snd))
    (h2 : ∀ q ∈ pairs W, q.1 < g.length) (h3 : ∀ x, x < g.length → x ∈ W) :
    EulerWalk g W := by
  refine ⟨?_, h3⟩
  intro u w
  rw [← count_filter_pairs]
  by_cases hu : u < g.length
  · exact ((h1 u hu).count_eq w).symm
  · have e1 : (pairs W).filter (fun q => decide (q.1 = u)) = [] := by
      rw [List.filter_eq_nil_iff]
      intro q hq
      have := h2 q hq
      simp only [decide_eq_true_eq]
      omega
    rw [e1]
    unfold arcCount
    rw [List.getD_eq_getElem?_getD, List.getElem?_eq_none (by omega)]
    rfl

theorem eulerianCycle_run (g : AdjacencyList) (hne : g ≠ []) (hb : BoundsValid g)
    (fuel : Nat) (hf : ArcSize g + 2 ≤ fuel) :
    ∃ p err, EulerianCycle g fuel = .ok (p, err) ∧
      (err ≠ none → p = []) ∧
      (err = none → p.length = ArcSize g + 1 ∧ EulerWalk g p ∧ p.head? = p.getLast?) ∧
      (err ≠ none ↔ ¬ (IsBalanced g ∧ StronglyConnected g)) := by
  rw [arcSize_eq] at hf ⊢
  obtain ⟨r, r1, r2, r3⟩ := eulerianCycleD_spec g hne hb fuel hf
  have hrun : EulerianCycle g fuel = .ok r := by
    unfold EulerianCycle
    rw [copy_eq]
    exact r1
  rcases r2 with ⟨msg, hr⟩ | ⟨p, hr, a1, a2, a3, a4⟩
  · subst hr
    refine ⟨[], some msg, hrun, fun _ => rfl, fun h => (by cases h), ?_⟩
    constructor
    · intro _ hbs
      have := r3 hbs.1 hbs.2
      cases this
    · intro _; simp
  · subst hr
    refine ⟨p, none, hrun, fun h => absurd rfl h, fun _ => ⟨a1, a2, by rw [a3, a4]⟩, ?_⟩
    constructor
    · intro h; exact absurd rfl h
    · intro h
      exact absurd (eulerWalk_closed g p 0 a2 a3 a4) h

/-- C13: for every non-empty bounds-valid directed multigraph g that is balanced (equal
in-degree and out-degree at every node) and strongly connected, and a budget of at least
ArcSize(g) + 2 loop iterations, EulerianCycle returns a path p and a nil error, p has
ArcSize(g) + 1 nodes, its first node is its last, every consecutive pair of p is an arc of
g, and every pair of nodes occurs as a consecutive pair of p as often as g holds the arc. -/
theorem eulerianCycle_balanced_connected (g : AdjacencyList) (fuel : Nat) (hne : g ≠ [])
    (hb : BoundsValid g) (hbal : IsBalanced g) (hsc : StronglyConnected g)
    (hf : ArcSize g + 2 ≤ fuel) :
    ∃ p, EulerianCycle g fuel = .ok (p, none) ∧ p.length = ArcSize g + 1 ∧
      p.head? = p.getLast? ∧
      (∀ i, i + 1 < p.length → Arc g (p.getD i 0) (p.getD (i + 1) 0)) ∧
      ∀ u w, (pairs p).count (u, w) = arcCount g u w := by
  obtain ⟨p, err, h1, _, h3, h4⟩ := eulerianCycle_run g hne hb fuel hf
  have herr : err = none := by
    by_contra hcon
    exact (h4.1 hcon) ⟨hbal, hsc⟩
  subst herr
  obtain ⟨a1, a2, a3⟩ := h3 rfl
  exact ⟨p, h1, a1, a3, fun i hi => walk_arc g p a2.1 _ _ (mem_pairs_getD p i hi), a2.1⟩

/-- C14: on the empty graph EulerianCycle returns a nil path and a nil error.  On every
non-empty bounds-valid directed multigraph g, with a budget of at least ArcSize(g) + 2
loop iterations, EulerianCycle returns; with an error the path is nil, without an error
the path is a whole Eulerian cycle (ArcSize(g) + 1 nodes, every arc of g exactly once,
every node on it, first node equal to last); and the error is non-nil exactly when g is
not both balanced and strongly connected. -/
theorem eulerianCycle_error_iff (g : AdjacencyList) (fuel : Nat) (hne : g ≠ [])
    (hb : BoundsValid g) (hf : ArcSize g + 2 ≤ fuel) :
    (∀ f, EulerianCycle [] f = .ok ([], none)) ∧
    ∃ p err, EulerianCycle g fuel = .ok (p, err) ∧
      (err ≠ none → p = []) ∧
      (err = none → p.length = ArcSize g + 1 ∧ EulerWalk g p ∧ p.head? = p.getLast?) ∧
      (err ≠ none ↔ ¬ (IsBalanced g ∧ StronglyConnected g)) :=
  ⟨fun _ => rfl, eulerianCycle_run g hne hb fuel hf⟩

theorem chosenStart_of_walk (g : AdjacencyList) (hne : g ≠ []) (W : List Nat)
    (hw : EulerWalk g W) (st : Nat) (hst : ChosenStart g st) :
    st < g.length ∧ (∃ b, Bal g b st) ∧ ∀ x, x < g.length → Reach g st x := by
  have hlen : 0 < g.length := List.length_pos.2 hne
  have hW : W ≠ [] := by
    intro h0
    have := hw.2 0 hlen
    rw [h0] at this; simp at this
  obtain ⟨a, ha⟩ : ∃ a, W.head? = some a := by
    cases W with
    | nil => exact absurd rfl hW
    | cons c t => exact ⟨c, rfl⟩
  obtain ⟨b, hbl⟩ : ∃ b, W.getLast? = some b := by
    rcases List.eq_nil_or_concat W with h0 | ⟨l, b, h0⟩
    · exact absurd h0 hW
    · rw [List.concat_eq_append] at h0
      exact ⟨b, by rw [h0]; simp⟩
  have haN := eulerWalk_head_lt g hne W a hw ha
  have hbal := bal_of_walk g W a b hw.1 ha hbl
  have harcs : ∀ u w, (u, w) ∈ pairs W → Arc g u w := fun u w => walk_arc g W hw.1 u w
  by_cases hab : a = b
  · subst hab
    have hbs := (eulerWalk_closed g W a hw ha hbl)
    have hno : ∀ x, x < g.length → outDegree g x ≤ inDegree g x := by
      intro x hx
      have := hbs.1 x hx
      omega
    have hst0 : st = 0 := by
      rcases hst with ⟨h1, h2, _⟩ | ⟨h1, _⟩
      · have := hno st h1; omega
      · exact h1
    subst hst0
    exact ⟨hlen, ⟨0, bal_of_balanced g 0 hbs.1⟩, fun x hx => hbs.2 0 x hlen hx⟩
  · have hout : inDegree g a < outDegree g a := by
      have := hbal a haN
      have h1 : ¬ a = b := hab
      simp only [h1, if_false, if_true] at this
      omega
    have hothers : ∀ x, x < g.length → x ≠ a → outDegree g x ≤ inDegree g x := by
      intro x hx hxa
      have := hbal x hx
      simp only [hxa, if_false] at this
      omega
    have hsta : st = a := by
      rcases hst with ⟨h1, h2, h3⟩ | ⟨_, h2⟩
      · by_contra hne2
        have := hothers st h1 hne2
        omega
      · have := h2 a haN
        omega
    subst hsta
    refine ⟨haN, ⟨b, hbal⟩, ?_⟩
    intro x hx
    cases W with
    | nil => exact absurd rfl hW
    | cons c t =>
      simp only [List.head?_cons, Option.some.injEq] at ha
      subst ha
      exact reach_from_head g t c harcs x (hw.2 x hx)

/-- C15: for every non-empty bounds-valid directed multigraph g that has an Eulerian
path W (a walk that takes every arc of g exactly once and visits every node), and a budget
of at least ArcSize(g) + 2 loop iterations, EulerianPath returns a path p and a nil
error, p has ArcSize(g) + 1 nodes, every consecutive pair of p is an arc of g, every pair
of nodes occurs as a consecutive pair of p as often as g holds the arc, and the first node
of p is the start node chosen: the first node with more arcs out than in, or node 0 when
there is none. -/
theorem eulerianPath_of_walk (g : AdjacencyList) (fuel : Nat) (W : List Nat) (hne : g ≠ [])
    (hb : BoundsValid g) (hw : EulerWalk g W) (hf : ArcSize g + 2 ≤ fuel) :
    ∃ p st, EulerianPath g fuel = .ok (p, none) ∧ p.length = ArcSize g + 1 ∧
      (∀ i, i + 1 < p.length → Arc g (p.getD i 0) (p.getD (i + 1) 0)) ∧
      (∀ u w, (pairs p).count (u, w) = arcCount g u w) ∧
      p.head? = some st ∧ ChosenStart g st := by
  rw [arcSize_eq] at hf ⊢
  obtain ⟨ind, i1, i2, i3⟩ := inDegree_spec g hb
  obtain ⟨st, s1, s2⟩ := euStart_spec g ind i2 g 0 rfl
  have hcs : ChosenStart g st := by
    rcases s2 with ⟨_, a2, a3, a4⟩ | ⟨a1, a2⟩
    · left
      refine ⟨a2, by rw [← i3]; exact a3, ?_⟩
      intro x hx
      rw [← i3]; exact a4 x (Nat.zero_le _) hx
    · right
      refine ⟨a1, ?_⟩
      intro x hx
      rw [← i3]; exact a2 x (Nat.zero_le _) hx
  obtain ⟨hstN, ⟨b, hbal⟩, hreach⟩ := chosenStart_of_walk g hne W hw st hcs
  obtain ⟨p, p1, p2, p3, p4⟩ := eulerianPathD_spec g hb st b hstN hbal hreach fuel hf
  refine ⟨p, st, ?_, p2, fun i hi => walk_arc g p p3.1 _ _ (mem_pairs_getD p i hi), p3.1, p4,
    hcs⟩
  unfold EulerianPath
  simp only [i1, s1]
  rw [copy_eq]
  exact p1

theorem eulerWalk_of_counts (g : AdjacencyList) (W : List Nat) (hb : BoundsValid g)
    (h1 : ∀ u, u < g.length → ∀ w, w < g.length → (pairs W).count (u, w) = arcCount g u w)
    (h2 : ∀ q ∈ pairs W, q.1 < g.length ∧ q.2 < g.length)
    (h3 : ∀ x, x < g.length → x ∈ W) : EulerWalk g W := by
  refine ⟨?_, h3⟩
  intro u w
  by_cases hu : u < g.length
  · by_cases hw : w < g.length
    · exact h1 u hu w hw
    · have e1 : (pairs W).count (u, w) = 0 := by
        rw [List.count_eq_zero]
        intro hm
        exact hw (h2 _ hm).2
      have e2 : arcCount g u w = 0 := by
        by_contra hcon
        exact hw (arc_lt_right g hb u w ((arc_iff_arcCount g u w).2 (by omega)))
      rw [e1, e2]
  · have e1 : (pairs W).count (u, w) = 0 := by
      rw [List.count_eq_zero]
      intro hm
      exact hu (h2 _ hm).1
    have e2 : arcCount g u w = 0 := by
      by_contra hcon
      exact hu (arc_lt g u w ((arc_iff_arcCount g u w).2 (by omega)))
    rw [e1, e2]

theorem stronglyConnected_of_closed_walk (g : AdjacencyList) (W : List Nat)
    (h1 : ∀ q ∈ pairs W, q.1 < g.length ∧ q.2 ∈ g.getD q.1 [])
    (h2 : ∀ x, x < g.length → x ∈ W) (h3 : W.head? = W.getLast?) : StronglyConnected g := by
  intro u v hu hv
  have harc : ∀ a b, (a, b) ∈ pairs W → Arc g a b := by
    intro a b hab
    rw [arc_iff_getD]
    exact h1 (a, b) hab
  cases W with
  | nil => exact absurd (h2 u hu) (List.not_mem_nil _)
  | cons c t =>
    simp only [List.head?_cons] at h3
    exact Relation.ReflTransGen.trans (reach_to_last g t c c harc h3.symm u (h2 u hu))
      (reach_from_head g t c harc v (h2 v hv))

theorem eulerianCycle_balanced_connected_witness :
    ([[1], [2, 2], [0, 1]] ≠ ([] : AdjacencyList) ∧ BoundsValid [[1], [2, 2], [0, 1]] ∧
      IsBalanced [[1], [2, 2], [0, 1]] ∧ StronglyConnected [[1], [2, 2], [0, 1]]) ∧
    ∃ p, EulerianCycle [[1], [2, 2], [0, 1]] 7 = .ok (p, none) ∧
      p.length = ArcSize [[1], [2, 2], [0, 1]] + 1 ∧ p.head? = p.getLast? ∧
      (∀ i, i + 1 < p.length → Arc [[1], [2, 2], [0, 1]] (p.getD i 0) (p.getD (i + 1) 0)) ∧
      ∀ u w, (pairs p).count (u, w) = arcCount [[1], [2, 2], [0, 1]] u w :=
  ⟨⟨by decide, by decide, by decide,
      stronglyConnected_of_closed_walk _ [0, 1, 2, 0] (by decide) (by decide) (by decide)⟩,
    eulerianCycle_balanced_connected [[1], [2, 2], [0, 1]] 7 (by decide) (by decide) (by decide)
      (stronglyConnected_of_closed_walk _ [0, 1, 2, 0] (by decide) (by decide) (by decide))
      (by decide)⟩

theorem eulerianCycle_error_iff_witness :
    ([[1, 2], [2], [3], [1]] ≠ ([] : AdjacencyList) ∧ BoundsValid [[1, 2], [2], [3], [1]]) ∧
    (∀ f, EulerianCycle [] f = .ok ([], none)) ∧
    ∃ p err, EulerianCycle [[1, 2], [2], [3], [1]] 7 = .ok (p, err) ∧
      (err ≠ none → p = []) ∧
      (err = none → p.length = ArcSize [[1, 2], [2], [3], [1]] + 1 ∧
        EulerWalk [[1, 2], [2], [3], [1]] p ∧ p.head? = p.getLast?) ∧
      (err ≠ none ↔
        ¬ (IsBalanced [[1, 2], [2], [3], [1]] ∧ StronglyConnected [[1, 2], [2], [3], [1]])) :=
  ⟨⟨by decide, by decide⟩,
    eulerianCycle_error_iff [[1, 2], [2], [3], [1]] 7 (by decide) (by decide) (by decide)⟩

theorem eulerianPath_of_walk_witness :
    ([[], [0], [1]] ≠ ([] : AdjacencyList) ∧ BoundsValid [[], [0], [1]] ∧
      EulerWalk [[], [0], [1]] [2, 1, 0]) ∧
    ∃ p st, EulerianPath [[], [0], [1]] 4 = .ok (p, none) ∧
      p.length = ArcSize [[], [0], [1]] + 1 ∧
      (∀ i, i + 1 < p.length → Arc [[], [0], [1]] (p.getD i 0) (p.getD (i + 1) 0)) ∧
      (∀ u w, (pairs p).count (u, w) = arcCount [[], [0], [1]] u w) ∧
      p.head? = some st ∧ ChosenStart [[], [0], [1]] st :=
  ⟨⟨by decide, by decide,
      eulerWalk_of_counts _ _ (by decide) (by decide) (by decide) (by decide)⟩,
    eulerianPath_of_walk [[], [0], [1]] 4 [2, 1, 0] (by decide) (by decide)
      (eulerWalk_of_counts _ _ (by decide) (by decide) (by decide) (by decide)) (by decide)⟩

theorem euUnlinkLoop_perm (u : Nat) (a2 : List Nat) : ∀ (rest pre : List Nat),
    a2 = pre ++ rest → u ∉ pre → u ∈ rest →
    (euUnlinkLoop u a2 rest pre.length).Perm (a2.erase u) := by
  intro rest
  induction rest with
  | nil => intro pre _ _ h; simp at h
  | cons rx t ih =>
    intro pre ha hpre hmem
    rw [euUnlinkLoop]
    by_cases hrx : rx = u
    · rw [if_pos hrx]
      subst hrx
      have herase : a2.erase rx = pre ++ t := by
        rw [ha, List.erase_append_right _ hpre, List.erase_cons_head]
      rw [herase]
      rcases List.eq_nil_or_concat t with ht | ⟨t0, l, ht⟩
      · subst ht
        have hlen : a2.length - 1 = pre.length := by rw [ha]; simp
        have hget : a2.getD (a2.length - 1) 0 = rx := by
          rw [hlen, ha, List.getD_eq_getElem?_getD, List.getElem?_append_right (le_refl _)]
          simp
        rw [hget, hlen, ha, List.set_append_right _ _ (le_refl _)]
        simp
      · rw [List.concat_eq_append] at ht
        subst ht
        have hlen : a2.length - 1 = pre.length + 1 + t0.length := by
          rw [ha]; simp; omega
        have ha' : a2 = (pre ++ rx :: t0) ++ [l] := by rw [ha]; simp
        have hget : a2.getD (a2.length - 1) 0 = l := by
          have hl2 : a2.length - 1 = (pre ++ rx :: t0).length := by rw [hlen]; simp; omega
          rw [hl2, ha', List.getD_eq_getElem?_getD, List.getElem?_append_right (le_refl _)]
          simp
        have hset : a2.set pre.length l = (pre ++ l :: t0) ++ [l] := by
          rw [ha, List.set_append_right _ _ (le_refl _)]
          simp
        have htake : ((pre ++ l :: t0) ++ [l]).take (a2.length - 1) = pre ++ l :: t0 := by
          have : a2.length - 1 = (pre ++ l :: t0).length := by rw [hlen]; simp; omega
          rw [this, List.take_left']
          rfl
        rw [hget, hset, htake]
        have : (pre ++ l :: t0).Perm (pre ++ (t0 ++ [l])) := by
          apply List.Perm.append_left
          exact (List.perm_append_singleton l t0).symm
        exact this
    · rw [if_neg hrx]
      have hmem2 : u ∈ t := by
        rcases List.mem_cons.1 hmem with h | h
        · exact absurd h.symm hrx
        · exact h
      have := ih (pre ++ [rx]) (by rw [ha]; simp) (by
        intro h
        rcases List.mem_append.1 h with h | h
        · exact hpre h
        · simp only [List.mem_singleton] at h
          exact hrx h.symm) hmem2
      simpa using this

theorem euUnlink_perm (u : Nat) (a2 : List Nat) (h : u ∈ a2) :
    (euUnlink u a2).Perm (a2.erase u) := by
  have := euUnlinkLoop_perm u a2 a2 [] rfl (List.not_mem_nil _) h
  simpa [euUnlink] using this

theorem euUnlink_count (u : Nat) (a2 : List Nat) (h : u ∈ a2) (b : Nat) :
    (euUnlink u a2).count b + (if b = u then 1 else 0) = a2.count b := by
  rw [(euUnlink_perm u a2 h).count_eq b]
  by_cases hb : b = u
  · subst hb
    rw [List.count_erase_self, if_pos rfl]
    have := List.count_pos_iff.2 h
    omega
  · rw [List.count_erase_of_ne hb, if_neg hb]
    rfl

theorem euUnlink_length (u : Nat) (a2 : List Nat) (h : u ∈ a2) :
    (euUnlink u a2).length + 1 = a2.length := by
  rw [(euUnlink_perm u a2 h).length_eq, List.length_erase_of_mem h]
  have := List.length_pos_of_mem h
  omega

theorem arcCount_remove (g : AdjacencyList) (i c : Nat) (row row1 : List Nat)
    (hg : g[i]? = some row)
    (hc : ∀ b, row1.count b + (if b = c then 1 else 0) = row.count b) (a b : Nat) :
    arcCount (g.set i row1) a b + (if a = i ∧ b = c then 1 else 0) = arcCount g a b := by
  have hi : i < g.length := arc_lt_of_get g i _ hg
  unfold arcCount
  rw [getD_set g i a row1 hi]
  by_cases ha : a = i
  · subst ha
    rw [List.getD_eq_getElem?_getD, hg]
    simp only [if_true, Option.getD_some, true_and]
    exact hc b
  · simp [ha]

theorem outDegree_remove (g : AdjacencyList) (i : Nat) (row row1 : List Nat)
    (hg : g[i]? = some row) (hl : row1.length + 1 = row.length) (x : Nat) :
    outDegree (g.set i row1) x + (if x = i then 1 else 0) = outDegree g x := by
  have hi : i < g.length := arc_lt_of_get g i _ hg
  unfold outDegree
  rw [getD_set g i x row1 hi]
  by_cases hx : x = i
  · subst hx
    rw [List.getD_eq_getElem?_getD, hg]
    simp only [if_true, Option.getD_some]
    exact hl
  · simp [hx]

theorem arcTotal_remove (g : AdjacencyList) (i : Nat) (row row1 : List Nat)
    (hg : g[i]? = some row) (hl : row1.length + 1 = row.length) :
    arcTotal (g.set i row1) + 1 = arcTotal g := by
  unfold arcTotal
  have := sum_map_set List.length g i row row1 hg
  omega

theorem ustep_row (g : AdjacencyList) (u w : Nat) (rest a2 : List Nat) (hwu : w ≠ u)
    (hgw : g[w]? = some a2) : (g.set u rest)[w]? = some a2 := by
  rw [List.getElem?_set_ne (fun h => hwu h.symm)]
  exact hgw

theorem ustep_arcCount (g : AdjacencyList) (u w : Nat) (rest a2 : List Nat)
    (hg : g[u]? = some (w :: rest)) (hwu : w ≠ u) (hgw : g[w]? = some a2) (hmem : u ∈ a2)
    (a b : Nat) :
    arcCount ((g.set u rest).set w (euUnlink u a2)) a b +
      (if a = u ∧ b = w then 1 else 0) + (if a = w ∧ b = u then 1 else 0) = arcCount g a b := by
  have h1 := arcCount_step g u w rest hg a b
  have h2 := arcCount_remove (g.set u rest) w u a2 (euUnlink u a2)
    (ustep_row g u w rest a2 hwu hgw) (euUnlink_count u a2 hmem) a b
  omega

theorem ustep_outDegree (g : AdjacencyList) (u w : Nat) (rest a2 : List Nat)
    (hg : g[u]? = some (w :: rest)) (hwu : w ≠ u) (hgw : g[w]? = some a2) (hmem : u ∈ a2)
    (x : Nat) :
    outDegree ((g.set u rest).set w (euUnlink u a2)) x +
      (if x = u then 1 else 0) + (if x = w then 1 else 0) = outDegree g x := by
  have h1 := outDegree_step g u w rest hg x
  have h2 := outDegree_remove (g.set u rest) w a2 (euUnlink u a2)
    (ustep_row g u w rest a2 hwu hgw) (euUnlink_length u a2 hmem) x
  omega

theorem ustep_arcTotal (g : AdjacencyList) (u w : Nat) (rest a2 : List Nat)
    (hg : g[u]? = some (w :: rest)) (hwu : w ≠ u) (hgw : g[w]? = some a2) (hmem : u ∈ a2) :
    arcTotal ((g.set u rest).set w (euUnlink u a2)) + 2 = arcTotal g := by
  have h1 := arcTotal_step g u w rest hg
  have h2 := arcTotal_remove (g.set u rest) w a2 (euUnlink u a2)
    (ustep_row g u w rest a2 hwu hgw) (euUnlink_length u a2 hmem)
  omega

theorem ustep_getD (g : AdjacencyList) (u w : Nat) (rest row : List Nat) (x : Nat)
    (hu : u < g.length) (hw : w < g.length) (hxu : x ≠ u) (hxw : x ≠ w) :
    ((g.set u rest).set w row).getD x [] = g.getD x [] := by
  rw [getD_set _ w x row (by rw [List.length_set]; exact hw), if_neg hxw,
    getD_set g u x rest hu, if_neg hxu]

theorem ustep_symmetric (g : AdjacencyList) (u w : Nat) (rest a2 : List Nat)
    (hg : g[u]? = some (w :: rest)) (hwu : w ≠ u) (hgw : g[w]? = some a2) (hmem : u ∈ a2)
    (hs : SymmetricArcs g) : SymmetricArcs ((g.set u rest).set w (euUnlink u a2)) := by
  intro a b
  have h1 := ustep_arcCount g u w rest a2 hg hwu hgw hmem a b
  have h2 := ustep_arcCount g u w rest a2 hg hwu hgw hmem b a
  have h3 := hs a b
  have e1 : (if b = u ∧ a = w then 1 else 0) = (if a = w ∧ b = u then (1 : Nat) else 0) := by
    by_cases h : a = w ∧ b = u
    · rw [if_pos h, if_pos ⟨h.2, h.1⟩]
    · rw [if_neg h, if_neg (fun h' => h ⟨h'.2, h'.1⟩)]
  have e2 : (if b = w ∧ a = u then 1 else 0) = (if a = u ∧ b = w then (1 : Nat) else 0) := by
    by_cases h : a = u ∧ b = w
    · rw [if_pos h, if_pos ⟨h.2, h.1⟩]
    · rw [if_neg h, if_neg (fun h' => h ⟨h'.2, h'.1⟩)]
  rw [e1, e2] at h2
  omega

theorem balU_step (g : AdjacencyList) (u w v : Nat) (rest a2 : List Nat)
    (hg : g[u]? = some (w :: rest)) (hwu : w ≠ u) (hgw : g[w]? = some a2) (hmem : u ∈ a2)
    (hb : BalU g v u) : BalU ((g.set u rest).set w (euUnlink u a2)) v w := by
  intro x hx
  rw [List.length_set, List.length_set] at hx
  have h1 := hb x hx
  have h2 := ustep_outDegree g u w rest a2 hg hwu hgw hmem x
  by_cases e1 : x = u <;> by_cases e2 : x = w <;> by_cases e3 : x = v <;>
    simp only [e1, e2, e3, if_true, if_false] at h1 h2 ⊢ <;> omega

theorem balU_stuck (g : AdjacencyList) (u v : Nat) (hu : u < g.length) (hb : BalU g v u)
    (hs : g.getD u [] = []) : u = v ∧ EvenDegrees g := by
  have h1 := hb u hu
  have h0 : outDegree g u = 0 := by unfold outDegree; rw [hs]; rfl
  have huv : u = v := by
    by_contra hne
    simp only [hne, if_false, if_true, h0] at h1
    omega
  refine ⟨huv, ?_⟩
  intro x hx
  have h2 := hb x hx
  rw [huv] at h2
  by_cases e : x = v
  · rw [if_pos e] at h2; omega
  · rw [if_neg e] at h2; omega

theorem balU_of_even (g : AdjacencyList) (v : Nat) (h : EvenDegrees g) : BalU g v v := by
  intro x hx
  have := h x hx
  by_cases e : x = v
  · rw [if_pos e]; omega
  · rw [if_neg e]; omega

theorem euCountU_push_step (g0 g : AdjacencyList) (S1 : List Nat) (u w : Nat)
    (rest a2 : List Nat) (L : List (Nat × Nat))
    (hc : EuCountU g0 g (pairs (S1 ++ [u]) ++ L)) (hg : g[u]? = some (w :: rest))
    (hwu : w ≠ u) (hgw : g[w]? = some a2) (hmem : u ∈ a2) :
    EuCountU g0 ((g.set u rest).set w (euUnlink u a2)) (pairs (S1 ++ [u] ++ [w]) ++ L) := by
  intro a b
  have h1 := hc a b
  have h2 := ustep_arcCount g u w rest a2 hg hwu hgw hmem a b
  have h3 : pairs (S1 ++ [u] ++ [w]) = pairs (S1 ++ [u]) ++ [(u, w)] := by
    rw [List.append_assoc]; exact pairs_snoc S1 u w
  rw [h3]
  simp only [List.count_append, List.count_cons, List.count_nil] at h1 ⊢
  have k1 : (if ((u, w) == (a, b)) = true then 1 else 0) =
      (if a = u ∧ b = w then (1 : Nat) else 0) := by
    by_cases h : a = u ∧ b = w
    · obtain ⟨rfl, rfl⟩ := h; simp
    · have : ((u, w) == (a, b)) = false := by
        simp only [beq_eq_false_iff_ne, ne_eq, Prod.mk.injEq]
        rintro ⟨rfl, rfl⟩
        exact h ⟨rfl, rfl⟩
      rw [if_neg h, this]; rfl
  have k2 : (if ((u, w) == (b, a)) = true then 1 else 0) =
      (if a = w ∧ b = u then (1 : Nat) else 0) := by
    by_cases h : a = w ∧ b = u
    · obtain ⟨rfl, rfl⟩ := h; simp
    · have : ((u, w) == (b, a)) = false := by
        simp only [beq_eq_false_iff_ne, ne_eq, Prod.mk.injEq]
        rintro ⟨rfl, rfl⟩
        exact h ⟨rfl, rfl⟩
      rw [if_neg h, this]; rfl
  rw [k1, k2]
  omega

theorem euInv_ustep (g0 : AdjacencyList) (e : Eulerian) (S1 gap F : List Nat)
    (u x w : Nat) (g1 : AdjacencyList) (hinv : EuInv 2 g0 e (S1 ++ [u]) (x :: gap) F)
    (hw : w < g0.length) (hlen : g1.length = e.g.length) (hat : arcTotal g1 + 2 = arcTotal e.g)
    (hdone : ∀ y ∈ F, g1.getD y [] = []) :
    EuInv 2 g0 ⟨g1, e.m, SetBit0 e.uv u, S1 ++ [u] ++ [w] ++ gap ++ F, e.s + 1⟩
      (S1 ++ [u] ++ [w]) gap F := by
  refine ⟨(euRel_push e (S1 ++ [u]) gap F x w _ _ hinv.rel).2, ?_, ?_, ?_, hdone, ?_, ?_, ?_, ?_⟩
  · simp only; rw [hlen]; exact hinv.len
  · have h2 := hinv.gapLen
    simp only [List.length_cons] at h2
    simp only
    omega
  · intro y hy
    simp only [List.mem_append, List.mem_singleton] at hy
    rcases hy with ((hy | hy) | hy) | hy
    · exact hinv.nodes y (by simp [hy])
    · exact hinv.nodes y (by simp [hy])
    · rw [hy]; exact hw
    · exact hinv.nodes y (by simp [hy])
  · intro y hy
    simp only [bit_setBit0, hinv.seen y hy, Bool.false_and]
  · intro y hy
    simp only [List.dropLast_concat] at hy
    simp only [bit_setBit0]
    rcases List.mem_append.1 hy with hy | hy
    · have := hinv.seenS y (by simp [hy])
      simp [this]
    · simp only [List.mem_singleton] at hy
      simp [hy]
  · intro y hy hyN
    rw [bit_setBit0] at hy
    by_cases hyu : u = y
    · subst hyu; simp
    · have hb : Bit e.uv y = false := by
        cases hb : Bit e.uv y
        · rfl
        · simp [hb, hyu] at hy
      have := hinv.unseen y hb hyN
      simp only [List.mem_append, List.mem_singleton] at this ⊢
      tauto
  · intro y hy
    simp only [bit_setBit0, Bool.and_eq_true] at hy
    exact hinv.uvBound y hy.1

theorem euPushUndirFrom_spec (g0 : AdjacencyList) (hb0 : BoundsValid g0) (hnl : NoLoops g0)
    (L : List (Nat × Nat)) :
    ∀ (fuel : Nat) (e : Eulerian) (S1 : List Nat) (u : Nat) (gap F : List Nat),
      EuInv 2 g0 e (S1 ++ [u]) gap F → EuCountU g0 e.g (pairs (S1 ++ [u]) ++ L) →
      SymmetricArcs e.g → gap.length < fuel →
      ∃ e1 T gap1 t, euPushUndirFrom fuel u e = .ok e1 ∧
        EuInv 2 g0 e1 (S1 ++ [u] ++ T) gap1 F ∧
        (S1 ++ [u] ++ T).getLast? = some t ∧
        EuCountU g0 e1.g (pairs (S1 ++ [u] ++ T) ++ L) ∧ SymmetricArcs e1.g ∧
        e1.g.getD t [] = [] ∧ Bit e1.uv t = false ∧
        gap1.length + T.length = gap.length ∧
        (∀ v, BalU e.g v u → BalU e1.g v t) := by
  intro fuel
  induction fuel with
  | zero => intro e S1 u gap F _ _ _ h; omega
  | succ fuel ih =>
    intro e S1 u gap F hinv hc hsym hf
    have huN0 : u < g0.length := hinv.nodes u (by simp)
    have huN : u < e.g.length := by rw [hinv.len]; exact huN0
    rw [euPushUndirFrom]
    have hg : e.g[u]? = some e.g[u] := List.getElem?_eq_getElem huN
    cases hrow : e.g[u] with
    | nil =>
      rw [hrow] at hg
      simp only [hg]
      refine ⟨{ e with uv := SetBit0 e.uv u }, [], gap, u, rfl, ?_, by simp, ?_, hsym, ?_, ?_,
        by simp, fun v hv => hv⟩
      · refine ⟨⟨?_, ?_, ?_⟩, hinv.len, hinv.gapLen, ?_, hinv.done, ?_, ?_, ?_, ?_⟩
        · simpa using hinv.rel.p_eq
        · simpa using hinv.rel.s_eq
        · simpa using hinv.rel.m_eq
        · simpa using hinv.nodes
        · intro y hy
          simp only [bit_setBit0, hinv.seen y hy, Bool.false_and]
        · intro y hy
          simp only [List.append_nil] at hy
          simp only [bit_setBit0, hinv.seenS y hy, Bool.false_and]
        · intro y hy hyN
          rw [bit_setBit0] at hy
          by_cases hyu : u = y
          · subst hyu; simp
          · have hb : Bit e.uv y = false := by
              cases hb : Bit e.uv y
              · rfl
              · simp [hb, hyu] at hy
            simpa using hinv.unseen y hb hyN
        · intro y hy
          simp only [bit_setBit0, Bool.and_eq_true] at hy
          exact hinv.uvBound y hy.1
      · simpa using hc
      · simp only
        rw [List.getD_eq_getElem?_getD, hg]; rfl
      · simp [bit_setBit0]
    | cons w rest =>
      rw [hrow] at hg
      simp only [hg]
      have hhead := arcCount_head e.g u w rest hg
      have hwu : w ≠ u := by
        intro h
        subst h
        have h1 := hc w w
        have h2 := hnl w huN0
        omega
      have hwN0 : w < g0.length := by
        have h1 := hc u w
        exact arc_lt_right g0 hb0 u w ((arc_iff_arcCount g0 u w).2 (by omega))
      have hwN : w < e.g.length := by rw [hinv.len]; exact hwN0
      have hgw : e.g[w]? = some e.g[w] := List.getElem?_eq_getElem hwN
      have hmem : u ∈ e.g[w] := by
        have h1 := hsym w u
        have h2 : 0 < arcCount e.g w u := by omega
        unfold arcCount at h2
        rw [List.getD_eq_getElem?_getD, hgw] at h2
        exact List.count_pos_iff.1 h2
      have hpos := arcTotal_pos e.g u w rest hg
      have hgl := hinv.gapLen
      cases hgap : gap with
      | nil => rw [hgap] at hgl; simp at hgl; omega
      | cons x gap' =>
        rw [hgap] at hinv hf
        have hset := (euRel_push e (S1 ++ [u]) gap' F x w
          ((e.g.set u rest).set w (euUnlink u e.g[w])) (SetBit0 e.uv u) hinv.rel).1
        have hat := ustep_arcTotal e.g u w rest e.g[w] hg hwu hgw hmem
        have hdone : ∀ y ∈ F,
            ((e.g.set u rest).set w (euUnlink u e.g[w])).getD y [] = [] := by
          intro y hy
          have hd := hinv.done y hy
          have hyu : y ≠ u := by
            intro h
            rw [h, List.getD_eq_getElem?_getD, hg] at hd
            simp at hd
          have hyw : y ≠ w := by
            intro h
            rw [h, List.getD_eq_getElem?_getD, hgw] at hd
            simp only [Option.getD_some] at hd
            rw [hd] at hmem
            simp at hmem
          rw [ustep_getD e.g u w rest _ y huN hwN hyu hyw]
          exact hd
        have hinv1 := euInv_ustep g0 e S1 gap' F u x w
          ((e.g.set u rest).set w (euUnlink u e.g[w])) hinv hwN0
          (by rw [List.length_set, List.length_set]) hat hdone
        have hc1 := euCountU_push_step g0 e.g S1 u w rest e.g[w] L hc hg hwu hgw hmem
        have hsym1 := ustep_symmetric e.g u w rest e.g[w] hg hwu hgw hmem hsym
        obtain ⟨e1, T, gap1, t, r1, r2, r3, r4, r5, r6, r7, r8, r9⟩ :=
          ih ⟨(e.g.set u rest).set w (euUnlink u e.g[w]), e.m, SetBit0 e.uv u,
              S1 ++ [u] ++ [w] ++ gap' ++ F, e.s + 1⟩
            (S1 ++ [u]) w gap' F hinv1 hc1 hsym1
            (by simp only [List.length_cons] at hf; omega)
        refine ⟨e1, w :: T, gap1, t, ?_, ?_, ?_, ?_, r5, r6, r7, ?_, ?_⟩
        · simp only [hset, ustep_row e.g u w rest e.g[w] hwu hgw]; exact r1
        · simpa using r2
        · simpa using r3
        · simpa using r4
        · simp only [List.length_cons] at r8 ⊢; omega
        · intro v hv
          exact r9 v (balU_step e.g u w v rest e.g[w] hg hwu hgw hmem hv)

theorem euLoopUndir_spec (g0 : AdjacencyList) (hb0 : BoundsValid g0) (hnl : NoLoops g0)
    (st b k : Nat) :
    ∀ (fuel : Nat) (e : Eulerian) (S gap F : List Nat),
      EuInv 2 g0 e S gap F → EuCountU g0 e.g (pairs (S ++ F)) → SymmetricArcs e.g →
      EvenDegrees e.g → EuEnds st b S F →
      S.length + gap.length + F.length < k → gap.length + S.length < fuel →
      ∃ e1 gap1 F1, euLoopUndir k fuel e = .ok (some e1) ∧ EuInv 2 g0 e1 [] gap1 F1 ∧
        EuCountU g0 e1.g (pairs F1) ∧ EuEnds st b [] F1 ∧
        gap1.length + F1.length = S.length + gap.length + F.length := by
  intro fuel
  induction fuel with
  | zero => intro e S gap F _ _ _ _ _ _ h; omega
  | succ fuel ih =>
    intro e S gap F hinv hc hsym heven hends hk hf
    rw [euLoopUndir]
    rcases List.eq_nil_or_concat S with hS | ⟨S0, v, hS⟩
    · subst hS
      rw [if_neg (euRel_nil_s e gap F hinv.rel)]
      exact ⟨e, gap, F, rfl, hinv, by simpa using hc, hends, by simp⟩
    · rw [List.concat_eq_append] at hS
      subst hS
      rw [if_pos (euRel_snoc_s e S0 gap F v hinv.rel), euRel_top e S0 gap F v hinv.rel]
      simp only [euPushUndir, euRel_top e S0 gap F v hinv.rel]
      have hc1 : EuCountU g0 e.g (pairs (S0 ++ [v]) ++ pairs (v :: F)) := by
        rw [← pairs_append_cons]; simpa using hc
      obtain ⟨e1, T, gap1, t, p1, p2, p3, p4, p4s, p5, p6, p7, p8⟩ :=
        euPushUndirFrom_spec g0 hb0 hnl (pairs (v :: F)) k e S0 v gap F hinv hc1 hsym (by omega)
      simp only [p1]
      obtain ⟨S2, hS2⟩ : ∃ S2, S0 ++ [v] ++ T = S2 ++ [t] := by
        rcases List.eq_nil_or_concat (S0 ++ [v] ++ T) with h0 | ⟨S2, n, h0⟩
        · simp at h0
        · rw [List.concat_eq_append] at h0
          rw [h0, getLast?_snoc, Option.some.injEq] at p3
          exact ⟨S2, by rw [h0, p3]⟩
      have htop : e1.top = .ok t := by
        apply euRel_top e1 S2 gap1 F t
        rw [← hS2]; exact p2.rel
      simp only [htop]
      have htN : t < e1.g.length := by
        rw [p2.len]; exact p2.nodes t (by rw [hS2]; simp)
      obtain ⟨htv, heven1⟩ := balU_stuck e1.g t v htN (p8 v (balU_of_even e.g v heven)) p5
      subst htv
      rw [if_neg (by simp)]
      obtain ⟨e2, S3, T3, gap3, q1, q2, q3, q4, q5, q6, q7, q8⟩ :=
        euKeep_spec 2 g0 k e1 (S0 ++ [t] ++ T) gap1 F p2
          (euInv_seen_all 2 g0 e1 _ gap1 F t p2 p3 p6)
          (by simp only [List.length_append, List.length_singleton] at hk ⊢; omega)
      simp only [q1]
      have hT3 : T3 ≠ [] := q8 t p3 (by rw [p5])
      have hc2 : EuCountU g0 e2.g (pairs (S3 ++ (T3 ++ F))) := by
        rw [q4, ← List.append_assoc, ← q2, hS2, List.append_assoc]
        have e1' : S2 ++ ([t] ++ F) = S2 ++ t :: F := by simp
        rw [e1', pairs_append_cons S2 t F, ← hS2]
        exact p4
      have hends2 : EuEnds st b S3 (T3 ++ F) := by
        refine ⟨?_, ?_, ?_⟩
        · rw [← List.append_assoc, ← q2]
          have := hends.head
          simp only [List.append_assoc, List.head?_append, List.head?_cons] at this ⊢
          cases S0 with
          | nil => simpa using this
          | cons a tl => simpa using this
        · intro _
          by_cases hF : F = []
          · subst hF
            obtain ⟨hs1, hb1⟩ := hends.first rfl
            have hv : t = st := by
              have : (S0 ++ [t]).getLast? = [st].getLast? := by rw [hs1]
              rw [getLast?_snoc] at this
              simpa using this
            rw [List.append_nil]
            have h1 : (S3 ++ T3).getLast? = some t := by rw [← q2]; exact p3
            rw [List.getLast?_append_of_ne_nil _ hT3] at h1
            rw [h1, hb1, hv]
          · rw [List.getLast?_append_of_ne_nil _ hF]
            exact hends.last hF
        · intro h0
          simp only [List.append_eq_nil] at h0
          exact absurd h0.1 hT3
      have hlen3 : S3.length + T3.length = S0.length + 1 + T.length := by
        have := congrArg List.length q2
        simp only [List.length_append, List.length_singleton] at this
        omega
      have hT3l : 0 < T3.length := List.length_pos.2 hT3
      obtain ⟨e3, gap4, F4, r1, a1, a2, a3, a4⟩ := ih e2 S3 gap3 (T3 ++ F) q3 hc2
        (by rw [q4]; exact p4s) (by rw [q4]; exact heven1) hends2
        (by
          simp only [List.length_append, List.length_singleton] at hk ⊢
          omega)
        (by
          simp only [List.length_append, List.length_singleton] at hf
          omega)
      refine ⟨e3, gap4, F4, r1, a1, a2, a3, ?_⟩
      simp only [List.length_append, List.length_singleton] at a4 ⊢
      omega

theorem euFinalU_closed (g0 : AdjacencyList) (e : Eulerian) (gap F : List Nat)
    (hinv : EuInv 2 g0 e [] gap F) (hc : EuCountU g0 e.g (pairs F)) (x w : Nat) (hx : x ∈ F)
    (harc : Arc g0 x w) : w ∈ F := by
  have h1 := (arc_iff_arcCount g0 x w).1 harc
  have h2 := hc x w
  rw [arcCount_of_done e.g x w (hinv.done x hx)] at h2
  by_cases h3 : 0 < (pairs F).count (x, w)
  · exact (mem_of_mem_pairs F x w (List.count_pos_iff.1 h3)).2
  · have h4 : 0 < (pairs F).count (w, x) := by omega
    exact (mem_of_mem_pairs F w x (List.count_pos_iff.1 h4)).1

theorem euFinalU_uv (g0 : AdjacencyList) (e : Eulerian) (gap F : List Nat) (st b : Nat)
    (hinv : EuInv 2 g0 e [] gap F) (hc : EuCountU g0 e.g (pairs F)) (hends : EuEnds st b [] F)
    (hreach : ∀ x, x < g0.length → Reach g0 st x) : e.uv = 0 := by
  have hst : st ∈ F := by
    have := hends.head
    simp only [List.nil_append] at this
    exact List.mem_of_mem_head? this
  have hall : ∀ x, Reach g0 st x → x ∈ F := by
    intro x hx
    induction hx with
    | refl => exact hst
    | tail _ hbc ih => exact euFinalU_closed g0 e gap F hinv hc _ _ ih hbc
  apply Nat.eq_of_testBit_eq
  intro i
  rw [Nat.zero_testBit]
  cases hb : Bit e.uv i
  · exact hb
  · have hi := hinv.uvBound i hb
    have := hinv.seen i (hall i (hreach i hi))
    rw [hb] at this; cases this

theorem euFinalU_walk (g0 : AdjacencyList) (e : Eulerian) (gap F : List Nat)
    (hinv : EuInv 2 g0 e [] gap F) (hc : EuCountU g0 e.g (pairs F)) (huv : e.uv = 0) :
    e.p = F ∧ gap = [] ∧
      ∀ u w, (pairs F).count (u, w) + (pairs F).count (w, u) = arcCount g0 u w := by
  have hin : ∀ x, x < g0.length → x ∈ F := by
    intro x hx
    have := hinv.unseen x (by rw [huv]; exact bit_zero x) hx
    simpa using this
  have hdone : ∀ x, e.g.getD x [] = [] := by
    intro x
    by_cases hx : x < g0.length
    · exact hinv.done x (hin x hx)
    · rw [List.getD_eq_getElem?_getD, List.getElem?_eq_none (by rw [hinv.len]; omega)]
      rfl
  have h0 : arcTotal e.g = 0 := arcTotal_eq_zero e.g (fun x _ => hdone x)
  have hgap : gap = [] := List.length_eq_zero.1 (by have := hinv.gapLen; omega)
  refine ⟨by rw [hinv.rel.p_eq, hgap]; simp, hgap, ?_⟩
  intro u w
  have := hc u w
  rw [arcCount_of_done e.g u w (hdone u)] at this
  omega

theorem newEulerianU_inv (g0 : AdjacencyList) (m : Nat) (hm : 2 * m = arcTotal g0)
    (hlen : 0 < g0.length) :
    ∃ e, newEulerian g0 (m : Int) = .ok e ∧ EuInv 2 g0 e [0] (List.replicate m 0) [] ∧
      e.g = g0 := by
  have h1 : ¬ ((m : Int) + 1 < 0) := by omega
  have h2 : ((m : Int) + 1).toNat = m + 1 := by omega
  refine ⟨⟨g0, m, 2 ^ g0.length - 1, List.replicate (m + 1) 0, 0⟩, ?_, ?_, rfl⟩
  · simp only [newEulerian, h1, if_false, h2]
  · refine ⟨⟨by simp [List.replicate_succ], by simp, by simp⟩, rfl, by simpa using hm, ?_,
      by simp, by simp, by simp, ?_, ?_⟩
    · intro x hx
      simp only [List.append_nil, List.mem_singleton] at hx
      rw [hx]; exact hlen
    · intro x hx hxN
      have := bit_oneBits g0.length x
      unfold OneBits at this
      rw [this] at hx
      simp [hxN] at hx
    · intro x hx
      have := bit_oneBits g0.length x
      unfold OneBits at this
      rw [this] at hx
      simpa using hx

theorem boundsValid_of_symmetric (g : AdjacencyList) (hs : SymmetricArcs g) : BoundsValid g := by
  intro nbs hn nb hnb
  obtain ⟨i, hi, hgi⟩ := List.getElem_of_mem hn
  have h1 : 0 < arcCount g i nb := by
    unfold arcCount
    rw [List.getD_eq_getElem?_getD, List.getElem?_eq_getElem hi, hgi]
    exact List.count_pos_iff.2 hnb
  rw [hs i nb] at h1
  exact arc_lt g nb i ((arc_iff_arcCount g nb i).2 h1)

theorem symmetricArcs_of_bounded (g : AdjacencyList) (hb : BoundsValid g)
    (h : ∀ u, u < g.length → ∀ w, w < g.length → arcCount g u w = arcCount g w u) :
    SymmetricArcs g := by
  intro u w
  have hz : ∀ a b, ¬ a < g.length → arcCount g a b = 0 ∧ arcCount g b a = 0 := by
    intro a b ha
    constructor
    · by_contra hcon
      exact ha (arc_lt g a b ((arc_iff_arcCount g a b).2 (by omega)))
    · by_contra hcon
      exact ha (arc_lt_right g hb b a ((arc_iff_arcCount g b a).2 (by omega)))
  by_cases hu : u < g.length
  · by_cases hw : w < g.length
    · exact h u hu w hw
    · have := hz w u hw; omega
  · have := hz u w hu; omega

/-- C16: for every non-empty, connected, loop-free undirected multigraph g (as many arcs
from u to w as from w to u) in which every node has even degree, with m the number of
edges (twice m is the number of arcs) and a budget of at least m + 2 loop iterations,
EulerianCycleUndirD(m) returns a path p and a nil error, p has m + 1 nodes, its first node
is its last, consecutive nodes of p are joined by an edge of g, and for all nodes u and w
the steps of p between u and w, in either direction, are as many as g has edges between
u and w: every edge is traversed exactly once. -/
theorem eulerianCycleUndirD_even_connected (g : AdjacencyList) (m fuel : Nat) (hne : g ≠ [])
    (hsym : SymmetricArcs g) (hnl : NoLoops g) (heven : EvenDegrees g) (hconn : Connected g)
    (hm : 2 * m = ArcSize g) (hf : m + 2 ≤ fuel) :
    ∃ p, EulerianCycleUndirD g (m : Int) fuel = .ok (p, none) ∧ p.length = m + 1 ∧
      p.head? = p.getLast? ∧
      (∀ i, i + 1 < p.length → Arc g (p.getD i 0) (p.getD (i + 1) 0)) ∧
      ∀ u w, (pairs p).count (u, w) + (pairs p).count (w, u) = arcCount g u w := by
  rw [arcSize_eq] at hm
  have hlen : 0 < g.length := List.length_pos.2 hne
  have hlen0 : ¬ g.length = 0 := by omega
  have hb := boundsValid_of_symmetric g hsym
  obtain ⟨e, h1, h4, hg⟩ := newEulerianU_inv g m hm hlen
  have hends : EuEnds 0 0 [0] [] := ⟨rfl, by simp, fun _ => ⟨rfl, rfl⟩⟩
  have hc0 : EuCountU g e.g (pairs ([0] ++ [])) := by
    rw [hg]; intro u w; simp [pairs_single]
  obtain ⟨e1, gap1, F1, r1, a1, a2, a3, a4⟩ := euLoopUndir_spec g hb hnl 0 0 fuel fuel e [0] _ []
    h4 hc0 (by rw [hg]; exact hsym) (by rw [hg]; exact heven) hends (by simp; omega)
    (by simp; omega)
  have huv := euFinalU_uv g e1 gap1 F1 0 0 a1 a2 a3 (fun x hx => hconn 0 x hlen hx)
  obtain ⟨b1, b2, b3⟩ := euFinalU_walk g e1 gap1 F1 a1 a2 huv
  have hFlen : F1.length = m + 1 := by
    rw [b2] at a4
    simp only [List.length_nil, List.length_singleton, List.length_replicate] at a4
    omega
  have hF : F1 ≠ [] := by
    intro h0; rw [h0] at hFlen; simp at hFlen
  refine ⟨F1, ?_, hFlen, ?_, ?_, b3⟩
  · unfold EulerianCycleUndirD
    rw [if_neg hlen0]
    simp only [h1, r1]
    rw [if_neg (by simp [huv]), b1]
  · rw [a3.last hF]
    simpa using a3.head
  · intro i hi
    have hmem := mem_pairs_getD F1 i hi
    have h2 := b3 (F1.getD i 0) (F1.getD (i + 1) 0)
    have h3 : 0 < (pairs F1).count (F1.getD i 0, F1.getD (i + 1) 0) :=
      List.count_pos_iff.2 hmem
    exact (arc_iff_arcCount g _ _).2 (by omega)

theorem eulerianCycleUndirD_even_connected_witness :
    ([[1, 2], [0, 2], [0, 1, 3, 4], [2, 4], [2, 3]] ≠ ([] : AdjacencyList) ∧
      SymmetricArcs [[1, 2], [0, 2], [0, 1, 3, 4], [2, 4], [2, 3]] ∧
      NoLoops [[1, 2], [0, 2], [0, 1, 3, 4], [2, 4], [2, 3]] ∧
      EvenDegrees [[1, 2], [0, 2], [0, 1, 3, 4], [2, 4], [2, 3]] ∧
      Connected [[1, 2], [0, 2], [0, 1, 3, 4], [2, 4], [2, 3]] ∧
      2 * 6 = ArcSize [[1, 2], [0, 2], [0, 1, 3, 4], [2, 4], [2, 3]]) ∧
    ∃ p, EulerianCycleUndirD [[1, 2], [0, 2], [0, 1, 3, 4], [2, 4], [2, 3]] ((6 : Nat) : Int) 8 =
        .ok (p, none) ∧ p.length = 6 + 1 ∧ p.head? = p.getLast? ∧
      (∀ i, i + 1 < p.length →
        Arc [[1, 2], [0, 2], [0, 1, 3, 4], [2, 4], [2, 3]] (p.getD i 0) (p.getD (i + 1) 0)) ∧
      ∀ u w, (pairs p).count (u, w) + (pairs p).count (w, u) =
        arcCount [[1, 2], [0, 2], [0, 1, 3, 4], [2, 4], [2, 3]] u w :=
  ⟨⟨by decide, symmetricArcs_of_bounded _ (by decide) (by decide), by decide, by decide,
      stronglyConnected_of_closed_walk _ [0, 1, 2, 3, 4, 2, 0] (by decide) (by decide)
        (by decide), by decide⟩,
    eulerianCycleUndirD_even_connected [[1, 2], [0, 2], [0, 1, 3, 4], [2, 4], [2, 3]] 6 8
      (by decide) (symmetricArcs_of_bounded _ (by decide) (by decide)) (by decide) (by decide)
      (stronglyConnected_of_closed_walk _ [0, 1, 2, 3, 4, 2, 0] (by decide) (by decide)
        (by decide)) (by decide) (by decide)⟩

theorem getD_append_replicate_nil {α : Type} (D : List (List α)) (k j : Nat) :
    (D ++ List.replicate k []).getD j [] = D.getD j [] := by
  rw [List.getD_eq_getElem?_getD, List.getD_eq_getElem?_getD]
  by_cases hj : j < D.length
  · rw [List.getElem?_append_left hj]
  · rw [List.getElem?_append_right (by omega), List.getElem?_eq_none (l := D) (by omega)]
    rw [List.getElem?_replicate]
    split <;> rfl

theorem getD_set_nil {α : Type} (D : List (List α)) (i j : Nat) (x : List α) :
    (D.set i x).getD j [] = if i = j ∧ i < D.length then x else D.getD j [] := by
  rw [List.getD_eq_getElem?_getD, List.getD_eq_getElem?_getD, List.getElem?_set]
  by_cases hij : i = j
  · subst hij
    by_cases hi : i < D.length
    · simp [hi]
    · simp [hi, List.getElem?_eq_none (Nat.le_of_not_lt hi)]
  · simp [hij]

/-- The bucket of degree 0 built by the first loop of Degeneracy holds only nodes whose
neighbour slice is empty. -/
theorem degBuckets_zero (g : LabeledAdjacencyList) :
    ∀ (rest : List (List Half)) (v0 : Nat) (d : List Nat) (D : List (List Nat)),
      rest = g.drop v0 → (∀ v ∈ D.getD 0 [], g.getD v [] = []) →
      ∀ v ∈ (degBuckets rest v0 d D).2.getD 0 [], g.getD v [] = [] := by
  intro rest
  induction rest with
  | nil => intro v0 d D _ hD; simpa [degBuckets] using hD
  | cons nb rest ih =>
    intro v0 d D hrest hD
    rw [degBuckets]
    have h0 : g[v0]? = some nb := by
      have := congrArg (fun l => l[0]?) hrest
      simpa using this.symm
    have h1 : rest = g.drop (v0 + 1) := by
      have := congrArg List.tail hrest
      simpa using this
    apply ih (v0 + 1) _ _ h1
    intro v hv
    rw [getD_set_nil] at hv
    split at hv
    · rename_i hc
      rw [hc.1, getD_append_replicate_nil, List.mem_append] at hv
      rcases hv with hv | hv
      · exact hD v hv
      · rw [List.mem_singleton] at hv
        rw [hv, List.getD_eq_getElem?_getD, h0]
        exact List.length_eq_zero.1 hc.1
    · rw [getD_append_replicate_nil] at hv
      exact hD v hv

/-- One iteration of the main loop of Degeneracy keeps the length of ordering and writes
it at ox only; once k is positive, cores[0] stays; while k is 0 and cores is nil, either a
node without neighbours is taken from the bucket of degree 0, or cores[0] is set to ox and k
becomes positive. -/
theorem degStep_core (g : LabeledAdjacencyList) (st st1 : DegState) (ox : Nat)
    (h : degStep g st ox = .ok st1) (hox : ox < st.ordering.length) :
    st1.ordering.length = st.ordering.length ∧
    (∀ j, j ≠ ox → st1.ordering.getD j 0 = st.ordering.getD j 0) ∧
    (1 ≤ st.k → 1 ≤ st1.k ∧ st1.cores.getD 0 0 = st.cores.getD 0 0) ∧
    (st.k = 0 → st.cores = [] → (∀ v ∈ st.D.getD 0 [], g.getD v [] = []) →
      (st1.k = 0 ∧ st1.cores = [] ∧ (∀ v ∈ st1.D.getD 0 [], g.getD v [] = []) ∧
        g.getD (st1.ordering.getD ox 0) [] = []) ∨
      (1 ≤ st1.k ∧ st1.cores.getD 0 0 = ox)) := by
  unfold degStep at h
  cases h1 : degFind st.D 0 with
  | error e => simp [h1] at h
  | ok i =>
    simp only [h1] at h
    cases h2 : (st.D.getD i []).getLast? with
    | none => rw [h2] at h; cases h
    | some v =>
      simp only [h2] at h
      cases h3 : g[v]? with
      | none => rw [h3] at h; cases h
      | some nbs =>
        simp only [h3] at h
        cases h4 : degMove nbs (SetBit1 st.L v) st.d (st.D.set i (st.D.getD i []).dropLast) with
        | error e => rw [h4] at h; cases h
        | ok r =>
          simp only [h4, Except.ok.injEq] at h
          subst h
          refine ⟨by simp, ?_, ?_, ?_⟩
          · intro j hj
            simp only
            rw [List.getD_eq_getElem?_getD, List.getD_eq_getElem?_getD,
              List.getElem?_set_ne (Ne.symm hj)]
          · intro hk
            simp only
            by_cases hik : i > st.k
            · simp only [hik, if_true]
              refine ⟨by omega, ?_⟩
              rw [List.getD_eq_getElem?_getD, List.getD_eq_getElem?_getD,
                List.getElem?_set_ne (by omega)]
              cases hc : st.cores with
              | nil => simp
              | cons c t => simp
            · simp only [hik, if_false]
              exact ⟨hk, trivial⟩
          · intro hk hc hD
            simp only
            by_cases hik : i > st.k
            · right
              simp only [hik, if_true]
              refine ⟨by omega, ?_⟩
              rw [hc, hk]
              simp
            · left
              have hi : i = 0 := by omega
              subst hi
              simp only [hik, if_false]
              have hv : v ∈ st.D.getD 0 [] := List.mem_of_getLast?_eq_some h2
              have hnb : nbs = [] := by
                have := hD v hv
                rw [List.getD_eq_getElem?_getD, h3] at this
                exact this
              subst hnb
              simp only [degMove, Except.ok.injEq] at h4
              subst h4
              refine ⟨hk, hc, ?_, ?_⟩
              · intro w hw
                simp only at hw
                rw [getD_set_nil] at hw
                split at hw
                · exact hD w (List.mem_of_mem_dropLast hw)
                · exact hD w hw
              · have e : (st.ordering.set ox v).getD ox 0 = v := by
                  rw [List.getD_eq_getElem?_getD, List.getElem?_set_self hox]
                  rfl
                rw [e]
                exact hD v hv

theorem degLoop_zero (g : LabeledAdjacencyList) :
    ∀ (n a : Nat) (st st1 : DegState), degLoop g (List.range' a n) st = .ok st1 →
      a + n ≤ st.ordering.length → DegZero g st a →
      DegZero g st1 (a + n) ∧ st1.ordering.length = st.ordering.length := by
  intro n
  induction n with
  | zero =>
    intro a st st1 h _ hz
    simp only [List.range'_zero, degLoop, Except.ok.injEq] at h
    subst h
    exact ⟨hz, rfl⟩
  | succ n ih =>
    intro a st st1 h hlen hz
    rw [List.range'_succ, degLoop] at h
    cases h1 : degStep g st a with
    | error e => simp [h1] at h
    | ok st2 =>
      simp only [h1] at h
      obtain ⟨hl, hkeep, hpos, hzero⟩ := degStep_core g st st2 a h1 (by omega)
      have hz2 : DegZero g st2 (a + 1) := by
        rcases hz with ⟨hk, hc, hD, hord⟩ | ⟨hk, hc, hord⟩
        · rcases hzero hk hc hD with ⟨hk2, hc2, hD2, hnew⟩ | ⟨hk2, hc2⟩
          · left
            refine ⟨hk2, hc2, hD2, ?_⟩
            intro j hj
            by_cases hja : j = a
            · rw [hja]; exact hnew
            · rw [hkeep j hja]; exact hord j (by omega)
          · right
            refine ⟨hk2, by omega, ?_⟩
            intro j hj
            rw [hc2] at hj
            rw [hkeep j (by omega)]
            exact hord j hj
        · right
          obtain ⟨hk2, hc2⟩ := hpos hk
          refine ⟨hk2, by omega, ?_⟩
          intro j hj
          rw [hc2] at hj
          rw [hkeep j (by omega)]
          exact hord j hj
      obtain ⟨h3, h4⟩ := ih (a + 1) st2 st1 h (by omega) hz2
      exact ⟨by rw [show a + (n + 1) = a + 1 + n by omega]; exact h3, by rw [h4, hl]⟩

/-- When LabeledUndirected.Degeneracy returns, cores[0] is at most the number of nodes and
the positions below cores[0] of the ordering hold only nodes without neighbours. -/
theorem degeneracy_zero (g : LabeledAdjacencyList) (k : Nat) (ordering cores : List Nat)
    (h : LabeledUndirected.Degeneracy g = .ok (k, ordering, cores)) :
    ordering.length = g.length ∧ cores.getD 0 0 ≤ g.length ∧
    ∀ j < cores.getD 0 0, g.getD (ordering.getD j 0) [] = [] := by
  unfold LabeledUndirected.Degeneracy at h
  simp only at h
  cases h1 : degLoop g (List.range g.length)
      ⟨0, List.replicate g.length 0, [], 0,
        (degBuckets g 0 (List.replicate g.length 0) []).1,
        (degBuckets g 0 (List.replicate g.length 0) []).2⟩ with
  | error e => rw [h1] at h; cases h
  | ok st =>
    rw [h1] at h
    simp only at h
    split at h
    · rename_i hk
      simp only [Except.ok.injEq, Prod.mk.injEq] at h
      obtain ⟨h2, h3, h4⟩ := h
      rw [List.range_eq_range'] at h1
      have hz0 : DegZero g ⟨0, List.replicate g.length 0, [], 0,
          (degBuckets g 0 (List.replicate g.length 0) []).1,
          (degBuckets g 0 (List.replicate g.length 0) []).2⟩ 0 := by
        left
        refine ⟨rfl, rfl, ?_, fun j hj => absurd hj (Nat.not_lt_zero _)⟩
        exact degBuckets_zero g g 0 _ [] (by simp) (by simp)
      obtain ⟨hz, hl⟩ := degLoop_zero g g.length 0 _ st h1 (by simp) hz0
      simp only [List.length_replicate] at hl
      rw [← h3, ← h4]
      refine ⟨hl, ?_⟩
      rcases hz with ⟨_, hc, _⟩ | ⟨hk1, hc, hord⟩
      · rw [hc] at hk
        simp at hk
      · have e : (st.cores.set st.k st.ordering.length).getD 0 0 = st.cores.getD 0 0 := by
          rw [List.getD_eq_getElem?_getD, List.getD_eq_getElem?_getD,
            List.getElem?_set_ne (by omega)]
        rw [e]
        exact ⟨by omega, hord⟩
    · cases h

theorem degBucketsAdj_unlabel : ∀ (rest : List (List Half)) (v : Nat) (d : List Nat)
    (D : List (List Nat)),
    degBucketsAdj (rest.map (fun nbs => nbs.map Half.To)) v d D = degBuckets rest v d D := by
  intro rest
  induction rest with
  | nil => intro v d D; rfl
  | cons nb rest ih =>
    intro v d D
    simp only [List.map_cons, degBucketsAdj, degBuckets, List.length_map]
    exact ih _ _ _

theorem degMoveAdj_unlabel : ∀ (nbs : List Half) (L : Nat) (d : List Nat) (D : List (List Nat)),
    degMoveAdj (nbs.map Half.To) L d D = degMove nbs L d D := by
  intro nbs
  induction nbs with
  | nil => intro L d D; rfl
  | cons nb rest ih =>
    intro L d D
    simp only [List.map_cons, degMoveAdj, degMove]
    split
    · exact ih _ _ _
    · cases d[nb.To]? with
      | none => rfl
      | some dn =>
        simp only
        cases D[dn]? with
        | none => rfl
        | some Ddn =>
          simp only
          split
          · rfl
          · exact ih _ _ _

theorem unlabel_getElem? (g : LabeledAdjacencyList) (v : Nat) :
    (unlabel g)[v]? = (g[v]?).map (fun nbs => nbs.map Half.To) := by
  unfold unlabel
  rw [List.getElem?_map]

theorem degStepAdj_unlabel (g : LabeledAdjacencyList) (st : DegState) (ox : Nat) :
    degStepAdj (unlabel g) st ox = degStep g st ox := by
  unfold degStepAdj degStep
  cases degFind st.D 0 with
  | error e => rfl
  | ok i =>
    simp only
    cases (st.D.getD i []).getLast? with
    | none => rfl
    | some v =>
      simp only
      rw [unlabel_getElem?]
      cases g[v]? with
      | none => rfl
      | some nbs =>
        simp only [Option.map_some']
        rw [degMoveAdj_unlabel]

theorem degLoopAdj_unlabel (g : LabeledAdjacencyList) : ∀ (oxs : List Nat) (st : DegState),
    degLoopAdj (unlabel g) oxs st = degLoop g oxs st := by
  intro oxs
  induction oxs with
  | nil => intro st; rfl
  | cons ox rest ih =>
    intro st
    simp only [degLoopAdj, degLoop, degStepAdj_unlabel]
    cases degStep g st ox with
    | error e => rfl
    | ok st1 => exact ih st1

/-- AdjacencyList.Degeneracy returns on the graph without the labels what
LabeledUndirected.Degeneracy returns on the labeled graph. -/
theorem degeneracy_unlabel (g : LabeledAdjacencyList) :
    Degeneracy (unlabel g) = LabeledUndirected.Degeneracy g := by
  unfold Degeneracy LabeledUndirected.Degeneracy
  have hl : (unlabel g).length = g.length := by unfold unlabel; simp
  simp only [hl, degLoopAdj_unlabel]
  have e : degBucketsAdj (unlabel g) 0 (List.replicate g.length 0) [] =
      degBuckets g 0 (List.replicate g.length 0) [] := degBucketsAdj_unlabel g 0 _ _
  rw [e]

/-- C21: on the simple undirected graph of one node and no edge, whose degeneracy is 0
with the ordering [0], neither version of Degeneracy returns: the last statement,
cores[k] = len(ordering), indexes the nil slice cores. -/
theorem degeneracy_no_result_single_node :
    Symmetric [[]] ∧ LoopFree [[]] ∧
    LabeledUndirected.Degeneracy [[]] = .error .index ∧
    Degeneracy [[]] = .error .index :=
  ⟨by decide, by decide, rfl, rfl⟩

/-- C22: on the undirected graphs of zero and of two nodes without an edge neither
version of Degeneracy returns normally: cores is still nil at the last statement,
cores[k] = len(ordering). -/
theorem degeneracy_fails_without_edges :
    LabeledUndirected.Degeneracy [[], []] = .error .index ∧
    Degeneracy [[], []] = .error .index ∧
    LabeledUndirected.Degeneracy [] = .error .index ∧
    Degeneracy [] = .error .index :=
  ⟨rfl, rfl, rfl, rfl⟩

/-- C23: on the undirected graph of the isolated node 0 and the triangle 1, 2, 3 both
versions of Degeneracy return cores = [1, 0, 4], where cores[0] > cores[1]: the degree found
goes from 0 to 2 at once and cores[1] is left at zero. -/
theorem degeneracy_cores_not_monotone :
    Symmetric [[], [⟨2, 0⟩, ⟨3, 0⟩], [⟨1, 0⟩, ⟨3, 0⟩], [⟨1, 0⟩, ⟨2, 0⟩]] ∧
    LabeledUndirected.Degeneracy [[], [⟨2, 0⟩, ⟨3, 0⟩], [⟨1, 0⟩, ⟨3, 0⟩], [⟨1, 0⟩, ⟨2, 0⟩]] =
      .ok (2, [0, 3, 2, 1], [1, 0, 4]) ∧
    Degeneracy [[], [2, 3], [1, 3], [1, 2]] = .ok (2, [0, 3, 2, 1], [1, 0, 4]) ∧
    ¬ ([1, 0, 4].getD 0 0 ≤ [1, 0, 4].getD 1 0) :=
  ⟨by decide, rfl, rfl, by decide⟩

/-- C24: for every undirected graph g (symmetric neighbour slices) on which Degeneracy
returns, cores[0] is at most the length of ordering and no node at a position below
cores[0] of ordering is adjacent to a node at a later position.  AdjacencyList.Degeneracy
returns on the graph without the labels what LabeledUndirected.Degeneracy returns. -/
theorem degeneracy_below_first_core (g : LabeledAdjacencyList) (k : Nat)
    (ordering cores : List Nat) (hs : Symmetric g)
    (h : LabeledUndirected.Degeneracy g = .ok (k, ordering, cores)) :
    cores.getD 0 0 ≤ ordering.length ∧
    (∀ i j, i < cores.getD 0 0 → i < j → j < ordering.length →
      ¬ Adjacent g (ordering.getD i 0) (ordering.getD j 0) ∧
      ¬ Adjacent g (ordering.getD j 0) (ordering.getD i 0)) ∧
    Degeneracy (unlabel g) = .ok (k, ordering, cores) := by
  obtain ⟨hl, hc, hz⟩ := degeneracy_zero g k ordering cores h
  refine ⟨by omega, ?_, by rw [degeneracy_unlabel, h]⟩
  intro i j hi _ _
  have hnil : (unlabel g).getD (ordering.getD i 0) [] = [] := by
    have := hz i hi
    rw [List.getD_eq_getElem?_getD] at this ⊢
    rw [unlabel_getElem?]
    cases hg : g[ordering.getD i 0]? with
    | none => rfl
    | some nbs =>
      rw [hg] at this
      simp only [Option.getD_some] at this
      rw [this]; rfl
  constructor
  · intro ha
    have := ((arc_iff_getD _ _ _).1 ha).2
    rw [hnil] at this
    exact absurd this (List.not_mem_nil _)
  · intro ha
    obtain ⟨h1, h2⟩ := (arc_iff_getD _ _ _).1 ha
    have hlen : (unlabel g).length = g.length := by unfold unlabel; simp
    have := hs _ (by omega) _ h2
    rw [hnil] at this
    exact absurd this (List.not_mem_nil _)

theorem degeneracy_below_first_core_witness :
    Symmetric [[], [⟨2, 0⟩], [⟨1, 0⟩]] ∧
    LabeledUndirected.Degeneracy [[], [⟨2, 0⟩], [⟨1, 0⟩]] = .ok (1, [0, 2, 1], [1, 3]) ∧
    ([1, 3].getD 0 0 ≤ [0, 2, 1].length ∧
    (∀ i j, i < [1, 3].getD 0 0 → i < j → j < [0, 2, 1].length →
      ¬ Adjacent [[], [⟨2, 0⟩], [⟨1, 0⟩]] ([0, 2, 1].getD i 0) ([0, 2, 1].getD j 0) ∧
      ¬ Adjacent [[], [⟨2, 0⟩], [⟨1, 0⟩]] ([0, 2, 1].getD j 0) ([0, 2, 1].getD i 0)) ∧
    Degeneracy (unlabel [[], [⟨2, 0⟩], [⟨1, 0⟩]]) = .ok (1, [0, 2, 1], [1, 3])) :=
  ⟨by decide, rfl,
    degeneracy_below_first_core [[], [⟨2, 0⟩], [⟨1, 0⟩]] 1 [0, 2, 1] [1, 3] (by decide) rfl⟩

/-- The variables of Cyclic that correspond to those of Topological: c to cycleFound, and
the bitmaps temp and perm. -/
theorem topoUnwind_cyc (n : Nat) (st st1 : TState) (h : topoUnwind n st = .ok st1) :
    st1.cycleFound = st.cycleFound ∧ st1.temp = st.temp ∧ st1.perm = st.perm := by
  unfold topoUnwind at h
  split at h
  · split at h
    · simp only [Except.ok.injEq] at h
      subst h
      exact ⟨rfl, rfl, rfl⟩
    · cases h
  · simp only [Except.ok.injEq] at h
    subst h
    exact ⟨rfl, rfl, rfl⟩

theorem topoLoop_cyc (rec : Nat → TState → Except Err TState)
    (crec : Nat → CycState → Except Err CycState)
    (hrec : ∀ nb st st1, rec nb st = .ok st1 →
      crec nb ⟨st.cycleFound, st.temp, st.perm⟩ = .ok ⟨st1.cycleFound, st1.temp, st1.perm⟩)
    (n : Nat) :
    ∀ (nbs : List Nat) (st st1 : TState) (b : Bool), topoLoop rec n nbs st = .ok (st1, b) →
      cycLoop crec nbs ⟨st.cycleFound, st.temp, st.perm⟩ =
        .ok (⟨st1.cycleFound, st1.temp, st1.perm⟩, b) := by
  intro nbs
  induction nbs with
  | nil =>
    intro st st1 b h
    simp only [topoLoop, Except.ok.injEq, Prod.mk.injEq] at h
    obtain ⟨h1, h2⟩ := h
    subst h1; subst h2
    rfl
  | cons nb rest ih =>
    intro st st1 b h
    rw [topoLoop] at h
    cases h1 : rec nb st with
    | error e => simp [h1] at h
    | ok st2 =>
      simp only [h1] at h
      rw [cycLoop, hrec nb st st2 h1]
      simp only
      by_cases hc : st2.cycleFound = true
      · simp only [hc, if_true] at h ⊢
        cases h2 : topoUnwind n st2 with
        | error e => simp [h2] at h
        | ok st3 =>
          simp only [h2, Except.ok.injEq, Prod.mk.injEq] at h
          obtain ⟨h3, h4⟩ := h
          obtain ⟨e1, e2, e3⟩ := topoUnwind_cyc n st2 st3 h2
          subst h3; subst h4
          rw [e1, e2, e3, hc]
      · have hc' := bool_eq_false_of_not hc
        simp only [hc', Bool.false_eq_true, if_false] at h ⊢
        have := ih st2 st1 b h
        rw [hc'] at this
        exact this

/-- A call of df of Cyclic does to c, temp and perm what the call of df of Topological
does to cycleFound, temp and perm. -/
theorem topoDf_cyc (g : AdjacencyList) :
    ∀ (fuel n : Nat) (st st1 : TState), topoDf g fuel n st = .ok st1 →
      cycDf g fuel n ⟨st.cycleFound, st.temp, st.perm⟩ =
        .ok ⟨st1.cycleFound, st1.temp, st1.perm⟩ := by
  intro fuel
  induction fuel with
  | zero => intro n st st1 h; simp [topoDf] at h
  | succ fuel ih =>
    intro n st st1 h
    rw [topoDf] at h
    rw [cycDf]
    simp only
    by_cases ht : Bit st.temp n = true
    · simp only [ht, if_true, Except.ok.injEq] at h ⊢
      subst h; rfl
    · have ht' := bool_eq_false_of_not ht
      simp only [ht', Bool.false_eq_true, if_false] at h ⊢
      by_cases hp : Bit st.perm n = true
      · simp only [hp, if_true, Except.ok.injEq] at h ⊢
        subst h; rfl
      · have hp' := bool_eq_false_of_not hp
        simp only [hp', Bool.false_eq_true, if_false] at h ⊢
        cases hg : g[n]? with
        | none => simp [hg] at h
        | some nbs =>
          simp only [hg] at h ⊢
          cases hl : topoLoop (topoDf g fuel) n nbs { st with temp := SetBit1 st.temp n } with
          | error e => simp [hl] at h
          | ok r =>
            obtain ⟨st2, b⟩ := r
            have := topoLoop_cyc (topoDf g fuel) (cycDf g fuel) ih n nbs _ st2 b hl
            simp only at this
            rw [this]
            simp only [hl] at h
            cases b with
            | true =>
              simp only [Except.ok.injEq] at h ⊢
              subst h; rfl
            | false =>
              simp only at h ⊢
              split at h
              · simp only [Except.ok.injEq] at h
                subst h; rfl
              · cases h

/-- The loop of Cyclic over the nodes returns false on a graph without a cycle and true on
a graph with one. -/
theorem cycMain_spec (g : AdjacencyList) (hb : BoundsValid g) (fuel : Nat)
    (hfuel : g.length < fuel) :
    ∀ (rest : List Nat) (st : TState), (∀ m ∈ rest, m < g.length) → TInv g [] st →
      (∀ m, m < g.length → m ∉ rest → Bit st.perm m = true) →
      (cycMain g fuel rest ⟨st.cycleFound, st.temp, st.perm⟩ = .ok false ∧ Acyclic g) ∨
      (cycMain g fuel rest ⟨st.cycleFound, st.temp, st.perm⟩ = .ok true ∧ ¬ Acyclic g) := by
  have hwhite : ∀ st : TState, whiteCount g st < fuel := by
    intro st
    refine lt_of_le_of_lt ?_ hfuel
    unfold whiteCount
    calc _ ≤ (Finset.range g.length).card := Finset.card_filter_le _ _
      _ = g.length := Finset.card_range _
  intro rest
  induction rest with
  | nil =>
    intro st hlt hinv hdone
    left
    refine ⟨by simp only [cycMain]; rw [hinv.1], ?_⟩
    rcases topoMain_spec g hb fuel hfuel [] st hlt hinv hdone with
      ⟨order, _, hnd, hmem, hord⟩ | ⟨cycle, hrun, hwalk⟩
    · exact acyclic_of_order g order hnd (fun u hu => (hmem u).2 hu) hord
    · simp only [topoMain, Except.ok.injEq, Prod.mk.injEq] at hrun
      exact absurd hrun.2.symm hwalk.1
  | cons n rest ih =>
    intro st hlt hinv hdone
    have hn := hlt n (List.mem_cons_self _ _)
    have hlt' : ∀ m ∈ rest, m < g.length := fun m hm => hlt m (List.mem_cons_of_mem _ hm)
    simp only [cycMain]
    by_cases hp : Bit st.perm n = true
    · simp only [hp, if_true]
      apply ih st hlt' hinv
      intro m hm hmr
      by_cases hmn : m = n
      · rw [hmn]; exact hp
      · exact hdone m hm (fun h => by
          rcases List.mem_cons.1 h with h | h
          · exact hmn h
          · exact hmr h)
    · have hp' := bool_eq_false_of_not hp
      simp only [hp', Bool.false_eq_true, if_false]
      obtain ⟨st1, hrun, hres⟩ := topoDf_spec g hb fuel n st [] hinv
        (by simp) hn (hwhite st)
      rw [topoDf_cyc g fuel n st st1 hrun]
      simp only
      rcases hres with ⟨hinv1, hpn, hle⟩ | hfound
      · simp only [hinv1.1, Bool.false_eq_true, if_false]
        have := ih st1 hlt' hinv1 (by
          intro m hm hmr
          by_cases hmn : m = n
          · rw [hmn]; exact hpn
          · exact hle m (hdone m hm (fun h => by
              rcases List.mem_cons.1 h with h | h
              · exact hmn h
              · exact hmr h)))
        rw [hinv1.1] at this
        exact this
      · right
        obtain ⟨hcf, _, _, _, hcases⟩ := hfound
        simp only [hcf, if_true]
        refine ⟨trivial, ?_⟩
        rcases hcases with ⟨_, hmem, _⟩ | ⟨_, hwalk⟩
        · exact absurd hmem (List.not_mem_nil _)
        · exact closedWalk_not_acyclic g st1.cycle hwalk

/-- C30: for every bounds-valid directed graph g and recursion budget above len(g),
AdjacencyList.Cyclic returns, and it returns true if and only if g contains a directed
cycle: some node reaches itself along one or more arcs (a loop is such a cycle). -/
theorem cyclic_iff_cycle (g : AdjacencyList) (fuel : Nat) (hb : BoundsValid g)
    (hfuel : g.length < fuel) :
    ∃ b, Cyclic g fuel = .ok b ∧ (b = true ↔ ∃ u, Relation.TransGen (Arc g) u u) := by
  have hiff : (∃ u, Relation.TransGen (Arc g) u u) ↔ ¬ Acyclic g := by
    unfold Acyclic
    exact not_forall_not.symm
  rcases cycMain_spec g hb fuel hfuel (List.range g.length)
    ⟨List.replicate g.length 0, g.length, 0, 0, false, 0, []⟩
    (fun _ hm => List.mem_range.1 hm) (tInv_init g)
    (fun _ hm hnot => absurd (List.mem_range.2 hm) hnot) with ⟨hrun, hac⟩ | ⟨hrun, hcyc⟩
  · refine ⟨false, hrun, ?_⟩
    rw [hiff]
    exact ⟨fun h => (by cases h), fun h => absurd hac h⟩
  · refine ⟨true, hrun, ?_⟩
    rw [hiff]
    exact ⟨fun _ => hcyc, fun _ => rfl⟩

theorem cyclic_iff_cycle_witness :
    BoundsValid [[1], [2], [0], [3]] ∧
    ∃ b, Cyclic [[1], [2], [0], [3]] 5 = .ok b ∧
      (b = true ↔ ∃ u, Relation.TransGen (Arc [[1], [2], [0], [3]]) u u) :=
  ⟨by decide, cyclic_iff_cycle [[1], [2], [0], [3]] 5 (by decide) (by decide)⟩

theorem df_set (g : AdjacencyList) (v : Option Visitor) (fuel n : Nat) (st st1 : DFState)
    (hbit : Bit st.bm n = true) (h : df g v fuel n st = .ok st1) : st1 = st := by
  cases fuel with
  | zero => simp [df] at h
  | succ fuel =>
    rw [df] at h
    simp only [hbit, if_true, Except.ok.injEq] at h
    exact h.symm

theorem cclLoop_df (g : AdjacencyList) (fuel k : Nat)
    (hrec : ∀ (n : Nat) (st st1 : DFState), Bit st.bm n = false →
      df g (some (fun _ _ _ => true)) fuel n st = .ok st1 →
      cclDf g fuel n ⟨st.bm, st.calls.map Call.node, k⟩ =
        .ok ⟨st1.bm, st1.calls.map Call.node, k⟩) :
    ∀ (nbs : List Nat) (s s1 : DFState),
      nbs.foldlM (fun s nb => df g (some (fun _ _ _ => true)) fuel nb s) s = .ok s1 →
      cclLoop (cclDf g fuel) nbs ⟨s.bm, s.calls.map Call.node, k⟩ =
        .ok ⟨s1.bm, s1.calls.map Call.node, k⟩ := by
  intro nbs
  induction nbs with
  | nil =>
    intro s s1 h
    rw [foldlM_nil_ok] at h
    subst h; rfl
  | cons nb rest ih =>
    intro s s1 h
    rw [foldlM_cons_ok] at h
    obtain ⟨s2, h1, h2⟩ := h
    rw [cclLoop]
    by_cases hb : Bit s.bm nb = true
    · simp only [hb, if_true]
      have := df_set g _ fuel nb s s2 hb h1
      subst this
      exact ih s2 s1 h2
    · have hb' := bool_eq_false_of_not hb
      simp only [hb', Bool.false_eq_true, if_false]
      rw [hrec nb s s2 hb' h1]
      exact ih s2 s1 h2

/-- The closure df of ConnectedComponentLists, called on an unvisited node, does to vg and m
what df of DepthFirst with a visitor that always returns true does to the bitmap and to the
record of the nodes visited. -/
theorem cclDf_df (g : AdjacencyList) (k : Nat) :
    ∀ (fuel n : Nat) (st st1 : DFState), Bit st.bm n = false →
      df g (some (fun _ _ _ => true)) fuel n st = .ok st1 →
      cclDf g fuel n ⟨st.bm, st.calls.map Call.node, k⟩ =
        .ok ⟨st1.bm, st1.calls.map Call.node, k⟩ := by
  intro fuel
  induction fuel with
  | zero => intro n st st1 _ h; simp [df] at h
  | succ fuel ih =>
    intro n st st1 hbit h
    rw [df] at h
    simp only [hbit, Bool.false_eq_true, if_false, Bool.not_true] at h
    rw [cclDf]
    cases hg : g[n]? with
    | none => simp [hg] at h
    | some nbs =>
      simp only [hg] at h ⊢
      have := cclLoop_df g fuel k ih nbs _ st1 h
      simpa using this

theorem boundsValid_of_undirected (g : AdjacencyList) (hs : Undirected g) : BoundsValid g := by
  intro nbs hn nb hnb
  obtain ⟨i, hi, hgi⟩ := List.getElem_of_mem hn
  have h1 : Arc g i nb := ⟨nbs, by rw [List.getElem?_eq_getElem hi, hgi], hnb⟩
  exact ((arc_iff_getD g nb i).1 (undirected_arc g hs i nb h1)).1

theorem reach_symm (g : AdjacencyList) (hs : Undirected g) (u v : Nat) (h : Reach g u v) :
    Reach g v u := by
  induction h with
  | refl => exact Relation.ReflTransGen.refl
  | tail _ hstep ih => exact Relation.ReflTransGen.head (undirected_arc g hs _ _ hstep) ih

theorem reach_lt (g : AdjacencyList) (hb : BoundsValid g) (u v : Nat) (hu : u < g.length)
    (h : Reach g u v) : v < g.length := by
  induction h with
  | refl => exact hu
  | tail _ hstep _ =>
    obtain ⟨nbs, h1, h2⟩ := hstep
    exact hb nbs (List.getElem?_mem h1) _ h2

theorem cclLoop_prefix (rec : Nat → CCLState → Except Err CCLState)
    (hrec : ∀ n st st1, rec n st = .ok st1 → ∃ t, st1.m = st.m ++ t) :
    ∀ (nbs : List Nat) (st st1 : CCLState), cclLoop rec nbs st = .ok st1 →
      ∃ t, st1.m = st.m ++ t := by
  intro nbs
  induction nbs with
  | nil =>
    intro st st1 h
    simp only [cclLoop, Except.ok.injEq] at h
    subst h
    exact ⟨[], by simp⟩
  | cons nb rest ih =>
    intro st st1 h
    rw [cclLoop] at h
    split at h
    · exact ih st st1 h
    · cases h1 : rec nb st with
      | error e => simp [h1] at h
      | ok st2 =>
        simp only [h1] at h
        obtain ⟨t1, ht1⟩ := hrec nb st st2 h1
        obtain ⟨t2, ht2⟩ := ih st2 st1 h
        exact ⟨t1 ++ t2, by rw [ht2, ht1, List.append_assoc]⟩

theorem cclDf_prefix (g : AdjacencyList) :
    ∀ (fuel n : Nat) (st st1 : CCLState), cclDf g fuel n st = .ok st1 →
      ∃ t, st1.m = st.m ++ n :: t := by
  intro fuel
  induction fuel with
  | zero => intro n st st1 h; simp [cclDf] at h
  | succ fuel ih =>
    intro n st st1 h
    rw [cclDf] at h
    cases hg : g[n]? with
    | none => simp [hg] at h
    | some nbs =>
      simp only [hg] at h
      obtain ⟨t, ht⟩ := cclLoop_prefix (cclDf g fuel)
        (fun n st st1 h => by
          obtain ⟨t, ht⟩ := ih n st st1 h
          exact ⟨n :: t, ht⟩) nbs _ st1 h
      exact ⟨t, by rw [ht]; simp⟩

/-- Called on an unvisited node n of an undirected graph, with a bitmap vg that no arc
leaves, df of ConnectedComponentLists returns; m is then a duplicate-free list, starting
with n, of exactly the nodes that n reaches, these are the nodes added to vg, and again no
arc leaves vg. -/
theorem cclDf_component (g : AdjacencyList) (hs : Undirected g) (fuel n vg k : Nat)
    (hfuel : g.length < fuel) (hn : n < g.length) (hbit : Bit vg n = false)
    (hclosed : ∀ u w, Bit vg u = true → Arc g u w → Bit vg w = true) :
    ∃ vg1 m, cclDf g fuel n ⟨vg, [], k⟩ = .ok ⟨vg1, m, k⟩ ∧ m.Nodup ∧ m.head? = some n ∧
      (∀ v, v ∈ m ↔ Reach g n v) ∧ (∀ v, Bit vg1 v = true ↔ (Bit vg v = true ∨ v ∈ m)) ∧
      (∀ v ∈ m, Bit vg v = false) ∧
      (∀ u w, Bit vg1 u = true → Arc g u w → Bit vg1 w = true) := by
  have hb := boundsValid_of_undirected g hs
  obtain ⟨r, hr⟩ := df_total g (some (fun _ _ _ => true)) hb fuel n ⟨vg, true, []⟩ hn
    (lt_of_le_of_lt (unsetCount_le g vg) hfuel)
  obtain ⟨hle, hself, hsound⟩ := df_post g _ fuel n _ r hr
  have hcl := df_closed g (some (fun _ _ _ => true))
    (fun vf hvf h n b => by cases hvf; rfl) fuel n _ r hr
  obtain ⟨h1, h2, h3, _, _⟩ := df_trace g (fun _ _ _ => true) vg fuel n _ r hr
    (traceInv_init _ vg)
  have hrun := cclDf_df g k fuel n ⟨vg, true, []⟩ r hbit hr
  simp only [List.map_nil] at hrun hle hself hsound hcl
  have hreach : ∀ v, Reach g n v → Bit r.bm v = true ∧ Bit vg v = false := by
    intro v hv
    induction hv with
    | refl => exact ⟨hself, hbit⟩
    | @tail a b _ hstep ih =>
      have hvb : Bit vg b = false := by
        cases hbb : Bit vg b
        · rfl
        · have := hclosed b a hbb (undirected_arc g hs a b hstep)
          rw [ih.2] at this
          cases this
      exact ⟨hcl a ih.1 ih.2 b hstep, hvb⟩
  refine ⟨r.bm, r.calls.map Call.node, hrun, h2, ?_, ?_, h1, h3, ?_⟩
  · obtain ⟨t, ht⟩ := cclDf_prefix g fuel n _ _ hrun
    simp only [List.nil_append] at ht
    rw [ht]; rfl
  · intro v
    constructor
    · intro hv
      have hu := hsound v ((h1 v).2 (Or.inr hv)) (h3 v hv)
      exact Relation.ReflTransGen.mono (fun a b hab => hab.1) hu.2
    · intro hv
      obtain ⟨hv1, hv2⟩ := hreach v hv
      rcases (h1 v).1 hv1 with h | h
      · rw [hv2] at h; cases h
      · exact h
  · intro u w hu harc
    cases hvu : Bit vg u
    · exact hcl u hu hvu w harc
    · exact hle w (hclosed u w hvu harc)

/-- The search over the nodes from a on, started with a bitmap that no arc leaves and that
holds the nodes below a, returns the components of the nodes not yet in the bitmap. -/
theorem ccAll_spec (g : AdjacencyList) (hs : Undirected g) (fuel : Nat)
    (hfuel : g.length < fuel) :
    ∀ (k a vg : Nat), a + k = g.length →
      (∀ u w, Bit vg u = true → Arc g u w → Bit vg w = true) →
      (∀ v, v < a → Bit vg v = true) →
      ∃ ls vgf, ccAll g fuel (List.range' a k) vg = .ok (ls, vgf) ∧
        (∀ l ∈ ls, l.Nodup ∧ ∃ r, l.head? = some r ∧ a ≤ r ∧ r < g.length ∧
          (∀ v, v ∈ l ↔ Reach g r v) ∧ (∀ v ∈ l, r ≤ v) ∧ ∀ v ∈ l, Bit vg v = false) ∧
        ls.Pairwise (fun l1 l2 => l1.head?.getD 0 < l2.head?.getD 0 ∧ l1.Disjoint l2) ∧
        (∀ v, Bit vgf v = true ↔ (Bit vg v = true ∨ ∃ l ∈ ls, v ∈ l)) ∧
        (∀ v, v < g.length → Bit vgf v = true) := by
  intro k
  induction k with
  | zero =>
    intro a vg ha _ hlow
    refine ⟨[], vg, rfl, ?_, List.Pairwise.nil, ?_, ?_⟩
    · intro l hl; cases hl
    · intro v; simp
    · intro v hv; exact hlow v (by omega)
  | succ k ih =>
    intro a vg ha hclosed hlow
    rw [List.range'_succ, ccAll]
    by_cases hbit : Bit vg a = true
    · simp only [hbit, if_true]
      obtain ⟨ls, vgf, hrun, h1, h2, h3, h4⟩ := ih (a + 1) vg (by omega) hclosed (by
        intro v hv
        by_cases hva : v = a
        · rw [hva]; exact hbit
        · exact hlow v (by omega))
      refine ⟨ls, vgf, hrun, ?_, h2, h3, h4⟩
      intro l hl
      obtain ⟨hnd, r, hr1, hr2, hr3⟩ := h1 l hl
      exact ⟨hnd, r, hr1, by omega, hr3⟩
    · have hbit' := bool_eq_false_of_not hbit
      simp only [hbit', Bool.false_eq_true, if_false]
      obtain ⟨vg1, m, hrun, hnd, hhead, hmem, hbits, hunset, hcl1⟩ :=
        cclDf_component g hs fuel a vg a hfuel (by omega) hbit' hclosed
      have ham : a ∈ m := (hmem a).2 Relation.ReflTransGen.refl
      obtain ⟨ls, vgf, hrun2, h1, h2, h3, h4⟩ := ih (a + 1) vg1 (by omega) hcl1 (by
        intro v hv
        by_cases hva : v = a
        · rw [hva]; exact (hbits a).2 (Or.inr ham)
        · exact (hbits v).2 (Or.inl (hlow v (by omega))))
      rw [hrun]
      simp only [hrun2]
      refine ⟨m :: ls, vgf, rfl, ?_, ?_, ?_, h4⟩
      · intro l hl
        rcases List.mem_cons.1 hl with rfl | hl
        · refine ⟨hnd, a, hhead, le_refl _, by omega, hmem, ?_, hunset⟩
          intro v hv
          by_contra hlt
          have := hlow v (by omega)
          rw [hunset v hv] at this
          cases this
        · obtain ⟨hnd', r, hr1, hr2, hr3, hr4, hr5, hr6⟩ := h1 l hl
          refine ⟨hnd', r, hr1, by omega, hr3, hr4, hr5, ?_⟩
          intro v hv
          cases hvv : Bit vg v
          · rfl
          · have := (hbits v).2 (Or.inl hvv)
            rw [hr6 v hv] at this
            cases this
      · rw [List.pairwise_cons]
        refine ⟨?_, h2⟩
        intro l hl
        obtain ⟨_, r, hr1, hr2, _, _, _, hr6⟩ := h1 l hl
        refine ⟨by rw [hhead, hr1]; simp only [Option.getD_some]; omega, ?_⟩
        intro v hv1 hv2
        have := (hbits v).2 (Or.inr hv1)
        rw [hr6 v hv2] at this
        cases this
      · intro v
        rw [h3 v, hbits v]
        constructor
        · rintro ((h | h) | ⟨l, hl, hv⟩)
          · exact Or.inl h
          · exact Or.inr ⟨m, List.mem_cons_self _ _, h⟩
          · exact Or.inr ⟨l, List.mem_cons_of_mem _ hl, hv⟩
        · rintro (h | ⟨l, hl, hv⟩)
          · exact Or.inl (Or.inl h)
          · rcases List.mem_cons.1 hl with rfl | hl
            · exact Or.inl (Or.inr hv)
            · exact Or.inr ⟨l, hl, hv⟩

/-- The search over all nodes of an undirected graph returns its connected components. -/
theorem ccAll_components (g : AdjacencyList) (hs : Undirected g) (fuel : Nat)
    (hfuel : g.length < fuel) :
    ∃ ls vgf, ccAll g fuel (List.range' 0 g.length) 0 = .ok (ls, vgf) ∧ ComponentLists g ls := by
  obtain ⟨ls, vgf, hrun, h1, h2, h3, h4⟩ := ccAll_spec g hs fuel hfuel g.length 0 0 (by simp)
    (fun u w hu _ => by rw [bit_zero] at hu; cases hu)
    (fun v hv => absurd hv (Nat.not_lt_zero _))
  refine ⟨ls, vgf, hrun, ?_, h2, ?_⟩
  · intro l hl
    obtain ⟨hnd, r, hr1, _, hr3, hr4, hr5, _⟩ := h1 l hl
    exact ⟨hnd, r, hr1, hr3, hr4, hr5⟩
  · intro v hv
    rcases (h3 v).1 (h4 v hv) with h | h
    · rw [bit_zero] at h; cases h
    · exact h

theorem cclLoop_keep (rec : Nat → CCLState → Except Err CCLState)
    (hrec : ∀ n st st1, rec n st = .ok st1 → st1.n = st.n ∧ BmLe st.vg st1.vg) :
    ∀ (nbs : List Nat) (st st1 : CCLState), cclLoop rec nbs st = .ok st1 →
      st1.n = st.n ∧ BmLe st.vg st1.vg := by
  intro nbs
  induction nbs with
  | nil =>
    intro st st1 h
    simp only [cclLoop, Except.ok.injEq] at h
    subst h
    exact ⟨rfl, fun m hm => hm⟩
  | cons nb rest ih =>
    intro st st1 h
    rw [cclLoop] at h
    split at h
    · exact ih st st1 h
    · cases h1 : rec nb st with
      | error e => simp [h1] at h
      | ok st2 =>
        simp only [h1] at h
        obtain ⟨e1, l1⟩ := hrec nb st st2 h1
        obtain ⟨e2, l2⟩ := ih st2 st1 h
        exact ⟨by rw [e2, e1], fun m hm => l2 m (l1 m hm)⟩

theorem cclDf_keep (g : AdjacencyList) :
    ∀ (fuel n : Nat) (st st1 : CCLState), cclDf g fuel n st = .ok st1 →
      st1.n = st.n ∧ BmLe st.vg st1.vg ∧ Bit st1.vg n = true := by
  intro fuel
  induction fuel with
  | zero => intro n st st1 h; simp [cclDf] at h
  | succ fuel ih =>
    intro n st st1 h
    rw [cclDf] at h
    cases hg : g[n]? with
    | none => simp [hg] at h
    | some nbs =>
      simp only [hg] at h
      obtain ⟨e, l⟩ := cclLoop_keep (cclDf g fuel)
        (fun n st st1 h => ⟨(ih n st st1 h).1, (ih n st st1 h).2.1⟩) nbs _ st1 h
      simp only at e l
      have hn : Bit (SetBit1 st.vg n) n = true := by rw [bit_setBit1]; simp
      refine ⟨e, fun m hm => l m (by rw [bit_setBit1, hm]; rfl), l n hn⟩

theorem ccAll_nil (g : AdjacencyList) (fuel : Nat) :
    ∀ (ns : List Nat) (vg vgf : Nat), ccAll g fuel ns vg = .ok ([], vgf) → vgf = vg := by
  intro ns
  induction ns with
  | nil =>
    intro vg vgf h
    simp only [ccAll, Except.ok.injEq, Prod.mk.injEq] at h
    exact h.2.symm
  | cons n rest ih =>
    intro vg vgf h
    rw [ccAll] at h
    split at h
    · exact ih vg vgf h
    · cases h1 : cclDf g fuel n ⟨vg, [], n⟩ with
      | error e => simp [h1] at h
      | ok st1 =>
        simp only [h1] at h
        cases h2 : ccAll g fuel rest st1.vg with
        | error e => simp [h2] at h
        | ok r => simp [h2] at h

/-- One call of the function that ConnectedComponentLists returns, when the search over
the nodes from a on is to find the components ls: without a component left the call
returns nil and n goes to the end of the range; otherwise it returns the first component,
n stops at a node of it whose bit is set, and the search from the next node on is to find
the other components. -/
theorem cclScan_ccAll (g : AdjacencyList) (fuel : Nat) :
    ∀ (k a : Nat) (st : CCLState) (ls : List (List Nat)) (vgf : Nat),
      ccAll g fuel (List.range' a k) st.vg = .ok (ls, vgf) →
      (ls = [] → ∃ st1, cclScan g fuel (List.range' a k) st = .ok ([], st1) ∧
        st1.vg = st.vg ∧ (k = 0 → st1.n = st.n) ∧ (0 < k → st1.n = a + k)) ∧
      (∀ l ls1, ls = l :: ls1 → ∃ st1, cclScan g fuel (List.range' a k) st = .ok (l, st1) ∧
        a ≤ st1.n ∧ st1.n < a + k ∧ Bit st1.vg st1.n = true ∧
        ccAll g fuel (List.range' (st1.n + 1) (a + k - st1.n - 1)) st1.vg = .ok (ls1, vgf)) := by
  intro k
  induction k with
  | zero =>
    intro a st ls vgf h
    simp only [List.range'_zero, ccAll, Except.ok.injEq, Prod.mk.injEq] at h
    constructor
    · intro _
      exact ⟨st, rfl, rfl, fun _ => rfl, fun h0 => absurd h0 (Nat.lt_irrefl 0)⟩
    · intro l ls1 hl
      rw [← h.1] at hl
      cases hl
  | succ k ih =>
    intro a st ls vgf h
    rw [List.range'_succ] at h ⊢
    rw [ccAll] at h
    rw [cclScan]
    by_cases hbit : Bit st.vg a = true
    · simp only [hbit, if_true] at h ⊢
      obtain ⟨ih1, ih2⟩ := ih (a + 1) { st with n := a + 1 } ls vgf h
      constructor
      · intro hnil
        obtain ⟨st1, hrun, hvg, hn0, hn1⟩ := ih1 hnil
        refine ⟨st1, hrun, hvg, fun h0 => absurd h0 (Nat.succ_ne_zero k), fun _ => ?_⟩
        by_cases hk : k = 0
        · rw [hn0 hk, hk]
        · rw [hn1 (by omega)]; omega
      · intro l ls1 hl
        obtain ⟨st1, hrun, h1, h2, h3, h4⟩ := ih2 l ls1 hl
        refine ⟨st1, hrun, by omega, by omega, h3, ?_⟩
        rw [show a + (k + 1) - st1.n - 1 = a + 1 + k - st1.n - 1 by omega]
        exact h4
    · have hbit' := bool_eq_false_of_not hbit
      simp only [hbit', Bool.false_eq_true, if_false] at h ⊢
      cases h1 : cclDf g fuel a ⟨st.vg, [], a⟩ with
      | error e => simp [h1] at h
      | ok s1 =>
        simp only [h1] at h
        cases h2 : ccAll g fuel (List.range' (a + 1) k) s1.vg with
        | error e => simp [h2] at h
        | ok r =>
          obtain ⟨ls2, vg2⟩ := r
          simp only [h2, Except.ok.injEq, Prod.mk.injEq] at h
          obtain ⟨hls, hvg⟩ := h
          obtain ⟨e1, _, e3⟩ := cclDf_keep g fuel a _ s1 h1
          simp only at e1
          constructor
          · intro hnil
            rw [hnil] at hls
            cases hls
          · intro l ls1 hl
            rw [hl] at hls
            simp only [List.cons.injEq] at hls
            refine ⟨s1, ?_, by omega, by omega, by rw [e1]; exact e3, ?_⟩
            · rw [← hls.1]
            · rw [e1, show a + (k + 1) - a - 1 = k by omega, ← hls.2, ← hvg]
              exact h2

/-- The first k calls of the function that ConnectedComponentLists returns give, one by
one, the components that the search from n on is to find, and nil after these. -/
theorem callsOf_ccAll (g : AdjacencyList) (fuel : Nat) :
    ∀ (k : Nat) (st : CCLState) (ls : List (List Nat)) (vgf : Nat),
      ccAll g fuel (List.range' st.n (g.length - st.n)) st.vg = .ok (ls, vgf) →
      callsOf (cclNext g fuel) k st = .ok ((ls ++ List.replicate (k - ls.length) []).take k) := by
  intro k
  induction k with
  | zero => intro st ls vgf _; simp [callsOf]
  | succ k ih =>
    intro st ls vgf h
    obtain ⟨h1, h2⟩ := cclScan_ccAll g fuel (g.length - st.n) st.n st ls vgf h
    rw [callsOf]
    cases ls with
    | nil =>
      obtain ⟨st1, hrun, hvg, hn0, hn1⟩ := h1 rfl
      have hnext : cclNext g fuel st = .ok ([], st1) := hrun
      rw [hnext]
      simp only
      have hinv : ccAll g fuel (List.range' st1.n (g.length - st1.n)) st1.vg = .ok ([], st1.vg) := by
        by_cases hk : g.length - st.n = 0
        · rw [hn0 hk, hvg]
          rw [ccAll_nil g fuel _ _ _ h] at h
          exact h
        · rw [hn1 (by omega), show g.length - (st.n + (g.length - st.n)) = 0 by omega]
          rfl
      rw [ih st1 [] st1.vg hinv]
      simp [List.replicate_succ]
    | cons l ls1 =>
      obtain ⟨st1, hrun, hge, hlt, hbit, hrest⟩ := h2 l ls1 rfl
      have hnext : cclNext g fuel st = .ok (l, st1) := hrun
      rw [hnext]
      simp only
      have hinv : ccAll g fuel (List.range' st1.n (g.length - st1.n)) st1.vg = .ok (ls1, vgf) := by
        rw [show g.length - st1.n = (g.length - st1.n - 1) + 1 by omega, List.range'_succ, ccAll]
        simp only [hbit, if_true]
        rw [show st.n + (g.length - st.n) - st1.n - 1 = g.length - st1.n - 1 by omega] at hrest
        exact hrest
      rw [ih st1 ls1 vgf hinv]
      simp

theorem cclLoopLabeled_eq (rec : Nat → CCLState → Except Err CCLState) :
    ∀ (nbs : List Half) (st : CCLState),
      cclLoopLabeled rec nbs st = cclLoop rec (nbs.map Half.To) st := by
  intro nbs
  induction nbs with
  | nil => intro st; rfl
  | cons nb rest ih =>
    intro st
    simp only [cclLoopLabeled, List.map_cons, cclLoop]
    split
    · exact ih st
    · cases rec nb.To st with
      | error e => rfl
      | ok st1 => exact ih st1

theorem cclDfLabeled_eq (g : LabeledAdjacencyList) :
    ∀ (fuel n : Nat) (st : CCLState), cclDfLabeled g fuel n st = cclDf (unlabel g) fuel n st := by
  intro fuel
  induction fuel with
  | zero => intro n st; rfl
  | succ fuel ih =>
    intro n st
    have hrec : cclDfLabeled g fuel = cclDf (unlabel g) fuel := by
      funext n st; exact ih n st
    rw [cclDfLabeled, cclDf, hrec]
    have hu : (unlabel g)[n]? = (g[n]?).map (fun nbs => nbs.map Half.To) := by
      unfold unlabel; rw [List.getElem?_map]
    rw [hu]
    cases g[n]? with
    | none => rfl
    | some nbs =>
      simp only [Option.map_some']
      exact cclLoopLabeled_eq _ nbs _

theorem cclScanLabeled_eq (g : LabeledAdjacencyList) (fuel : Nat) :
    ∀ (ns : List Nat) (st : CCLState),
      cclScanLabeled g fuel ns st = cclScan (unlabel g) fuel ns st := by
  intro ns
  induction ns with
  | nil => intro st; rfl
  | cons n rest ih =>
    intro st
    simp only [cclScanLabeled, cclScan, cclDfLabeled_eq]
    split
    · exact ih _
    · rfl

/-- LabeledUndirected.ConnectedComponentLists returns on a labeled graph a function that
gives what the function of AdjacencyList.ConnectedComponentLists gives on the graph
without the labels. -/
theorem connectedComponentLists_labeled_eq (g : LabeledAdjacencyList) (fuel k : Nat) :
    LabeledUndirected.ConnectedComponentLists g fuel k =
      ConnectedComponentLists (unlabel g) fuel k := by
  unfold LabeledUndirected.ConnectedComponentLists ConnectedComponentLists
  have h : cclNextLabeled g fuel = cclNext (unlabel g) fuel := by
    funext st
    unfold cclNextLabeled cclNext
    have hl : (unlabel g).length = g.length := by unfold unlabel; simp
    rw [hl, cclScanLabeled_eq]
  rw [h]

theorem ccrLoopLabeled_eq (rec : Nat → CCRState → Except Err CCRState) :
    ∀ (nbs : List Half) (st : CCRState),
      ccrLoopLabeled rec nbs st = ccrLoop rec (nbs.map Half.To) st := by
  intro nbs
  induction nbs with
  | nil => intro st; rfl
  | cons nb rest ih =>
    intro st
    simp only [ccrLoopLabeled, List.map_cons, ccrLoop]
    split
    · exact ih st
    · cases rec nb.To st with
      | error e => rfl
      | ok st1 => exact ih st1

theorem ccrDfLabeled_eq (g : LabeledAdjacencyList) :
    ∀ (fuel n : Nat) (st : CCRState), ccrDfLabeled g fuel n st = ccrDf (unlabel g) fuel n st := by
  intro fuel
  induction fuel with
  | zero => intro n st; rfl
  | succ fuel ih =>
    intro n st
    have hrec : ccrDfLabeled g fuel = ccrDf (unlabel g) fuel := by
      funext n st; exact ih n st
    rw [ccrDfLabeled, ccrDf, hrec]
    have hu : (unlabel g)[n]? = (g[n]?).map (fun nbs => nbs.map Half.To) := by
      unfold unlabel; rw [List.getElem?_map]
    rw [hu]
    cases g[n]? with
    | none => rfl
    | some nbs =>
      simp only [Option.map_some']
      exact ccrLoopLabeled_eq _ nbs _

theorem ccrMainLabeled_eq (g : LabeledAdjacencyList) (fuel : Nat) :
    ∀ (ns : List Nat) (st : CCRState),
      ccrMainLabeled g fuel ns st = ccrMain (unlabel g) fuel ns st := by
  intro ns
  induction ns with
  | nil => intro st; rfl
  | cons n rest ih =>
    intro st
    simp only [ccrMainLabeled, ccrMain, ccrDfLabeled_eq]
    split
    · exact ih _
    · cases ccrDf (unlabel g) fuel n { st with reps := st.reps ++ [n], o := 0 } with
      | error e => rfl
      | ok st1 => exact ih _

/-- LabeledUndirected.ConnectedComponentReps returns on a labeled graph what
AdjacencyList.ConnectedComponentReps returns on the graph without the labels. -/
theorem connectedComponentReps_labeled_eq (g : LabeledAdjacencyList) (fuel : Nat) :
    LabeledUndirected.ConnectedComponentReps g fuel =
      ConnectedComponentReps (unlabel g) fuel := by
  unfold LabeledUndirected.ConnectedComponentReps ConnectedComponentReps
  have hl : (unlabel g).length = g.length := by unfold unlabel; simp
  rw [hl, ccrMainLabeled_eq]

theorem ccrLoop_ccl (rec : Nat → CCLState → Except Err CCLState)
    (rrec : Nat → CCRState → Except Err CCRState) (reps orders : List Nat)
    (hrec : ∀ n st st1, rec n st = .ok st1 →
      rrec n ⟨st.vg, st.m.length, reps, orders⟩ = .ok ⟨st1.vg, st1.m.length, reps, orders⟩) :
    ∀ (nbs : List Nat) (st st1 : CCLState), cclLoop rec nbs st = .ok st1 →
      ccrLoop rrec nbs ⟨st.vg, st.m.length, reps, orders⟩ =
        .ok ⟨st1.vg, st1.m.length, reps, orders⟩ := by
  intro nbs
  induction nbs with
  | nil =>
    intro st st1 h
    simp only [cclLoop, Except.ok.injEq] at h
    subst h; rfl
  | cons nb rest ih =>
    intro st st1 h
    rw [cclLoop] at h
    rw [ccrLoop]
    split at h
    · rename_i hb
      simp only [hb, if_true]
      exact ih st st1 h
    · rename_i hb
      have hb' := bool_eq_false_of_not hb
      simp only [hb', Bool.false_eq_true, if_false]
      cases h1 : rec nb st with
      | error e => simp [h1] at h
      | ok st2 =>
        simp only [h1] at h
        rw [hrec nb st st2 h1]
        exact ih st2 st1 h

/-- The closure df of ConnectedComponentReps does to c what df of ConnectedComponentLists
does to vg, and it counts in o the nodes that the other appends to m. -/
theorem ccrDf_ccl (g : AdjacencyList) (reps orders : List Nat) :
    ∀ (fuel n : Nat) (st st1 : CCLState), cclDf g fuel n st = .ok st1 →
      ccrDf g fuel n ⟨st.vg, st.m.length, reps, orders⟩ =
        .ok ⟨st1.vg, st1.m.length, reps, orders⟩ := by
  intro fuel
  induction fuel with
  | zero => intro n st st1 h; simp [cclDf] at h
  | succ fuel ih =>
    intro n st st1 h
    rw [cclDf] at h
    rw [ccrDf]
    cases hg : g[n]? with
    | none => simp [hg] at h
    | some nbs =>
      simp only [hg] at h ⊢
      have := ccrLoop_ccl (cclDf g fuel) (ccrDf g fuel) reps orders ih nbs _ st1 h
      simpa using this

/-- The loop of ConnectedComponentReps collects the first nodes and the lengths of the
components that the search over the same nodes finds. -/
theorem ccrMain_ccAll (g : AdjacencyList) (fuel : Nat) :
    ∀ (ns : List Nat) (vg o : Nat) (reps orders : List Nat) (ls : List (List Nat)) (vgf : Nat),
      ccAll g fuel ns vg = .ok (ls, vgf) →
      ∃ o1, ccrMain g fuel ns ⟨vg, o, reps, orders⟩ =
        .ok ⟨vgf, o1, reps ++ ls.map (fun l => l.head?.getD 0), orders ++ ls.map List.length⟩ := by
  intro ns
  induction ns with
  | nil =>
    intro vg o reps orders ls vgf h
    simp only [ccAll, Except.ok.injEq, Prod.mk.injEq] at h
    obtain ⟨h1, h2⟩ := h
    subst h1; subst h2
    exact ⟨o, by simp [ccrMain]⟩
  | cons n rest ih =>
    intro vg o reps orders ls vgf h
    rw [ccAll] at h
    rw [ccrMain]
    by_cases hb : Bit vg n = true
    · simp only [hb, if_true] at h ⊢
      exact ih vg o reps orders ls vgf h
    · have hb' := bool_eq_false_of_not hb
      simp only [hb', Bool.false_eq_true, if_false] at h ⊢
      cases h1 : cclDf g fuel n ⟨vg, [], n⟩ with
      | error e => simp [h1] at h
      | ok s1 =>
        simp only [h1] at h
        cases h2 : ccAll g fuel rest s1.vg with
        | error e => simp [h2] at h
        | ok r =>
          obtain ⟨ls2, vg2⟩ := r
          simp only [h2, Except.ok.injEq, Prod.mk.injEq] at h
          obtain ⟨hls, hvg⟩ := h
          have hsim := ccrDf_ccl g (reps ++ [n]) orders fuel n _ s1 h1
          simp only [List.length_nil] at hsim
          rw [hsim]
          simp only
          obtain ⟨o1, ho1⟩ := ih s1.vg s1.m.length (reps ++ [n]) (orders ++ [s1.m.length])
            ls2 vg2 h2
          refine ⟨o1, ?_⟩
          rw [ho1, ← hls, ← hvg]
          obtain ⟨t, ht⟩ := cclDf_prefix g fuel n _ s1 h1
          simp only [List.nil_append] at ht
          simp [ht]

theorem componentLists_sum (g : AdjacencyList) (hb : BoundsValid g) (ls : List (List Nat))
    (h : ComponentLists g ls) : (ls.map List.length).sum = g.length := by
  obtain ⟨h1, h2, h3⟩ := h
  rw [← List.length_flatten]
  have hnd : ls.flatten.Nodup := by
    rw [List.nodup_flatten]
    exact ⟨fun l hl => (h1 l hl).1, h2.imp (fun hab => hab.2)⟩
  have hperm : ls.flatten.Perm (List.range g.length) := by
    rw [List.perm_ext_iff_of_nodup hnd (List.nodup_range _)]
    intro v
    rw [List.mem_flatten, List.mem_range]
    constructor
    · rintro ⟨l, hl, hv⟩
      obtain ⟨_, r, _, hr, hmem, _⟩ := h1 l hl
      exact reach_lt g hb r v hr ((hmem v).1 hv)
    · exact h3 v
  rw [hperm.length_eq, List.length_range]

/-- C25: for every undirected graph g (symmetric neighbour slices) and recursion budget
above len(g) there is a list ls of node lists, the connected components of g, such that the
first k calls of the function that ConnectedComponentLists returns give the lists of ls in
order and nil from then on.  Every list of ls is non-empty and duplicate-free, holds
exactly the nodes that its first node reaches, and its first node is its smallest; the first
nodes increase along ls, the lists are pairwise disjoint, and every node of g is in one of
them.  LabeledUndirected.ConnectedComponentLists gives on a labeled graph what
AdjacencyList.ConnectedComponentLists gives on the graph without the labels. -/
theorem connectedComponentLists_components (g : AdjacencyList) (fuel : Nat)
    (hs : Undirected g) (hfuel : g.length < fuel) :
    ∃ ls : List (List Nat),
      (∀ k, ConnectedComponentLists g fuel k =
        .ok ((ls ++ List.replicate (k - ls.length) []).take k)) ∧
      (∀ l ∈ ls, l ≠ [] ∧ l.Nodup ∧ ∃ r, l.head? = some r ∧ r < g.length ∧
        (∀ v, v ∈ l ↔ Reach g r v) ∧ ∀ v ∈ l, r ≤ v) ∧
      ls.Pairwise (fun l1 l2 => l1.head?.getD 0 < l2.head?.getD 0 ∧ l1.Disjoint l2) ∧
      (∀ v, v < g.length → ∃ l ∈ ls, v ∈ l) ∧
      ∀ (lg : LabeledAdjacencyList) (f k : Nat),
        LabeledUndirected.ConnectedComponentLists lg f k =
          ConnectedComponentLists (unlabel lg) f k := by
  obtain ⟨ls, vgf, hrun, h1, h2, h3⟩ := ccAll_components g hs fuel hfuel
  refine ⟨ls, ?_, ?_, h2, h3, connectedComponentLists_labeled_eq⟩
  · intro k
    exact callsOf_ccAll g fuel k ⟨0, [], 0⟩ ls vgf hrun
  · intro l hl
    obtain ⟨hnd, r, hr⟩ := h1 l hl
    refine ⟨?_, hnd, r, hr⟩
    intro hnil
    rw [hnil] at hr
    cases hr.1

theorem connectedComponentLists_components_witness :
    Undirected [[3, 4], [5], [], [0, 4], [0, 3], [1]] ∧
    ∃ ls : List (List Nat),
      (∀ k, ConnectedComponentLists [[3, 4], [5], [], [0, 4], [0, 3], [1]] 7 k =
        .ok ((ls ++ List.replicate (k - ls.length) []).take k)) ∧
      (∀ l ∈ ls, l ≠ [] ∧ l.Nodup ∧ ∃ r, l.head? = some r ∧
        r < [[3, 4], [5], [], [0, 4], [0, 3], [1]].length ∧
        (∀ v, v ∈ l ↔ Reach [[3, 4], [5], [], [0, 4], [0, 3], [1]] r v) ∧ ∀ v ∈ l, r ≤ v) ∧
      ls.Pairwise (fun l1 l2 => l1.head?.getD 0 < l2.head?.getD 0 ∧ l1.Disjoint l2) ∧
      (∀ v, v < [[3, 4], [5], [], [0, 4], [0, 3], [1]].length → ∃ l ∈ ls, v ∈ l) ∧
      ∀ (lg : LabeledAdjacencyList) (f k : Nat),
        LabeledUndirected.ConnectedComponentLists lg f k =
          ConnectedComponentLists (unlabel lg) f k :=
  ⟨by decide, connectedComponentLists_components [[3, 4], [5], [], [0, 4], [0, 3], [1]] 7
    (by decide) (by decide)⟩

/-- C26: for every undirected graph g (symmetric neighbour slices) and recursion budget
above len(g), ConnectedComponentReps returns slices reps and orders of equal length; reps
is strictly increasing and holds exactly the nodes of g that are the smallest of the nodes
they reach, one for each connected component; orders[i] is the number of nodes that reps[i]
reaches; and the orders sum to len(g).  LabeledUndirected.ConnectedComponentReps returns on
a labeled graph what AdjacencyList.ConnectedComponentReps returns on the graph without the
labels. -/
theorem connectedComponentReps_components (g : AdjacencyList) (fuel : Nat)
    (hs : Undirected g) (hfuel : g.length < fuel) :
    ∃ reps orders, ConnectedComponentReps g fuel = .ok (reps, orders) ∧
      reps.length = orders.length ∧ reps.Pairwise (fun a b => a < b) ∧
      (∀ r, r ∈ reps ↔ (r < g.length ∧ ∀ v, Reach g r v → r ≤ v)) ∧
      (∀ i, i < reps.length →
        orders.getD i 0 = Set.ncard {v | Reach g (reps.getD i 0) v}) ∧
      orders.sum = g.length ∧
      ∀ (lg : LabeledAdjacencyList) (f : Nat),
        LabeledUndirected.ConnectedComponentReps lg f =
          ConnectedComponentReps (unlabel lg) f := by
  obtain ⟨ls, vgf, hrun, hcomp⟩ := ccAll_components g hs fuel hfuel
  obtain ⟨o1, hmain⟩ := ccrMain_ccAll g fuel _ 0 0 [] [] ls vgf hrun
  have hb := boundsValid_of_undirected g hs
  obtain ⟨h1, h2, h3⟩ := hcomp
  refine ⟨ls.map (fun l => l.head?.getD 0), ls.map List.length, ?_, by simp, ?_, ?_, ?_,
    componentLists_sum g hb ls ⟨h1, h2, h3⟩, connectedComponentReps_labeled_eq⟩
  · unfold ConnectedComponentReps
    rw [List.range_eq_range', hmain]
    simp
  · rw [List.pairwise_map]
    exact h2.imp (fun hab => hab.1)
  · intro r
    rw [List.mem_map]
    constructor
    · rintro ⟨l, hl, rfl⟩
      obtain ⟨_, r, hr1, hr2, hmem, hmin⟩ := h1 l hl
      rw [hr1]
      simp only [Option.getD_some]
      exact ⟨hr2, fun v hv => hmin v ((hmem v).2 hv)⟩
    · rintro ⟨hr, hmin⟩
      obtain ⟨l, hl, hrl⟩ := h3 r hr
      obtain ⟨_, r1, hr1, _, hmem, hmin1⟩ := h1 l hl
      refine ⟨l, hl, ?_⟩
      rw [hr1]
      simp only [Option.getD_some]
      have e1 := hmin1 r hrl
      have e2 := hmin r1 (reach_symm g hs r1 r ((hmem r).1 hrl))
      omega
  · intro i hi
    simp only [List.length_map] at hi
    rw [List.getD_eq_getElem?_getD, List.getD_eq_getElem?_getD, List.getElem?_map,
      List.getElem?_map, List.getElem?_eq_getElem hi]
    simp only [Option.map_some', Option.getD_some]
    obtain ⟨hnd, r, hr1, _, hmem, _⟩ := h1 ls[i] (List.getElem_mem hi)
    rw [hr1]
    simp only [Option.getD_some]
    have hset : {v | Reach g r v} = ((ls[i]).toFinset : Set Nat) := by
      ext v
      simp only [Set.mem_setOf_eq, List.coe_toFinset]
      exact (hmem v).symm
    rw [hset, Set.ncard_coe_Finset, List.toFinset_card_of_nodup hnd]

theorem connectedComponentReps_components_witness :
    Undirected [[3, 4], [5], [], [0, 4], [0, 3], [1]] ∧
    ∃ reps orders,
      ConnectedComponentReps [[3, 4], [5], [], [0, 4], [0, 3], [1]] 7 = .ok (reps, orders) ∧
      reps.length = orders.length ∧ reps.Pairwise (fun a b => a < b) ∧
      (∀ r, r ∈ reps ↔ (r < [[3, 4], [5], [], [0, 4], [0, 3], [1]].length ∧
        ∀ v, Reach [[3, 4], [5], [], [0, 4], [0, 3], [1]] r v → r ≤ v)) ∧
      (∀ i, i < reps.length →
        orders.getD i 0 =
          Set.ncard {v | Reach [[3, 4], [5], [], [0, 4], [0, 3], [1]] (reps.getD i 0) v}) ∧
      orders.sum = [[3, 4], [5], [], [0, 4], [0, 3], [1]].length ∧
      ∀ (lg : LabeledAdjacencyList) (f : Nat),
        LabeledUndirected.ConnectedComponentReps lg f =
          ConnectedComponentReps (unlabel lg) f :=
  ⟨by decide, connectedComponentReps_components [[3, 4], [5], [], [0, 4], [0, 3], [1]] 7
    (by decide) (by decide)⟩

theorem pathEnd_getD_set (p : List PathEnd) (i v : Nat) (e : PathEnd) :
    (p.set i e).getD v ⟨-1, 0⟩ = if v = i ∧ i < p.length then e else p.getD v ⟨-1, 0⟩ := by
  rw [List.getD_eq_getElem?_getD, List.getD_eq_getElem?_getD, List.getElem?_set]
  by_cases hvi : i = v
  · subst hvi
    by_cases hi : i < p.length
    · simp [hi]
    · simp [hi, List.getElem?_eq_none (Nat.le_of_not_lt hi)]
  · have : ¬ v = i := fun h => hvi h.symm
    simp [hvi, this]

theorem flLen_set (p : List PathEnd) (i v : Nat) (e : PathEnd) :
    flLen (p.set i e) v = if v = i ∧ i < p.length then e.Len else flLen p v := by
  unfold flLen
  rw [pathEnd_getD_set]
  split <;> rfl

theorem flFrom_set (p : List PathEnd) (i v : Nat) (e : PathEnd) :
    flFrom (p.set i e) v = if v = i ∧ i < p.length then e.From else flFrom p v := by
  unfold flFrom
  rw [pathEnd_getD_set]
  split <;> rfl

theorem flLen_lt (p : List PathEnd) (v : Nat) (h : 0 < flLen p v) : v < p.length := by
  by_contra hcon
  unfold flLen at h
  rw [List.getD_eq_getElem?_getD, List.getElem?_eq_none (Nat.le_of_not_lt hcon)] at h
  simp at h

theorem flExt_refl (p : List PathEnd) : FlExt p p := fun _ _ => rfl

theorem flExt_len (p p1 : List PathEnd) (h : FlExt p p1) (v : Nat) (hv : 0 < flLen p v) :
    flLen p1 v = flLen p v := by
  unfold flLen; rw [h v hv]

theorem flExt_from (p p1 : List PathEnd) (h : FlExt p p1) (v : Nat) (hv : 0 < flLen p v) :
    flFrom p1 v = flFrom p v := by
  unfold flFrom; rw [h v hv]

theorem flExt_vis (p p1 : List PathEnd) (h : FlExt p p1) (v : Nat) (hv : 0 < flLen p v) :
    0 < flLen p1 v := by
  rw [flExt_len p p1 h v hv]; exact hv

theorem flExt_trans (p p1 p2 : List PathEnd) (h1 : FlExt p p1) (h2 : FlExt p1 p2) :
    FlExt p p2 := by
  intro v hv
  rw [h2 v (flExt_vis p p1 h1 v hv), h1 v hv]

theorem flExt_unvis (p p1 : List PathEnd) (h : FlExt p p1) (v : Nat) (hv : flLen p1 v = 0) :
    flLen p v = 0 := by
  by_contra hcon
  have := flExt_vis p p1 h v (Nat.pos_of_ne_zero hcon)
  omega

/-- Marking a node not yet reached keeps the entries of the nodes reached. -/
theorem flExt_set (p : List PathEnd) (t : Nat) (e : PathEnd) (ht : flLen p t = 0) :
    FlExt p (p.set t e) := by
  intro v hv
  rw [pathEnd_getD_set]
  split
  · rename_i h
    rw [h.1, ht] at hv
    exact absurd hv (Nat.lt_irrefl 0)
  · rfl

theorem flDone_ext (G : AdjacencyList) (p p1 : List PathEnd) (h : FlExt p p1) (u : Nat)
    (hu : 0 < flLen p u) (hd : FlDone G p u) : FlDone G p1 u := by
  intro w hw
  rcases hd w hw with h1 | ⟨h1, h2, h3⟩
  · left; rw [flExt_from p p1 h u hu]; exact h1
  · right
    exact ⟨flExt_vis p p1 h w h1, by rw [flExt_from p p1 h w h1]; exact h2, h3⟩

theorem flWhite_le (G : AdjacencyList) (p p1 : List PathEnd) (h : FlExt p p1) :
    flWhite G p1 ≤ flWhite G p := by
  unfold flWhite
  apply Finset.card_le_card
  intro v hv
  simp only [Finset.mem_filter, Finset.mem_range] at hv ⊢
  exact ⟨hv.1, flExt_unvis p p1 h v hv.2⟩

theorem flWhite_set_lt (G : AdjacencyList) (p : List PathEnd) (t : Nat) (e : PathEnd)
    (hlen : p.length = G.length) (ht : t < G.length) (h0 : flLen p t = 0) (he : 0 < e.Len) :
    flWhite G (p.set t e) < flWhite G p := by
  unfold flWhite
  apply Finset.card_lt_card
  rw [Finset.ssubset_iff_of_subset]
  · refine ⟨t, ?_, ?_⟩
    · simp [ht, h0]
    · simp only [Finset.mem_filter, Finset.mem_range, not_and]
      intro _
      rw [flLen_set]
      simp only [true_and, hlen, ht, if_true]
      omega
  · intro v hv
    simp only [Finset.mem_filter, Finset.mem_range] at hv ⊢
    exact ⟨hv.1, flExt_unvis p _ (flExt_set p t e h0) v hv.2⟩

theorem symmetric_arc (G : AdjacencyList) (hs : SymmetricArcs G) (u v : Nat) (h : Arc G u v) :
    Arc G v u := by
  rw [arc_iff_arcCount] at h ⊢
  rw [← hs u v]; exact h

theorem reach_symm_arcs (G : AdjacencyList) (hs : SymmetricArcs G) (u v : Nat)
    (h : Reach G u v) : Reach G v u := by
  induction h with
  | refl => exact Relation.ReflTransGen.refl
  | tail _ hstep ih => exact Relation.ReflTransGen.head (symmetric_arc G hs _ _ hstep) ih

/-- Every node reached lies in the connected component of root. -/
theorem flInv_reach (G : AdjacencyList) (root : Nat) (p : List PathEnd) (h : FlInv G root p) :
    ∀ (k v : Nat), flLen p v = k → 0 < k → Reach G root v := by
  intro k
  induction k using Nat.strong_induction_on with
  | _ k ih =>
    intro v hv hk
    by_cases hr : v = root
    · rw [hr]; exact Relation.ReflTransGen.refl
    · obtain ⟨u, _, hu2, hu3, hu4⟩ := h.par v (by omega) hr
      exact Relation.ReflTransGen.tail (ih (flLen p u) (by omega) u rfl hu2) hu3

theorem flInv_root_from (G : AdjacencyList) (root : Nat) (p : List PathEnd)
    (h : FlInv G root p) : flFrom p root = -1 ∧ flLen p root = 1 := by
  unfold flFrom flLen
  rw [h.rootEnd]
  exact ⟨rfl, rfl⟩

/-- A node reached whose From is the node a has an arc from a and Len one more. -/
theorem flInv_from (G : AdjacencyList) (root : Nat) (p : List PathEnd) (h : FlInv G root p)
    (a b : Nat) (hb : 0 < flLen p b) (hf : flFrom p b = (a : Int)) :
    Arc G a b ∧ 0 < flLen p a ∧ flLen p b = flLen p a + 1 := by
  have hr : b ≠ root := by
    intro hbr
    rw [hbr, (flInv_root_from G root p h).1] at hf
    omega
  obtain ⟨u, hu1, hu2, hu3, hu4⟩ := h.par b hb hr
  have : u = a := by rw [hu1] at hf; exact Int.ofNat.inj hf
  subst this
  exact ⟨hu3, hu2, hu4⟩

/-- The test "p[to.To].Len > 0" of df of FromList finds a node on a loop, on a parallel
edge or on a cycle: when df runs for n, has gone through the arcs done of n, and the next
arc leads to a node t reached already that is not fr, then t is n, or a node whose call is
pending below the one before n, or a node reached from n by an arc of done. -/
theorem fl_conflict (G : AdjacencyList) (hs : SymmetricArcs G) (root : Nat)
    (p : List PathEnd) (stack : List Nat) (fr : Int) (n : Nat)
    (hinv : FlInv G root p) (hst : FlStack p stack fr n) (hfin : FlFin G p stack)
    (done rest : List Nat) (t : Nat) (hrow : G[n]? = some (done ++ t :: rest))
    (hb : ∀ w, 0 < flLen p w → flFrom p w = (n : Int) → done.count w = 1)
    (htfr : (t : Int) ≠ fr) (hvis : 0 < flLen p t) :
    Reach G root t ∧ OnCycle G t := by
  refine ⟨flInv_reach G root p hinv _ t rfl hvis, ?_⟩
  have harc : Arc G n t := ⟨_, hrow, by simp⟩
  by_cases htn : t = n
  · left; rw [htn] at harc ⊢; exact harc
  by_cases hts : t ∈ stack
  · right; right
    obtain ⟨pre, post, hsplit⟩ := List.append_of_mem hts
    have hlast := hst.last
    have hchain : List.Chain' (fun a b => flFrom p b = (a : Int) ∧ 0 < flLen p b) (t :: post) := by
      have := hst.chain
      rw [hsplit] at this
      exact this.right_of_append
    have hnd : (t :: post).Nodup := by
      have := hst.nodup
      rw [hsplit] at this
      exact this.of_append_right
    have hpl : (t :: post).getLast? = some n := by
      rw [hsplit, List.getLast?_append_of_ne_nil _ (by simp)] at hlast
      exact hlast
    have harcs : List.Chain' (Arc G) (t :: post) :=
      hchain.imp (fun a b hab => (flInv_from G root p hinv a b hab.2 hab.1).1)
    refine ⟨t :: post, ?_, hnd, ⟨by simp, harcs, ?_⟩, List.mem_cons_self _ _⟩
    · cases post with
      | nil =>
        simp only [List.getLast?_singleton, Option.some.injEq] at hpl
        exact absurd hpl htn
      | cons x post1 =>
        cases post1 with
        | nil =>
          exfalso
          simp only [List.getLast?_cons_cons, List.getLast?_singleton, Option.some.injEq] at hpl
          rw [List.chain'_cons] at hchain
          have := hchain.1.1
          rw [hpl, hst.frm] at this
          exact htfr this.symm
        | cons y post2 => simp
    · intro first last hf hl
      simp only [List.head?_cons, Option.some.injEq] at hf
      rw [hpl] at hl
      simp only [Option.some.injEq] at hl
      rw [← hf, ← hl]
      exact harc
  · right; left
    have hdone := hfin t hvis hts
    have hcount : 2 ≤ arcCount G n t := by
      have hchild : flFrom p t = (n : Int) := by
        rcases hdone n (symmetric_arc G hs n t harc) with h | ⟨_, h, _⟩
        · exact h.symm
        · exfalso
          rw [hst.frm] at h
          exact htfr h.symm
      have := hb t hvis hchild
      unfold arcCount
      rw [List.getD_eq_getElem?_getD, hrow]
      simp only [Option.getD_some, List.count_append, List.count_cons_self]
      omega
    exact ⟨n, by rw [hs t n]; exact hcount⟩

theorem flStack_ext (p p1 : List PathEnd) (stack : List Nat) (fr : Int) (n : Nat)
    (h : FlStack p stack fr n) (he : FlExt p p1) : FlStack p1 stack fr n := by
  have hn : n ∈ stack := List.mem_of_getLast?_eq_some h.last
  refine ⟨h.last, ?_, fun s hs => flExt_vis p p1 he s (h.vis s hs), h.nodup, ?_⟩
  · exact h.chain.imp (fun a b hab =>
      ⟨by rw [flExt_from p p1 he b hab.2]; exact hab.1, flExt_vis p p1 he b hab.2⟩)
  · rw [flExt_from p p1 he n (h.vis n hn)]; exact h.frm

/-- The statement "p[to.To] = PathEnd{From: n, Len: l}" of df of FromList, for a node t
not yet reached with an arc from n: the invariant holds again, t joins the pending nodes,
and no node has t in From. -/
theorem fl_mark (G : AdjacencyList) (root : Nat) (p : List PathEnd) (stack : List Nat)
    (fr : Int) (n t : Nat) (hinv : FlInv G root p) (hst : FlStack p stack fr n)
    (hfin : FlFin G p stack) (ht : flLen p t = 0) (htN : t < G.length) (harc : Arc G n t) :
    FlInv G root (p.set t ⟨n, flLen p n + 1⟩) ∧
    FlStack (p.set t ⟨n, flLen p n + 1⟩) (stack ++ [t]) n t ∧
    FlFin G (p.set t ⟨n, flLen p n + 1⟩) (stack ++ [t]) ∧
    (∀ w, 0 < flLen (p.set t ⟨n, flLen p n + 1⟩) w →
      flFrom (p.set t ⟨n, flLen p n + 1⟩) w ≠ (t : Int)) ∧
    FlExt p (p.set t ⟨n, flLen p n + 1⟩) := by
  have hext : FlExt p (p.set t ⟨n, flLen p n + 1⟩) := flExt_set p t _ ht
  have hn : n ∈ stack := List.mem_of_getLast?_eq_some hst.last
  have hnv : 0 < flLen p n := hst.vis n hn
  have htl : t < p.length := by rw [hinv.len]; exact htN
  have hlt : flLen (p.set t ⟨n, flLen p n + 1⟩) t = flLen p n + 1 := by
    rw [flLen_set]; simp [htl]
  have hft : flFrom (p.set t ⟨n, flLen p n + 1⟩) t = (n : Int) := by
    rw [flFrom_set]; simp [htl]
  have hold : ∀ w, w ≠ t → flLen (p.set t ⟨n, flLen p n + 1⟩) w = flLen p w ∧
      flFrom (p.set t ⟨n, flLen p n + 1⟩) w = flFrom p w := by
    intro w hw
    rw [flLen_set, flFrom_set]
    simp [hw]
  have htr : t ≠ root := by
    intro h
    rw [h, (flInv_root_from G root p hinv).2] at ht
    cases ht
  have htn : t ≠ n := by
    intro h
    rw [h] at ht; omega
  refine ⟨⟨by rw [List.length_set]; exact hinv.len, ?_, ?_, ?_⟩, ⟨?_, ?_, ?_, ?_, hft⟩, ?_, ?_,
    hext⟩
  · rw [pathEnd_getD_set]
    simp only [Ne.symm htr, false_and, if_false]
    exact hinv.rootEnd
  · intro v hv
    by_cases hvt : v = t
    · rw [hvt, hlt] at hv; omega
    · rw [(hold v hvt).2]
      rw [(hold v hvt).1] at hv
      exact hinv.unvis v hv
  · intro v hv hvr
    by_cases hvt : v = t
    · subst hvt
      refine ⟨n, hft, ?_, harc, ?_⟩
      · rw [(hold n (Ne.symm htn)).1]; exact hnv
      · rw [hlt, (hold n (Ne.symm htn)).1]
    · rw [(hold v hvt).1] at hv
      obtain ⟨u, hu1, hu2, hu3, hu4⟩ := hinv.par v hv hvr
      have hut : u ≠ t := by
        intro h; rw [h] at hu2; omega
      exact ⟨u, by rw [(hold v hvt).2]; exact hu1, by rw [(hold u hut).1]; exact hu2, hu3,
        by rw [(hold v hvt).1, (hold u hut).1]; exact hu4⟩
  · simp
  · rw [List.chain'_append]
    refine ⟨(flStack_ext p _ stack fr n hst hext).chain, List.chain'_singleton _, ?_⟩
    intro x hx y hy
    simp only [List.head?_cons, Option.mem_def, Option.some.injEq] at hy
    rw [hst.last] at hx
    simp only [Option.mem_def, Option.some.injEq] at hx
    rw [← hy, ← hx]
    exact ⟨hft, by rw [hlt]; omega⟩
  · intro s hs
    rcases List.mem_append.1 hs with h | h
    · exact flExt_vis p _ hext s (hst.vis s h)
    · rw [List.mem_singleton] at h
      rw [h, hlt]; omega
  · rw [List.nodup_append]
    refine ⟨hst.nodup, List.nodup_singleton _, ?_⟩
    intro a ha hb
    rw [List.mem_singleton] at hb
    have := hst.vis a ha
    rw [hb, ht] at this
    exact absurd this (Nat.lt_irrefl 0)
  · intro w hw hws
    have hwt : w ≠ t := fun h => hws (by rw [h]; simp)
    rw [(hold w hwt).1] at hw
    exact flDone_ext G p _ hext w hw (hfin w hw (fun h => hws (List.mem_append_left _ h)))
  · intro w hw
    by_cases hwt : w = t
    · rw [hwt, hft]
      intro h
      exact htn (Int.ofNat.inj h).symm
    · rw [(hold w hwt).1] at hw
      rw [(hold w hwt).2]
      intro h
      obtain ⟨_, h2, _⟩ := flInv_from G root p hinv t w hw h
      omega

theorem flLen_of_getElem? (p : List PathEnd) (v : Nat) (e : PathEnd) (h : p[v]? = some e) :
    flLen p v = e.Len ∧ flFrom p v = e.From := by
  unfold flLen flFrom
  rw [List.getD_eq_getElem?_getD, h]
  exact ⟨rfl, rfl⟩

/-- The loop of df of FromList over the arcs of n still to come, after the arcs done. -/
theorem flLoop_spec (g : LabeledAdjacencyList) (hs : SymmetricArcs (unlabel g)) (root fuel : Nat)
    (ih : FlDfSpec g root fuel) (fr : Int) (n l : Nat) (stack : List Nat) :
    ∀ (rest done : List Half) (st : FLState),
      g[n]? = some (done ++ rest) → FlInv (unlabel g) root st.p → FlStack st.p stack fr n →
      FlFin (unlabel g) st.p stack → l = flLen st.p n + 1 →
      (∀ t ∈ done, (t.To : Int) = fr ∨ (0 < flLen st.p t.To ∧ flFrom st.p t.To = (n : Int))) →
      (∀ w, 0 < flLen st.p w → flFrom st.p w = (n : Int) → (done.map Half.To).count w = 1) →
      flWhite (unlabel g) st.p ≤ fuel →
      ∃ st1 b, flLoop (flDf g fuel) fr n l rest st = .ok (st1, b) ∧
        (b = true → FlInv (unlabel g) root st1.p ∧ FlExt st.p st1.p ∧
          FlFin (unlabel g) st1.p stack ∧
          (∀ t ∈ done ++ rest,
            (t.To : Int) = fr ∨ (0 < flLen st1.p t.To ∧ flFrom st1.p t.To = (n : Int))) ∧
          (∀ w, 0 < flLen st1.p w → flFrom st1.p w = (n : Int) →
            ((done ++ rest).map Half.To).count w = 1) ∧
          ∀ w, 0 < flLen st1.p w → flLen st.p w = 0 →
            flFrom st1.p w = (n : Int) ∨
              ∃ u : Nat, flFrom st1.p w = (u : Int) ∧ flLen st.p u = 0) ∧
        (b = false → ∃ c : Nat, st1.cycle = (c : Int) ∧ Reach (unlabel g) root c ∧
          OnCycle (unlabel g) c) := by
  have hbv := boundsValid_of_symmetric (unlabel g) hs
  intro rest
  induction rest with
  | nil =>
    intro done st hrow hinv hst hfin hl ha hb hw
    refine ⟨st, true, rfl, fun _ => ?_, fun h => by cases h⟩
    rw [List.append_nil]
    refine ⟨hinv, flExt_refl _, hfin, ha, hb, ?_⟩
    intro w h1 h2
    omega
  | cons t rest ihl =>
    intro done st hrow hinv hst hfin hl ha hb hw
    have hn : n ∈ stack := List.mem_of_getLast?_eq_some hst.last
    have hnv : 0 < flLen st.p n := hst.vis n hn
    have hrow' : g[n]? = some ((done ++ [t]) ++ rest) := by
      rw [hrow]; simp
    have hrowG : (unlabel g)[n]? =
        some (done.map Half.To ++ t.To :: rest.map Half.To) := by
      rw [unlabel_getElem?, hrow]; simp
    have harc : Arc (unlabel g) n t.To := ⟨_, hrowG, by simp⟩
    have htN : t.To < (unlabel g).length := arc_lt_right _ hbv n t.To harc
    rw [flLoop]
    by_cases hfr : (t.To : Int) = fr
    · simp only [hfr, if_true]
      obtain ⟨st1, b, hrun, hsucc, hfail⟩ := ihl (done ++ [t]) st hrow' hinv hst hfin hl
        (by
          intro x hx
          rcases List.mem_append.1 hx with h | h
          · exact ha x h
          · rw [List.mem_singleton] at h
            rw [h]; exact Or.inl hfr)
        (by
          intro w hwv hwf
          have hne : t.To ≠ w := by
            intro h
            have h1 := flInv_from (unlabel g) root st.p hinv n w hwv hwf
            have h2 := flInv_from (unlabel g) root st.p hinv w n hnv
              (by rw [hst.frm, ← hfr, h])
            omega
          rw [List.map_append, List.count_append, hb w hwv hwf]
          simp [List.count_cons, hne])
        hw
      refine ⟨st1, b, hrun, ?_, hfail⟩
      intro hbt
      have := hsucc hbt
      rw [List.append_assoc] at this
      exact this
    · simp only [hfr, if_false]
      have htl : t.To < st.p.length := by rw [hinv.len]; exact htN
      rw [List.getElem?_eq_getElem htl]
      simp only
      obtain ⟨he1, he2⟩ := flLen_of_getElem? st.p t.To _ (List.getElem?_eq_getElem htl)
      by_cases hvis : (st.p[t.To]).Len > 0
      · simp only [hvis, if_true]
        refine ⟨_, false, rfl, fun h => (by cases h), fun _ => ?_⟩
        obtain ⟨h1, h2⟩ := fl_conflict (unlabel g) hs root st.p stack fr n hinv hst hfin
          (done.map Half.To) (rest.map Half.To) t.To hrowG hb hfr (by rw [he1]; exact hvis)
        exact ⟨t.To, rfl, h1, h2⟩
      · simp only [hvis, if_false]
        have h0 : flLen st.p t.To = 0 := by rw [he1]; omega
        obtain ⟨m1, m2, m3, m4, m5⟩ :=
          fl_mark (unlabel g) root st.p stack fr n t.To hinv hst hfin h0 htN harc
        rw [← hl] at m1 m2 m3 m4 m5
        have hw1 : flWhite (unlabel g) (st.p.set t.To ⟨n, l⟩) < fuel :=
          lt_of_lt_of_le (flWhite_set_lt (unlabel g) st.p t.To _ hinv.len htN h0
            (by simp only; omega)) hw
        obtain ⟨st2, b2, hrun2, hsucc2, hfail2⟩ := ih n t.To
          ⟨st.p.set t.To ⟨n, l⟩, if l > st.ml then l else st.ml, st.cycle⟩ (stack ++ [t.To])
          m1 m2 m3 m4 hw1
        rw [hrun2]
        cases b2 with
        | false =>
          simp only
          exact ⟨st2, false, rfl, fun h => (by cases h), fun _ => hfail2 rfl⟩
        | true =>
          simp only
          obtain ⟨i1, i2, i3, i4⟩ := hsucc2 rfl
          simp only at i2 i4
          rw [List.dropLast_concat] at i3
          have hext : FlExt st.p st2.p := flExt_trans _ _ _ m5 i2
          have hlt : flLen (st.p.set t.To ⟨n, l⟩) t.To = l := by
            rw [flLen_set]; simp [htl]
          have hft : flFrom (st.p.set t.To ⟨n, l⟩) t.To = (n : Int) := by
            rw [flFrom_set]; simp [htl]
          have hvt : 0 < flLen (st.p.set t.To ⟨n, l⟩) t.To := by rw [hlt]; omega
          have hold : ∀ w, w ≠ t.To → flLen (st.p.set t.To ⟨n, l⟩) w = flLen st.p w := by
            intro w hwt
            rw [flLen_set]; simp [hwt]
          obtain ⟨st1, b, hrun, hsucc, hfail⟩ := ihl (done ++ [t]) st2 hrow' i1
            (flStack_ext _ _ stack fr n hst hext) i3
            (by rw [flExt_len _ _ hext n hnv]; exact hl)
            (by
              intro x hx
              rcases List.mem_append.1 hx with h | h
              · rcases ha x h with h1 | ⟨h1, h2⟩
                · exact Or.inl h1
                · exact Or.inr ⟨flExt_vis _ _ hext _ h1, by rw [flExt_from _ _ hext _ h1]; exact h2⟩
              · rw [List.mem_singleton] at h
                rw [h]
                exact Or.inr ⟨flExt_vis _ _ i2 _ hvt, by rw [flExt_from _ _ i2 _ hvt]; exact hft⟩)
            (by
              intro w hwv hwf
              rw [List.map_append, List.count_append]
              by_cases hwt : w = t.To
              · have hnot : t.To ∉ done.map Half.To := by
                  intro hmem
                  obtain ⟨x, hx1, hx2⟩ := List.mem_map.1 hmem
                  rcases ha x hx1 with h1 | ⟨h1, _⟩
                  · rw [hx2] at h1; exact hfr h1
                  · rw [hx2] at h1; omega
                rw [hwt, List.count_eq_zero_of_not_mem hnot]
                simp
              · by_cases hwo : 0 < flLen st.p w
                · rw [flExt_from _ _ hext w hwo] at hwf
                  rw [hb w hwo hwf]
                  simp [List.count_cons, Ne.symm hwt]
                · exfalso
                  have hw1' : flLen (st.p.set t.To ⟨n, l⟩) w = 0 := by
                    rw [hold w hwt]; omega
                  rcases i4 w hwv hw1' with h | ⟨u, hu1, hu2⟩
                  · rw [h] at hwf
                    have : t.To = n := Int.ofNat.inj hwf
                    rw [this] at h0
                    omega
                  · rw [hu1] at hwf
                    have : u = n := Int.ofNat.inj hwf
                    rw [this, hold n (by intro h; rw [h] at hnv; omega)] at hu2
                    omega)
            (le_trans (flWhite_le _ _ _ hext) hw)
          refine ⟨st1, b, hrun, ?_, hfail⟩
          intro hbt
          obtain ⟨j1, j2, j3, j4, j5, j6⟩ := hsucc hbt
          rw [List.append_assoc] at j4 j5
          refine ⟨j1, flExt_trans _ _ _ hext j2, j3, j4, j5, ?_⟩
          intro w hwv hw0
          by_cases hw2 : 0 < flLen st2.p w
          · rw [flExt_from _ _ j2 w hw2]
            by_cases hwt : w = t.To
            · left
              rw [hwt, flExt_from _ _ i2 _ hvt]
              exact hft
            · right
              have hw1' : flLen (st.p.set t.To ⟨n, l⟩) w = 0 := by
                rw [hold w hwt]; exact hw0
              rcases i4 w hw2 hw1' with h | ⟨u, hu1, hu2⟩
              · exact ⟨t.To, h, h0⟩
              · exact ⟨u, hu1, flExt_unvis _ _ m5 u hu2⟩
          · rcases j6 w hwv (by omega) with h | ⟨u, hu1, hu2⟩
            · exact Or.inl h
            · exact Or.inr ⟨u, hu1, flExt_unvis _ _ hext u hu2⟩

theorem mem_stack_cases (stack : List Nat) (n w : Nat) (h : stack.getLast? = some n)
    (hw : w ∈ stack) : w ∈ stack.dropLast ∨ w = n := by
  have hne : stack ≠ [] := by
    intro h0; rw [h0] at hw; cases hw
  have e : stack = stack.dropLast ++ [n] := by
    have h1 := List.dropLast_append_getLast hne
    have h2 : stack.getLast hne = n := by
      rw [List.getLast?_eq_getLast _ hne] at h
      exact Option.some.inj h
    rw [h2] at h1
    exact h1.symm
  rw [e] at hw
  rcases List.mem_append.1 hw with h1 | h1
  · exact Or.inl h1
  · exact Or.inr (List.mem_singleton.1 h1)

/-- Every call of df of FromList meets its specification, whatever the recursion budget
above the number of nodes not yet reached. -/
theorem flDf_spec (g : LabeledAdjacencyList) (hs : SymmetricArcs (unlabel g)) (root : Nat) :
    ∀ fuel, FlDfSpec g root fuel := by
  intro fuel
  induction fuel with
  | zero =>
    intro fr n st stack _ _ _ _ hw
    exact absurd hw (Nat.not_lt_zero _)
  | succ fuel ih =>
    intro fr n st stack hinv hst hfin hchild hw
    have hn : n ∈ stack := List.mem_of_getLast?_eq_some hst.last
    have hnv : 0 < flLen st.p n := hst.vis n hn
    have hnl : n < st.p.length := flLen_lt st.p n hnv
    have hng : n < g.length := by
      have := hinv.len
      unfold unlabel at this
      rw [List.length_map] at this
      omega
    rw [flDf, List.getElem?_eq_getElem hnl, List.getElem?_eq_getElem hng]
    simp only
    obtain ⟨he1, _⟩ := flLen_of_getElem? st.p n _ (List.getElem?_eq_getElem hnl)
    obtain ⟨st1, b, hrun, hsucc, hfail⟩ := flLoop_spec g hs root fuel ih fr n
      ((st.p[n]).Len + 1) stack g[n] [] st
      (by rw [List.nil_append, List.getElem?_eq_getElem hng]) hinv hst hfin
      (by rw [he1])
      (fun t ht => by cases ht)
      (fun w hwv hwf => absurd hwf (hchild w hwv))
      (by omega)
    refine ⟨st1, b, hrun, ?_, hfail⟩
    intro hb
    obtain ⟨j1, j2, j3, j4, j5, j6⟩ := hsucc hb
    rw [List.nil_append] at j4 j5
    refine ⟨j1, j2, ?_, j6⟩
    intro w hwv hws
    by_cases hw2 : w ∈ stack
    · rcases mem_stack_cases stack n w hst.last hw2 with h | h
      · exact absurd h hws
      · subst h
        intro w1 harc
        obtain ⟨nbs, hrow, hmem⟩ := harc
        rw [unlabel_getElem?, List.getElem?_eq_getElem hng] at hrow
        simp only [Option.map_some', Option.some.injEq] at hrow
        rw [← hrow] at hmem
        obtain ⟨t, ht1, ht2⟩ := List.mem_map.1 hmem
        rcases j4 t ht1 with h | ⟨h1, h2⟩
        · left
          rw [flExt_from _ _ j2 w hnv, hst.frm, ← h, ht2]
        · right
          rw [ht2] at h1 h2
          refine ⟨h1, h2, ?_⟩
          have := j5 w1 h1 h2
          unfold arcCount
          rw [List.getD_eq_getElem?_getD, unlabel_getElem?, List.getElem?_eq_getElem hng]
          exact this
    · exact j3 w hwv hw2

/-- Once every node reached has returned true, an arc from a node reached leads to a
node reached, it is the only arc between the two, and one of the two has the other in From,
with Len one more. -/
theorem fl_adjacent (G : AdjacencyList) (hs : SymmetricArcs G) (root : Nat) (p : List PathEnd)
    (hinv : FlInv G root p) (hdone : ∀ w, 0 < flLen p w → FlDone G p w) (u w : Nat)
    (hu : 0 < flLen p u) (harc : Arc G u w) :
    0 < flLen p w ∧ arcCount G u w = 1 ∧
    ((flFrom p w = (u : Int) ∧ flLen p w = flLen p u + 1) ∨
      (flFrom p u = (w : Int) ∧ flLen p u = flLen p w + 1)) := by
  rcases hdone u hu w harc with h | ⟨h1, h2, h3⟩
  · obtain ⟨a1, a2, a3⟩ := flInv_from G root p hinv w u hu h.symm
    refine ⟨a2, ?_, Or.inr ⟨h.symm, a3⟩⟩
    rcases hdone w a2 u a1 with h4 | ⟨_, _, h6⟩
    · obtain ⟨_, _, b3⟩ := flInv_from G root p hinv u w a2 h4.symm
      omega
    · rw [hs u w]; exact h6
  · obtain ⟨_, _, a3⟩ := flInv_from G root p hinv u w h1 h2
    exact ⟨h1, h3, Or.inl ⟨h2, a3⟩⟩

theorem fl_closure (G : AdjacencyList) (hs : SymmetricArcs G) (root : Nat) (p : List PathEnd)
    (hinv : FlInv G root p) (hdone : ∀ w, 0 < flLen p w → FlDone G p w) (u v : Nat)
    (hu : 0 < flLen p u) (h : Reach G u v) : 0 < flLen p v := by
  induction h with
  | refl => exact hu
  | tail _ hstep ih => exact (fl_adjacent G hs root p hinv hdone _ _ ih hstep).1

/-- In a closed walk of three or more distinct nodes, the node at index i has an arc from
a node of the walk and an arc to another node of the walk. -/
theorem cycle_neighbours (G : AdjacencyList) (c : List Nat) (hc : ClosedWalk G c)
    (hnd : c.Nodup) (hlen : 3 ≤ c.length) (i : Nat) (hi : i < c.length) :
    ∃ a b, a ≠ b ∧ a ∈ c ∧ b ∈ c ∧ Arc G a (c.getD i 0) ∧ Arc G (c.getD i 0) b := by
  obtain ⟨_, hchain, hclose⟩ := hc
  have hstep : ∀ j, (hj : j + 1 < c.length) → Arc G (c.getD j 0) (c.getD (j + 1) 0) := by
    intro j hj
    rw [List.getD_eq_getElem _ _ (by omega), List.getD_eq_getElem _ _ hj]
    exact (List.chain'_iff_get.1 hchain) j (by omega)
  have hlast : Arc G (c.getD (c.length - 1) 0) (c.getD 0 0) := by
    apply hclose
    · rw [List.getD_eq_getElem _ _ (by omega), List.head?_eq_getElem?,
        List.getElem?_eq_getElem (by omega)]
    · rw [List.getD_eq_getElem _ _ (by omega), List.getLast?_eq_getElem?,
        List.getElem?_eq_getElem (by omega)]
  have hinj : ∀ j k, j < c.length → k < c.length → j ≠ k → c.getD j 0 ≠ c.getD k 0 := by
    intro j k hj hk hjk h
    rw [List.getD_eq_getElem _ _ hj, List.getD_eq_getElem _ _ hk] at h
    exact hjk ((List.Nodup.getElem_inj_iff hnd).1 h)
  have hmem : ∀ j, j < c.length → c.getD j 0 ∈ c := by
    intro j hj
    rw [List.getD_eq_getElem _ _ hj]
    exact List.getElem_mem hj
  by_cases h0 : i = 0
  · subst h0
    exact ⟨c.getD (c.length - 1) 0, c.getD 1 0, hinj _ _ (by omega) (by omega) (by omega),
      hmem _ (by omega), hmem _ (by omega), hlast, hstep 0 (by omega)⟩
  · by_cases h1 : i + 1 < c.length
    · refine ⟨c.getD (i - 1) 0, c.getD (i + 1) 0, hinj _ _ (by omega) h1 (by omega),
        hmem _ (by omega), hmem _ h1, ?_, hstep i h1⟩
      have := hstep (i - 1) (by omega)
      rw [show i - 1 + 1 = i by omega] at this
      exact this
    · refine ⟨c.getD (i - 1) 0, c.getD 0 0, hinj _ _ (by omega) (by omega) (by omega),
        hmem _ (by omega), hmem _ (by omega), ?_, ?_⟩
      · have := hstep (i - 1) (by omega)
        rw [show i - 1 + 1 = i by omega] at this
        exact this
      · rw [show i = c.length - 1 by omega]
        exact hlast

/-- Once every node reached has returned true, the component of root is a tree. -/
theorem fl_tree (G : AdjacencyList) (hs : SymmetricArcs G) (root : Nat) (p : List PathEnd)
    (hinv : FlInv G root p) (hdone : ∀ w, 0 < flLen p w → FlDone G p w) : TreeAt G root := by
  have hroot : 0 < flLen p root := by rw [(flInv_root_from G root p hinv).2]; omega
  have hvis : ∀ v, Reach G root v → 0 < flLen p v :=
    fun v hv => fl_closure G hs root p hinv hdone root v hroot hv
  refine ⟨?_, ?_, ?_⟩
  · intro v hv harc
    obtain ⟨_, _, h⟩ := fl_adjacent G hs root p hinv hdone v v (hvis v hv) harc
    rcases h with ⟨_, h⟩ | ⟨_, h⟩ <;> omega
  · intro v w hv
    by_cases h0 : arcCount G v w = 0
    · omega
    · have harc : Arc G v w := (arc_iff_arcCount G v w).2 (by omega)
      rw [(fl_adjacent G hs root p hinv hdone v w (hvis v hv) harc).2.1]
  · intro c hcomp hnd hwalk
    by_contra hlen
    have hlen3 : 3 ≤ c.length := by omega
    obtain ⟨i, hi, hmax⟩ := Finset.exists_max_image (Finset.range c.length)
      (fun j => flLen p (c.getD j 0)) ⟨0, Finset.mem_range.2 (by omega)⟩
    rw [Finset.mem_range] at hi
    obtain ⟨a, b, hab, ha, hb, harc1, harc2⟩ := cycle_neighbours G c hwalk hnd hlen3 i hi
    have hm : 0 < flLen p (c.getD i 0) := by
      apply hvis; apply hcomp
      rw [List.getD_eq_getElem _ _ hi]; exact List.getElem_mem hi
    have hle : ∀ x ∈ c, flLen p x ≤ flLen p (c.getD i 0) := by
      intro x hx
      obtain ⟨j, hj, hjx⟩ := List.getElem_of_mem hx
      have := hmax j (Finset.mem_range.2 hj)
      simp only at this
      rw [List.getD_eq_getElem _ _ hj, hjx] at this
      exact this
    have h1 := fl_adjacent G hs root p hinv hdone _ a hm (symmetric_arc G hs _ _ harc1)
    have h2 := fl_adjacent G hs root p hinv hdone _ b hm harc2
    have e1 : flFrom p (c.getD i 0) = (a : Int) := by
      rcases h1.2.2 with ⟨_, h⟩ | ⟨h, _⟩
      · have := hle a ha; omega
      · exact h
    have e2 : flFrom p (c.getD i 0) = (b : Int) := by
      rcases h2.2.2 with ⟨_, h⟩ | ⟨h, _⟩
      · have := hle b hb; omega
      · exact h
    rw [e1] at e2
    exact hab (Int.ofNat.inj e2)

theorem chain_reach_head (G : AdjacencyList) : ∀ (l : List Nat) (a : Nat),
    List.Chain' (Arc G) (a :: l) → ∀ y ∈ a :: l, Reach G a y := by
  intro l
  induction l with
  | nil =>
    intro a _ y hy
    rw [List.mem_singleton] at hy
    rw [hy]; exact Relation.ReflTransGen.refl
  | cons b t ih =>
    intro a h y hy
    rw [List.chain'_cons] at h
    rcases List.mem_cons.1 hy with rfl | hy
    · exact Relation.ReflTransGen.refl
    · exact Relation.ReflTransGen.head h.1 (ih b h.2 y hy)

theorem chain_reach (G : AdjacencyList) (hs : SymmetricArcs G) : ∀ (l : List Nat),
    List.Chain' (Arc G) l → ∀ x ∈ l, ∀ y ∈ l, Reach G x y := by
  intro l
  induction l with
  | nil => intro _ x hx; cases hx
  | cons a t ih =>
    intro h x hx y hy
    have hax := chain_reach_head G t a h x hx
    have hay := chain_reach_head G t a h y hy
    exact Relation.ReflTransGen.trans (reach_symm_arcs G hs a x hax) hay

/-- A node of the component of root on a loop, a parallel edge or a cycle shows that the
component is not a tree. -/
theorem onCycle_not_tree (G : AdjacencyList) (hs : SymmetricArcs G) (root c : Nat)
    (hr : Reach G root c) (hc : OnCycle G c) : ¬ TreeAt G root := by
  intro ⟨t1, t2, t3⟩
  rcases hc with h | ⟨w, h⟩ | ⟨cyc, h1, h2, h3, h4⟩
  · exact t1 c hr h
  · have := t2 c w hr
    omega
  · have := t3 cyc (fun v hv => Relation.ReflTransGen.trans hr
      (chain_reach G hs cyc h3.2.1 c h4 v hv)) h2 h3
    omega

/-- Once every node reached has returned true, a path of distinct nodes from a node n
other than root to root goes from n to the node in From of n. -/
theorem fl_path_second (G : AdjacencyList) (hs : SymmetricArcs G) (root : Nat)
    (p : List PathEnd) (hinv : FlInv G root p) (hdone : ∀ w, 0 < flLen p w → FlDone G p w)
    (n : Nat) (hn : 0 < flLen p n) (hnr : n ≠ root) (path : List Nat) (hnd : path.Nodup)
    (hchain : List.Chain' (Arc G) path) (hhead : path.head? = some n)
    (hlast : path.getLast? = some root) : (path[1]? : Option Nat).map Int.ofNat = some (flFrom p n) := by
  have hne : path ≠ [] := by intro h; rw [h] at hhead; cases hhead
  have hlen0 : 0 < path.length := List.length_pos.2 hne
  have h0 : path.getD 0 0 = n := by
    rw [List.getD_eq_getElem _ _ hlen0]
    rw [List.head?_eq_getElem?, List.getElem?_eq_getElem hlen0] at hhead
    exact Option.some.inj hhead
  have hl : path.getD (path.length - 1) 0 = root := by
    rw [List.getD_eq_getElem _ _ (by omega)]
    rw [List.getLast?_eq_getElem?, List.getElem?_eq_getElem (by omega)] at hlast
    exact Option.some.inj hlast
  have hlen2 : 2 ≤ path.length := by
    by_contra hcon
    have : path.length - 1 = 0 := by omega
    rw [this, h0] at hl
    exact hnr hl
  have hstep : ∀ j, (hj : j + 1 < path.length) → Arc G (path.getD j 0) (path.getD (j + 1) 0) := by
    intro j hj
    rw [List.getD_eq_getElem _ _ (by omega), List.getD_eq_getElem _ _ hj]
    exact (List.chain'_iff_get.1 hchain) j (by omega)
  have hinj : ∀ j k, j < path.length → k < path.length → j ≠ k →
      path.getD j 0 ≠ path.getD k 0 := by
    intro j k hj hk hjk h
    rw [List.getD_eq_getElem _ _ hj, List.getD_eq_getElem _ _ hk] at h
    exact hjk ((List.Nodup.getElem_inj_iff hnd).1 h)
  have hmemn : n ∈ path := by
    rw [← h0, List.getD_eq_getElem _ _ hlen0]; exact List.getElem_mem hlen0
  have hvis : ∀ j, j < path.length → 0 < flLen p (path.getD j 0) := by
    intro j hj
    apply fl_closure G hs root p hinv hdone n _ hn
    apply chain_reach G hs path hchain n hmemn
    rw [List.getD_eq_getElem _ _ hj]; exact List.getElem_mem hj
  obtain ⟨i, hi, hmax⟩ := Finset.exists_max_image (Finset.range path.length)
    (fun j => flLen p (path.getD j 0)) ⟨0, Finset.mem_range.2 hlen0⟩
  rw [Finset.mem_range] at hi
  have hle : ∀ j, j < path.length → flLen p (path.getD j 0) ≤ flLen p (path.getD i 0) :=
    fun j hj => hmax j (Finset.mem_range.2 hj)
  have hn2 : 2 ≤ flLen p n := by
    obtain ⟨u, _, hu2, _, hu4⟩ := hinv.par n hn hnr
    omega
  have hi0 : i = 0 := by
    by_contra hne0
    by_cases hil : i + 1 < path.length
    · have a1 := fl_adjacent G hs root p hinv hdone _ _ (hvis i hi)
        (symmetric_arc G hs _ _ (by
          have := hstep (i - 1) (by omega)
          rw [show i - 1 + 1 = i by omega] at this
          exact this))
      have a2 := fl_adjacent G hs root p hinv hdone _ _ (hvis i hi) (hstep i hil)
      have e1 : flFrom p (path.getD i 0) = ((path.getD (i - 1) 0 : Nat) : Int) := by
        rcases a1.2.2 with ⟨_, h⟩ | ⟨h, _⟩
        · have := hle (i - 1) (by omega); omega
        · exact h
      have e2 : flFrom p (path.getD i 0) = ((path.getD (i + 1) 0 : Nat) : Int) := by
        rcases a2.2.2 with ⟨_, h⟩ | ⟨h, _⟩
        · have := hle (i + 1) hil; omega
        · exact h
      rw [e1] at e2
      exact hinj (i - 1) (i + 1) (by omega) hil (by omega) (Int.ofNat.inj e2)
    · have : i = path.length - 1 := by omega
      have h1 := hle 0 hlen0
      rw [this, hl, h0, (flInv_root_from G root p hinv).2] at h1
      omega
  subst hi0
  rw [h0] at hle
  have a := fl_adjacent G hs root p hinv hdone n (path.getD 1 0) hn (by
    have := hstep 0 (by omega)
    rw [h0, Nat.zero_add] at this
    exact this)
  rw [List.getElem?_eq_getElem (by omega)]
  simp only [Option.map_some', Option.some.injEq]
  rcases a.2.2 with ⟨_, h⟩ | ⟨h, _⟩
  · have := hle 1 (by omega); omega
  · have e := List.getD_eq_getElem path 0 (show 1 < path.length by omega)
    rw [h, e]
    rfl

theorem unlabel_length (g : LabeledAdjacencyList) : (unlabel g).length = g.length := by
  unfold unlabel; simp

theorem flInv_init (g : LabeledAdjacencyList) (root : Nat) (hr : root < g.length) :
    FlInv (unlabel g) root ((List.replicate g.length (⟨-1, 0⟩ : PathEnd)).set root ⟨-1, 1⟩) ∧
    ∀ w, 0 < flLen ((List.replicate g.length (⟨-1, 0⟩ : PathEnd)).set root ⟨-1, 1⟩) w →
      w = root := by
  have hget : ∀ v, (List.replicate g.length (⟨-1, 0⟩ : PathEnd)).getD v ⟨-1, 0⟩ = ⟨-1, 0⟩ := by
    intro v
    rw [List.getD_eq_getElem?_getD, List.getElem?_replicate]
    split <;> rfl
  have hl : ∀ v, flLen ((List.replicate g.length (⟨-1, 0⟩ : PathEnd)).set root ⟨-1, 1⟩) v =
      if v = root then 1 else 0 := by
    intro v
    rw [flLen_set]
    simp only [List.length_replicate, hr, and_true]
    split
    · rfl
    · unfold flLen; rw [hget]
  have hf : ∀ v, flFrom ((List.replicate g.length (⟨-1, 0⟩ : PathEnd)).set root ⟨-1, 1⟩) v =
      -1 := by
    intro v
    rw [flFrom_set]
    split
    · rfl
    · unfold flFrom; rw [hget]
  have hvis : ∀ w, 0 < flLen ((List.replicate g.length (⟨-1, 0⟩ : PathEnd)).set root ⟨-1, 1⟩) w →
      w = root := by
    intro w hw
    rw [hl] at hw
    by_contra h
    simp [h] at hw
  refine ⟨⟨by simp [unlabel_length], ?_, fun v _ => hf v, ?_⟩, hvis⟩
  · rw [pathEnd_getD_set]
    simp [hr]
  · intro v hv hvr
    exact absurd (hvis v hv) hvr

/-- The call df(-1, root) of FromList on an undirected graph returns; if it returns true,
the invariant holds and every node reached has returned true; if it returns false, cycle is
a node of the component of root on a loop, a parallel edge or a cycle. -/
theorem fromList_run (g : LabeledAdjacencyList) (hs : SymmetricArcs (unlabel g))
    (root fuel : Nat) (hr : root < g.length) (hf : g.length < fuel) :
    ∃ st b, flDf g fuel (-1) root
        ⟨(List.replicate g.length (⟨-1, 0⟩ : PathEnd)).set root ⟨-1, 1⟩, 0, 0⟩ = .ok (st, b) ∧
      (b = true → FlInv (unlabel g) root st.p ∧
        ∀ w, 0 < flLen st.p w → FlDone (unlabel g) st.p w) ∧
      (b = false → ∃ c : Nat, st.cycle = (c : Int) ∧ Reach (unlabel g) root c ∧
        OnCycle (unlabel g) c) := by
  obtain ⟨hinv, hvis⟩ := flInv_init g root hr
  have hroot := flInv_root_from _ root _ hinv
  obtain ⟨st, b, hrun, hsucc, hfail⟩ := flDf_spec g hs root fuel (-1) root
    ⟨(List.replicate g.length (⟨-1, 0⟩ : PathEnd)).set root ⟨-1, 1⟩, 0, 0⟩ [root] hinv
    ⟨rfl, List.chain'_singleton _, fun s h => by
        rw [List.mem_singleton] at h
        rw [h, hroot.2]; omega,
      List.nodup_singleton _, hroot.1⟩
    (fun w hw hws => absurd (List.mem_singleton.2 (hvis w hw)) hws)
    (fun w hw h => by
      rw [hvis w hw, hroot.1] at h
      omega)
    (lt_of_le_of_lt (by
      unfold flWhite
      calc _ ≤ (Finset.range (unlabel g).length).card := Finset.card_filter_le _ _
        _ = g.length := by rw [Finset.card_range, unlabel_length]) hf)
  refine ⟨st, b, hrun, ?_, hfail⟩
  intro hb
  obtain ⟨h1, _, h3, _⟩ := hsucc hb
  exact ⟨h1, fun w hw => h3 w hw (by simp)⟩

theorem fromList_of_run (g : LabeledAdjacencyList) (root fuel : Nat) (hr : root < g.length)
    (st : FLState) (b : Bool)
    (h : flDf g fuel (-1) root
      ⟨(List.replicate g.length (⟨-1, 0⟩ : PathEnd)).set root ⟨-1, 1⟩, 0, 0⟩ = .ok (st, b)) :
    LabeledUndirected.FromList g root fuel =
      .ok (if b then (⟨st.p, 0, st.ml⟩, -1) else (⟨[], 0, 0⟩, st.cycle)) := by
  unfold LabeledUndirected.FromList
  simp only
  rw [List.getElem?_replicate, if_pos hr]
  simp only
  rw [h]
  cases b <;> rfl

/-- From a node reached, the nodes in From lead to root along a path of distinct nodes. -/
theorem fl_path_exists (G : AdjacencyList) (hs : SymmetricArcs G) (root : Nat)
    (p : List PathEnd) (hinv : FlInv G root p) :
    ∀ (k v : Nat), flLen p v = k → 0 < k →
      ∃ path : List Nat, path.head? = some v ∧ path.getLast? = some root ∧
        List.Chain' (Arc G) path ∧ path.Nodup ∧ ∀ x ∈ path, flLen p x ≤ k := by
  intro k
  induction k using Nat.strong_induction_on with
  | _ k ih =>
    intro v hv hk
    by_cases hr : v = root
    · refine ⟨[root], by rw [hr]; rfl, rfl, List.chain'_singleton _, List.nodup_singleton _, ?_⟩
      intro x hx
      rw [List.mem_singleton] at hx
      rw [hx, ← hr, hv]
    · obtain ⟨u, _, hu2, hu3, hu4⟩ := hinv.par v (by omega) hr
      obtain ⟨path, h1, h2, h3, h4, h5⟩ := ih (flLen p u) (by omega) u rfl hu2
      refine ⟨v :: path, rfl, ?_, ?_, ?_, ?_⟩
      · cases path with
        | nil => cases h1
        | cons a t => rw [List.getLast?_cons_cons]; exact h2
      · rw [List.chain'_cons']
        refine ⟨?_, h3⟩
        intro y hy
        rw [h1] at hy
        simp only [Option.mem_def, Option.some.injEq] at hy
        rw [← hy]
        exact symmetric_arc G hs u v hu3
      · rw [List.nodup_cons]
        refine ⟨?_, h4⟩
        intro hmem
        have := h5 v hmem
        omega
      · intro x hx
        rcases List.mem_cons.1 hx with h | h
        · rw [h, hv]
        · have := h5 x h
          omega

/-- C27: for every undirected graph g (as many arcs from u to w as from w to u; loops and
parallel edges allowed), node root of g and recursion budget above len(g),
LabeledUndirected.FromList(root) returns, and cycle is -1 if and only if the connected
component of root is a tree (no loop, no parallel edge, no closed walk of three or more
distinct nodes).  When cycle is -1, Paths has an entry for each node, Paths[root] is
{-1, 1}, every other node n of the component has in From a node u adjacent to it, with
Len = 1 + Len of u, there is a path of distinct nodes from n to root, and every such path
goes from n to u; every node outside the component has {-1, 0}.  Otherwise the FromList
returned is the zero value and cycle is a node of the component that lies on a loop, a
parallel edge or a cycle. -/
theorem fromList_tree (g : LabeledAdjacencyList) (root fuel : Nat)
    (hs : SymmetricArcs (unlabel g)) (hr : root < g.length) (hf : g.length < fuel) :
    ∃ f cycle, LabeledUndirected.FromList g root fuel = .ok (f, cycle) ∧
      (cycle = -1 ↔ TreeAt (unlabel g) root) ∧
      (cycle = -1 →
        f.Paths.length = g.length ∧ f.Paths.getD root ⟨-1, 0⟩ = ⟨-1, 1⟩ ∧
        (∀ n, Reach (unlabel g) root n → n ≠ root →
          ∃ u : Nat, flFrom f.Paths n = (u : Int) ∧ Arc (unlabel g) n u ∧
            flLen f.Paths n = 1 + flLen f.Paths u ∧
            (∃ path : List Nat, path.Nodup ∧ List.Chain' (Arc (unlabel g)) path ∧
              path.head? = some n ∧ path.getLast? = some root) ∧
            ∀ path : List Nat, path.Nodup → List.Chain' (Arc (unlabel g)) path →
              path.head? = some n → path.getLast? = some root → path[1]? = some u) ∧
        (∀ n, n < g.length → ¬ Reach (unlabel g) root n →
          f.Paths.getD n ⟨-1, 0⟩ = ⟨-1, 0⟩)) ∧
      (cycle ≠ -1 → f = ⟨[], 0, 0⟩ ∧ ∃ c : Nat, cycle = (c : Int) ∧
        Reach (unlabel g) root c ∧ OnCycle (unlabel g) c) := by
  obtain ⟨st, b, hrun, hsucc, hfail⟩ := fromList_run g hs root fuel hr hf
  rw [fromList_of_run g root fuel hr st b hrun]
  cases b with
  | false =>
    simp only [Bool.false_eq_true, if_false]
    obtain ⟨c, hc1, hc2, hc3⟩ := hfail rfl
    have hne : st.cycle ≠ -1 := by rw [hc1]; omega
    refine ⟨⟨[], 0, 0⟩, st.cycle, rfl, ?_, fun h => absurd h hne, fun _ => ⟨rfl, c, hc1, hc2, hc3⟩⟩
    exact ⟨fun h => absurd h hne, fun h => absurd h (onCycle_not_tree _ hs root c hc2 hc3)⟩
  | true =>
    simp only [if_true]
    obtain ⟨hinv, hdone⟩ := hsucc rfl
    have hroot := flInv_root_from _ root _ hinv
    have hrv : 0 < flLen st.p root := by rw [hroot.2]; omega
    refine ⟨⟨st.p, 0, st.ml⟩, -1, rfl, ?_, fun _ => ?_, fun h => absurd rfl h⟩
    · exact ⟨fun _ => fl_tree _ hs root st.p hinv hdone, fun _ => rfl⟩
    · refine ⟨by rw [hinv.len, unlabel_length], hinv.rootEnd, ?_, ?_⟩
      · intro n hn hnr
        have hnv := fl_closure _ hs root st.p hinv hdone root n hrv hn
        obtain ⟨u, hu1, hu2, hu3, hu4⟩ := hinv.par n hnv hnr
        refine ⟨u, hu1, symmetric_arc _ hs u n hu3, by simp only; omega, ?_, ?_⟩
        · obtain ⟨path, h1, h2, h3, h4, _⟩ :=
            fl_path_exists _ hs root st.p hinv _ n rfl hnv
          exact ⟨path, h4, h3, h1, h2⟩
        · intro path hnd hchain hhead hlast
          have := fl_path_second _ hs root st.p hinv hdone n hnv hnr path hnd hchain
            hhead hlast
          rw [hu1] at this
          cases h1 : path[1]? with
          | none => rw [h1] at this; cases this
          | some x =>
            rw [h1] at this
            simp only [Option.map_some', Option.some.injEq] at this
            rw [Int.ofNat.inj this]
      · intro n _ hn
        have h0 : flLen st.p n = 0 := by
          by_contra hcon
          exact hn (flInv_reach _ root st.p hinv _ n rfl (Nat.pos_of_ne_zero hcon))
        have h1 := hinv.unvis n h0
        unfold flLen at h0
        unfold flFrom at h1
        simp only
        cases he : st.p.getD n ⟨-1, 0⟩ with
        | mk a b =>
          rw [he] at h0 h1
          simp only at h0 h1
          rw [h0, h1]

theorem fromList_tree_witness :
    SymmetricArcs (unlabel exampleFromList) ∧ 4 < exampleFromList.length ∧
    exampleFromList.length < 6 ∧
    ∃ f, LabeledUndirected.FromList exampleFromList 4 6 = .ok (f, -1) ∧
      TreeAt (unlabel exampleFromList) 4 := by
  have hs : SymmetricArcs (unlabel exampleFromList) :=
    symmetricArcs_of_bounded _ (by decide) (by decide)
  refine ⟨hs, by decide, by decide, ?_⟩
  obtain ⟨f, cycle, h1, h2, _⟩ :=
    fromList_tree exampleFromList 4 6 hs (by decide) (by decide)
  have hrun : LabeledUndirected.FromList exampleFromList 4 6 =
      .ok (⟨[⟨1, 3⟩, ⟨4, 2⟩, ⟨4, 2⟩, ⟨-1, 0⟩, ⟨-1, 1⟩], 0, 3⟩, -1) := rfl
  rw [hrun] at h1
  simp only [Except.ok.injEq, Prod.mk.injEq] at h1
  exact ⟨_, hrun, h2.1 h1.2.symm⟩

/-- C28: on the graph of the single node 0 without an edge, FromList(0) succeeds with
Paths = [{-1, 1}] and MaxLen = 0, below Paths[0].Len = 1; likewise from the isolated node 0
of a graph with the edge 1 - 2. -/
theorem fromList_maxLen_isolated_root :
    LabeledUndirected.FromList [[]] 0 2 = .ok (⟨[⟨-1, 1⟩], 0, 0⟩, -1) ∧
    LabeledUndirected.FromList [[], [⟨2, 0⟩], [⟨1, 0⟩]] 0 4 =
      .ok (⟨[⟨-1, 1⟩, ⟨-1, 0⟩, ⟨-1, 0⟩], 0, 0⟩, -1) :=
  ⟨rfl, rfl⟩

theorem itRel_mark (N : Nat) (p : List PathEnd) (v t : Nat) (e : PathEnd) (h : ItRel N p v)
    (ht : t < p.length) (he : 0 < e.Len) : ItRel N (p.set t e) (SetBit0 v t) := by
  intro x
  rw [bit_setBit0, flLen_set]
  by_cases hx : x = t
  · subst hx
    simp only [decide_True, Bool.not_true, Bool.and_false, Bool.false_eq_true, true_and, ht,
      if_true, false_iff, not_and]
    intro _; omega
  · have hx' : ¬ t = x := fun h => hx h.symm
    simp only [hx', decide_False, Bool.not_false, Bool.and_true, hx, false_and, if_false]
    exact h x

/-- The loop of df of IsTree does to the bitmap v what the loop of df of FromList does to
the slice p, and the two return the same value; df of IsTree runs with a recursion budget
one above that of FromList. -/
theorem itLoop_sim (g : LabeledAdjacencyList) (N : Nat) :
    ∀ (fuel : Nat) (nbs : List Half) (fr : Int) (frn n l : Nat) (st st1 : FLState) (b : Bool)
      (v : Nat), (∀ t ∈ nbs, ((t.To : Int) = fr ↔ t.To = frn)) → 0 < l →
      flLoop (flDf g fuel) fr n l nbs st = .ok (st1, b) → ItRel N st.p v →
      st.p.length = N → g.length = N →
      ∃ v1, itLoop (itDf g (fuel + 1)) frn n nbs v = .ok (v1, b) ∧ ItRel N st1.p v1 ∧
        st1.p.length = N := by
  intro fuel
  induction fuel using Nat.strong_induction_on with
  | _ fuel ihf =>
    intro nbs
    induction nbs with
    | nil =>
      intro fr frn n l st st1 b v _ _ h hrel hlen _
      simp only [flLoop, Except.ok.injEq, Prod.mk.injEq] at h
      obtain ⟨h1, h2⟩ := h
      subst h1; subst h2
      exact ⟨v, rfl, hrel, hlen⟩
    | cons t rest ihl =>
      intro fr frn n l st st1 b v hfr hl h hrel hlen hg
      have hfr' : ∀ x ∈ rest, ((x.To : Int) = fr ↔ x.To = frn) :=
        fun x hx => hfr x (List.mem_cons_of_mem _ hx)
      rw [flLoop] at h
      rw [itLoop]
      by_cases ht : (t.To : Int) = fr
      · have ht' : t.To = frn := (hfr t (List.mem_cons_self _ _)).1 ht
        simp only [ht, if_true] at h
        simp only [ht', ne_eq, not_true_eq_false, if_false]
        exact ihl fr frn n l st st1 b v hfr' hl h hrel hlen hg
      · have ht' : ¬ t.To = frn := fun h1 => ht ((hfr t (List.mem_cons_self _ _)).2 h1)
        simp only [ht, if_false] at h
        simp only [ne_eq, ht', not_false_eq_true, if_true]
        cases he : st.p[t.To]? with
        | none => rw [he] at h; cases h
        | some e =>
          rw [he] at h
          simp only at h
          have htl : t.To < st.p.length := (List.getElem?_eq_some_iff.1 he).1
          obtain ⟨he1, _⟩ := flLen_of_getElem? st.p t.To e he
          by_cases hvis : e.Len > 0
          · simp only [hvis, if_true, Except.ok.injEq, Prod.mk.injEq] at h
            obtain ⟨h1, h2⟩ := h
            subst h1; subst h2
            have hbit : Bit v t.To = false := by
              cases hb : Bit v t.To
              · rfl
              · have := ((hrel t.To).1 hb).2
                omega
            refine ⟨v, ?_, hrel, hlen⟩
            rw [itDf]
            simp only [hbit, if_true]
          · simp only [hvis, if_false] at h
            have hbit : Bit v t.To = true := (hrel t.To).2 ⟨by omega, by omega⟩
            cases fuel with
            | zero => simp [flDf] at h
            | succ F =>
              rw [flDf] at h
              simp only at h
              have hp1 : (st.p.set t.To ⟨n, l⟩)[t.To]? = some ⟨n, l⟩ := by
                rw [List.getElem?_set_self htl]
              rw [hp1] at h
              simp only at h
              rw [itDf]
              simp only [hbit, Bool.true_eq_false, if_false]
              cases hgt : g[t.To]? with
              | none => rw [hgt] at h; cases h
              | some nbs1 =>
                rw [hgt] at h
                simp only at h ⊢
                cases hin : flLoop (flDf g F) (n : Int) t.To (l + 1) nbs1
                    ⟨st.p.set t.To ⟨n, l⟩, if l > st.ml then l else st.ml, st.cycle⟩ with
                | error e1 => rw [hin] at h; cases h
                | ok r =>
                  obtain ⟨st2, b2⟩ := r
                  rw [hin] at h
                  obtain ⟨v2, hv2, hrel2, hlen2⟩ := ihf F (Nat.lt_succ_self F) nbs1 (n : Int) n
                    t.To (l + 1) _ st2 b2 (SetBit0 v t.To)
                    (fun x _ => ⟨fun h1 => Int.ofNat.inj h1, fun h1 => by rw [h1]⟩)
                    (by omega) hin (itRel_mark N st.p v t.To ⟨n, l⟩ hrel htl hl)
                    (by rw [List.length_set]; exact hlen) hg
                  rw [hv2]
                  cases b2 with
                  | false =>
                    simp only [Except.ok.injEq, Prod.mk.injEq] at h ⊢
                    obtain ⟨h1, h2⟩ := h
                    subst h1; subst h2
                    exact ⟨v2, ⟨rfl, rfl⟩, hrel2, hlen2⟩
                  | true =>
                    simp only at h ⊢
                    exact ihl fr frn n l st2 st1 b v2 hfr' hl h hrel2 hlen2 hg

theorem itRoot_eq_itLoop (rec : Nat → Nat → Nat → Except Err (Nat × Bool)) (frn root : Nat) :
    ∀ (nbs : List Half) (v : Nat), (∀ t ∈ nbs, t.To ≠ frn) →
      itRoot rec root nbs v = itLoop rec frn root nbs v := by
  intro nbs
  induction nbs with
  | nil => intro v _; rfl
  | cons t rest ih =>
    intro v h
    rw [itRoot, itLoop]
    have ht := h t (List.mem_cons_self _ _)
    simp only [ne_eq, ht, not_false_eq_true, if_true]
    cases rec root t.To v with
    | error e => rfl
    | ok r =>
      obtain ⟨v1, b⟩ := r
      cases b with
      | false => rfl
      | true => exact ih v1 (fun x hx => h x (List.mem_cons_of_mem _ hx))

theorem bitmap_eq_zero_iff (v : Nat) : v = 0 ↔ ∀ x, Bit v x = false := by
  constructor
  · intro h x; rw [h]; exact bit_zero x
  · intro h
    apply Nat.eq_of_testBit_eq
    intro i
    rw [Nat.zero_testBit]
    exact h i

theorem itRel_init (g : LabeledAdjacencyList) (root : Nat) (hr : root < g.length) :
    ItRel g.length ((List.replicate g.length (⟨-1, 0⟩ : PathEnd)).set root ⟨-1, 1⟩)
      (SetBit0 (OneBits g.length) root) := by
  apply itRel_mark g.length _ _ root ⟨-1, 1⟩ _ (by simp [hr]) (by simp)
  intro x
  rw [bit_oneBits]
  simp only [decide_eq_true_eq]
  constructor
  · intro hx
    refine ⟨hx, ?_⟩
    unfold flLen
    rw [List.getD_eq_getElem?_getD, List.getElem?_replicate]
    simp [hx]
  · exact fun h => h.1

/-- C29: for every undirected graph g (as many arcs from u to w as from w to u; loops and
parallel edges allowed), node root of g and recursion budget above len(g), IsTree(root)
returns; isTree is true if and only if the connected component of root is a tree (no loop,
no parallel edge, no closed walk of three or more distinct nodes), and allTree is true if
and only if isTree is true and root reaches every node of g. -/
theorem isTree_tree (g : LabeledAdjacencyList) (root fuel : Nat)
    (hs : SymmetricArcs (unlabel g)) (hr : root < g.length) (hf : g.length < fuel) :
    ∃ isTree allTree, LabeledUndirected.IsTree g root fuel = .ok (isTree, allTree) ∧
      (isTree = true ↔ TreeAt (unlabel g) root) ∧
      (allTree = true ↔ (isTree = true ∧ ∀ v, v < g.length → Reach (unlabel g) root v)) := by
  obtain ⟨F, rfl⟩ : ∃ F, fuel = F + 1 := ⟨fuel - 1, by omega⟩
  obtain ⟨st, b, hrun, hsucc, hfail⟩ := fromList_run g hs root (F + 1) hr hf
  have hbv := boundsValid_of_symmetric (unlabel g) hs
  rw [flDf] at hrun
  have hp0 : ((List.replicate g.length (⟨-1, 0⟩ : PathEnd)).set root ⟨-1, 1⟩)[root]? =
      some ⟨-1, 1⟩ := by
    rw [List.getElem?_set_self (by simp [hr])]
  simp only at hrun
  rw [hp0, List.getElem?_eq_getElem hr] at hrun
  simp only at hrun
  have hto : ∀ t ∈ g[root], t.To < g.length := by
    intro t ht
    have harc : Arc (unlabel g) root t.To :=
      ⟨g[root].map Half.To, by rw [unlabel_getElem?, List.getElem?_eq_getElem hr]; rfl,
        List.mem_map.2 ⟨t, ht, rfl⟩⟩
    have := arc_lt_right _ hbv root t.To harc
    rw [unlabel_length] at this
    exact this
  obtain ⟨v1, hv1, hrel, _⟩ := itLoop_sim g g.length F g[root] (-1) g.length root (1 + 1) _ st b
    (SetBit0 (OneBits g.length) root)
    (fun t ht => ⟨fun h => by omega, fun h => by have := hto t ht; omega⟩)
    (by omega) hrun (itRel_init g root hr) (by simp) rfl
  have hroot : itRoot (itDf g (F + 1)) root g[root] (SetBit0 (OneBits g.length) root) =
      .ok (v1, b) := by
    rw [itRoot_eq_itLoop _ g.length root _ _ (fun t ht => by have := hto t ht; omega)]
    exact hv1
  unfold LabeledUndirected.IsTree
  rw [List.getElem?_eq_getElem hr]
  simp only
  rw [hroot]
  cases b with
  | false =>
    obtain ⟨c, _, hc2, hc3⟩ := hfail rfl
    refine ⟨false, false, rfl, ?_, ?_⟩
    · exact ⟨fun h => (by cases h), fun h => absurd h (onCycle_not_tree _ hs root c hc2 hc3)⟩
    · exact ⟨fun h => (by cases h), fun h => (by cases h.1)⟩
  | true =>
    obtain ⟨hinv, hdone⟩ := hsucc rfl
    have hrv : 0 < flLen st.p root := by rw [(flInv_root_from _ root _ hinv).2]; omega
    refine ⟨true, decide (v1 = 0), rfl, ?_, ?_⟩
    · exact ⟨fun _ => fl_tree _ hs root st.p hinv hdone, fun _ => rfl⟩
    · rw [decide_eq_true_eq, bitmap_eq_zero_iff]
      constructor
      · intro h
        refine ⟨rfl, fun v hv => ?_⟩
        apply flInv_reach _ root st.p hinv _ v rfl
        by_contra hcon
        have := (hrel v).2 ⟨hv, by omega⟩
        rw [h v] at this
        cases this
      · rintro ⟨_, h⟩ x
        cases hb : Bit v1 x
        · rfl
        · obtain ⟨h1, h2⟩ := (hrel x).1 hb
          have := fl_closure _ hs root st.p hinv hdone root x hrv (h x h1)
          omega

theorem isTree_tree_witness :
    SymmetricArcs (unlabel exampleIsTree) ∧ 1 < exampleIsTree.length ∧
    exampleIsTree.length < 7 ∧
    LabeledUndirected.IsTree exampleIsTree 1 7 = .ok (true, false) ∧
    TreeAt (unlabel exampleIsTree) 1 := by
  have hs : SymmetricArcs (unlabel exampleIsTree) :=
    symmetricArcs_of_bounded _ (by decide) (by decide)
  refine ⟨hs, by decide, by decide, rfl, ?_⟩
  obtain ⟨isTree, allTree, h1, h2, _⟩ :=
    isTree_tree exampleIsTree 1 7 hs (by decide) (by decide)
  have hrun : LabeledUndirected.IsTree exampleIsTree 1 7 = .ok (true, false) := rfl
  rw [hrun] at h1
  simp only [Except.ok.injEq, Prod.mk.injEq] at h1
  exact h2.1 h1.1.symm

theorem boundsOkRow_none (n : Nat) (row : List Int) (h : boundsOkRow n row = none) :
    ∀ t ∈ row, 0 ≤ t ∧ t < (n : Int) := by
  induction row with
  | nil => intro t ht; cases ht
  | cons a rest ih =>
    rw [boundsOkRow] at h
    by_cases hc : a < 0 ∨ a ≥ (n : Int)
    · rw [if_pos hc] at h; cases h
    · rw [if_neg hc] at h
      intro t ht
      rcases List.mem_cons.1 ht with e | e
      · subst e; omega
      · exact ih h t e

theorem boundsOkRow_some (n : Nat) (row : List Int) (t : Int) (h : boundsOkRow n row = some t) :
    ∃ pre post, row = pre ++ t :: post ∧ (t < 0 ∨ (n : Int) ≤ t) ∧
      ∀ s ∈ pre, 0 ≤ s ∧ s < (n : Int) := by
  induction row with
  | nil => cases h
  | cons a rest ih =>
    rw [boundsOkRow] at h
    by_cases hc : a < 0 ∨ a ≥ (n : Int)
    · rw [if_pos hc] at h
      cases h
      exact ⟨[], rest, rfl, hc, fun s hs => by cases hs⟩
    · rw [if_neg hc] at h
      obtain ⟨pre, post, e1, e2, e3⟩ := ih h
      refine ⟨a :: pre, post, by rw [e1]; rfl, e2, ?_⟩
      intro s hs
      rcases List.mem_cons.1 hs with e | e
      · subst e; omega
      · exact e3 s e

theorem boundsOkLoop_spec (n : Nat) (rows : List (List Int)) :
    ∀ fr : Nat,
      ((boundsOkLoop n fr rows).1 = true →
        boundsOkLoop n fr rows = (true, -1, 0) ∧
        ∀ row ∈ rows, ∀ t ∈ row, 0 ≤ t ∧ t < (n : Int)) ∧
      ((boundsOkLoop n fr rows).1 = false →
        ∃ (i : Nat) (row pre post : List Int),
          (boundsOkLoop n fr rows).2.1 = ((fr + i : Nat) : Int) ∧ rows[i]? = some row ∧
          row = pre ++ (boundsOkLoop n fr rows).2.2 :: post ∧
          ((boundsOkLoop n fr rows).2.2 < 0 ∨ (n : Int) ≤ (boundsOkLoop n fr rows).2.2) ∧
          (∀ s ∈ pre, 0 ≤ s ∧ s < (n : Int)) ∧
          ∀ j < i, ∀ r, rows[j]? = some r → ∀ s ∈ r, 0 ≤ s ∧ s < (n : Int)) := by
  induction rows with
  | nil =>
    intro fr
    refine ⟨fun _ => ⟨rfl, fun row hrow => by cases hrow⟩, fun h => ?_⟩
    simp [boundsOkLoop] at h
  | cons row rest ih =>
    intro fr
    rw [boundsOkLoop]
    cases hr : boundsOkRow n row with
    | some t =>
      refine ⟨fun h => by simp at h, fun _ => ?_⟩
      obtain ⟨pre, post, e1, e2, e3⟩ := boundsOkRow_some n row t hr
      exact ⟨0, row, pre, post, rfl, by simp, e1, e2, e3, fun j hj => by omega⟩
    | none =>
      have hrow := boundsOkRow_none n row hr
      obtain ⟨ih1, ih2⟩ := ih (fr + 1)
      refine ⟨fun h => ?_, fun h => ?_⟩
      · obtain ⟨e, hall⟩ := ih1 h
        refine ⟨e, ?_⟩
        intro r hr2
        rcases List.mem_cons.1 hr2 with e | e
        · subst e; exact hrow
        · exact hall r e
      · obtain ⟨i, r, pre, post, e1, e2, e3, e4, e5, e6⟩ := ih2 h
        refine ⟨i + 1, r, pre, post, ?_, ?_, e3, e4, e5, ?_⟩
        · rw [e1]; congr 1; omega
        · simpa using e2
        · intro j hj r2 hr2
          cases j with
          | zero =>
            simp at hr2
            subst hr2
            exact hrow
          | succ j => exact e6 j (by omega) r2 (by simpa using hr2)

/-- Claim C31: BoundsOk is a total function of the slice of slices g (it has no failing run);
its result ok is true if and only if every arc target lies in [0, len(g)), the results then
being true, -1, 0; and when ok is false the results fr, to name an arc of g (to stands in
g[fr] after the targets pre) with to < 0 or to >= len(g) that is the first such arc in scan
order: the targets before it in g[fr] and all targets of the slices before fr are in
bounds. -/
theorem boundsOk_spec (g : List (List Int)) :
    ((BoundsOk g).1 = true ↔ ∀ row ∈ g, ∀ t ∈ row, 0 ≤ t ∧ t < (g.length : Int)) ∧
    ((BoundsOk g).1 = true → BoundsOk g = (true, -1, 0)) ∧
    ((BoundsOk g).1 = false →
      ∃ (fr : Nat) (row pre post : List Int),
        (BoundsOk g).2.1 = (fr : Int) ∧ g[fr]? = some row ∧
        row = pre ++ (BoundsOk g).2.2 :: post ∧
        ((BoundsOk g).2.2 < 0 ∨ (g.length : Int) ≤ (BoundsOk g).2.2) ∧
        (∀ s ∈ pre, 0 ≤ s ∧ s < (g.length : Int)) ∧
        ∀ j < fr, ∀ r, g[j]? = some r → ∀ s ∈ r, 0 ≤ s ∧ s < (g.length : Int)) := by
  obtain ⟨h1, h2⟩ := boundsOkLoop_spec g.length g 0
  refine ⟨⟨fun h => (h1 h).2, fun hall => ?_⟩, fun h => (h1 h).1, fun h => ?_⟩
  · cases hb : (BoundsOk g).1 with
    | true => rfl
    | false =>
      exfalso
      obtain ⟨i, row, pre, post, _, e2, e3, e4, _, _⟩ := h2 hb
      have hm : row ∈ g := List.getElem?_mem e2
      have := hall row hm (boundsOkLoop g.length 0 g).2.2 (by rw [e3]; simp)
      omega
  · obtain ⟨i, row, pre, post, e1, e2, e3, e4, e5, e6⟩ := h2 h
    refine ⟨i, row, pre, post, ?_, e2, e3, e4, e5, e6⟩
    rw [show BoundsOk g = boundsOkLoop g.length 0 g from rfl, e1, Nat.zero_add]

theorem bit_lt_of_lt_pow (b N m : Nat) (hb : b < 2 ^ N) (h : Bit b m = true) : m < N := by
  have h1 : b ≥ 2 ^ m := Nat.testBit_implies_ge h
  have h2 : 2 ^ m < 2 ^ N := by omega
  exact (Nat.pow_lt_pow_iff_right (by decide)).1 h2

theorem labeled_getD_of_lt (g : LabeledAdjacencyList) (n : Nat) (h : n < g.length) :
    g[n]? = some (g.getD n []) := by
  rw [List.getD_eq_getElem g [] h]; exact List.getElem?_eq_getElem h

theorem pivotScan_max (g : LabeledAdjacencyList) (b : Nat)
    (hb : ∀ m, Bit b m = true → m < g.length) :
    ∀ (k start u maxDeg : Nat), start ≤ b + 1 → b + 1 < k + start →
      ∃ u1 d1, pivotScan g b k start u maxDeg = .ok (u1, d1) ∧ maxDeg ≤ d1 ∧
        (∀ m, start ≤ m → Bit b m = true → (g.getD m []).length ≤ d1) ∧
        ((u1 = u ∧ d1 = maxDeg) ∨
          (Bit b u1 = true ∧ start ≤ u1 ∧ d1 = (g.getD u1 []).length ∧ maxDeg < d1 ∧
            ∀ m, start ≤ m → m < u1 → Bit b m = true → (g.getD m []).length < d1)) := by
  intro k
  induction k with
  | zero => intro start u maxDeg h1 h2; omega
  | succ k ih =>
    intro start u maxDeg h1 h2
    rw [pivotScan]
    cases hn : NextOne b start with
    | none =>
      refine ⟨u, maxDeg, rfl, Nat.le_refl _, ?_, Or.inl ⟨rfl, rfl⟩⟩
      intro m hm hbit
      rw [nextOne_none b start hn m hm] at hbit
      cases hbit
    | some n =>
      obtain ⟨n1, n2, n3⟩ := nextOne_some b start n hn
      have hnN := hb n n2
      have hnb := bit_lt_succ b n n2
      simp only [labeled_getD_of_lt g n hnN]
      have hlow : ∀ m, start ≤ m → m < n → Bit b m = true → False := by
        intro m hm1 hm2 hbit
        rw [n3 m hm1 hm2] at hbit
        cases hbit
      by_cases hd : (g.getD n []).length > maxDeg
      · rw [if_pos hd]
        obtain ⟨u1, d1, e1, e2, e3, e4⟩ := ih (n + 1) n (g.getD n []).length (by omega) (by omega)
        refine ⟨u1, d1, e1, by omega, ?_, Or.inr ?_⟩
        · intro m hm hbit
          rcases Nat.lt_trichotomy m n with h | h | h
          · exact (hlow m hm h hbit).elim
          · subst h; exact e2
          · exact e3 m h hbit
        · rcases e4 with ⟨e4, e5⟩ | ⟨e4, e5, e6, e7, e8⟩
          · subst e4
            refine ⟨n2, n1, e5, by omega, ?_⟩
            intro m hm1 hm2 hbit
            exact (hlow m hm1 hm2 hbit).elim
          · refine ⟨e4, by omega, e6, by omega, ?_⟩
            intro m hm1 hm2 hbit
            rcases Nat.lt_trichotomy m n with h | h | h
            · exact (hlow m hm1 h hbit).elim
            · subst h; exact e7
            · exact e8 m h hm2 hbit
      · rw [if_neg hd]
        obtain ⟨u1, d1, e1, e2, e3, e4⟩ := ih (n + 1) u maxDeg (by omega) (by omega)
        refine ⟨u1, d1, e1, e2, ?_, ?_⟩
        · intro m hm hbit
          rcases Nat.lt_trichotomy m n with h | h | h
          · exact (hlow m hm h hbit).elim
          · subst h; omega
          · exact e3 m h hbit
        · rcases e4 with e4 | ⟨e4, e5, e6, e7, e8⟩
          · exact Or.inl e4
          · refine Or.inr ⟨e4, by omega, e6, e7, ?_⟩
            intro m hm1 hm2 hbit
            rcases Nat.lt_trichotomy m n with h | h | h
            · exact (hlow m hm1 h hbit).elim
            · subst h; omega
            · exact e8 m h hm2 hbit

/-- Claim C32, the amended statement: when P is not empty and P and X hold nodes of g only
(no bit at or above len(g)), BKPivotMaxDegree(P, X) returns a node u that is a member of P
or X and whose neighbour slice is the longest among the members of P and X; among the
nodes of that length it is the first one met when P is scanned in ascending order and X
after it: a u in P has only shorter slices before it in P, and a u outside P is in X,
longer than every member of P and than the members of X before it. -/
theorem bkPivotMaxDegree_max (g : LabeledAdjacencyList) (P X : Nat) (hP : P ≠ 0)
    (hPg : P < 2 ^ g.length) (hXg : X < 2 ^ g.length) :
    ∃ u, BKPivotMaxDegree g P X = .ok u ∧ (Bit P u = true ∨ Bit X u = true) ∧
      (∀ m, Bit P m = true ∨ Bit X m = true →
        (g.getD m []).length ≤ (g.getD u []).length) ∧
      (Bit P u = true →
        ∀ m, m < u → Bit P m = true → (g.getD m []).length < (g.getD u []).length) ∧
      (Bit P u = false →
        (∀ m, Bit P m = true → (g.getD m []).length < (g.getD u []).length) ∧
        ∀ m, m < u → Bit X m = true → (g.getD m []).length < (g.getD u []).length) := by
  have hbP := fun m => bit_lt_of_lt_pow P g.length m hPg
  have hbX := fun m => bit_lt_of_lt_pow X g.length m hXg
  obtain ⟨n, hn⟩ := exists_bit_of_ne_zero P hP
  obtain ⟨_, n2, n3⟩ := nextOne_some P 0 n hn
  have hnN := hbP n n2
  have hnb := bit_lt_succ P n n2
  obtain ⟨u1, d1, e1, e2, e3, e4⟩ := pivotScan_max g P hbP (P + 2) (n + 1) n
    (g.getD n []).length (by omega) (by omega)
  obtain ⟨u2, d2, f1, f2, f3, f4⟩ := pivotScan_max g X hbX (X + 2) 0 u1 d1 (by omega) (by omega)
  have hPle : ∀ m, Bit P m = true → (g.getD m []).length ≤ d1 := by
    intro m hbit
    rcases Nat.lt_trichotomy m n with h | h | h
    · rw [n3 m (Nat.zero_le _) h] at hbit; cases hbit
    · subst h; exact e2
    · exact e3 m h hbit
  have hu1 : Bit P u1 = true ∧ d1 = (g.getD u1 []).length ∧
      ∀ m, m < u1 → Bit P m = true → (g.getD m []).length < d1 := by
    rcases e4 with ⟨e4, e5⟩ | ⟨e4, e5, e6, e7, e8⟩
    · subst e4
      refine ⟨n2, e5, ?_⟩
      intro m hm hbit
      rw [n3 m (Nat.zero_le _) hm] at hbit; cases hbit
    · refine ⟨e4, e6, ?_⟩
      intro m hm hbit
      rcases Nat.lt_trichotomy m n with h | h | h
      · rw [n3 m (Nat.zero_le _) h] at hbit; cases hbit
      · subst h; exact e7
      · exact e8 m h hm hbit
  refine ⟨u2, by simp only [BKPivotMaxDegree, hn, labeled_getD_of_lt g n hnN, e1, f1], ?_⟩
  rcases f4 with ⟨f4, f5⟩ | ⟨f4, _, f6, f7, f8⟩
  · subst f4 f5
    obtain ⟨h1, h2, h3⟩ := hu1
    refine ⟨Or.inl h1, ?_, ?_, ?_⟩
    · intro m hm
      rcases hm with hm | hm
      · rw [← h2]; exact hPle m hm
      · rw [← h2]; exact f3 m (Nat.zero_le _) hm
    · intro _ m hm hbit
      rw [← h2]; exact h3 m hm hbit
    · intro h; rw [h1] at h; cases h
  · refine ⟨Or.inr f4, ?_, ?_, ?_⟩
    · intro m hm
      rcases hm with hm | hm
      · have := hPle m hm; omega
      · rw [← f6]; exact f3 m (Nat.zero_le _) hm
    · intro h
      have := hPle u2 h
      omega
    · intro _
      refine ⟨fun m hm => ?_, fun m hm hbit => ?_⟩
      · have := hPle m hm; omega
      · rw [← f6]; exact f8 m (Nat.zero_le _) hm hbit

theorem bkPivotMaxDegree_max_witness :
    BKPivotMaxDegree exampleBK 46 17 = .ok 2 ∧
    ∃ u, BKPivotMaxDegree exampleBK 46 17 = .ok u ∧ (Bit 46 u = true ∨ Bit 17 u = true) ∧
      (∀ m, Bit 46 m = true ∨ Bit 17 m = true →
        (exampleBK.getD m []).length ≤ (exampleBK.getD u []).length) ∧
      (Bit 46 u = true →
        ∀ m, m < u → Bit 46 m = true →
          (exampleBK.getD m []).length < (exampleBK.getD u []).length) ∧
      (Bit 46 u = false →
        (∀ m, Bit 46 m = true → (exampleBK.getD m []).length < (exampleBK.getD u []).length) ∧
        ∀ m, m < u → Bit 17 m = true →
          (exampleBK.getD m []).length < (exampleBK.getD u []).length) :=
  ⟨by rfl, bkPivotMaxDegree_max exampleBK 46 17 (by decide) (by decide) (by decide)⟩

/-- Claim C32, the counterexample to the claim as worded (every graph g and bitmaps P, X
with P non-empty): on the graph with the single node 0 and no edge, with P = {1} and X
empty, P is not empty and BKPivotMaxDegree returns no node: it reads the neighbour slice
of node 1, an index out of range. -/
theorem bkPivotMaxDegree_outside_fails :
    (2 : Nat) ≠ 0 ∧ Bit 2 1 = true ∧ ([[]] : LabeledAdjacencyList).length = 1 ∧
    BKPivotMaxDegree ([[]] : LabeledAdjacencyList) 2 0 = .error .index := by
  refine ⟨by decide, by rfl, by rfl, by rfl⟩

/-- Claim C36: the labeled and the unlabeled Degeneracy are equivalent: on every labeled
graph g the method of LabeledUndirected gives the result of the method of AdjacencyList on
the graph with the labels dropped, that is the same k, ordering and cores when one of them
returns, and the same failure when one of them fails. -/
theorem degeneracy_labeled_eq (g : LabeledAdjacencyList) :
    LabeledUndirected.Degeneracy g = Degeneracy (unlabel g) :=
  (degeneracy_unlabel g).symm

/-- The first two parts of TopologicalKahn return, with the invariant of the main loop and
an empty S. -/
theorem kahn_run (g tr : AdjacencyList) (m fuel : Nat) (hb : BoundsValid g)
    (htr : Transpose g = .ok (tr, m)) (hfuel : g.length < fuel) :
    ∃ st0 st, kahnInit tr 0 ⟨[], [], List.replicate g.length 0⟩ = .ok st0 ∧
      kahnLoop g fuel st0 = .ok st ∧ KCore g st (arcsFrom g st.L) ∧ st.S = [] := by
  have hspec := transpose_spec g tr m htr
  obtain ⟨st0, hinit, hinv0⟩ := kahnInit_spec tr g.length (le_of_eq hspec.1) tr 0
    ⟨[], [], List.replicate g.length 0⟩ (List.drop_zero _) (Nat.zero_le _)
    ⟨rfl, by simp, fun v hv => absurd hv (Nat.not_lt_zero v),
      fun v _ => by
        by_cases hv : v < g.length <;> simp [List.getD_eq_getElem?_getD, List.getElem?_replicate, hv],
      List.nodup_nil, fun v => by simp⟩
  have hc0 := kCore_init g tr st0 hspec hinv0
  obtain ⟨st, hloop, hc, hS⟩ := kahnLoop_spec g hb fuel st0 hc0
    (by rw [hinv0.1]; simpa using hfuel)
  exact ⟨st0, st, hinit, hloop, hc, hS⟩

/-- In a list in which every node stands after the tails of its arcs, a node stands after
every node that reaches it. -/
theorem kahn_before (g : AdjacencyList) (L : List Nat)
    (h9 : ∀ a v b, L = a ++ v :: b → ∀ u, Arc g u v → u ∈ a) :
    ∀ u v, Relation.TransGen (Arc g) u v → ∀ a b, L = a ++ v :: b → u ∈ a := by
  intro u v huv
  induction huv with
  | single hab => intro a b hL; exact h9 a _ b hL u hab
  | @tail w v _ hwv ih =>
    intro a b hL
    have hw := h9 a v b hL w hwv
    obtain ⟨a1, a2, ha⟩ := List.append_of_mem hw
    have := ih a1 (a2 ++ v :: b) (by rw [hL, ha]; simp)
    rw [ha]
    exact List.mem_append_left _ this

theorem kahn_cycle_not_mem (g : AdjacencyList) (L : List Nat) (hnd : L.Nodup)
    (h9 : ∀ a v b, L = a ++ v :: b → ∀ u, Arc g u v → u ∈ a) (u : Nat)
    (hu : Relation.TransGen (Arc g) u u) : u ∉ L := by
  intro hmem
  obtain ⟨a, b, hL⟩ := List.append_of_mem hmem
  have := kahn_before g L h9 u u hu a b hL
  rw [hL] at hnd
  have h2 := (List.nodup_append.1 hnd).2.2
  exact h2 this (List.mem_cons_self _ _)

theorem kahnResidualNb_spec (rem : List Nat) :
    ∀ nbs : List Nat, (∀ nb ∈ nbs, nb < rem.length) →
      ∃ b, kahnResidualNb rem nbs = .ok b ∧
        ((∃ nb ∈ nbs, rem.getD nb 0 > 0) → b = true) := by
  intro nbs
  induction nbs with
  | nil => intro _; exact ⟨false, rfl, fun ⟨nb, h, _⟩ => by cases h⟩
  | cons nb rest ih =>
    intro hlt
    have hnb := hlt nb (List.mem_cons_self _ _)
    have hget : rem[nb]? = some (rem.getD nb 0) := by
      rw [List.getD_eq_getElem rem 0 hnb]; exact List.getElem?_eq_getElem hnb
    rw [kahnResidualNb]
    simp only [hget]
    by_cases hr : rem.getD nb 0 > 0
    · rw [if_pos hr]; exact ⟨true, rfl, fun _ => rfl⟩
    · rw [if_neg hr]
      obtain ⟨b, e1, e2⟩ := ih (fun x hx => hlt x (List.mem_cons_of_mem _ hx))
      refine ⟨b, e1, ?_⟩
      rintro ⟨x, hx, hpos⟩
      rcases List.mem_cons.1 hx with e | e
      · subst e; exact absurd hpos hr
      · exact e2 ⟨x, e, hpos⟩

theorem kahnCycleStep_spec (g : AdjacencyList) (hb : BoundsValid g) (rem : List Nat)
    (hlen : rem.length = g.length) (cycle : List Nat) (c : Nat) (hc : c < g.length) :
    ∃ cycle1, kahnCycleStep g rem cycle c = .ok cycle1 ∧ (cycle ≠ [] → cycle1 ≠ []) ∧
      ((rem.getD c 0 > 0 ∧ ∃ nb, Arc g c nb ∧ rem.getD nb 0 > 0) → cycle1 ≠ []) := by
  have hcr : c < rem.length := by rw [hlen]; exact hc
  have hget : rem[c]? = some (rem.getD c 0) := by
    rw [List.getD_eq_getElem rem 0 hcr]; exact List.getElem?_eq_getElem hcr
  have hg : g[c]? = some g[c] := List.getElem?_eq_getElem hc
  unfold kahnCycleStep
  simp only [hget, hg]
  by_cases hr : rem.getD c 0 > 0
  · rw [if_pos hr]
    obtain ⟨b, e1, e2⟩ := kahnResidualNb_spec rem g[c]
      (fun nb hnb => by rw [hlen]; exact hb g[c] (List.getElem_mem _) nb hnb)
    rw [e1]
    cases b with
    | true => exact ⟨cycle ++ [c], rfl, fun _ => by simp, fun _ => by simp⟩
    | false =>
      refine ⟨cycle, rfl, id, ?_⟩
      rintro ⟨_, nb, ⟨nbs, hnbs, hmem⟩, hpos⟩
      rw [hg] at hnbs
      cases hnbs
      have := e2 ⟨nb, hmem, hpos⟩
      cases this
  · rw [if_neg hr]
    exact ⟨cycle, rfl, id, fun h => absurd h.1 hr⟩

theorem kahnCycle_spec (g : AdjacencyList) (hb : BoundsValid g) (rem : List Nat)
    (hlen : rem.length = g.length) :
    ∀ (l : List Nat) (cycle : List Nat), (∀ c ∈ l, c < g.length) →
      ∃ cycle1, l.foldlM (kahnCycleStep g rem) cycle = .ok cycle1 ∧
        (cycle ≠ [] → cycle1 ≠ []) ∧
        ((∃ c ∈ l, rem.getD c 0 > 0 ∧ ∃ nb, Arc g c nb ∧ rem.getD nb 0 > 0) → cycle1 ≠ []) := by
  intro l
  induction l with
  | nil =>
    intro cycle _
    exact ⟨cycle, rfl, id, fun ⟨c, h, _⟩ => by cases h⟩
  | cons c rest ih =>
    intro cycle hlt
    obtain ⟨c1, e1, e2, e3⟩ := kahnCycleStep_spec g hb rem hlen cycle c
      (hlt c (List.mem_cons_self _ _))
    obtain ⟨c2, f1, f2, f3⟩ := ih c1 (fun x hx => hlt x (List.mem_cons_of_mem _ hx))
    refine ⟨c2, (foldlM_cons_ok _ _ _ _ _).2 ⟨c1, e1, f1⟩, fun h => f2 (e2 h), ?_⟩
    rintro ⟨x, hx, hgood⟩
    rcases List.mem_cons.1 hx with e | e
    · subst e; exact f2 (e3 hgood)
    · exact f3 ⟨x, e, hgood⟩

/-- On a bounds-valid graph with a cycle TopologicalKahn returns a nil order and a cycle
slice that is not empty. -/
theorem topologicalKahn_cyclic_run (g tr : AdjacencyList) (m fuel : Nat) (hb : BoundsValid g)
    (hcyc : ¬ Acyclic g) (htr : Transpose g = .ok (tr, m)) (hfuel : g.length < fuel) :
    ∃ cycle, TopologicalKahn g tr fuel = .ok ([], cycle) ∧ cycle ≠ [] := by
  obtain ⟨st0, st, hinit, hloop, hc, hS⟩ := kahn_run g tr m fuel hb htr hfuel
  obtain ⟨h1, h2, h3, h4, h5, h6, h7, h8, h9⟩ := hc
  have hex : ∃ u, Relation.TransGen (Arc g) u u := by
    unfold Acyclic at hcyc
    exact not_forall_not.1 hcyc
  obtain ⟨u, hu⟩ := hex
  obtain ⟨w, huw, hwu⟩ := (Relation.TransGen.head'_iff).1 hu
  have hw : Relation.TransGen (Arc g) w w := Relation.TransGen.tail' hwu huw
  have hpos : ∀ x, x < g.length → Relation.TransGen (Arc g) x x → st.rem.getD x 0 > 0 := by
    intro x hx hxx
    have hnot := kahn_cycle_not_mem g st.L h2 h9 x hxx
    by_contra hz
    have hz0 : st.rem.getD x 0 = 0 := by omega
    rcases (h8 x hx).1 hz0 with h | h
    · rw [hS] at h; exact absurd h (List.not_mem_nil _)
    · exact hnot h
  have hult := arc_lt g u w huw
  have hwlt := arc_lt_right g hb u w huw
  obtain ⟨cycle, e1, _, e3⟩ := kahnCycle_spec g hb st.rem h1 (List.range st.rem.length) []
    (fun c hc => by rw [← h1]; exact List.mem_range.1 hc)
  have hne : cycle ≠ [] :=
    e3 ⟨u, List.mem_range.2 (by rw [h1]; exact hult), hpos u hult hu, w, huw, hpos w hwlt hw⟩
  refine ⟨cycle, ?_, hne⟩
  have hl : cycle.length > 0 := List.length_pos.2 hne
  simp [TopologicalKahn, hinit, hloop, e1, hl]

/-- Claim C39: the three cycle detectors agree.  On every bounds-valid directed graph g, with
tr its transpose as returned by Transpose and a recursion budget above len(g), Cyclic,
Topological and TopologicalKahn all return, and Cyclic answers true if and only if the cycle
of Topological is not nil, if and only if the cycle of TopologicalKahn is not nil. -/
theorem cycle_detectors_agree (g tr : AdjacencyList) (m fuel : Nat) (hb : BoundsValid g)
    (htr : Transpose g = .ok (tr, m)) (hfuel : g.length < fuel) :
    ∃ b order cycle orderK cycleK, Cyclic g fuel = .ok b ∧
      Topological g fuel = .ok (order, cycle) ∧
      TopologicalKahn g tr fuel = .ok (orderK, cycleK) ∧
      (b = true ↔ cycle ≠ []) ∧ (cycle ≠ [] ↔ cycleK ≠ []) := by
  have hC := cycMain_spec g hb fuel hfuel (List.range g.length)
    ⟨List.replicate g.length 0, g.length, 0, 0, false, 0, []⟩
    (fun _ hm => List.mem_range.1 hm) (tInv_init g)
    (fun _ hm hnot => absurd (List.mem_range.2 hm) hnot)
  have hT := topological_spec g hb fuel hfuel
  by_cases hac : Acyclic g
  · have hCr : Cyclic g fuel = .ok false := by
      rcases hC with ⟨h, _⟩ | ⟨_, h⟩
      · exact h
      · exact absurd hac h
    have hTr : ∃ order, Topological g fuel = .ok (order, []) := by
      rcases hT with ⟨order, h, _⟩ | ⟨cycle, _, h⟩
      · exact ⟨order, h⟩
      · exact absurd hac (closedWalk_not_acyclic g cycle h)
    obtain ⟨order, hTr⟩ := hTr
    obtain ⟨orderK, hK, _⟩ := topologicalKahn_dag g tr m fuel hb hac htr hfuel
    refine ⟨false, order, [], orderK, [], hCr, hTr, hK, ?_, ?_⟩
    · exact ⟨fun h => (by cases h), fun h => absurd rfl h⟩
    · exact Iff.rfl
  · have hCr : Cyclic g fuel = .ok true := by
      rcases hC with ⟨_, h⟩ | ⟨h, _⟩
      · exact absurd h hac
      · exact h
    have hTr : ∃ cycle, Topological g fuel = .ok ([], cycle) ∧ cycle ≠ [] := by
      rcases hT with ⟨order, _, hnd, hmem, hord⟩ | ⟨cycle, h, hw⟩
      · exact absurd (acyclic_of_order g order hnd (fun u hu => (hmem u).2 hu) hord) hac
      · exact ⟨cycle, h, hw.1⟩
    obtain ⟨cycle, hTr, hne⟩ := hTr
    obtain ⟨cycleK, hK, hneK⟩ := topologicalKahn_cyclic_run g tr m fuel hb hac htr hfuel
    exact ⟨true, [], cycle, [], cycleK, hCr, hTr, hK, ⟨fun _ => hne, fun _ => rfl⟩,
      ⟨fun _ => hneK, fun _ => hne⟩⟩

theorem cycle_detectors_agree_witness :
    BoundsValid [[1], [2], [0], [3]] ∧
    Transpose [[1], [2], [0], [3]] = .ok ([[2], [0], [1], [3]], 4) ∧
    ∃ b order cycle orderK cycleK, Cyclic [[1], [2], [0], [3]] 5 = .ok b ∧
      Topological [[1], [2], [0], [3]] 5 = .ok (order, cycle) ∧
      TopologicalKahn [[1], [2], [0], [3]] [[2], [0], [1], [3]] 5 = .ok (orderK, cycleK) ∧
      (b = true ↔ cycle ≠ []) ∧ (cycle ≠ [] ↔ cycleK ≠ []) :=
  ⟨by decide, by rfl,
    cycle_detectors_agree [[1], [2], [0], [3]] [[2], [0], [1], [3]] 4 5 (by decide) (by rfl)
      (by decide)⟩

/-- Claim C38: on every non-empty bounds-valid directed multigraph g that is balanced, with
a budget of at least ArcSize(g) + 2 loop iterations, EulerianCycle returns and its error is
never "not balanced": the loop of EulerianCycleD runs to its end, every sub-walk of push
coming back to the node it started from; and the call fails exactly when some node of g is
not reachable from node 0, the error then being "not strongly connected" and the path
nil. -/
theorem eulerianCycle_balanced_error (g : AdjacencyList) (fuel : Nat) (hne : g ≠ [])
    (hb : BoundsValid g) (hbal : IsBalanced g) (hf : ArcSize g + 2 ≤ fuel) :
    ∃ p err e e1, EulerianCycle g fuel = .ok (p, err) ∧
      newEulerian g (ArcSize g : Int) = .ok e ∧ euLoop fuel fuel e = .ok (some e1) ∧
      err ≠ some "not balanced" ∧
      (err ≠ none ↔ ∃ x, x < g.length ∧ ¬ Reach g 0 x) ∧
      (err ≠ none → err = some "not strongly connected" ∧ p = []) := by
  rw [arcSize_eq] at hf ⊢
  have hlen : 0 < g.length := List.length_pos.2 hne
  have hlen0 : ¬ g.length = 0 := by omega
  obtain ⟨e, p1, h1, h2, h3, h4, h5⟩ := newEulerian_inv g 0 hlen
  have hp : p1 = e.p := h3 rfl
  subst hp
  have hg : e.g = g := h5
  have hends : EuEnds 0 0 [0] [] := ⟨rfl, by simp, fun _ => ⟨rfl, rfl⟩⟩
  obtain ⟨r, r1, r2, r3⟩ := euLoop_spec g hb 0 0 fuel fuel e [0] _ [] h4
    (by rw [hg]; exact euCount_init g 0) hends (by simp; omega)
    (by rw [hg]; simp; omega)
  cases r with
  | none => exact absurd (by rw [hg]; exact hbal) (r3 rfl)
  | some e1 =>
    obtain ⟨gap1, F1, a1, a2, a3, a4⟩ := r2 e1 rfl
    have hrun : EulerianCycle g fuel =
        if e1.uv ≠ 0 then .ok ([], some "not strongly connected") else .ok (e1.p, none) := by
      unfold EulerianCycle
      rw [copy_eq]
      unfold EulerianCycleD
      rw [if_neg hlen0]
      simp only [h1, r1]
    by_cases huv : e1.uv ≠ 0
    · rw [if_pos huv] at hrun
      refine ⟨[], some "not strongly connected", e, e1, hrun, h1, r1, by decide, ?_,
        fun _ => ⟨rfl, rfl⟩⟩
      refine ⟨fun _ => ?_, fun _ => by simp⟩
      by_contra hcon
      push_neg at hcon
      exact huv (euFinal_uv g e1 gap1 F1 0 0 a1 a2 a3 hcon)
    · rw [if_neg huv] at hrun
      have huv0 : e1.uv = 0 := by simpa using huv
      obtain ⟨b1, b2, b3⟩ := euFinal_walk g e1 gap1 F1 a1 a2 huv0
      refine ⟨e1.p, none, e, e1, hrun, h1, r1, by simp, ?_, fun h => absurd rfl h⟩
      refine ⟨fun h => absurd rfl h, ?_⟩
      rintro ⟨x, hx, hnr⟩
      exfalso
      apply hnr
      have hhead : F1.head? = some 0 := by simpa using a3.head
      cases hF : F1 with
      | nil => rw [hF] at hhead; simp at hhead
      | cons c t =>
        rw [hF] at hhead b3
        simp only [List.head?_cons, Option.some.injEq] at hhead
        subst hhead
        exact reach_from_head g t 0 (fun u w => walk_arc g (0 :: t) b3.1 u w) x (b3.2 x hx)

theorem eulerianCycle_balanced_error_witness :
    ([[1], [0], []] ≠ ([] : AdjacencyList) ∧ BoundsValid [[1], [0], []] ∧
      IsBalanced [[1], [0], []]) ∧
    EulerianCycle [[1], [0], []] 4 = .ok ([], some "not strongly connected") ∧
    ∃ p err e e1, EulerianCycle [[1], [0], []] 4 = .ok (p, err) ∧
      newEulerian [[1], [0], []] (ArcSize [[1], [0], []] : Int) = .ok e ∧
      euLoop 4 4 e = .ok (some e1) ∧
      err ≠ some "not balanced" ∧
      (err ≠ none ↔ ∃ x, x < [[1], [0], []].length ∧ ¬ Reach [[1], [0], []] 0 x) ∧
      (err ≠ none → err = some "not strongly connected" ∧ p = []) :=
  ⟨⟨by decide, by decide, by decide⟩, by rfl,
    eulerianCycle_balanced_error [[1], [0], []] 4 (by decide) (by decide) (by decide)
      (by decide)⟩

theorem euPushFromT_erase : ∀ (fuel u : Nat) (e e1 : Eulerian) (tr : List Eulerian),
    euPushFromT fuel u e = .ok (e1, tr) → euPushFrom fuel u e = .ok e1 := by
  intro fuel
  induction fuel with
  | zero => intro u e e1 tr h; simp [euPushFromT] at h
  | succ fuel ih =>
    intro u e e1 tr h
    rw [euPushFromT] at h
    rw [euPushFrom]
    cases hg : e.g[u]? with
    | none => simp only [hg] at h; cases h
    | some row =>
      cases row with
      | nil =>
        simp only [hg] at h ⊢
        cases h; rfl
      | cons w rest =>
        simp only [hg] at h ⊢
        cases hs : intSet e.p (e.s + 1) w with
        | error x => simp only [hs] at h; cases h
        | ok p1 =>
          simp only [hs] at h ⊢
          cases hr : euPushFromT fuel w ⟨e.g.set u rest, e.m, SetBit0 e.uv u, p1, e.s + 1⟩ with
          | error x => simp only [hr] at h; cases h
          | ok q =>
            obtain ⟨e2, tr2⟩ := q
            simp only [hr] at h
            cases h
            exact ih _ _ _ _ hr

theorem euPushT_erase (fuel : Nat) (e e1 : Eulerian) (tr : List Eulerian)
    (h : euPushT fuel e = .ok (e1, tr)) : euPush fuel e = .ok e1 := by
  unfold euPushT at h
  unfold euPush
  cases ht : e.top with
  | error x => simp only [ht] at h; cases h
  | ok u =>
    simp only [ht] at h ⊢
    exact euPushFromT_erase fuel u e e1 tr h

theorem euKeepT_erase : ∀ (fuel : Nat) (e e1 : Eulerian) (tr : List Eulerian),
    euKeepT fuel e = .ok (e1, tr) → euKeep fuel e = .ok e1 := by
  intro fuel
  induction fuel with
  | zero => intro e e1 tr h; simp [euKeepT] at h
  | succ fuel ih =>
    intro e e1 tr h
    rw [euKeepT] at h
    rw [euKeep]
    by_cases hs : 0 ≤ e.s
    · rw [if_pos hs] at h ⊢
      cases ht : e.top with
      | error x => simp only [ht] at h; cases h
      | ok n =>
        simp only [ht] at h ⊢
        cases hg : e.g[n]? with
        | none => simp only [hg] at h; cases h
        | some arcs =>
          simp only [hg] at h ⊢
          by_cases hl : arcs.length > 0
          · rw [if_pos hl] at h ⊢
            cases h; rfl
          · rw [if_neg hl] at h ⊢
            cases hi : intSet e.p e.m n with
            | error x => simp only [hi] at h; cases h
            | ok p1 =>
              simp only [hi] at h ⊢
              cases hr : euKeepT fuel ⟨e.g, e.m - 1, e.uv, p1, e.s - 1⟩ with
              | error x => simp only [hr] at h; cases h
              | ok q =>
                obtain ⟨e2, tr2⟩ := q
                simp only [hr] at h
                cases h
                exact ih _ _ _ hr
    · rw [if_neg hs] at h ⊢
      cases h; rfl

theorem euLoopT_erase (k : Nat) : ∀ (fuel : Nat) (e : Eulerian) (r : Option Eulerian)
    (tr : List Eulerian), euLoopT k fuel e = .ok (r, tr) → euLoop k fuel e = .ok r := by
  intro fuel
  induction fuel with
  | zero => intro e r tr h; simp [euLoopT] at h
  | succ fuel ih =>
    intro e r tr h
    rw [euLoopT] at h
    rw [euLoop]
    by_cases hs : 0 ≤ e.s
    · rw [if_pos hs] at h ⊢
      cases ht : e.top with
      | error x => simp only [ht] at h; cases h
      | ok v =>
        simp only [ht] at h ⊢
        cases hp : euPushT k e with
        | error x => simp only [hp] at h; cases h
        | ok q =>
          obtain ⟨e1, tr1⟩ := q
          simp only [hp] at h
          rw [euPushT_erase k e e1 tr1 hp]
          simp only
          cases ht1 : e1.top with
          | error x => simp only [ht1] at h; cases h
          | ok t =>
            simp only [ht1] at h ⊢
            by_cases htv : t ≠ v
            · rw [if_pos htv] at h ⊢
              cases h; rfl
            · rw [if_neg htv] at h ⊢
              cases hk : euKeepT k e1 with
              | error x => simp only [hk] at h; cases h
              | ok q2 =>
                obtain ⟨e2, tr2⟩ := q2
                simp only [hk] at h
                rw [euKeepT_erase k e1 e2 tr2 hk]
                simp only
                cases hr : euLoopT k fuel e2 with
                | error x => simp only [hr] at h; cases h
                | ok q3 =>
                  obtain ⟨r3, tr3⟩ := q3
                  simp only [hr] at h
                  cases h
                  exact ih _ _ _ hr
    · rw [if_neg hs] at h ⊢
      cases h; rfl

theorem euSafe_of_light (N M : Nat) (e : Eulerian) (S gap F : List Nat)
    (h : EuLight N M e S gap F) : EuSafe M e := by
  have h1 := h.rel.s_eq
  have h2 := h.rel.m_eq
  have h3 := h.gapLen
  have h4 := h.total
  have h5 : e.p.length = S.length + gap.length + F.length := by
    rw [h.rel.p_eq]; simp only [List.length_append]
  unfold EuSafe
  rw [arcSize_eq, ← h3]
  refine ⟨by omega, by omega, by omega, by omega, by omega⟩

theorem boundsValid_set (g : AdjacencyList) (u w : Nat) (rest : List Nat)
    (hb : BoundsValid g) (hg : g[u]? = some (w :: rest)) : BoundsValid (g.set u rest) := by
  intro nbs hnbs nb hnb
  rw [List.length_set]
  rcases List.mem_or_eq_of_mem_set hnbs with h | h
  · exact hb nbs h nb hnb
  · rw [h] at hnb
    exact hb (w :: rest) (List.getElem?_mem hg) nb (List.mem_cons_of_mem _ hnb)

theorem euPushFromT_spec (N M : Nat) :
    ∀ (fuel : Nat) (e : Eulerian) (S1 : List Nat) (u : Nat) (gap F : List Nat),
      EuLight N M e (S1 ++ [u]) gap F → arcTotal e.g < fuel →
      ∃ e1 tr T gap1 t, euPushFromT fuel u e = .ok (e1, tr) ∧
        EuLight N M e1 (S1 ++ [u] ++ T) gap1 F ∧ (S1 ++ [u] ++ T).getLast? = some t ∧
        e1.g.getD t [] = [] ∧ arcTotal e1.g + T.length = arcTotal e.g ∧
        ∀ x ∈ tr, EuSafe M x := by
  intro fuel
  induction fuel with
  | zero => intro e S1 u gap F _ h; omega
  | succ fuel ih =>
    intro e S1 u gap F hinv hf
    have huN : u < e.g.length := by
      rw [hinv.len]; exact hinv.nodes u (by simp)
    have hsafe := euSafe_of_light N M e _ gap F hinv
    rw [euPushFromT]
    have hg : e.g[u]? = some e.g[u] := List.getElem?_eq_getElem huN
    cases hrow : e.g[u] with
    | nil =>
      rw [hrow] at hg
      simp only [hg]
      refine ⟨{ e with uv := SetBit0 e.uv u }, [e], [], gap, u, rfl, ?_, by simp, ?_, by simp, ?_⟩
      · refine ⟨⟨?_, ?_, ?_⟩, hinv.gapLen, hinv.len, ?_, hinv.bound, ?_⟩
        · simpa using hinv.rel.p_eq
        · simpa using hinv.rel.s_eq
        · simpa using hinv.rel.m_eq
        · simpa using hinv.nodes
        · simpa using hinv.total
      · simp only
        rw [List.getD_eq_getElem?_getD, hg]; rfl
      · intro x hx
        simp only [List.mem_singleton] at hx
        rw [hx]; exact hsafe
    | cons w rest =>
      rw [hrow] at hg
      simp only [hg]
      have hpos := arcTotal_pos e.g u w rest hg
      have hgl := hinv.gapLen
      cases hgap : gap with
      | nil => rw [hgap] at hgl; simp at hgl; omega
      | cons x gap1 =>
        rw [hgap] at hinv
        have hw : w < N := by
          rw [← hinv.len]
          exact hinv.bound _ (List.getElem?_mem hg) w (List.mem_cons_self _ _)
        obtain ⟨hset, hrel⟩ := euRel_push e (S1 ++ [u]) gap1 F x w (e.g.set u rest)
          (SetBit0 e.uv u) hinv.rel
        have hat := arcTotal_step e.g u w rest hg
        have hinv1 : EuLight N M
            ⟨e.g.set u rest, e.m, SetBit0 e.uv u, S1 ++ [u] ++ [w] ++ gap1 ++ F, e.s + 1⟩
            (S1 ++ [u] ++ [w]) gap1 F := by
          refine ⟨hrel, ?_, ?_, ?_, boundsValid_set e.g u w rest hinv.bound hg, ?_⟩
          · have h2 := hinv.gapLen
            simp only [List.length_cons] at h2
            simp only
            omega
          · simp only [List.length_set]; exact hinv.len
          · intro y hy
            simp only [List.mem_append, List.mem_singleton] at hy
            rcases hy with (hy | hy) | hy
            · exact hinv.nodes y (by simp [hy])
            · exact hinv.nodes y (by simp [hy])
            · rw [hy]; exact hw
          · have h2 := hinv.total
            simp only [List.length_append, List.length_singleton, List.length_cons, List.length_nil] at h2 ⊢
            omega
        obtain ⟨e1, tr, T, gap2, t, r1, r2, r3, r4, r5, r6⟩ :=
          ih ⟨e.g.set u rest, e.m, SetBit0 e.uv u, S1 ++ [u] ++ [w] ++ gap1 ++ F, e.s + 1⟩
            (S1 ++ [u]) w gap1 F hinv1 (by simp only; omega)
        refine ⟨e1, e :: tr, w :: T, gap2, t, ?_, ?_, ?_, r4, ?_, ?_⟩
        · simp only [hset, r1]
        · simpa using r2
        · simpa using r3
        · simp only [List.length_cons] at r5 ⊢; omega
        · intro y hy
          rcases List.mem_cons.1 hy with hy | hy
          · rw [hy]; exact hsafe
          · exact r6 y hy

theorem euKeepT_spec (N M : Nat) :
    ∀ (fuel : Nat) (e : Eulerian) (S gap F : List Nat),
      EuLight N M e S gap F → S.length < fuel →
      ∃ e1 tr S1 T gap1, euKeepT fuel e = .ok (e1, tr) ∧ S = S1 ++ T ∧
        EuLight N M e1 S1 gap1 (T ++ F) ∧ e1.g = e.g ∧
        (∀ n, S.getLast? = some n → e.g.getD n [] = [] → T ≠ []) ∧
        ∀ x ∈ tr, EuSafe M x := by
  intro fuel
  induction fuel with
  | zero => intro e S gap F _ h; omega
  | succ fuel ih =>
    intro e S gap F hinv hf
    have hsafe := euSafe_of_light N M e _ gap F hinv
    have hone : ∀ x ∈ [e], EuSafe M x := by
      intro x hx
      simp only [List.mem_singleton] at hx
      rw [hx]; exact hsafe
    rw [euKeepT]
    rcases List.eq_nil_or_concat S with hS | ⟨S0, n, hS⟩
    · subst hS
      rw [if_neg (euRel_nil_s e gap F hinv.rel)]
      exact ⟨e, [e], [], [], gap, rfl, rfl, by simpa using hinv, rfl, by simp, hone⟩
    · rw [List.concat_eq_append] at hS
      subst hS
      rw [if_pos (euRel_snoc_s e S0 gap F n hinv.rel), euRel_top e S0 gap F n hinv.rel]
      have hnN : n < e.g.length := by
        rw [hinv.len]; exact hinv.nodes n (by simp)
      have hg : e.g[n]? = some e.g[n] := List.getElem?_eq_getElem hnN
      have hgd : e.g.getD n [] = e.g[n] := by
        rw [List.getD_eq_getElem?_getD, hg]; rfl
      simp only [hg]
      by_cases hlen : e.g[n].length > 0
      · rw [if_pos hlen]
        refine ⟨e, [e], S0 ++ [n], [], gap, rfl, by simp, by simpa using hinv, rfl, ?_, hone⟩
        intro k hk h0
        rw [getLast?_snoc, Option.some.injEq] at hk
        subst hk
        rw [hgd] at h0; rw [h0] at hlen; simp at hlen
      · rw [if_neg hlen]
        obtain ⟨gap1, p1, k1, k2, k3⟩ := euRel_keep e S0 gap F n hinv.rel
        simp only [k2]
        have hinv2 : EuLight N M ⟨e.g, e.m - 1, e.uv, p1, e.s - 1⟩ S0 gap1 (n :: F) := by
          refine ⟨k3, by rw [k1]; exact hinv.gapLen, hinv.len, ?_, hinv.bound, ?_⟩
          · intro y hy
            exact hinv.nodes y (List.mem_append_left _ hy)
          · have h2 := hinv.total
            simp only [List.length_append, List.length_singleton, List.length_cons, List.length_nil] at h2 ⊢
            omega
        obtain ⟨e1, tr, S1, T, gap2, r1, r2, r3, r4, _, r6⟩ := ih _ S0 gap1 (n :: F) hinv2
          (by simp only [List.length_append, List.length_singleton] at hf; omega)
        refine ⟨e1, e :: tr, S1, T ++ [n], gap2, ?_, by rw [r2]; simp, by simpa using r3, r4,
          by simp, ?_⟩
        · simp only [r1]
        · intro y hy
          rcases List.mem_cons.1 hy with hy | hy
          · rw [hy]; exact hsafe
          · exact r6 y hy

theorem euLoopT_spec (N M k : Nat) (hk : M + 1 < k) :
    ∀ (fuel : Nat) (e : Eulerian) (S gap F : List Nat),
      EuLight N M e S gap F → arcTotal e.g + S.length < fuel →
      ∃ r tr, euLoopT k fuel e = .ok (r, tr) ∧ tr ≠ [] ∧ ∀ x ∈ tr, EuSafe M x := by
  intro fuel
  induction fuel with
  | zero => intro e S gap F _ h; omega
  | succ fuel ih =>
    intro e S gap F hinv hf
    have hsafe := euSafe_of_light N M e _ gap F hinv
    rw [euLoopT]
    rcases List.eq_nil_or_concat S with hS | ⟨S0, v, hS⟩
    · subst hS
      rw [if_neg (euRel_nil_s e gap F hinv.rel)]
      refine ⟨some e, [e], rfl, by simp, ?_⟩
      intro x hx
      simp only [List.mem_singleton] at hx
      rw [hx]; exact hsafe
    · rw [List.concat_eq_append] at hS
      subst hS
      rw [if_pos (euRel_snoc_s e S0 gap F v hinv.rel), euRel_top e S0 gap F v hinv.rel]
      simp only [euPushT, euRel_top e S0 gap F v hinv.rel]
      have hgl := hinv.gapLen
      have htot := hinv.total
      obtain ⟨e1, tr1, T, gap1, t, p1, p2, p3, p4, p5, p6⟩ :=
        euPushFromT_spec N M k e S0 v gap F hinv (by omega)
      simp only [p1]
      have hsafe1 := euSafe_of_light N M e1 _ gap1 F p2
      obtain ⟨S2, hS2⟩ : ∃ S2, S0 ++ [v] ++ T = S2 ++ [t] := by
        rcases List.eq_nil_or_concat (S0 ++ [v] ++ T) with h0 | ⟨S2, n, h0⟩
        · simp at h0
        · rw [List.concat_eq_append] at h0
          rw [h0, getLast?_snoc, Option.some.injEq] at p3
          exact ⟨S2, by rw [h0, p3]⟩
      have htop : e1.top = .ok t := by
        apply euRel_top e1 S2 gap1 F t
        rw [← hS2]; exact p2.rel
      simp only [htop]
      by_cases htv : t ≠ v
      · rw [if_pos htv]
        refine ⟨none, _, rfl, by simp, ?_⟩
        intro x hx
        simp only [List.mem_cons, List.mem_append, List.not_mem_nil, or_false] at hx
        rcases hx with (hx | hx) | hx
        · rw [hx]; exact hsafe
        · exact p6 x hx
        · rw [hx]; exact hsafe1
      · rw [if_neg htv]
        have htot1 := p2.total
        obtain ⟨e2, tr2, S3, T3, gap3, q1, q2, q3, q4, q5, q6⟩ :=
          euKeepT_spec N M k e1 (S0 ++ [v] ++ T) gap1 F p2 (by omega)
        simp only [q1]
        have hT3 : T3 ≠ [] := q5 t p3 p4
        have hT3l : 0 < T3.length := List.length_pos.2 hT3
        have hlen3 : S3.length + T3.length = S0.length + 1 + T.length := by
          have := congrArg List.length q2
          simp only [List.length_append, List.length_singleton] at this
          omega
        obtain ⟨r, tr3, r1, _, r2⟩ := ih e2 S3 gap3 (T3 ++ F) q3
          (by
            rw [q4]
            simp only [List.length_append, List.length_singleton] at hf
            omega)
        simp only [r1]
        refine ⟨r, _, rfl, by simp, ?_⟩
        intro x hx
        simp only [List.mem_cons, List.mem_append, List.not_mem_nil, or_false] at hx
        rcases hx with (((hx | hx) | hx) | hx) | hx
        · rw [hx]; exact hsafe
        · exact p6 x hx
        · rw [hx]; exact hsafe1
        · exact q6 x hx
        · exact r2 x hx

theorem euLight_init (g : AdjacencyList) (hb : BoundsValid g) (st : Nat) (hst : st < g.length) :
    ∃ e p1, newEulerian g (arcTotal g : Int) = .ok e ∧ intSet e.p 0 st = .ok p1 ∧
      (st = 0 → p1 = e.p) ∧ ({ e with p := p1 } : Eulerian).g = g ∧
      EuLight g.length (arcTotal g) { e with p := p1 } [st] (List.replicate (arcTotal g) 0) [] := by
  obtain ⟨e, p1, h1, h2, h3, h4, h5⟩ := newEulerian_inv g st hst
  refine ⟨e, p1, h1, h2, h3, h5, ⟨h4.rel, ?_, h4.len, ?_, ?_, ?_⟩⟩
  · have := h4.gapLen; omega
  · intro x hx
    exact h4.nodes x (by simpa using hx)
  · rw [h5]; exact hb
  · simp only [List.length_singleton, List.length_replicate, List.length_nil]
    omega

/-- The record of states does not change what EulerianCycleD computes. -/
theorem eulerianCycleDT_erase (g : AdjacencyList) (m : Int) (fuel : Nat)
    (r : List Nat × Option String) (tr : List Eulerian)
    (h : EulerianCycleDT g m fuel = .ok (r, tr)) : EulerianCycleD g m fuel = .ok r := by
  unfold EulerianCycleDT at h
  unfold EulerianCycleD
  by_cases h0 : g.length = 0
  · rw [if_pos h0] at h ⊢
    cases h; rfl
  · rw [if_neg h0] at h ⊢
    cases hn : newEulerian g m with
    | error x => simp only [hn] at h; cases h
    | ok e =>
      simp only [hn] at h ⊢
      cases hl : euLoopT fuel fuel e with
      | error x => simp only [hl] at h; cases h
      | ok q =>
        obtain ⟨r1, tr1⟩ := q
        rw [euLoopT_erase fuel fuel e r1 tr1 hl]
        cases r1 with
        | none => simp only [hl] at h ⊢; cases h; rfl
        | some e1 =>
          simp only [hl] at h ⊢
          by_cases huv : e1.uv ≠ 0
          · rw [if_pos huv] at h ⊢; cases h; rfl
          · rw [if_neg huv] at h ⊢; cases h; rfl

/-- The record of states does not change what EulerianPathD computes. -/
theorem eulerianPathDT_erase (g : AdjacencyList) (m : Int) (start fuel : Nat)
    (r : List Nat × Option String) (tr : List Eulerian)
    (h : EulerianPathDT g m start fuel = .ok (r, tr)) :
    EulerianPathD g m start fuel = .ok r := by
  unfold EulerianPathDT at h
  unfold EulerianPathD
  by_cases h0 : g.length = 0
  · rw [if_pos h0] at h ⊢
    cases h; rfl
  · rw [if_neg h0] at h ⊢
    cases hn : newEulerian g m with
    | error x => simp only [hn] at h; cases h
    | ok e =>
      simp only [hn] at h ⊢
      cases hi : intSet e.p 0 start with
      | error x => simp only [hi] at h; cases h
      | ok p1 =>
        simp only [hi] at h ⊢
        cases hp : euPushT fuel { e with p := p1 } with
        | error x => simp only [hp] at h; cases h
        | ok q =>
          obtain ⟨e1, tr1⟩ := q
          simp only [hp] at h
          rw [euPushT_erase fuel _ e1 tr1 hp]
          simp only
          cases hk : euKeepT fuel e1 with
          | error x => simp only [hk] at h; cases h
          | ok q2 =>
            obtain ⟨e2, tr2⟩ := q2
            simp only [hk] at h
            rw [euKeepT_erase fuel e1 e2 tr2 hk]
            simp only
            cases hl : euLoopT fuel fuel e2 with
            | error x => simp only [hl] at h; cases h
            | ok q3 =>
              obtain ⟨r1, tr3⟩ := q3
              rw [euLoopT_erase fuel fuel e2 r1 tr3 hl]
              cases r1 with
              | none => simp only [hl] at h ⊢; cases h; rfl
              | some e3 =>
                simp only [hl] at h ⊢
                by_cases huv : e3.uv ≠ 0
                · rw [if_pos huv] at h ⊢; cases h; rfl
                · rw [if_neg huv] at h ⊢; cases h; rfl

theorem eulerianCycleDT_run (g : AdjacencyList) (hne : g ≠ []) (hb : BoundsValid g)
    (fuel : Nat) (hf : arcTotal g + 2 ≤ fuel) :
    ∃ r tr, EulerianCycleDT g (arcTotal g : Int) fuel = .ok (r, tr) ∧ tr ≠ [] ∧
      ∀ x ∈ tr, EuSafe (arcTotal g) x := by
  have hlen : 0 < g.length := List.length_pos.2 hne
  have hlen0 : ¬ g.length = 0 := by omega
  obtain ⟨e, p1, h1, h2, h3, h5, h4⟩ := euLight_init g hb 0 hlen
  have hp : p1 = e.p := h3 rfl
  subst hp
  have hg : e.g = g := h5
  obtain ⟨r, tr, r1, r2, r3⟩ := euLoopT_spec g.length (arcTotal g) fuel (by omega) fuel e [0] _ []
    h4 (by rw [hg]; simp; omega)
  unfold EulerianCycleDT
  rw [if_neg hlen0]
  simp only [h1, r1]
  cases r with
  | none => exact ⟨_, tr, rfl, r2, r3⟩
  | some e1 =>
    simp only
    by_cases huv : e1.uv ≠ 0
    · rw [if_pos huv]; exact ⟨_, tr, rfl, r2, r3⟩
    · rw [if_neg huv]; exact ⟨_, tr, rfl, r2, r3⟩

theorem eulerianPathDT_run (g : AdjacencyList) (hb : BoundsValid g)
    (start : Nat) (hst : start < g.length) (fuel : Nat) (hf : arcTotal g + 2 ≤ fuel) :
    ∃ r tr, EulerianPathDT g (arcTotal g : Int) start fuel = .ok (r, tr) ∧ tr ≠ [] ∧
      ∀ x ∈ tr, EuSafe (arcTotal g) x := by
  have hlen0 : ¬ g.length = 0 := by omega
  obtain ⟨e, p1, h1, h2, _, h5, h4⟩ := euLight_init g hb start hst
  have htop : ({ e with p := p1 } : Eulerian).top = .ok start :=
    euRel_top _ [] _ [] start h4.rel
  obtain ⟨e1, tr1, T, gap1, t, a1, a2, a3, a4, a5, a6⟩ :=
    euPushFromT_spec g.length (arcTotal g) fuel { e with p := p1 } [] start _ [] h4
      (by rw [h5]; omega)
  have htot1 := a2.total
  obtain ⟨e2, tr2, S3, T3, gap3, q1, q2, q3, q4, _, q6⟩ :=
    euKeepT_spec g.length (arcTotal g) fuel e1 _ gap1 [] a2 (by omega)
  have hlen3 : S3.length + T3.length = 1 + T.length := by
    have := congrArg List.length q2
    simp only [List.length_append, List.length_singleton, List.length_nil] at this
    omega
  obtain ⟨r, tr3, r1, r2, r3⟩ := euLoopT_spec g.length (arcTotal g) fuel (by omega) fuel e2 S3
    gap3 _ q3 (by rw [q4]; rw [h5] at a5; omega)
  have hall : ∀ x ∈ tr1 ++ tr2 ++ tr3, EuSafe (arcTotal g) x := by
    intro x hx
    simp only [List.mem_append] at hx
    rcases hx with (hx | hx) | hx
    · exact a6 x hx
    · exact q6 x hx
    · exact r3 x hx
  have hne3 : tr1 ++ tr2 ++ tr3 ≠ [] := by
    intro h0
    simp only [List.append_eq_nil] at h0
    exact r2 h0.2
  unfold EulerianPathDT
  rw [if_neg hlen0]
  simp only [h1, h2, euPushT, htop, a1, q1, r1]
  cases r with
  | none => exact ⟨_, _, rfl, hne3, hall⟩
  | some e3 =>
    simp only
    by_cases huv : e3.uv ≠ 0
    · rw [if_pos huv]; exact ⟨_, _, rfl, hne3, hall⟩
    · rw [if_neg huv]; exact ⟨_, _, rfl, hne3, hall⟩

/-- Claim C37: on every bounds-valid directed multigraph g, with m = ArcSize(g), a start
node of g and a budget of at least ArcSize(g) + 2 loop iterations, EulerianCycleD(m) and
EulerianPathD(m, start) run without an index failure, and every working state e they pass
through (at each test of a loop condition and at each iteration of push and keep) satisfies
e.m = e.s + the number of arcs not yet consumed, with -1 <= e.s <= e.m <= m and p of
length m + 1: the stack p[0..s] and the finished path p[e.m+1..m] do not overlap and
lie inside p.  On a non-empty graph the record of states is not empty. -/
theorem eulerian_state_safe (g : AdjacencyList) (start fuel : Nat) (hb : BoundsValid g)
    (hst : g ≠ [] → start < g.length) (hf : ArcSize g + 2 ≤ fuel) :
    (∃ r tr, EulerianCycleDT g (ArcSize g : Int) fuel = .ok (r, tr) ∧
      EulerianCycleD g (ArcSize g : Int) fuel = .ok r ∧ (g ≠ [] → tr ≠ []) ∧
      ∀ e ∈ tr, EuSafe (ArcSize g) e) ∧
    (∃ r tr, EulerianPathDT g (ArcSize g : Int) start fuel = .ok (r, tr) ∧
      EulerianPathD g (ArcSize g : Int) start fuel = .ok r ∧ (g ≠ [] → tr ≠ []) ∧
      ∀ e ∈ tr, EuSafe (ArcSize g) e) := by
  by_cases hne : g = []
  · subst hne
    exact ⟨⟨([], none), [], rfl, rfl, fun h => absurd rfl h, fun e he => by cases he⟩,
      ⟨([], none), [], rfl, rfl, fun h => absurd rfl h, fun e he => by cases he⟩⟩
  · rw [arcSize_eq] at hf ⊢
    obtain ⟨r, tr, h1, h2, h3⟩ := eulerianCycleDT_run g hne hb fuel hf
    obtain ⟨r', tr', k1, k2, k3⟩ := eulerianPathDT_run g hb start (hst hne) fuel hf
    exact ⟨⟨r, tr, h1, eulerianCycleDT_erase g _ fuel r tr h1, fun _ => h2, h3⟩,
      ⟨r', tr', k1, eulerianPathDT_erase g _ start fuel r' tr' k1, fun _ => k2, k3⟩⟩

theorem eulerian_state_safe_witness :
    (BoundsValid [[1, 2], [2], [3], [1]] ∧
      ([[1, 2], [2], [3], [1]] ≠ ([] : AdjacencyList) → 0 < [[1, 2], [2], [3], [1]].length)) ∧
    (∃ r tr, EulerianCycleDT [[1, 2], [2], [3], [1]] (ArcSize [[1, 2], [2], [3], [1]] : Int) 7 =
        .ok (r, tr) ∧
      EulerianCycleD [[1, 2], [2], [3], [1]] (ArcSize [[1, 2], [2], [3], [1]] : Int) 7 = .ok r ∧
      ([[1, 2], [2], [3], [1]] ≠ ([] : AdjacencyList) → tr ≠ []) ∧
      ∀ e ∈ tr, EuSafe (ArcSize [[1, 2], [2], [3], [1]]) e) ∧
    (∃ r tr, EulerianPathDT [[1, 2], [2], [3], [1]] (ArcSize [[1, 2], [2], [3], [1]] : Int) 0 7 =
        .ok (r, tr) ∧
      EulerianPathD [[1, 2], [2], [3], [1]] (ArcSize [[1, 2], [2], [3], [1]] : Int) 0 7 = .ok r ∧
      ([[1, 2], [2], [3], [1]] ≠ ([] : AdjacencyList) → tr ≠ []) ∧
      ∀ e ∈ tr, EuSafe (ArcSize [[1, 2], [2], [3], [1]]) e) :=
  ⟨⟨by decide, by decide⟩,
    eulerian_state_safe [[1, 2], [2], [3], [1]] 0 7 (by decide) (by decide) (by decide)⟩

theorem bitsOf_append (l : List Nat) (n : Nat) : bitsOf (l ++ [n]) = SetBit1 (bitsOf l) n := by
  unfold bitsOf
  rw [List.foldl_append]
  rfl

theorem bit_bitsOf (l : List Nat) (x : Nat) : Bit (bitsOf l) x = true ↔ x ∈ l := by
  induction l using List.reverseRecOn with
  | nil => simp [bitsOf, bit_zero]
  | append_singleton l n ih =>
    rw [bitsOf_append, bit_setBit1]
    simp only [Bool.or_eq_true, decide_eq_true_eq, List.mem_append, List.mem_singleton, ih]
    constructor
    · rintro (h | h)
      · exact Or.inl h
      · exact Or.inr h.symm
    · rintro (h | h)
      · exact Or.inl h
      · exact Or.inr h.symm

theorem ccbLoop_ccl (rec : Nat → CCLState → Except Err CCLState)
    (brec : Nat → CCBState → Except Err CCBState)
    (hrec : ∀ n st st1, rec n st = .ok st1 → brec n (ccbOf st) = .ok (ccbOf st1)) :
    ∀ (nbs : List Half) (st st1 : CCLState), cclLoopLabeled rec nbs st = .ok st1 →
      ccbLoopLabeled brec nbs (ccbOf st) = .ok (ccbOf st1) := by
  intro nbs
  induction nbs with
  | nil =>
    intro st st1 h
    simp only [cclLoopLabeled, Except.ok.injEq] at h
    subst h; rfl
  | cons nb rest ih =>
    intro st st1 h
    rw [cclLoopLabeled] at h
    rw [ccbLoopLabeled]
    have hvg : (ccbOf st).vg = st.vg := rfl
    rw [hvg]
    by_cases hb : Bit st.vg nb.To = true
    · simp only [hb, if_true] at h ⊢
      exact ih st st1 h
    · have hb' := bool_eq_false_of_not hb
      simp only [hb', Bool.false_eq_true, if_false] at h ⊢
      cases h1 : rec nb.To st with
      | error e => simp [h1] at h
      | ok st2 =>
        simp only [h1] at h
        rw [hrec nb.To st st2 h1]
        exact ih st2 st1 h

/-- The closure df of ConnectedComponentBits does to vg what df of ConnectedComponentLists
does, sets in vc the bits of the nodes that the other appends to m, and counts them in
nc. -/
theorem ccbDf_ccl (g : LabeledAdjacencyList) :
    ∀ (fuel n : Nat) (st st1 : CCLState), cclDfLabeled g fuel n st = .ok st1 →
      ccbDfLabeled g fuel n (ccbOf st) = .ok (ccbOf st1) := by
  intro fuel
  induction fuel with
  | zero => intro n st st1 h; simp [cclDfLabeled] at h
  | succ fuel ih =>
    intro n st st1 h
    rw [cclDfLabeled] at h
    rw [ccbDfLabeled]
    cases hg : g[n]? with
    | none => simp [hg] at h
    | some nbs =>
      simp only [hg] at h ⊢
      have := ccbLoop_ccl (cclDfLabeled g fuel) (ccbDfLabeled g fuel) ih nbs _ st1 h
      simp only [ccbOf, bitsOf_append, List.length_append, List.length_singleton] at this
      exact this

/-- One call of the function of ConnectedComponentBits gives the length and the bitmap of
the list that the call of the function of ConnectedComponentLists gives. -/
theorem ccbScan_ccl (g : LabeledAdjacencyList) (fuel : Nat) :
    ∀ (ns : List Nat) (st st1 : CCLState) (l : List Nat),
      cclScanLabeled g fuel ns st = .ok (l, st1) →
      ccbScanLabeled g fuel ns (ccbOf st) = .ok ((l.length, bitsOf l), ccbOf st1) := by
  intro ns
  induction ns with
  | nil =>
    intro st st1 l h
    simp only [cclScanLabeled, Except.ok.injEq, Prod.mk.injEq] at h
    obtain ⟨h1, h2⟩ := h
    subst h1; subst h2
    rfl
  | cons n rest ih =>
    intro st st1 l h
    rw [cclScanLabeled] at h
    rw [ccbScanLabeled]
    have hvg : (ccbOf st).vg = st.vg := rfl
    rw [hvg]
    by_cases hb : Bit st.vg n = true
    · simp only [hb, if_true] at h ⊢
      exact ih _ st1 l h
    · have hb' := bool_eq_false_of_not hb
      simp only [hb', Bool.false_eq_true, if_false] at h ⊢
      cases h1 : cclDfLabeled g fuel n { st with n := n, m := [] } with
      | error e => simp [h1] at h
      | ok s1 =>
        simp only [h1, Except.ok.injEq, Prod.mk.injEq] at h
        obtain ⟨hl, hs⟩ := h
        subst hl; subst hs
        have := ccbDf_ccl g fuel n _ s1 h1
        have e : (⟨st.vg, 0, 0, n⟩ : CCBState) = ccbOf ⟨st.vg, [], n⟩ := rfl
        rw [e, this]
        rfl

theorem callsOf_ccb (g : LabeledAdjacencyList) (fuel : Nat) :
    ∀ (k : Nat) (st : CCLState) (rs : List (List Nat)),
      callsOf (cclNextLabeled g fuel) k st = .ok rs →
      callsOf (ccbNextLabeled g fuel) k (ccbOf st) =
        .ok (rs.map (fun l => (l.length, bitsOf l))) := by
  intro k
  induction k with
  | zero =>
    intro st rs h
    simp only [callsOf, Except.ok.injEq] at h
    subst h; rfl
  | succ k ih =>
    intro st rs h
    rw [callsOf] at h
    rw [callsOf]
    cases h1 : cclNextLabeled g fuel st with
    | error e => simp [h1] at h
    | ok q =>
      obtain ⟨l, s1⟩ := q
      simp only [h1] at h
      cases h2 : callsOf (cclNextLabeled g fuel) k s1 with
      | error e => simp [h2] at h
      | ok rs1 =>
        simp only [h2, Except.ok.injEq] at h
        subst h
        have hn : ccbNextLabeled g fuel (ccbOf st) = .ok ((l.length, bitsOf l), ccbOf s1) :=
          ccbScan_ccl g fuel _ st s1 l h1
        rw [hn]
        simp only
        rw [ih s1 rs1 h2]
        rfl

theorem undirected_of_symmetric (g : LabeledAdjacencyList) (hs : Symmetric g) :
    Undirected (unlabel g) := by
  intro u hu
  rw [unlabel_length] at hu
  exact hs u hu

theorem pad_length (ls : List (List Nat)) (k : Nat) :
    ((ls ++ List.replicate (k - ls.length) []).take k).length = k := by
  simp only [List.length_take, List.length_append, List.length_replicate]
  omega

theorem pad_getD (ls : List (List Nat)) (k i : Nat) (hi : i < k) :
    ((ls ++ List.replicate (k - ls.length) []).take k).getD i [] = ls.getD i [] := by
  rw [List.getD_eq_getElem?_getD, List.getD_eq_getElem?_getD, List.getElem?_take_of_lt hi]
  by_cases h : i < ls.length
  · rw [List.getElem?_append_left h]
  · rw [List.getElem?_append_right (by omega), List.getElem?_replicate,
      List.getElem?_eq_none (by omega)]
    split <;> rfl

theorem getD_map_bits (rs : List (List Nat)) (i : Nat) :
    (rs.map (fun l => (l.length, bitsOf l))).getD i (0, 0) =
      ((rs.getD i []).length, bitsOf (rs.getD i [])) := by
  rw [List.getD_eq_getElem?_getD, List.getD_eq_getElem?_getD, List.getElem?_map]
  cases rs[i]? <;> rfl

/-- Claim C40: the three enumerations of connected components agree.  On every undirected
labeled graph g, with a recursion budget above len(g), ConnectedComponentReps returns reps
and orders of one length, and for every k the first k calls of the functions returned by
ConnectedComponentLists and ConnectedComponentBits return; the i-th result of
ConnectedComponentBits has as its set bits exactly the members of the i-th list of
ConnectedComponentLists and as its order the length of that list; for i below len(reps)
the first member of the i-th list is reps[i] and its length is orders[i]; and every call
after these returns order 0 and an empty bitmap. -/
theorem connectedComponents_agree (g : LabeledAdjacencyList) (fuel : Nat) (hs : Symmetric g)
    (hfuel : g.length < fuel) :
    ∃ reps orders, LabeledUndirected.ConnectedComponentReps g fuel = .ok (reps, orders) ∧
      orders.length = reps.length ∧
      ∀ k, ∃ (lists : List (List Nat)) (bits : List (Nat × Nat)),
        LabeledUndirected.ConnectedComponentLists g fuel k = .ok lists ∧
        LabeledUndirected.ConnectedComponentBits g fuel k = .ok bits ∧
        lists.length = k ∧ bits.length = k ∧
        (∀ i, i < k → (bits.getD i (0, 0)).1 = (lists.getD i []).length ∧
          ∀ x, Bit (bits.getD i (0, 0)).2 x = true ↔ x ∈ lists.getD i []) ∧
        (∀ i, i < k → i < reps.length →
          (lists.getD i []).head? = some (reps.getD i 0) ∧
          orders.getD i 0 = (lists.getD i []).length) ∧
        (∀ i, i < k → reps.length ≤ i → bits[i]? = some (0, 0)) := by
  have hu := undirected_of_symmetric g hs
  have hfuel2 : (unlabel g).length < fuel := by rw [unlabel_length]; exact hfuel
  obtain ⟨ls, vgf, hrun, hcomp⟩ := ccAll_components (unlabel g) hu fuel hfuel2
  obtain ⟨o1, hmain⟩ := ccrMain_ccAll (unlabel g) fuel _ 0 0 [] [] ls vgf hrun
  obtain ⟨h1, _, _⟩ := hcomp
  refine ⟨ls.map (fun l => l.head?.getD 0), ls.map List.length, ?_, by simp, ?_⟩
  · rw [connectedComponentReps_labeled_eq]
    unfold ConnectedComponentReps
    rw [List.range_eq_range', hmain]
    simp
  · intro k
    have hlists : LabeledUndirected.ConnectedComponentLists g fuel k =
        .ok ((ls ++ List.replicate (k - ls.length) []).take k) := by
      rw [connectedComponentLists_labeled_eq]
      exact callsOf_ccAll (unlabel g) fuel k ⟨0, [], 0⟩ ls vgf hrun
    have hbits : LabeledUndirected.ConnectedComponentBits g fuel k =
        .ok (((ls ++ List.replicate (k - ls.length) []).take k).map
          (fun (l : List Nat) => (l.length, bitsOf l))) :=
      callsOf_ccb g fuel k ⟨0, [], 0⟩ _ hlists
    refine ⟨_, _, hlists, hbits, pad_length ls k, by rw [List.length_map]; exact pad_length ls k,
      ?_, ?_, ?_⟩
    · intro i _
      rw [getD_map_bits]
      exact ⟨rfl, fun x => bit_bitsOf _ x⟩
    · intro i hi hir
      simp only [List.length_map] at hir
      rw [pad_getD ls k i hi]
      rw [List.getD_eq_getElem?_getD, List.getD_eq_getElem?_getD, List.getD_eq_getElem?_getD,
        List.getElem?_map, List.getElem?_map, List.getElem?_eq_getElem hir]
      simp only [Option.map_some', Option.getD_some]
      obtain ⟨_, r, hr1, _⟩ := h1 ls[i] (List.getElem_mem hir)
      rw [hr1]
      simp
    · intro i hi hir
      simp only [List.length_map] at hir
      have hpad := pad_getD ls k i hi
      have hlen := pad_length ls k
      rw [List.getD_eq_getElem?_getD, List.getD_eq_getElem?_getD,
        List.getElem?_eq_none hir] at hpad
      rw [List.getElem?_map]
      rw [List.getElem?_eq_getElem (by rw [hlen]; exact hi)] at hpad ⊢
      simp only [Option.getD_some, Option.getD_none] at hpad
      rw [hpad]
      rfl

theorem connectedComponents_agree_witness :
    Symmetric exampleComponents ∧
    LabeledUndirected.ConnectedComponentBits exampleComponents 7 4 =
      .ok [(3, 25), (2, 34), (1, 4), (0, 0)] ∧
    ∃ reps orders,
      LabeledUndirected.ConnectedComponentReps exampleComponents 7 = .ok (reps, orders) ∧
      orders.length = reps.length ∧
      ∀ k, ∃ (lists : List (List Nat)) (bits : List (Nat × Nat)),
        LabeledUndirected.ConnectedComponentLists exampleComponents 7 k = .ok lists ∧
        LabeledUndirected.ConnectedComponentBits exampleComponents 7 k = .ok bits ∧
        lists.length = k ∧ bits.length = k ∧
        (∀ i, i < k → (bits.getD i (0, 0)).1 = (lists.getD i []).length ∧
          ∀ x, Bit (bits.getD i (0, 0)).2 x = true ↔ x ∈ lists.getD i []) ∧
        (∀ i, i < k → i < reps.length →
          (lists.getD i []).head? = some (reps.getD i 0) ∧
          orders.getD i 0 = (lists.getD i []).length) ∧
        (∀ i, i < k → reps.length ≤ i → bits[i]? = some (0, 0)) :=
  ⟨by decide, by rfl, connectedComponents_agree exampleComponents 7 (by decide) (by decide)⟩

/-- With a visitor that always returns true, a call of df on an unvisited node appends to
the record of calls the pre-order of the traversal from that node, as the specification
words it, provided the bitmap holds exactly the nodes of the calls made. -/
theorem df_preOrder (g : AdjacencyList) (vf : Visitor) (hv : ∀ h n b, vf h n b = true) :
    ∀ fuel n st st1, df g (some vf) fuel n st = .ok st1 → Bit st.bm n = false →
      (∀ x, Bit st.bm x = true ↔ x ∈ st.calls.map Call.node) →
      preOrderFrom g fuel n (st.calls.map Call.node) = some (st1.calls.map Call.node) ∧
      (∀ x, Bit st1.bm x = true ↔ x ∈ st1.calls.map Call.node) ∧ st1.ok = st.ok ∧
      ∃ t, st1.calls.map Call.node = st.calls.map Call.node ++ n :: t := by
  intro fuel
  induction fuel with
  | zero => intro n st st1 h; simp [df] at h
  | succ fuel ih =>
    intro n st st1 h hbit hrel
    have loop : ∀ (nbs : List Nat) (s s1 : DFState),
        nbs.foldlM (fun s nb => df g (some vf) fuel nb s) s = .ok s1 →
        (∀ x, Bit s.bm x = true ↔ x ∈ s.calls.map Call.node) →
        nbs.foldlM (fun acc nb => if nb ∈ acc then some acc else preOrderFrom g fuel nb acc)
            (s.calls.map Call.node) = some (s1.calls.map Call.node) ∧
          (∀ x, Bit s1.bm x = true ↔ x ∈ s1.calls.map Call.node) ∧ s1.ok = s.ok ∧
          ∃ t, s1.calls.map Call.node = s.calls.map Call.node ++ t := by
      intro nbs
      induction nbs with
      | nil =>
        intro s s1 hs hr
        rw [foldlM_nil_ok] at hs
        subst hs
        exact ⟨rfl, hr, rfl, [], by simp⟩
      | cons nb rest ihl =>
        intro s s1 hs hr
        rw [foldlM_cons_ok] at hs
        obtain ⟨s2, h1, h2⟩ := hs
        rw [List.foldlM_cons]
        by_cases hb : Bit s.bm nb = true
        · have hs2 : s2 = s := by
            cases fuel with
            | zero => simp [df] at h1
            | succ k =>
              rw [df] at h1
              simp only [hb, if_true] at h1
              cases h1; rfl
          subst hs2
          rw [if_pos ((hr nb).1 hb)]
          exact ihl s2 s1 h2 hr
        · have hb' := bool_eq_false_of_not hb
          have hnm : nb ∉ s.calls.map Call.node := fun hm => hb ((hr nb).2 hm)
          rw [if_neg hnm]
          obtain ⟨e1, e2, e3, t1, e4⟩ := ih nb s s2 h1 hb' hr
          rw [e1]
          obtain ⟨f1, f2, f3, t2, f4⟩ := ihl s2 s1 h2 e2
          exact ⟨f1, f2, by rw [f3, e3], nb :: t1 ++ t2, by rw [f4, e4]; simp⟩
    rcases df_inv g (some vf) fuel n st st1 h with ⟨hb, _⟩ | ⟨_, vf1, hvf, hfalse, _⟩ |
      ⟨_, nbs, s1, hg, hbm, hok, hcalls, hl⟩
    · rw [hbit] at hb; cases hb
    · cases hvf
      rw [hv] at hfalse
      cases hfalse
    · rcases hcalls with ⟨hnone, _⟩ | ⟨vf1, _, _, hc⟩
      · cases hnone
      · rw [preOrderFrom]
        have hgd : g.getD n [] = nbs := by rw [List.getD_eq_getElem?_getD, hg]; rfl
        rw [hgd]
        have hvis : s1.calls.map Call.node = st.calls.map Call.node ++ [n] := by
          rw [hc]; simp
        have hr1 : ∀ x, Bit s1.bm x = true ↔ x ∈ s1.calls.map Call.node := by
          intro x
          rw [hbm, bit_setBit1, hvis, List.mem_append, List.mem_singleton, Bool.or_eq_true,
            decide_eq_true_eq, hrel x]
          exact ⟨fun h => h.imp id Eq.symm, fun h => h.imp id Eq.symm⟩
        obtain ⟨f1, f2, f3, t, f4⟩ := loop nbs s1 st1 hl hr1
        rw [← hvis]
        exact ⟨f1, f2, by rw [f3, hok], t, by rw [f4, hvis]; simp⟩

/-- Claim C34: on every bounds-valid graph g, from a node start of g, with bm initially 0,
a visitor that always returns true and a recursion budget above len(g), DepthFirst returns
true, and the sequence of the nodes on which it calls the visitor is the depth-first
pre-order from start as the specification words it (preOrder): start first, then, for
each out-neighbour in adjacency-list order that is still unvisited at that time, the
pre-order of the traversal from that neighbour. -/
theorem depthFirst_preOrder (g : AdjacencyList) (start fuel : Nat) (vf : Visitor)
    (hb : BoundsValid g) (hs : start < g.length) (hv : ∀ h n b, vf h n b = true)
    (hfuel : g.length < fuel) :
    ∃ r, DepthFirst g start (some 0) (some vf) fuel = .ok r ∧ r.ok = true ∧
      preOrder g fuel start = some (r.calls.map Call.node) ∧
      (r.calls.map Call.node).head? = some start := by
  obtain ⟨r, hr⟩ := df_total g (some vf) hb fuel start ⟨0, true, []⟩ hs
    (lt_of_le_of_lt (unsetCount_le g 0) hfuel)
  obtain ⟨h1, _, h3, t, h4⟩ := df_preOrder g vf hv fuel start ⟨0, true, []⟩ r hr (bit_zero start)
    (fun x => by simp [bit_zero])
  refine ⟨r, hr, h3, h1, ?_⟩
  rw [h4]
  rfl

theorem depthFirst_preOrder_witness :
    (BoundsValid [[1, 2], [2], [3], [1]] ∧ 0 < [[1, 2], [2], [3], [1]].length) ∧
    preOrder [[1, 2], [2], [3], [1]] 5 0 = some [0, 1, 2, 3] ∧
    ∃ r, DepthFirst [[1, 2], [2], [3], [1]] 0 (some 0) (some (fun _ _ _ => true)) 5 = .ok r ∧
      r.ok = true ∧
      preOrder [[1, 2], [2], [3], [1]] 5 0 = some (r.calls.map Call.node) ∧
      (r.calls.map Call.node).head? = some 0 :=
  ⟨⟨by decide, by decide⟩, by rfl,
    depthFirst_preOrder [[1, 2], [2], [3], [1]] 0 5 (fun _ _ _ => true) (by decide) (by decide)
      (fun _ _ _ => rfl) (by decide)⟩

theorem tarjanPop_split (n : Nat) :
    ∀ (S : List Nat) (stacked : Nat) (c S1 : List Nat) (stacked1 : Nat) (c1 : List Nat),
      tarjanPop n S stacked c = .ok (S1, stacked1, c1) →
      ∃ seg, seg ≠ [] ∧ S = seg ++ S1 ∧ c1 = c ++ seg := by
  intro S
  induction S with
  | nil => intro stacked c S1 stacked1 c1 h; simp [tarjanPop] at h
  | cons w rest ih =>
    intro stacked c S1 stacked1 c1 h
    rw [tarjanPop] at h
    by_cases hw : w = n
    · rw [if_pos hw] at h
      simp only [Except.ok.injEq, Prod.mk.injEq] at h
      obtain ⟨h1, _, h3⟩ := h
      exact ⟨[w], by simp, by rw [← h1]; rfl, h3.symm⟩
    · rw [if_neg hw] at h
      obtain ⟨seg, _, e2, e3⟩ := ih _ _ _ _ _ h
      exact ⟨w :: seg, by simp, by rw [e2]; rfl, by rw [e3]; simp⟩

theorem getD_set_nat (l : List Nat) (n x m : Nat) (hn : n < l.length) :
    (l.set n x).getD m 0 = if m = n then x else l.getD m 0 := by
  rw [List.getD_eq_getElem?_getD, List.getD_eq_getElem?_getD, List.getElem?_set]
  by_cases h : n = m
  · subst h; simp [hn]
  · have h2 : ¬ m = n := fun h3 => h h3.symm
    simp [h, h2]

/-- The order is kept when sc indexes an unindexed node n and pushes it. -/
theorem tjOrder_enter (st : TjState) (n : Nat) (h : TjOrder st) (hbit : Bit st.indexed n = false)
    (hn : n < st.index.length) :
    TjOrder { st with
      index := st.index.set n st.x
      indexed := SetBit1 st.indexed n
      lowlink := st.lowlink.set n st.x
      x := st.x + 1
      S := n :: st.S
      stacked := SetBit1 st.stacked n } := by
  have hne : ∀ m, Bit st.indexed m = true → m ≠ n := by
    intro m hm hmn
    rw [hmn, hbit] at hm
    cases hm
  have hold : ∀ m, Bit st.indexed m = true → (st.index.set n st.x).getD m 0 = st.index.getD m 0 := by
    intro m hm
    rw [getD_set_nat _ _ _ _ hn, if_neg (hne m hm)]
  have hnew : (st.index.set n st.x).getD n 0 = st.x := by
    rw [getD_set_nat _ _ _ _ hn, if_pos rfl]
  have hcases : ∀ m, Bit (SetBit1 st.indexed n) m = true → Bit st.indexed m = true ∨ m = n := by
    intro m hm
    rw [bit_setBit1] at hm
    simp only [Bool.or_eq_true, decide_eq_true_eq] at hm
    exact hm.imp id Eq.symm
  have hmono : ∀ m, Bit st.indexed m = true → Bit (SetBit1 st.indexed n) m = true := by
    intro m hm
    rw [bit_setBit1, hm]; rfl
  refine ⟨?_, ?_, ?_, ?_, ?_, ?_, h.nonempty⟩
  · simp only
    rw [List.pairwise_cons]
    constructor
    · intro b hb
      rw [hnew, hold b (h.indexedS b hb)]
      exact h.index_lt b (h.indexedS b hb)
    · refine h.sortedS.imp_of_mem ?_
      intro a b ha hb hab
      rw [hold a (h.indexedS a ha), hold b (h.indexedS b hb)]
      exact hab
  · intro C hC
    refine (h.sortedC C hC).imp_of_mem ?_
    intro a b ha hb hab
    simp only
    rw [hold a (h.indexedC C hC a ha), hold b (h.indexedC C hC b hb)]
    exact hab
  · intro m hm
    simp only at hm ⊢
    rcases List.mem_cons.1 hm with e | e
    · rw [e, bit_setBit1]; simp
    · exact hmono m (h.indexedS m e)
  · intro C hC m hm
    exact hmono m (h.indexedC C hC m hm)
  · intro m hm
    simp only at hm ⊢
    rcases hcases m hm with e | e
    · rw [hold m e]
      have := h.index_lt m e
      omega
    · rw [e, hnew]; omega
  · intro a b ha hb hab
    simp only at ha hb hab
    rcases hcases a ha with ea | ea <;> rcases hcases b hb with eb | eb
    · rw [hold a ea, hold b eb] at hab
      exact h.inj a b ea eb hab
    · rw [eb, hnew, hold a ea] at hab
      have := h.index_lt a ea
      omega
    · rw [ea, hnew, hold b eb] at hab
      have := h.index_lt b eb
      omega
    · rw [ea, eb]

/-- The order does not depend on lowlink. -/
theorem tjOrder_lowlink (st : TjState) (l : List Nat) (h : TjOrder st) :
    TjOrder { st with lowlink := l } :=
  ⟨h.sortedS, h.sortedC, h.indexedS, h.indexedC, h.index_lt, h.inj, h.nonempty⟩

theorem tarjanNb_order (rec : Nat → TjState → Except Err TjState) (n : Nat)
    (hrec : ∀ nb st st1, rec nb st = .ok st1 → Bit st.indexed nb = false → TjOrder st →
      TjOrder st1 ∧ BmLe st.indexed st1.indexed ∧ st1.index.length = st.index.length)
    (st st1 : TjState) (nb : Nat) (h : tarjanNb rec n st nb = .ok st1) (ho : TjOrder st) :
    TjOrder st1 ∧ BmLe st.indexed st1.indexed ∧ st1.index.length = st.index.length := by
  unfold tarjanNb at h
  by_cases hi : Bit st.indexed nb = false
  · rw [if_pos hi] at h
    cases hr : rec nb st with
    | error e => simp only [hr] at h; cases h
    | ok s1 =>
      obtain ⟨o1, o2, o3⟩ := hrec nb st s1 hr hi ho
      simp only [hr] at h
      cases h1 : s1.lowlink[nb]? with
      | none => simp only [h1] at h; cases h
      | some lnb =>
        cases h2 : s1.lowlink[n]? with
        | none => simp only [h1, h2] at h; cases h
        | some ln =>
          simp only [h1, h2] at h
          by_cases hlt : lnb < ln
          · rw [if_pos hlt] at h
            cases h
            exact ⟨tjOrder_lowlink s1 _ o1, o2, o3⟩
          · rw [if_neg hlt] at h
            cases h
            exact ⟨o1, o2, o3⟩
  · rw [if_neg hi] at h
    by_cases hs : Bit st.stacked nb = true
    · rw [if_pos hs] at h
      cases h1 : st.index[nb]? with
      | none => simp only [h1] at h; cases h
      | some inb =>
        cases h2 : st.lowlink[n]? with
        | none => simp only [h1, h2] at h; cases h
        | some ln =>
          simp only [h1, h2] at h
          by_cases hlt : inb < ln
          · rw [if_pos hlt] at h
            cases h
            exact ⟨tjOrder_lowlink st _ ho, fun m hm => hm, rfl⟩
          · rw [if_neg hlt] at h
            cases h
            exact ⟨ho, fun m hm => hm, rfl⟩
    · rw [if_neg hs] at h
      cases h
      exact ⟨ho, fun m hm => hm, rfl⟩

theorem tarjanNb_fold_order (rec : Nat → TjState → Except Err TjState) (n : Nat)
    (hrec : ∀ nb st st1, rec nb st = .ok st1 → Bit st.indexed nb = false → TjOrder st →
      TjOrder st1 ∧ BmLe st.indexed st1.indexed ∧ st1.index.length = st.index.length) :
    ∀ (nbs : List Nat) (st st1 : TjState), nbs.foldlM (tarjanNb rec n) st = .ok st1 →
      TjOrder st →
      TjOrder st1 ∧ BmLe st.indexed st1.indexed ∧ st1.index.length = st.index.length := by
  intro nbs
  induction nbs with
  | nil =>
    intro st st1 h ho
    rw [foldlM_nil_ok] at h
    subst h
    exact ⟨ho, fun m hm => hm, rfl⟩
  | cons nb rest ih =>
    intro st st1 h ho
    rw [foldlM_cons_ok] at h
    obtain ⟨s1, h1, h2⟩ := h
    obtain ⟨o1, o2, o3⟩ := tarjanNb_order rec n hrec st s1 nb h1 ho
    obtain ⟨p1, p2, p3⟩ := ih s1 st1 h2 o1
    exact ⟨p1, fun m hm => p2 m (o2 m hm), by rw [p3, o3]⟩

/-- A call of sc on an unindexed node keeps the order, and leaves the node indexed. -/
theorem tarjanSc_order (g : AdjacencyList) :
    ∀ (fuel n : Nat) (st st1 : TjState), tarjanSc g fuel n st = .ok st1 →
      Bit st.indexed n = false → TjOrder st →
      TjOrder st1 ∧ BmLe st.indexed st1.indexed ∧ st1.index.length = st.index.length := by
  intro fuel
  induction fuel with
  | zero => intro n st st1 h; simp [tarjanSc] at h
  | succ fuel ih =>
    intro n st st1 h hbit ho
    rw [tarjanSc] at h
    by_cases hn : n < st.index.length ∧ n < st.lowlink.length
    · rw [if_pos hn] at h
      have henter := tjOrder_enter st n ho hbit hn.1
      cases hg : g[n]? with
      | none => simp only [hg] at h; cases h
      | some nbs =>
        simp only [hg] at h
        cases hf : nbs.foldlM (tarjanNb (tarjanSc g fuel) n)
            { st with
              index := st.index.set n st.x
              indexed := SetBit1 st.indexed n
              lowlink := st.lowlink.set n st.x
              x := st.x + 1
              S := n :: st.S
              stacked := SetBit1 st.stacked n } with
        | error e => simp only [hf] at h; cases h
        | ok st2 =>
          simp only [hf] at h
          obtain ⟨o1, o2, o3⟩ := tarjanNb_fold_order (tarjanSc g fuel) n ih nbs _ st2 hf henter
          simp only [List.length_set] at o3
          have hle : BmLe st.indexed st2.indexed := by
            intro m hm
            apply o2 m
            simp only
            rw [bit_setBit1, hm]; rfl
          cases h1 : st2.lowlink[n]? with
          | none => simp only [h1] at h; cases h
          | some ln =>
            cases h2 : st2.index[n]? with
            | none => simp only [h1, h2] at h; cases h
            | some i =>
              simp only [h1, h2] at h
              by_cases he : ln = i
              · rw [if_pos he] at h
                cases hp : tarjanPop n st2.S st2.stacked [] with
                | error e => simp only [hp] at h; cases h
                | ok r =>
                  obtain ⟨S1, stacked1, c⟩ := r
                  simp only [hp] at h
                  cases h
                  obtain ⟨seg, s1, s2, s3⟩ := tarjanPop_split n _ _ _ _ _ _ hp
                  simp only [List.nil_append] at s3
                  subst s3
                  have hsorted := o1.sortedS
                  rw [s2, List.pairwise_append] at hsorted
                  refine ⟨⟨hsorted.2.1, ?_, ?_, ?_, o1.index_lt, o1.inj, ?_⟩, hle, o3⟩
                  · intro C hC
                    rcases List.mem_append.1 hC with e | e
                    · exact o1.sortedC C e
                    · simp only [List.mem_singleton] at e
                      rw [e]; exact hsorted.1
                  · intro m hm
                    exact o1.indexedS m (by rw [s2]; exact List.mem_append_right _ hm)
                  · intro C hC m hm
                    rcases List.mem_append.1 hC with e | e
                    · exact o1.indexedC C e m hm
                    · simp only [List.mem_singleton] at e
                      rw [e] at hm
                      exact o1.indexedS m (by rw [s2]; exact List.mem_append_left _ hm)
                  · intro C hC
                    rcases List.mem_append.1 hC with e | e
                    · exact o1.nonempty C e
                    · simp only [List.mem_singleton] at e
                      rw [e]; exact s1
              · rw [if_neg he] at h
                cases h
                exact ⟨o1, hle, o3⟩
    · rw [if_neg hn] at h
      cases h

theorem tarjanRoot_fold_order (g : AdjacencyList) (fuel : Nat) :
    ∀ (l : List Nat) (st st1 : TjState), l.foldlM (tarjanRoot g fuel) st = .ok st1 →
      TjOrder st → TjOrder st1 ∧ st1.index.length = st.index.length := by
  intro l
  induction l with
  | nil =>
    intro st st1 h ho
    rw [foldlM_nil_ok] at h
    subst h
    exact ⟨ho, rfl⟩
  | cons n rest ih =>
    intro st st1 h ho
    rw [foldlM_cons_ok] at h
    obtain ⟨s1, h1, h2⟩ := h
    have hs1 : TjOrder s1 ∧ s1.index.length = st.index.length := by
      unfold tarjanRoot at h1
      by_cases hi : Bit st.indexed n = false
      · rw [if_pos hi] at h1
        obtain ⟨o1, _, o3⟩ := tarjanSc_order g fuel n st s1 h1 hi ho
        exact ⟨o1, o3⟩
      · rw [if_neg hi] at h1
        cases h1
        exact ⟨ho, rfl⟩
    obtain ⟨p1, p3⟩ := ih s1 st1 h2 hs1.1
    exact ⟨p1, by rw [p3, hs1.2]⟩

/-- The loop of Tarjan over the nodes returns on a bounds-valid graph, in a state that
satisfies the invariant, with every node indexed. -/
theorem tarjan_run (g : AdjacencyList) (hb : BoundsValid g) (fuel : Nat)
    (hfuel : g.length < fuel) :
    ∃ st, (List.range g.length).foldlM (tarjanRoot g fuel)
        ⟨0, 0, List.replicate g.length 0, List.replicate g.length 0, 0, [], []⟩ = .ok st ∧
      TjInv g st ∧ ∀ m, m < g.length → Bit st.indexed m = true := by
  have loop : ∀ (l : List Nat) (st : TjState), (∀ m ∈ l, m < g.length) → TjInv g st →
      st.S = [] →
      ∃ st1, l.foldlM (tarjanRoot g fuel) st = .ok st1 ∧ TjInv g st1 ∧ st1.S = [] ∧
        BmLe st.indexed st1.indexed ∧ ∀ m ∈ l, Bit st1.indexed m = true := by
    intro l
    induction l with
    | nil =>
      intro st _ hinv hS
      exact ⟨st, rfl, hinv, hS, fun m hm => hm, fun m hm => absurd hm (List.not_mem_nil _)⟩
    | cons n rest ih =>
      intro st hlt hinv hS
      obtain ⟨st1, h1, hinv1, hS1, hle1, hn1⟩ := tarjanRoot_spec g hb fuel hfuel st n hinv hS
        (hlt n (List.mem_cons_self _ _))
      obtain ⟨st2, h2, hinv2, hS2, hle2, hall⟩ := ih st1
        (fun m hm => hlt m (List.mem_cons_of_mem _ hm)) hinv1 hS1
      refine ⟨st2, (foldlM_cons_ok _ _ _ _ _).2 ⟨st1, h1, h2⟩, hinv2, hS2,
        fun m hm => hle2 m (hle1 m hm), ?_⟩
      intro m hm
      rcases List.mem_cons.1 hm with rfl | hm
      · exact hle2 _ hn1
      · exact hall m hm
  obtain ⟨st, hrun, hinv, _, _, hall⟩ := loop (List.range g.length) _
    (fun m hm => List.mem_range.1 hm) (tjInv_init g) rfl
  exact ⟨st, hrun, hinv, fun m hm => hall m (List.mem_range.2 hm)⟩

theorem tjOrder_init (N : Nat) :
    TjOrder ⟨0, 0, List.replicate N 0, List.replicate N 0, 0, [], []⟩ := by
  refine ⟨List.Pairwise.nil, ?_, ?_, ?_, ?_, ?_, ?_⟩
  · intro C hC; cases hC
  · intro m hm; cases hm
  · intro C hC; cases hC
  · intro m hm; rw [bit_zero] at hm; cases hm
  · intro a b ha; rw [bit_zero] at ha; cases ha
  · intro C hC; cases hC

/-- Claim C35: on every bounds-valid directed graph g, with a recursion budget above
len(g), Tarjan returns, and with index the slice of the depth-first discovery indices as
the search leaves it (no two nodes of g share an index), each component returned lists its
nodes in strictly decreasing order of index, the order in which they are popped from the
stack; so the last node of each component is its root, the node of the component with the
smallest index, discovered before every other node of it. -/
theorem tarjan_pop_order (g : AdjacencyList) (fuel : Nat) (hb : BoundsValid g)
    (hfuel : g.length < fuel) :
    ∃ st, (List.range g.length).foldlM (tarjanRoot g fuel)
        ⟨0, 0, List.replicate g.length 0, List.replicate g.length 0, 0, [], []⟩ = .ok st ∧
      Tarjan g fuel = .ok st.scc ∧
      (∀ a b, a < g.length → b < g.length → st.index.getD a 0 = st.index.getD b 0 → a = b) ∧
      (∀ C ∈ st.scc, C.Pairwise (fun a b => st.index.getD b 0 < st.index.getD a 0)) ∧
      ∀ C ∈ st.scc, ∃ r, C.getLast? = some r ∧
        ∀ v ∈ C, v ≠ r → st.index.getD r 0 < st.index.getD v 0 := by
  obtain ⟨st, hrun, _, hall⟩ := tarjan_run g hb fuel hfuel
  obtain ⟨ho, _⟩ := tarjanRoot_fold_order g fuel _ _ st hrun (tjOrder_init g.length)
  refine ⟨st, hrun, ?_, ?_, ho.sortedC, ?_⟩
  · unfold Tarjan
    rw [hrun]
  · intro a b ha hb2 hab
    exact ho.inj a b (hall a ha) (hall b hb2) hab
  · intro C hC
    rcases List.eq_nil_or_concat C with h0 | ⟨C0, r, h0⟩
    · exact absurd h0 (ho.nonempty C hC)
    · rw [List.concat_eq_append] at h0
      refine ⟨r, by rw [h0]; simp, ?_⟩
      intro v hv hvr
      have hs := ho.sortedC C hC
      rw [h0, List.pairwise_append] at hs
      rw [h0] at hv
      rcases List.mem_append.1 hv with e | e
      · exact hs.2.2 v e r (List.mem_singleton_self r)
      · simp only [List.mem_singleton] at e
        exact absurd e hvr

theorem tarjan_pop_order_witness :
    BoundsValid [[1], [2, 3], [0], [4], [3]] ∧
    Tarjan [[1], [2, 3], [0], [4], [3]] 6 = .ok [[4, 3], [2, 1, 0]] ∧
    ∃ st, (List.range [[1], [2, 3], [0], [4], [3]].length).foldlM
        (tarjanRoot [[1], [2, 3], [0], [4], [3]] 6)
        ⟨0, 0, List.replicate [[1], [2, 3], [0], [4], [3]].length 0,
          List.replicate [[1], [2, 3], [0], [4], [3]].length 0, 0, [], []⟩ = .ok st ∧
      Tarjan [[1], [2, 3], [0], [4], [3]] 6 = .ok st.scc ∧
      (∀ a b, a < [[1], [2, 3], [0], [4], [3]].length → b < [[1], [2, 3], [0], [4], [3]].length →
        st.index.getD a 0 = st.index.getD b 0 → a = b) ∧
      (∀ C ∈ st.scc, C.Pairwise (fun a b => st.index.getD b 0 < st.index.getD a 0)) ∧
      ∀ C ∈ st.scc, ∃ r, C.getLast? = some r ∧
        ∀ v ∈ C, v ≠ r → st.index.getD r 0 < st.index.getD v 0 :=
  ⟨by decide, by rfl, tarjan_pop_order [[1], [2, 3], [0], [4], [3]] 6 (by decide) (by decide)⟩

theorem bkCallOk_of_pre (g : LabeledAdjacencyList) (c : BKCall) (h : BKPre g c.R c.P c.X) :
    BKCallOk g c := by
  refine ⟨?_, h.disj, h.nodes, h.clique, ?_⟩
  · intro w hw
    constructor
    · cases hp : Bit c.P w with
      | false => rfl
      | true =>
        have := ((h.cand w).1 (Or.inl hp)).2.1
        rw [hw] at this; cases this
    · cases hx : Bit c.X w with
      | false => rfl
      | true =>
        have := ((h.cand w).1 (Or.inr hx)).2.1
        rw [hw] at this; cases this
  · intro w hw u hu
    exact ((h.cand w).1 hw).2.2 u hu

/-- A run of the closure f of BronKerbosch1 that returns does so also when its calls are
recorded, with the same result, and the arguments of every call satisfy the
precondition. -/
theorem bk1T_spec (g : LabeledAdjacencyList) (hs : Symmetric g) (hl : LoopFree g)
    (emit : Emit) :
    ∀ fuel,
    (∀ R P X H b H1, BKPre g R P X → bk1F g emit fuel R P X H = .ok (b, H1) →
      ∃ cs, bk1FT g emit fuel R P X H = .ok (b, H1, cs) ∧ cs ≠ [] ∧
        ∀ c ∈ cs, BKPre g c.R c.P c.X) ∧
    (∀ cur R P X H b H1, BKPre g R P X → (∀ n, cur = some n → Bit P n = true) →
      bk1Loop g emit fuel cur R P X H = .ok (b, H1) →
      ∃ cs, bk1LoopT g emit fuel cur R P X H = .ok (b, H1, cs) ∧
        ∀ c ∈ cs, BKPre g c.R c.P c.X) := by
  intro fuel
  induction fuel with
  | zero =>
    constructor
    · intro R P X H b H1 _ h; simp [bk1F] at h
    · intro cur R P X H b H1 _ _ h; simp [bk1Loop] at h
  | succ fuel ih =>
    constructor
    · intro R P X H b H1 hpre h
      rw [bk1F] at h
      rw [bk1FT]
      have hself : ∀ c ∈ [(⟨R, P, X⟩ : BKCall)], BKPre g c.R c.P c.X := by
        intro c hc
        simp only [List.mem_singleton] at hc
        rw [hc]; exact hpre
      by_cases hP : P ≠ 0
      · rw [if_pos hP] at h ⊢
        obtain ⟨cs, e, k⟩ := ih.2 (NextOne P 0) R P X H b H1 hpre
          (fun n hn => (nextOne_some P 0 n hn).2.1) h
        rw [e]
        refine ⟨_, rfl, by simp, ?_⟩
        intro c hc
        rcases List.mem_cons.1 hc with hc | hc
        · rw [hc]; exact hpre
        · exact k c hc
      · rw [if_neg hP] at h ⊢
        by_cases hX : X = 0
        · rw [if_pos hX] at h ⊢
          rw [h]
          exact ⟨_, rfl, by simp, hself⟩
        · rw [if_neg hX] at h ⊢
          cases h
          exact ⟨_, rfl, by simp, hself⟩
    · intro cur R P X H b H1 hpre hcur h
      cases cur with
      | none =>
        rw [bk1Loop] at h
        rw [bk1LoopT]
        cases h
        exact ⟨[], rfl, fun c hc => by cases hc⟩
      | some n =>
        rw [bk1Loop] at h
        rw [bk1LoopT]
        have hn := hcur n rfl
        cases hg : g[n]? with
        | none => simp [hg] at h
        | some nbs =>
          simp only [hg] at h ⊢
          cases h1 : bk1F g emit fuel (SetBit1 R n) (bkRestrict P X nbs).1
              (bkRestrict P X nbs).2 H with
          | error e => simp [h1] at h
          | ok r1 =>
            obtain ⟨b1, H2⟩ := r1
            obtain ⟨cs1, e1, _, k1⟩ := ih.1 _ _ _ H b1 H2
              (bkPre_rec g hs hl R P X n nbs hpre (Or.inl hn) hg) h1
            rw [e1]
            simp only [h1] at h
            cases b1 with
            | false =>
              simp only at h ⊢
              cases h
              exact ⟨cs1, rfl, k1⟩
            | true =>
              simp only at h ⊢
              obtain ⟨cs2, e2, k2⟩ := ih.2 _ R _ _ H2 b H1 (bkPre_next g R P X n hpre (Or.inl hn))
                (fun k hk => (nextOne_some _ _ k hk).2.1) h
              rw [e2]
              refine ⟨_, rfl, ?_⟩
              intro c hc
              rcases List.mem_append.1 hc with hc | hc
              · exact k1 c hc
              · exact k2 c hc

/-- A run of the closure f of BronKerbosch2 that returns does so also when its calls are
recorded, with the same result, and the arguments of every call satisfy the
precondition. -/
theorem bk2T_spec (g : LabeledAdjacencyList) (hs : Symmetric g) (hl : LoopFree g)
    (pivot : Pivot) (emit : Emit) :
    ∀ fuel,
    (∀ R P X H b H1, BKPre g R P X → bk2F g pivot emit fuel R P X H = .ok (b, H1) →
      ∃ cs, bk2FT g pivot emit fuel R P X H = .ok (b, H1, cs) ∧ cs ≠ [] ∧
        ∀ c ∈ cs, BKPre g c.R c.P c.X) ∧
    (∀ pnu cur R P X H b H1, BKPre g R P X → (∀ n, cur = some n → Bit pnu n = true) →
      (∀ m, InRest pnu cur m → Bit P m = true) →
      bk2Loop g pivot emit fuel pnu cur R P X H = .ok (b, H1) →
      ∃ cs, bk2LoopT g pivot emit fuel pnu cur R P X H = .ok (b, H1, cs) ∧
        ∀ c ∈ cs, BKPre g c.R c.P c.X) := by
  intro fuel
  induction fuel with
  | zero =>
    constructor
    · intro R P X H b H1 _ h; simp [bk2F] at h
    · intro pnu cur R P X H b H1 _ _ _ h; simp [bk2Loop] at h
  | succ fuel ih =>
    constructor
    · intro R P X H b H1 hpre h
      rw [bk2F] at h
      rw [bk2FT]
      have hself : ∀ c ∈ [(⟨R, P, X⟩ : BKCall)], BKPre g c.R c.P c.X := by
        intro c hc
        simp only [List.mem_singleton] at hc
        rw [hc]; exact hpre
      by_cases hP : P ≠ 0
      · rw [if_pos hP] at h ⊢
        cases hu : pivot P X with
        | error e => simp [hu] at h
        | ok u =>
          simp only [hu] at h ⊢
          cases hg : g[u]? with
          | none => simp [hg] at h
          | some unbs =>
            simp only [hg] at h ⊢
            obtain ⟨cs, e, k⟩ := ih.2 (bkMinus P unbs) (NextOne (bkMinus P unbs) 0) R P X H b H1
              hpre (fun n hn => (nextOne_some _ 0 n hn).2.1)
              (fun m hm => by
                cases hc : NextOne (bkMinus P unbs) 0 with
                | none => rw [hc] at hm; exact hm.elim
                | some k0 =>
                  rw [hc] at hm
                  exact ((bit_bkMinus g u unbs hg P m).1 hm.1).1) h
            rw [e]
            refine ⟨_, rfl, by simp, ?_⟩
            intro c hc
            rcases List.mem_cons.1 hc with hc | hc
            · rw [hc]; exact hpre
            · exact k c hc
      · rw [if_neg hP] at h ⊢
        by_cases hX : X = 0
        · rw [if_pos hX] at h ⊢
          rw [h]
          exact ⟨_, rfl, by simp, hself⟩
        · rw [if_neg hX] at h ⊢
          cases h
          exact ⟨_, rfl, by simp, hself⟩
    · intro pnu cur R P X H b H1 hpre hcur hrest h
      cases cur with
      | none =>
        rw [bk2Loop] at h
        rw [bk2LoopT]
        cases h
        exact ⟨[], rfl, fun c hc => by cases hc⟩
      | some n =>
        rw [bk2Loop] at h
        rw [bk2LoopT]
        have hn : Bit P n = true := hrest n ⟨hcur n rfl, Nat.le_refl n⟩
        cases hg : g[n]? with
        | none => simp [hg] at h
        | some nbs =>
          simp only [hg] at h ⊢
          cases h1 : bk2F g pivot emit fuel (SetBit1 R n) (bkRestrict P X nbs).1
              (bkRestrict P X nbs).2 H with
          | error e => simp [h1] at h
          | ok r1 =>
            obtain ⟨b1, H2⟩ := r1
            obtain ⟨cs1, e1, _, k1⟩ := ih.1 _ _ _ H b1 H2
              (bkPre_rec g hs hl R P X n nbs hpre (Or.inl hn) hg) h1
            rw [e1]
            simp only [h1] at h
            cases b1 with
            | false =>
              simp only at h ⊢
              cases h
              exact ⟨cs1, rfl, k1⟩
            | true =>
              simp only at h ⊢
              obtain ⟨cs2, e2, k2⟩ := ih.2 pnu _ R _ _ H2 b H1
                (bkPre_next g R P X n hpre (Or.inl hn))
                (fun k hk => (nextOne_some _ _ k hk).2.1)
                (fun m hm => by
                  cases hc : NextOne pnu (n + 1) with
                  | none => rw [hc] at hm; exact hm.elim
                  | some k0 =>
                    rw [hc] at hm
                    have hk0 := (nextOne_some _ _ k0 hc).1
                    have hPm := hrest m ⟨hm.1, by have := hm.2; omega⟩
                    rw [bit_setBit0, hPm]
                    have hne : ¬ n = m := by have := hm.2; omega
                    simp [hne]) h
              rw [e2]
              refine ⟨_, rfl, ?_⟩
              intro c hc
              rcases List.mem_append.1 hc with hc | hc
              · exact k1 c hc
              · exact k2 c hc

theorem bk3LoopT_spec (g : LabeledAdjacencyList) (hs : Symmetric g) (hl : LoopFree g)
    (pivot : Pivot) (emit : Emit) (fuel : Nat) :
    ∀ (ord : List Nat), (∀ n ∈ ord, n < g.length) →
      ∀ (P X : Nat) (H H1 : List (List Nat)), BKPre g 0 P X →
      bk3Loop g pivot emit fuel ord 0 P X H = .ok H1 →
      ∃ cs, bk3LoopT g pivot emit fuel ord 0 P X H = .ok (H1, cs) ∧
        ∀ c ∈ cs, BKPre g c.R c.P c.X := by
  intro ord
  induction ord with
  | nil =>
    intro _ P X H H1 _ h
    rw [bk3Loop] at h
    rw [bk3LoopT]
    cases h
    exact ⟨[], rfl, fun c hc => by cases hc⟩
  | cons n rest ih =>
    intro hlt P X H H1 hpre h
    rw [bk3Loop] at h
    rw [bk3LoopT]
    have hnN := hlt n (List.mem_cons_self _ _)
    have hn : Bit P n = true ∨ Bit X n = true :=
      (hpre.cand n).2 ⟨hnN, bit_zero n, fun u hu => by simp [bit_zero] at hu⟩
    cases hg : g[n]? with
    | none => simp [hg] at h
    | some nbs =>
      simp only [hg] at h ⊢
      cases h1 : bk2F g pivot emit fuel (SetBit1 0 n) (bkRestrict P X nbs).1
          (bkRestrict P X nbs).2 H with
      | error e => simp [h1] at h
      | ok r1 =>
        obtain ⟨b1, H2⟩ := r1
        obtain ⟨cs1, e1, _, k1⟩ := (bk2T_spec g hs hl pivot emit fuel).1 _ _ _ H b1 H2
          (bkPre_rec g hs hl 0 P X n nbs hpre hn hg) h1
        rw [e1]
        simp only [h1] at h
        cases b1 with
        | false =>
          simp only at h ⊢
          cases h
          exact ⟨cs1, rfl, k1⟩
        | true =>
          simp only [setBit0_setBit1_zero] at h ⊢
          obtain ⟨cs2, e2, k2⟩ := ih (fun m hm => hlt m (List.mem_cons_of_mem _ hm))
            (SetBit0 P n) (SetBit1 X n) H2 H1 (bkPre_next g 0 P X n hpre hn) h
          rw [e2]
          refine ⟨_, rfl, ?_⟩
          intro c hc
          rcases List.mem_append.1 hc with hc | hc
          · exact k1 c hc
          · exact k2 c hc

/-- Claim C33: on every undirected graph g without loops, with a pivot function that
answers with a node of P or X, any emit function and a recursion budget of at least
2 len(g) + 2, the runs of BronKerbosch1, BronKerbosch2 and BronKerbosch3 return, also
when the arguments of every call of the recursive core f(R, P, X) are recorded, and at
every call R, P and X are pairwise disjoint, R is a clique of g, and every node of P and
of X is adjacent to every node of R.  For BronKerbosch3 this holds when Degeneracy returns;
when Degeneracy fails the method fails before its loop, so it makes no call of f. -/
theorem bronKerbosch_call_invariant (g : LabeledAdjacencyList) (pivot : Pivot) (emit : Emit)
    (fuel : Nat) (hs : Symmetric g) (hl : LoopFree g) (hpiv : PivotOk g pivot)
    (hf : 2 * g.length + 2 ≤ fuel) :
    (∃ H cs, BronKerbosch1T g emit fuel = .ok (H, cs) ∧ BronKerbosch1 g emit fuel = .ok H ∧
      cs ≠ [] ∧ ∀ c ∈ cs, BKCallOk g c) ∧
    (∃ H cs, BronKerbosch2T g pivot emit fuel = .ok (H, cs) ∧
      BronKerbosch2 g pivot emit fuel = .ok H ∧ cs ≠ [] ∧ ∀ c ∈ cs, BKCallOk g c) ∧
    ((∃ H cs, BronKerbosch3T g pivot emit fuel = .ok (H, cs) ∧
        BronKerbosch3 g pivot emit fuel = .ok H ∧ ∀ c ∈ cs, BKCallOk g c) ∨
      (∃ err, LabeledUndirected.Degeneracy g = .error err ∧
        BronKerbosch3T g pivot emit fuel = .error err)) := by
  have hc := bmCard_oneBits g.length
  refine ⟨?_, ?_, ?_⟩
  · obtain ⟨out, ho, _⟩ := (bk1_spec g hs hl fuel).1 0 (OneBits g.length) 0 [] (bkPre_init g)
      (by omega)
    obtain ⟨out1, _, s1⟩ := (bk1_sim g emit fuel).1 _ _ _ _ _ ho
    obtain ⟨cs, e, hne, k⟩ := (bk1T_spec g hs hl emit fuel).1 0 (OneBits g.length) 0 [] _ _
      (bkPre_init g) (s1 [])
    refine ⟨[] ++ (emitCut emit [] out1).2, cs, ?_, ?_, hne,
      fun c hcm => bkCallOk_of_pre g c (k c hcm)⟩
    · rw [BronKerbosch1T, e]
    · rw [BronKerbosch1, s1 []]
  · obtain ⟨out, ho, _⟩ := (bk2_spec g hs hl pivot hpiv fuel).1 0 (OneBits g.length) 0 []
      (bkPre_init g) (by omega)
    obtain ⟨out1, _, s1⟩ := (bk2_sim g pivot emit fuel).1 _ _ _ _ _ ho
    obtain ⟨cs, e, hne, k⟩ := (bk2T_spec g hs hl pivot emit fuel).1 0 (OneBits g.length) 0 []
      _ _ (bkPre_init g) (s1 [])
    refine ⟨[] ++ (emitCut emit [] out1).2, cs, ?_, ?_, hne,
      fun c hcm => bkCallOk_of_pre g c (k c hcm)⟩
    · rw [BronKerbosch2T, e]
    · rw [BronKerbosch2, s1 []]
  · cases hd : LabeledUndirected.Degeneracy g with
    | error err =>
      right
      exact ⟨err, rfl, by simp only [BronKerbosch3T, hd]⟩
    | ok r =>
      left
      obtain ⟨k, ord, cores⟩ := r
      have hlt := degeneracy_ordering_lt g k ord cores hd
      obtain ⟨Ht, ht⟩ := bk3Loop_total g hs hl pivot hpiv fuel hf ord hlt (OneBits g.length) 0
        [] (bkPre_init g)
      obtain ⟨out1, _, s1⟩ := bk3Loop_sim g pivot emit fuel ord _ _ _ _ _ ht
      obtain ⟨cs, e, k1⟩ := bk3LoopT_spec g hs hl pivot emit fuel ord hlt (OneBits g.length) 0
        [] _ (bkPre_init g) (s1 [])
      refine ⟨[] ++ (emitCut emit [] out1).2, cs, ?_, ?_,
        fun c hcm => bkCallOk_of_pre g c (k1 c hcm)⟩
      · simp only [BronKerbosch3T, hd, e]
      · simp only [BronKerbosch3, hd, s1 []]

theorem bronKerbosch_call_invariant_witness :
    (Symmetric exampleBK ∧ LoopFree exampleBK ∧ PivotOk exampleBK BKPivotMinP) ∧
    (∃ r, LabeledUndirected.Degeneracy exampleBK = .ok r) ∧
    (∃ H cs, BronKerbosch1T exampleBK emitAll 14 = .ok (H, cs) ∧
      BronKerbosch1 exampleBK emitAll 14 = .ok H ∧ cs ≠ [] ∧ ∀ c ∈ cs, BKCallOk exampleBK c) ∧
    (∃ H cs, BronKerbosch2T exampleBK BKPivotMinP emitAll 14 = .ok (H, cs) ∧
      BronKerbosch2 exampleBK BKPivotMinP emitAll 14 = .ok H ∧ cs ≠ [] ∧
      ∀ c ∈ cs, BKCallOk exampleBK c) ∧
    ((∃ H cs, BronKerbosch3T exampleBK BKPivotMinP emitAll 14 = .ok (H, cs) ∧
        BronKerbosch3 exampleBK BKPivotMinP emitAll 14 = .ok H ∧
        ∀ c ∈ cs, BKCallOk exampleBK c) ∨
      (∃ err, LabeledUndirected.Degeneracy exampleBK = .error err ∧
        BronKerbosch3T exampleBK BKPivotMinP emitAll 14 = .error err)) :=
  ⟨⟨by decide, by decide, pivotOk_minP exampleBK⟩, ⟨_, rfl⟩,
    bronKerbosch_call_invariant exampleBK BKPivotMinP emitAll 14 (by decide) (by decide)
      (pivotOk_minP exampleBK) (by decide)⟩

end Graph
